import Mathlib

/-!
# TinyKV: a shallow embedding of the LSM key-value engine

The development follows the C++ sources file by file:

* `LSMConfig.hpp`  : the compile-time constants;
* `SkipList.hpp`   : the memtable, a skip list over a heap of nodes;
* `SSTable.hpp`    : the sorted-run builder, the file writer and the three readers;
* `Cache.hpp`      : the per-level list of summaries and its point lookup;
* `KVStore.hpp`    : the coordinator (put / get / del, flush, compaction, WAL, open, close).

Conventions of the embedding.

* `K` is `uint64_t` and `V` is `std::string`, as in every instantiation of the
  templates in the tests.  Keys, counters and offsets are natural numbers;
  unsigned arithmetic that can wrap is written with `add64` / `sub64`.
* A `std::string` is the list of its bytes; a file is the list of its bytes.
* A pointer is an address into an explicit heap; address `0` is `nullptr`.
* A failed `assert`, a dereference of `nullptr` or of a deleted node, an index
  outside a `std::array`, and a loop that runs out of fuel give `none`.
* Code that the repository includes but that is not among its sources
  (`MurmurHash3.h`, `Random.hpp`, the object layout of `std::string`) is taken
  as a parameter, collected in `Env`.
-/

namespace TinyKV

/-! ## LSMConfig.hpp -/

/-- `constexpr uint32_t LSM_MAX_LAYER = 16`. -/
def LSM_MAX_LAYER : Nat := 16

/-- `constexpr uint32_t KB = 1024`. -/
def KB : Nat := 1024

/-- `inline constexpr size_t BLOOM_SIZE = 8 * KB`. -/
def BLOOM_SIZE : Nat := 8 * KB

/-- `inline constexpr size_t MEM_LIMIT = 16 * KB`. -/
def MEM_LIMIT : Nat := 16 * KB

/-- `static constexpr uint32_t MAX_LEVEL = 16` of `SkipList`. -/
def MAX_LEVEL : Nat := 16

/-! ## Machine words and bytes -/

/-- The key type `K = uint64_t`. -/
abbrev Key := Nat

/-- The value type `V = std::string`: its bytes. -/
abbrev Value := List UInt8

/-- Number of values of a 64-bit word. -/
def WORD : Nat := 2 ^ 64

/-- `std::numeric_limits<uint64_t>::max()`, the key of the tail sentinel. -/
def KEY_MAX : Nat := 2 ^ 64 - 1

/-- `std::numeric_limits<uint64_t>::min()`, the key of the header sentinel. -/
def KEY_MIN : Nat := 0

/-- `sizeof(K)` for `K = uint64_t`. -/
def SIZEOF_KEY : Nat := 8

/-- Unsigned 64-bit addition. -/
def add64 (a b : Nat) : Nat := (a + b) % WORD

/-- Unsigned 64-bit subtraction. -/
def sub64 (a b : Nat) : Nat := (a % WORD + (WORD - b % WORD)) % WORD

/-- The `n` low-order bytes of `x`, least significant first (the object
representation of an `n`-byte unsigned integer on the little-endian target). -/
def bytesLE : Nat → Nat → List UInt8
  | 0, _ => []
  | n + 1, x => UInt8.ofNat x :: bytesLE n (x / 256)

/-- The unsigned integer whose little-endian object representation is `bs`. -/
def fromBytesLE : List UInt8 → Nat
  | [] => 0
  | b :: bs => b.toNat + 256 * fromBytesLE bs

/-- The eight bytes written by `out.write(reinterpret_cast<const char*>(&x), 8)`. -/
def u64le (x : Nat) : List UInt8 := bytesLE 8 x

/-- The literal `"~DELETED~"`. -/
def DELETED : Value := [126, 68, 69, 76, 69, 84, 69, 68, 126]

/-! ## Code outside the sources -/

/-- The parts of the program that are included by the sources but are not
among them.

* `hash_x64_128 k i` / `hash_x86_128 k i`: lane `i < 4` of the `uint32_t hash[4]`
  filled by `MurmurHash3_x64_128(&k, sizeof(k), 1, hash)`, respectively
  `MurmurHash3_x86_128(&k, sizeof(k), 1, hash)` (`MurmurHash3.h`).
* `randNext`: the state transition of `Random` (`Random.hpp`).
* `objectBytes v`: the `sizeof(std::string)` bytes of the object representation
  of a string holding `v`, which is what `reinterpret_cast<const char*>(&value)`
  exposes. -/
structure Env where
  hash_x64_128 : Key → Nat → Nat
  hash_x86_128 : Key → Nat → Nat
  randNext : Nat → Nat
  sizeofV : Nat
  objectBytes : Value → List UInt8
  objectBytes_length : ∀ v, (objectBytes v).length = sizeofV

/-- Modelled from the spec: `Random.hpp` is not among the sources.  §4.A: a
deterministic generator, seeded per skip list, that "produces uniform integers
in `[0, n)`".  `Uniform n` advances the state and reduces it into `[0, n)`. -/
def Random.Uniform (env : Env) (state : Nat) (n : Nat) : Nat × Nat :=
  let s := env.randNext state
  (s % n, s)

/-! ## SkipList.hpp -/

/-- `SkipList::Node<U, V>`: `forward_` holds `nodeLevel_ + 1` addresses. -/
structure Node where
  key_ : Key
  value_ : Value
  forward_ : List Nat
  nodeLevel_ : Nat
deriving DecidableEq

/-- `Node(U u, V v, int level)`: every forward pointer starts as `nullptr`. -/
def Node.new (u : Key) (v : Value) (level : Nat) : Node :=
  { key_ := u, value_ := v, forward_ := List.replicate (level + 1) 0, nodeLevel_ := level }

/-- The free store: cell `a` is `some n` while a node lives at address `a`,
`none` once it is deleted.  Cell `0` is never allocated (`nullptr`). -/
abbrev Heap := List (Option Node)

/-- `*p`. -/
def deref (heap : Heap) (p : Nat) : Option Node :=
  match heap[p]? with
  | some (some n) => some n
  | _ => none

/-- `p->forward_[i]`. -/
def fwd (heap : Heap) (p i : Nat) : Option Nat :=
  match deref heap p with
  | some n => n.forward_[i]?
  | none => none

/-- `p->forward_[i] = q`. -/
def setFwd (heap : Heap) (p i q : Nat) : Option Heap :=
  match deref heap p with
  | some n =>
    if i < n.forward_.length then
      some (heap.set p (some { n with forward_ := n.forward_.set i q }))
    else none
  | none => none

/-- `struct SkipList<Key, Value>`. -/
structure SkipList where
  heap : Heap
  curMemSize : Nat
  header_ : Nat
  tail_ : Nat
  nodeCount_ : Nat
  curLevel_ : Nat
  rand_ : Nat
deriving DecidableEq

namespace SkipList

/-- `header_->forward_[i] = tail_` for `i = lo, ..., lo + n - 1`. -/
def linkHeader (header tail : Nat) : Nat → Nat → Heap → Option Heap
  | 0, _, heap => some heap
  | n + 1, lo, heap =>
    match setFwd heap header lo tail with
    | some h => linkHeader header tail n (lo + 1) h
    | none => none

/-- `SkipList()`: the tail (level 0) is allocated first, then the header
(level `MAX_LEVEL`), and the header is linked to the tail on levels
`0 .. MAX_LEVEL`. -/
def empty : SkipList :=
  let tail := Node.new KEY_MAX [] 0
  let header : Node :=
    { key_ := KEY_MIN, value_ := [], forward_ := List.replicate (MAX_LEVEL + 1) 1,
      nodeLevel_ := MAX_LEVEL }
  { heap := [none, some tail, some header], curMemSize := 0, header_ := 2, tail_ := 1,
    nodeCount_ := 0, curLevel_ := 0, rand_ := 0x12345678 }

/-- `getLevel()`. -/
def getLevel (li : SkipList) : Nat := li.curLevel_

/-- `getMemSize()`. -/
def getMemSize (li : SkipList) : Nat := li.curMemSize

/-- `nodeNum()`. -/
def nodeNum (li : SkipList) : Nat := li.nodeCount_

/-- `randomLevel()`: `Uniform(MAX_LEVEL)`, with `0` replaced by `1`. -/
def randomLevel (env : Env) (li : SkipList) : Nat × SkipList :=
  let (r, s) := Random.Uniform env li.rand_ MAX_LEVEL
  (if r = 0 then 1 else r, { li with rand_ := s })

/-- The inner loop of every descent,
`while (current->forward_[i]->key_ < key) current = current->forward_[i];`
run for at most `fuel` iterations. -/
def advance (heap : Heap) (i : Nat) (key : Key) : Nat → Nat → Option Nat
  | 0, _ => none
  | fuel + 1, current =>
    match fwd heap current i with
    | none => none
    | some next =>
      match deref heap next with
      | none => none
      | some n =>
        if n.key_ < key then advance heap i key fuel next else some current

/-- `update[i] = current` on `std::array<NodeTypePtr, MAX_LEVEL> update`. -/
def setUpdate (update : List Nat) (i current : Nat) : Option (List Nat) :=
  if i < update.length then some (update.set i current) else none

/-- The descent of `insert`, `remove` and `search`,
`for (int i = curLevel_; i >= 0; --i) { while (...) ...; update[i] = current; }`,
from level `i` down to level `0`. -/
def descend (heap : Heap) (key : Key) (fuel : Nat) :
    Nat → Nat → List Nat → Option (Nat × List Nat)
  | 0, current, update =>
    match advance heap 0 key fuel current with
    | none => none
    | some c =>
      match setUpdate update 0 c with
      | none => none
      | some u => some (c, u)
  | i + 1, current, update =>
    match advance heap (i + 1) key fuel current with
    | none => none
    | some c =>
      match setUpdate update (i + 1) c with
      | none => none
      | some u => descend heap key fuel i c u

/-- The descent of `scan`, which keeps no `update` array. -/
def descendScan (heap : Heap) (key : Key) (fuel : Nat) : Nat → Nat → Option Nat
  | 0, current => advance heap 0 key fuel current
  | i + 1, current =>
    match advance heap (i + 1) key fuel current with
    | none => none
    | some c => descendScan heap key fuel i c

/-- The bound on the iterations of one loop over the nodes: every iteration
moves to another live cell of the heap. -/
def fuelOf (li : SkipList) : Nat := li.heap.length + 1

/-- `std::array<NodeTypePtr, MAX_LEVEL> update{}`. -/
def newUpdate : List Nat := List.replicate MAX_LEVEL 0

/-- `for (int i = curLevel_ + 1; i < rlevel + 1; ++i) update[i] = header_;`
written as `n` iterations from `i = lo`. -/
def raiseUpdate (header : Nat) : Nat → Nat → List Nat → Option (List Nat)
  | 0, _, update => some update
  | n + 1, lo, update =>
    match setUpdate update lo header with
    | none => none
    | some u => raiseUpdate header n (lo + 1) u

/-- The splice loop of `insert`,
`newNode->forward_[i] = update[i]->forward_[i]; update[i]->forward_[i] = newNode;`
for `n` levels from `i = lo`. -/
def splice (update : List Nat) (newNode : Nat) : Nat → Nat → Heap → Option Heap
  | 0, _, heap => some heap
  | n + 1, lo, heap =>
    match update[lo]? with
    | none => none
    | some u =>
      match fwd heap u lo with
      | none => none
      | some f =>
        match setFwd heap newNode lo f with
        | none => none
        | some h1 =>
          match setFwd h1 u lo newNode with
          | none => none
          | some h2 => splice update newNode n (lo + 1) h2

/-- `bool insert(Key key, Value value)`.

In the branch that creates a node, `value` has been moved into the node by
`new NodeType(key, std::move(value), rlevel)` before
`curMemSize += (sizeof(Key) + value.size())` runs; the moved-from string is
empty, so the counter grows by `sizeof(Key)` only. -/
def insert (env : Env) (li : SkipList) (key : Key) (value : Value) :
    Option (Bool × SkipList) :=
  match descend li.heap key li.fuelOf li.curLevel_ li.header_ newUpdate with
  | none => none
  | some (pred, update) =>
    match fwd li.heap pred 0 with
    | none => none
    | some current =>
      match deref li.heap current with
      | none => none
      | some c =>
        if c.key_ = key then
          let mem := add64 (sub64 li.curMemSize c.value_.length) value.length
          some (false, { li with
            heap := li.heap.set current (some { c with value_ := value }),
            curMemSize := mem })
        else
          let (rlevel, li1) := randomLevel env li
          let raised :=
            if rlevel > li1.curLevel_ then
              raiseUpdate li1.header_ (rlevel - li1.curLevel_) (li1.curLevel_ + 1) update
            else some update
          match raised with
          | none => none
          | some update1 =>
            let curLevel1 := if rlevel > li1.curLevel_ then rlevel else li1.curLevel_
            let newNode := li1.heap.length
            let heap1 := li1.heap ++ [some (Node.new key value rlevel)]
            match splice update1 newNode (rlevel + 1) 0 heap1 with
            | none => none
            | some heap2 =>
              let movedFromSize := 0
              some (true, { li1 with
                heap := heap2,
                curLevel_ := curLevel1,
                curMemSize := add64 li1.curMemSize (SIZEOF_KEY + movedFromSize),
                nodeCount_ := li1.nodeCount_ + 1 })

/-- The unlink loop of `remove`,
`if (update[i]->forward_[i] != current) break; update[i]->forward_[i] = current->forward_[i];`
for at most `n` levels from `i = lo`. -/
def unlink (update : List Nat) (current : Nat) : Nat → Nat → Heap → Option Heap
  | 0, _, heap => some heap
  | n + 1, lo, heap =>
    match update[lo]? with
    | none => none
    | some u =>
      if u = 0 then none
      else
        match fwd heap u lo with
        | none => none
        | some f =>
          if f ≠ current then some heap
          else
            match fwd heap current lo with
            | none => none
            | some g =>
              match setFwd heap u lo g with
              | none => none
              | some h => unlink update current n (lo + 1) h

/-- `while (curLevel_ > 0 && header_->forward_[curLevel_] == tail_) --curLevel_;`. -/
def shrinkLevel (heap : Heap) (header tail : Nat) : Nat → Option Nat
  | 0 => some 0
  | l + 1 =>
    match fwd heap header (l + 1) with
    | none => none
    | some f => if f = tail then shrinkLevel heap header tail l else some (l + 1)

/-- `bool remove(Key key)`. -/
def remove (li : SkipList) (key : Key) : Option (Bool × SkipList) :=
  match descend li.heap key li.fuelOf li.curLevel_ li.header_ newUpdate with
  | none => none
  | some (pred, update) =>
    match fwd li.heap pred 0 with
    | none => none
    | some current =>
      match deref li.heap current with
      | none => none
      | some c =>
        if c.key_ = key then
          match unlink update current (li.curLevel_ + 1) 0 li.heap with
          | none => none
          | some heap1 =>
            match shrinkLevel heap1 li.header_ li.tail_ li.curLevel_ with
            | none => none
            | some lvl =>
              some (true, { li with
                heap := heap1.set current none,
                curLevel_ := lvl,
                curMemSize := sub64 li.curMemSize (SIZEOF_KEY + c.value_.length),
                nodeCount_ := li.nodeCount_ - 1 })
        else some (false, li)

/-- `std::pair<bool, Value> search(Key key)`. -/
def search (li : SkipList) (key : Key) : Option (Bool × Value) :=
  match descend li.heap key li.fuelOf li.curLevel_ li.header_ newUpdate with
  | none => none
  | some (pred, _) =>
    match fwd li.heap pred 0 with
    | none => none
    | some current =>
      match deref li.heap current with
      | none => none
      | some c => if c.key_ = key then some (true, c.value_) else some (false, [])

/-- The collecting loop of `scan`,
`while (current->key_ <= endKey && current != tail_) { li.emplace_back(...); current = current->forward_[0]; }`. -/
def collect (heap : Heap) (tail : Nat) (endKey : Key) :
    Nat → Nat → Option (List (Key × Value))
  | 0, _ => none
  | fuel + 1, current =>
    match deref heap current with
    | none => none
    | some c =>
      if c.key_ ≤ endKey ∧ current ≠ tail then
        match c.forward_[0]? with
        | none => none
        | some next =>
          match collect heap tail endKey fuel next with
          | none => none
          | some rest => some ((c.key_, c.value_) :: rest)
      else some []

/-- `void scan(Key startKey, Key endKey, std::list<std::pair<Key, Value>>& li)`:
the result is the new contents of the output list. -/
def scan (li : SkipList) (startKey endKey : Key) : Option (List (Key × Value)) :=
  if startKey ≤ endKey then
    match descendScan li.heap startKey li.fuelOf li.curLevel_ li.header_ with
    | none => none
    | some pred =>
      match fwd li.heap pred 0 with
      | none => none
      | some current =>
        if current = 0 then some []
        else collect li.heap li.tail_ endKey li.fuelOf current
  else none

/-- The deleting loop of `clear`,
`while (current != tail_) { tmp = current; current = current->forward_[0]; delete tmp; }`. -/
def freeAll (tail : Nat) : Nat → Nat → Heap → Option Heap
  | 0, _, _ => none
  | fuel + 1, current, heap =>
    if current = tail then some heap
    else
      match fwd heap current 0 with
      | none => none
      | some next => freeAll tail fuel next (heap.set current none)

/-- `void clear()`. -/
def clear (li : SkipList) : Option SkipList :=
  match fwd li.heap li.header_ 0 with
  | none => none
  | some first =>
    match freeAll li.tail_ li.fuelOf first li.heap with
    | none => none
    | some heap1 =>
      match linkHeader li.header_ li.tail_ (MAX_LEVEL + 1) 0 heap1 with
      | none => none
      | some heap2 =>
        some { li with heap := heap2, curMemSize := 0, nodeCount_ := 0, curLevel_ := 0 }

/-- `std::pair<bool, Key> getMinKey()`. -/
def getMinKey (li : SkipList) : Option (Bool × Key) :=
  if li.nodeCount_ = 0 then some (false, KEY_MAX)
  else
    match fwd li.heap li.header_ 0 with
    | none => none
    | some first =>
      match deref li.heap first with
      | none => none
      | some n => some (true, n.key_)

/-- `for (int i = 0; i < nodeCount_; ++i) current = current->forward_[0];`. -/
def walk (heap : Heap) : Nat → Nat → Option Nat
  | 0, current => some current
  | n + 1, current =>
    match fwd heap current 0 with
    | none => none
    | some next => walk heap n next

/-- `std::pair<bool, Key> getMaxKey()`. -/
def getMaxKey (li : SkipList) : Option (Bool × Key) :=
  if li.nodeCount_ = 0 then some (false, KEY_MAX)
  else
    match walk li.heap li.nodeCount_ li.header_ with
    | none => none
    | some last =>
      match deref li.heap last with
      | none => none
      | some n => some (true, n.key_)

end SkipList

/-! ## SSTable.hpp -/

/-- `sizeof(std::bitset<BLOOM_SIZE>)`: the filter occupies `BLOOM_SIZE / 8` bytes. -/
def BLOOM_BYTES : Nat := BLOOM_SIZE / 8

/-- `struct SSTable<K, V>`.  The `std::bitset<BLOOM_SIZE> bloom` is the number
whose binary digits are its bits. -/
structure SSTable where
  minKey : Key
  maxKey : Key
  kvPairNum : Nat
  lenOfAllValues : Nat
  kvdata : List (Key × Value)
  valueOffset : List Nat
  bloom : Nat
deriving DecidableEq

/-- `bloom[i] = 1`. -/
def bloomSet (bloom i : Nat) : Nat := bloom ||| (1 <<< i)

/-- `for (int i = 0; i < 4; ++i) bloom[hash[i] % BLOOM_SIZE] = 1;` after
`MurmurHash3_x64_128(&k, sizeof(k), 1, hash)`. -/
def bloomAdd (env : Env) (bloom : Nat) (k : Key) : Nat :=
  bloomSet (bloomSet (bloomSet (bloomSet bloom
    (env.hash_x64_128 k 0 % BLOOM_SIZE))
    (env.hash_x64_128 k 1 % BLOOM_SIZE))
    (env.hash_x64_128 k 2 % BLOOM_SIZE))
    (env.hash_x64_128 k 3 % BLOOM_SIZE)

/-- The loop of the constructor over `kvdata`:
`valueOffset.push_back(offset); offset += v.size(); lenOfAllValues += v.size();`
and the update of the filter.  The state is `(offset, lenOfAllValues, bloom)`;
the result adds the offsets pushed, in order. -/
def SSTable.index (env : Env) :
    List (Key × Value) → Nat → Nat → Nat → List Nat × Nat × Nat
  | [], _, len, bloom => ([], len, bloom)
  | (k, v) :: rest, offset, len, bloom =>
    let r := SSTable.index env rest (add64 offset v.length) (add64 len v.length)
      (bloomAdd env bloom k)
    (offset :: r.1, r.2)

/-- `SSTable(SkipList<K, V>& li)`; the two assertions on `getMinKey` and
`getMaxKey` fail on an empty list. -/
def SSTable.ofSkipList (env : Env) (li : SkipList) : Option SSTable :=
  match li.getMinKey, li.getMaxKey with
  | some (resMin, minK), some (resMax, maxK) =>
    if resMin = true ∧ resMax = true then
      match li.scan minK maxK with
      | none => none
      | some kvdata =>
        let r := SSTable.index env kvdata 0 0 0
        some { minKey := minK, maxKey := maxK, kvPairNum := li.nodeNum,
               lenOfAllValues := r.2.1, kvdata := kvdata, valueOffset := r.1,
               bloom := r.2.2 }
    else none
  | _, _ => none

/-- The first loop of `writeToFile`: one `(key, offset)` entry of sixteen bytes
per pair, the two lists walked in step. -/
def dirBytes : List (Key × Value) → List Nat → List UInt8
  | (k, _) :: kvs, off :: offs => u64le k ++ u64le off ++ dirBytes kvs offs
  | _, _ => []

/-- The second loop of `writeToFile`: the values, packed. -/
def valueBytes : List (Key × Value) → List UInt8
  | [] => []
  | (_, v) :: kvs => v ++ valueBytes kvs

/-- The fixed part of the file written before the directory. -/
def SSTable.headerBytes (t : SSTable) (timeStamp : Nat) : List UInt8 :=
  u64le timeStamp ++ u64le t.lenOfAllValues ++ u64le t.minKey ++ u64le t.maxKey ++
    u64le t.kvPairNum ++ bytesLE BLOOM_BYTES t.bloom

/-- `void writeToFile(std::string filename, uint64_t timeStamp)`: the contents
of the file written. -/
def SSTable.writeToFile (t : SSTable) (timeStamp : Nat) : List UInt8 :=
  t.headerBytes timeStamp ++ dirBytes t.kvdata t.valueOffset ++ valueBytes t.kvdata

/-- `in.read(p, n)` on a stream in good state whose unread contents are `s`:
the bytes stored and the unread rest.  A read that comes up short leaves its
destination unwritten past the bytes that were there; the readers of sst files
then work on indeterminate memory, and the model stops (`none`). -/
def readN (n : Nat) (s : List UInt8) : Option (List UInt8 × List UInt8) :=
  if n ≤ s.length then some (s.take n, s.drop n) else none

/-- `in.read(reinterpret_cast<char*>(&x), sizeof(x))` for a `uint64_t x`. -/
def readU64 (s : List UInt8) : Option (Nat × List UInt8) :=
  match readN 8 s with
  | some (b, rest) => some (fromBytesLE b, rest)
  | none => none

/-- `std::string buf; buf.resize(n); in.read(buf.data(), n);`: the string keeps
its zero bytes where the stream ran out. -/
def readString (n : Nat) (s : List UInt8) : Value × List UInt8 :=
  (s.take n ++ List.replicate (n - (s.take n).length) 0, s.drop n)

/-- The fields read at the start of all three readers. -/
structure Header where
  timeStamp_ : Nat
  lenOfAllValues_ : Nat
  minKey_ : Nat
  maxKey_ : Nat
  kvPairNum_ : Nat
  bloom_ : Nat
deriving DecidableEq

/-- The six `in.read` calls that open every reader. -/
def readHeader (s : List UInt8) : Option (Header × List UInt8) :=
  match readU64 s with
  | none => none
  | some (ts, s1) =>
    match readU64 s1 with
    | none => none
    | some (len, s2) =>
      match readU64 s2 with
      | none => none
      | some (mn, s3) =>
        match readU64 s3 with
        | none => none
        | some (mx, s4) =>
          match readU64 s4 with
          | none => none
          | some (n, s5) =>
            match readN BLOOM_BYTES s5 with
            | none => none
            | some (b, s6) =>
              some ({ timeStamp_ := ts, lenOfAllValues_ := len, minKey_ := mn, maxKey_ := mx,
                      kvPairNum_ := n, bloom_ := fromBytesLE b }, s6)

/-- The search loop of `readSSTableFromFile`,
`for (; i < kvPairNum_; ++i) { read key; read off; if (offset == off) break; }`,
with `n` iterations left: the final `i` and the unread rest. -/
def findOffset (offset : Nat) : Nat → Nat → List UInt8 → Option (Nat × List UInt8)
  | 0, i, s => some (i, s)
  | n + 1, i, s =>
    match readU64 s with
    | none => none
    | some (_, s1) =>
      match readU64 s1 with
      | none => none
      | some (off, s2) =>
        if offset = off then some (i, s2) else findOffset offset n (i + 1) s2

/-- `std::string readSSTableFromFile<K>(std::string fileName, uint64_t offset)`
on a file with contents `file`. -/
def readSSTableFromFile (file : List UInt8) (offset : Nat) : Option Value :=
  match readHeader file with
  | none => none
  | some (h, s) =>
    match findOffset offset h.kvPairNum_ 0 s with
    | none => none
    | some (i, s1) =>
      let absOffset :=
        (5 * 8 + BLOOM_BYTES + h.kvPairNum_ * (SIZEOF_KEY + 8) + offset) % WORD
      if i < sub64 h.kvPairNum_ 1 then
        match readU64 s1 with
        | none => none
        | some (_, s2) =>
          match readU64 s2 with
          | none => none
          | some (off, _) =>
            if off > offset then
              some (readString (off - offset) (file.drop absOffset)).1
            else none
      else if i = sub64 h.kvPairNum_ 1 then
        if h.lenOfAllValues_ > offset then
          some (readString (h.lenOfAllValues_ - offset) (file.drop absOffset)).1
        else none
      else some []

/-- The loop `for (i = 0; i < kvPairNum_; ++i) { read key; read off;
keyOffset.emplace_back(key, off); }` of `filterSSTableFromFile` and of
`readSummaryOfSSTableFromFile`. -/
def readDirectory : Nat → List UInt8 → Option (List (Key × Nat) × List UInt8)
  | 0, s => some ([], s)
  | n + 1, s =>
    match readU64 s with
    | none => none
    | some (key, s1) =>
      match readU64 s1 with
      | none => none
      | some (off, s2) =>
        match readDirectory n s2 with
        | none => none
        | some (rest, s3) => some ((key, off) :: rest, s3)

/-- The value loop of `filterSSTableFromFile` followed by its "handle last
value" block: every value but the last has the `uint64_t` length
`keyOffset[i + 1].second - keyOffset[i].second`, the last one the `uint32_t`
length `lenOfAllValues_ - keyOffset.back().second`. -/
def readValues (layer serialNum lenOfAllValues_ : Nat) :
    List (Key × Nat) → List UInt8 → List (Nat × Nat × Key × Value)
  | [], _ => []
  | [(k, off)], s =>
    let valLen := sub64 lenOfAllValues_ off % 2 ^ 32
    [(layer, serialNum, k, (readString valLen s).1)]
  | (k, off) :: (k1, off1) :: rest, s =>
    let valLen := sub64 off1 off
    let r := readString valLen s
    (layer, serialNum, k, r.1) :: readValues layer serialNum lenOfAllValues_ ((k1, off1) :: rest) r.2

/-- `filterSSTableFromFile<K, V>(uint32_t layer, uint64_t serialNum, std::string fileName)`
on a file with contents `file`. -/
def filterSSTableFromFile (layer serialNum : Nat) (file : List UInt8) :
    Option (List (Nat × Nat × Key × Value)) :=
  match readHeader file with
  | none => none
  | some (h, s) =>
    if h.kvPairNum_ = 0 then some []
    else
      match readDirectory h.kvPairNum_ s with
      | none => none
      | some (keyOffset, s1) => some (readValues layer serialNum h.lenOfAllValues_ keyOffset s1)

/-- `struct SummaryOfSSTable<K>`. -/
structure SummaryOfSSTable where
  layer : Nat
  serialNum : Nat
  timeStamp : Nat
  minKey : Key
  maxKey : Key
  kvPairNum : Nat
  bloom : Nat
  keyOffset : List (Key × Nat)
deriving DecidableEq

/-- The loop of the converting constructor,
`for (; it2 != st.valueOffset.end(); ++it, ++it2) keyOffset.emplace_back(it->first, *it2);`. -/
def pairOffsets : List (Key × Value) → List Nat → List (Key × Nat)
  | (k, _) :: kvs, off :: offs => (k, off) :: pairOffsets kvs offs
  | _, _ => []

/-- `SummaryOfSSTable(SSTable<U, V>& st, uint32_t layer_, uint64_t serialNum_, uint64_t timeStamp_)`;
the assertion is `st.kvdata.size() == st.valueOffset.size()`. -/
def SummaryOfSSTable.ofSSTable (st : SSTable) (layer_ serialNum_ timeStamp_ : Nat) :
    Option SummaryOfSSTable :=
  if st.kvdata.length = st.valueOffset.length then
    some { layer := layer_, serialNum := serialNum_, timeStamp := timeStamp_,
           minKey := st.minKey, maxKey := st.maxKey, kvPairNum := st.kvPairNum,
           bloom := st.bloom, keyOffset := pairOffsets st.kvdata st.valueOffset }
  else none

/-- `readSummaryOfSSTableFromFile<K>(std::string fileName, SummaryOfSSTable<K>& summary)`
on a default-constructed summary; `layer` and `serialNum` are left for the
caller to assign and are given as arguments here. -/
def readSummaryOfSSTableFromFile (layer serialNum : Nat) (file : List UInt8) :
    Option SummaryOfSSTable :=
  match readHeader file with
  | none => none
  | some (h, s) =>
    match readDirectory h.kvPairNum_ s with
    | none => none
    | some (keyOffset, _) =>
      some { layer := layer, serialNum := serialNum, timeStamp := h.timeStamp_,
             minKey := h.minKey_, maxKey := h.maxKey_, kvPairNum := h.kvPairNum_,
             bloom := h.bloom_, keyOffset := keyOffset }

/-! ## Cache.hpp -/

/-- `struct Cache<K>`: the `std::list<SummaryOfSSTable<K>> cacheOfLayer`, front first. -/
abbrev Cache := List SummaryOfSSTable

/-- The miss result `{LSM_MAX_LAYER + 1, 0, 0}`. -/
def MISS : Nat × Nat × Nat := (LSM_MAX_LAYER + 1, 0, 0)

/-- `it->bloom[i] == '0'`.  The left operand is a `std::bitset::reference`; it
converts to `bool` and is promoted to the `int` 0 or 1, which is compared with
the character constant `'0'`, the `int` 48. -/
def bloomBitIsChar0 (bloom i : Nat) : Bool :=
  (if bloom.testBit i then 1 else 0) == 48

/-- `std::lower_bound(first, last, key, [](auto&& left, U value) { return left.first < value; })`
as the standard specifies it: the entries from the first one whose key is not
below `key`. -/
def lowerBound (key : Key) : List (Key × Nat) → List (Key × Nat)
  | [] => []
  | e :: es => if e.1 < key then lowerBound key es else e :: es

/-- `void insert(const SummaryOfSSTable<K>& summary)`. -/
def Cache.insert (c : Cache) (summary : SummaryOfSSTable) : Cache := summary :: c

/-- `void insert(SSTable<U, V>& table, uint32_t layer_, uint64_t serialNum_, uint64_t timeStamp_)`. -/
def Cache.insertTable (c : Cache) (table : SSTable) (layer_ serialNum_ timeStamp_ : Nat) :
    Option Cache :=
  match SummaryOfSSTable.ofSSTable table layer_ serialNum_ timeStamp_ with
  | some summary => some (summary :: c)
  | none => none

/-- `bool delByTimestamp(uint64_t timeStamp)`. -/
def Cache.delByTimestamp : Cache → Nat → Bool × Cache
  | [], _ => (false, [])
  | s :: rest, timeStamp =>
    if s.timeStamp = timeStamp then (true, rest)
    else
      let r := Cache.delByTimestamp rest timeStamp
      (r.1, s :: r.2)

/-- `SearchResultType search(U key)`. -/
def Cache.search (env : Env) : Cache → Key → Nat × Nat × Nat
  | [], _ => MISS
  | it :: rest, key =>
    if key > it.maxKey ∨ key < it.minKey then Cache.search env rest key
    else if bloomBitIsChar0 it.bloom (env.hash_x86_128 key 0 % BLOOM_SIZE) then
      Cache.search env rest key
    else if bloomBitIsChar0 it.bloom (env.hash_x86_128 key 1 % BLOOM_SIZE) then
      Cache.search env rest key
    else if bloomBitIsChar0 it.bloom (env.hash_x86_128 key 2 % BLOOM_SIZE) then
      Cache.search env rest key
    else if bloomBitIsChar0 it.bloom (env.hash_x86_128 key 3 % BLOOM_SIZE) then
      Cache.search env rest key
    else
      match lowerBound key it.keyOffset with
      | result :: _ =>
        if key = result.1 then (it.layer, it.serialNum, result.2) else MISS
      | [] => MISS

/-! ## KVStore.hpp -/

/-- The part of the file system below `diskDir` that the engine works on:
the levels `L` whose directory `data/level-L/` exists, the files
`data/level-L/sst_S.sst` by `(L, S)`, and `log/wal.log` if it exists. -/
structure Disk where
  levelDirs : List Nat
  files : List ((Nat × Nat) × List UInt8)
  wal : Option (List UInt8)
deriving DecidableEq

/-- A data directory without level directories, sst files or log. -/
def Disk.empty : Disk := { levelDirs := [], files := [], wal := none }

/-- `fs::exists(genLayerDir(layer))`. -/
def Disk.existsDir (d : Disk) (layer : Nat) : Bool := d.levelDirs.contains layer

/-- `if (!fs::exists(dir)) fs::create_directory(dir);`. -/
def Disk.ensureDir (d : Disk) (layer : Nat) : Disk :=
  if d.existsDir layer then d else { d with levelDirs := layer :: d.levelDirs }

/-- The contents of `genLayerDir(layer) + genSSTNameBySerialNum(serialNum)`, if the file exists. -/
def Disk.readFile (d : Disk) (layer serialNum : Nat) : Option (List UInt8) :=
  match d.files.find? (fun f => f.1 = (layer, serialNum)) with
  | some f => some f.2
  | none => none

/-- `fs::remove(genLayerDir(layer) + genSSTNameBySerialNum(serialNum))`. -/
def Disk.removeFile (d : Disk) (layer serialNum : Nat) : Disk :=
  { d with files := d.files.filter (fun f => f.1 ≠ (layer, serialNum)) }

/-- A file opened with `std::ios::out | std::ios::binary` and written: it
replaces a file of the same name. -/
def Disk.writeFile (d : Disk) (layer serialNum : Nat) (bytes : List UInt8) : Disk :=
  { d with files := ((layer, serialNum), bytes) ::
      d.files.filter (fun f => f.1 ≠ (layer, serialNum)) }

/-- The serial numbers `getNumBySSTFilename` reads off the files of `data/level-layer/`. -/
def Disk.serialsOf (d : Disk) (layer : Nat) : List Nat :=
  (d.files.filter (fun f => f.1.1 = layer)).map (fun f => f.1.2)

/-- `struct KVStore<K, V>`, together with the disk below `diskDir`. -/
structure KVStore where
  memTable : SkipList
  mergeTable : SkipList
  diskTableCache : List Cache
  availableNum : List Nat
  depthOfLayer : Nat
  curTimeStamp : Nat
  disk : Disk
deriving DecidableEq

/-- `a[i] = x` on a `std::array`. -/
def setAt {α : Type} (a : List α) (i : Nat) (x : α) : Option (List α) :=
  if i < a.length then some (a.set i x) else none

/-- `std::list::merge(other, comp)` with `fuel` steps left: an element of
`other` goes first only where `comp` puts it strictly before. -/
def mergeFuel {α : Type} (comp : α → α → Bool) : Nat → List α → List α → List α
  | 0, xs, ys => xs ++ ys
  | _ + 1, [], ys => ys
  | _ + 1, xs, [] => xs
  | n + 1, x :: xs, y :: ys =>
    if comp y x then y :: mergeFuel comp n (x :: xs) ys
    else x :: mergeFuel comp n xs (y :: ys)

/-- `out.merge(tmp, comp)`. -/
def listMerge {α : Type} (comp : α → α → Bool) (xs ys : List α) : List α :=
  mergeFuel comp (xs.length + ys.length) xs ys

/-- The comparison passed to `out.merge` by `mergeAllFiles`. -/
def mergeComp (left right : Nat × Nat × Key × Value) : Bool :=
  if left.2.2.1 = right.2.2.1 then
    if left.1 < right.1 then true
    else if left.1 > right.1 then false
    else decide (left.2.1 > right.2.1)
  else decide (left.2.2.1 < right.2.2.1)

/-- Insertion into a list sorted by `std::greater<uint64_t>`. -/
def insertDesc (x : Nat) : List Nat → List Nat
  | [] => [x]
  | y :: ys => if x ≥ y then x :: y :: ys else y :: insertDesc x ys

/-- `std::sort(allSSTSerialNum.begin(), allSSTSerialNum.end(), std::greater<uint64_t>{})`. -/
def sortDesc : List Nat → List Nat
  | [] => []
  | x :: xs => insertDesc x (sortDesc xs)

/-- The state of the `std::ifstream` that `readWAL` reads: the unread
contents of the log as it was when the stream was opened, and two state bits. -/
structure IStream where
  rest : List UInt8
  failbit : Bool
  eofbit : Bool
deriving DecidableEq

/-- `in.read(p, n)`: the bytes stored at `p` and the stream afterwards.  A
stream that is not good stores nothing; a stream that runs out stores what is
left and sets `eofbit` and `failbit`. -/
def IStream.read (s : IStream) (n : Nat) : List UInt8 × IStream :=
  if s.failbit ∨ s.eofbit then ([], { s with failbit := true })
  else if n ≤ s.rest.length then (s.rest.take n, { s with rest := s.rest.drop n })
  else (s.rest, { rest := [], failbit := true, eofbit := true })

/-- A `uint64_t` variable after `in.read(reinterpret_cast<char*>(&x), 8)` stored
the bytes `got` over it: `none` is an uninitialised variable. -/
def storeU64 (old : Option Nat) (got : List UInt8) : Option Nat :=
  if got.length = 8 then some (fromBytesLE got)
  else
    match old with
    | some x => some (fromBytesLE (got ++ (u64le x).drop got.length))
    | none => none

namespace KVStore

/-- `MaxSSTFileNumberInLayer(layer)`: `2 << layer`. -/
def MaxSSTFileNumberInLayer (layer : Nat) : Nat := 2 * 2 ^ layer

/-- `layerSSTExceedLimit(layer)`. -/
def layerSSTExceedLimit (st : KVStore) (layer : Nat) : Option Bool :=
  match st.diskTableCache[layer]? with
  | some c => some (decide (c.length > MaxSSTFileNumberInLayer layer))
  | none => none

/-- `writeWAL(key, value)`: the log is opened in append mode and three
`out.write` calls follow; the third writes the `sizeof(V)` bytes of the object
`value`. -/
def walRecord (env : Env) (key : Key) (value : Value) : List UInt8 :=
  u64le key ++ u64le value.length ++ env.objectBytes value

/-- `void writeWAL(K key, const V& value)`. -/
def writeWAL (env : Env) (st : KVStore) (key : Key) (value : Value) : KVStore :=
  let old := match st.disk.wal with
    | some w => w
    | none => []
  { st with disk := { st.disk with wal := some (old ++ walRecord env key value) } }

/-- `void clearWAL()`. -/
def clearWAL (st : KVStore) : KVStore :=
  { st with disk := { st.disk with wal := none } }

/-- The loop of `scanLayerSSTByOffset` from the iterator position on: the
runs `(layer, serialNum)` appended to `out`, and the running
`(minKey, maxKey, maxTimestamp)`. -/
def scanFrom (curLayer : Nat) :
    Cache → Key → Key → Nat → Option (List (Nat × Nat) × Key × Key × Nat)
  | [], minKey, maxKey, maxTimestamp => some ([], minKey, maxKey, maxTimestamp)
  | it :: rest, minKey, maxKey, maxTimestamp =>
    if it.layer = curLayer then
      match scanFrom curLayer rest
          (if minKey < it.minKey then minKey else it.minKey)
          (if maxKey > it.maxKey then maxKey else it.maxKey)
          (if maxTimestamp > it.timeStamp then maxTimestamp else it.timeStamp) with
      | none => none
      | some (files, r) => some ((it.layer, it.serialNum) :: files, r)
    else none

/-- `scanLayerSSTByOffset(curLayer, offset, out)`: the runs appended to `out`
and the returned `(minKey, maxKey, maxTimestamp)`. -/
def scanLayerSSTByOffset (st : KVStore) (curLayer offset : Nat) :
    Option (List (Nat × Nat) × Key × Key × Nat) :=
  match st.diskTableCache[curLayer]? with
  | none => none
  | some c => scanFrom curLayer (c.drop offset) KEY_MAX KEY_MIN 0

/-- The loop of `SSTNeedMergedNextLayer`: the summaries left in the cache, the
runs appended to `out` and the maximal time stamp of the runs taken. -/
def takeOverlapping (nextLayer : Nat) (curLayerMinKey curLayerMaxKey : Key) :
    Cache → Nat → Option (Cache × List (Nat × Nat) × Nat)
  | [], maxTimestamp => some ([], [], maxTimestamp)
  | it :: rest, maxTimestamp =>
    if curLayerMaxKey < it.minKey ∨ it.maxKey < curLayerMinKey then
      match takeOverlapping nextLayer curLayerMinKey curLayerMaxKey rest maxTimestamp with
      | none => none
      | some (kept, files, ts) => some (it :: kept, files, ts)
    else if it.layer = nextLayer then
      match takeOverlapping nextLayer curLayerMinKey curLayerMaxKey rest
          (if maxTimestamp > it.timeStamp then maxTimestamp else it.timeStamp) with
      | none => none
      | some (kept, files, ts) => some (kept, (it.layer, it.serialNum) :: files, ts)
    else none

/-- `SSTNeedMergedNextLayer(curLayer, curLayerMinKey, curLayerMaxKey, out)`:
the new state, the runs appended to `out` and the returned time stamp. -/
def SSTNeedMergedNextLayer (st : KVStore) (curLayer : Nat) (curLayerMinKey curLayerMaxKey : Key) :
    Option (KVStore × List (Nat × Nat) × Nat) :=
  if curLayer = LSM_MAX_LAYER then some (st, [], 0)
  else
    match st.diskTableCache[curLayer + 1]? with
    | none => none
    | some c =>
      match takeOverlapping (curLayer + 1) curLayerMinKey curLayerMaxKey c 0 with
      | none => none
      | some (kept, files, ts) =>
        match setAt st.diskTableCache (curLayer + 1) kept with
        | none => none
        | some caches => some ({ st with diskTableCache := caches }, files, ts)

/-- `mergeAllFiles(inputFiles, out)` from the current contents of `out`. -/
def mergeAllFiles (disk : Disk) :
    List (Nat × Nat) → List (Nat × Nat × Key × Value) → Option (List (Nat × Nat × Key × Value))
  | [], out => some out
  | file :: files, out =>
    match disk.readFile file.1 file.2 with
    | none => none
    | some bytes =>
      match filterSSTableFromFile file.1 file.2 bytes with
      | none => none
      | some tmp => mergeAllFiles disk files (listMerge mergeComp out tmp)

/-- `void writeSSTToNextLayer(uint32_t curLayer, uint64_t timeStamp)`: the
summary gets `timeStamp`, the file is written with `curTimeStamp`. -/
def writeSSTToNextLayer (env : Env) (st : KVStore) (curLayer timeStamp : Nat) : Option KVStore :=
  let nextLayer := if curLayer = LSM_MAX_LAYER then LSM_MAX_LAYER else curLayer + 1
  match SSTable.ofSkipList env st.mergeTable, st.diskTableCache[nextLayer]?,
      st.availableNum[nextLayer]? with
  | some sst, some c, some serial =>
    match c.insertTable sst nextLayer serial timeStamp with
    | none => none
    | some c1 =>
      match setAt st.diskTableCache nextLayer c1, setAt st.availableNum nextLayer (serial + 1),
          st.mergeTable.clear with
      | some caches, some avail, some cleared =>
        let created := !st.disk.existsDir nextLayer
        some { st with
          diskTableCache := caches,
          depthOfLayer := if created then nextLayer else st.depthOfLayer,
          disk := (st.disk.ensureDir nextLayer).writeFile nextLayer serial
            (sst.writeToFile st.curTimeStamp),
          availableNum := avail,
          mergeTable := cleared }
      | _, _, _ => none
  | _, _, _ => none

/-- The loop of `mergeLayer` over `resultOfMerge`; the state carries `prevKey`. -/
def mergeLoop (env : Env) (curLayer curMaxTimestamp : Nat) (curLayerIsBottom : Bool) :
    List (Nat × Nat × Key × Value) → Key → KVStore → Option KVStore
  | [], _, st => some st
  | (_, _, key, val) :: rest, prevKey, st =>
    if key ≠ prevKey then
      if curLayerIsBottom ∧ val = DELETED then
        mergeLoop env curLayer curMaxTimestamp curLayerIsBottom rest key st
      else if add64 (add64 st.mergeTable.getMemSize SIZEOF_KEY) val.length < MEM_LIMIT then
        match st.mergeTable.insert env key val with
        | none => none
        | some (_, m) =>
          mergeLoop env curLayer curMaxTimestamp curLayerIsBottom rest key
            { st with mergeTable := m }
      else
        match writeSSTToNextLayer env st curLayer curMaxTimestamp with
        | none => none
        | some st1 =>
          match st1.mergeTable.insert env key val with
          | none => none
          | some (_, m) =>
            mergeLoop env curLayer curMaxTimestamp curLayerIsBottom rest key
              { st1 with mergeTable := m }
    else mergeLoop env curLayer curMaxTimestamp curLayerIsBottom rest prevKey st

/-- `for (auto& file : mergeFiles) fs::remove(...)`. -/
def removeFiles : List (Nat × Nat) → Disk → Disk
  | [], d => d
  | file :: files, d => removeFiles files (d.removeFile file.1 file.2)

/-- `void mergeLayer(uint32_t curLayer)`. -/
def mergeLayer (env : Env) (st : KVStore) (curLayer : Nat) : Option KVStore :=
  let curLayerNeedScanStart := if curLayer > 0 then MaxSSTFileNumberInLayer curLayer else 0
  match scanLayerSSTByOffset st curLayer curLayerNeedScanStart, st.diskTableCache[curLayer]? with
  | some (files0, minKey, maxKey, ts0), some c =>
    match setAt st.diskTableCache curLayer (c.take curLayerNeedScanStart) with
    | none => none
    | some caches =>
      match SSTNeedMergedNextLayer { st with diskTableCache := caches } curLayer minKey maxKey with
      | none => none
      | some (st1, files1, tmpMaxTimestamp) =>
        let mergeFiles := files0 ++ files1
        let curMaxTimestamp := if ts0 > tmpMaxTimestamp then ts0 else tmpMaxTimestamp
        match mergeAllFiles st1.disk mergeFiles [], st1.mergeTable.clear with
        | some resultOfMerge, some cleared =>
          let curLayerIsBottom := decide (curLayer = st1.depthOfLayer)
          match mergeLoop env curLayer curMaxTimestamp curLayerIsBottom resultOfMerge KEY_MAX
              { st1 with mergeTable := cleared } with
          | none => none
          | some st2 =>
            let written :=
              if st2.mergeTable.nodeNum > 0 then writeSSTToNextLayer env st2 curLayer curMaxTimestamp
              else some st2
            match written with
            | none => none
            | some st3 => some { st3 with disk := removeFiles mergeFiles st3.disk }
        | _, _ => none
  | _, _ => none

/-- `void compaction()`: `while (layerSSTExceedLimit(curLayer)) { mergeLayer(curLayer); ++curLayer; }`
with `fuel` iterations left. -/
def compactionLoop (env : Env) : Nat → Nat → KVStore → Option KVStore
  | 0, _, _ => none
  | fuel + 1, curLayer, st =>
    match layerSSTExceedLimit st curLayer with
    | none => none
    | some false => some st
    | some true =>
      match mergeLayer env st curLayer with
      | none => none
      | some st1 => compactionLoop env fuel (curLayer + 1) st1

/-- `void compaction()`.  The loop indexes `diskTableCache[curLayer]`, an
array of `LSM_MAX_LAYER` caches, so it ends within `LSM_MAX_LAYER + 1` tests. -/
def compaction (env : Env) (st : KVStore) : Option KVStore :=
  compactionLoop env (LSM_MAX_LAYER + 1) 0 st

/-- The flush of the memtable to level 0 shared by the second branch of `put`
and by the destructor: build the table, insert its summary, write the file,
advance `availableNum[0]` and `curTimeStamp`, compact, clear the memtable and
remove the log. -/
def flush (env : Env) (st : KVStore) : Option KVStore :=
  match SSTable.ofSkipList env st.memTable, st.diskTableCache[0]?, st.availableNum[0]? with
  | some sst, some c, some serial =>
    match c.insertTable sst 0 serial st.curTimeStamp with
    | none => none
    | some c1 =>
      match setAt st.diskTableCache 0 c1, setAt st.availableNum 0 (serial + 1) with
      | some caches, some avail =>
        let st1 : KVStore := { st with
          diskTableCache := caches,
          disk := (st.disk.ensureDir 0).writeFile 0 serial (sst.writeToFile st.curTimeStamp),
          availableNum := avail,
          curTimeStamp := st.curTimeStamp + 1 }
        match compaction env st1 with
        | none => none
        | some st2 =>
          match st2.memTable.clear with
          | none => none
          | some cleared => some (clearWAL { st2 with memTable := cleared })
      | _, _ => none
  | _, _, _ => none

/-- `bool put(K key, V value)`. -/
def put (env : Env) (st : KVStore) (key : Key) (value : Value) : Option (Bool × KVStore) :=
  if add64 (add64 st.memTable.getMemSize SIZEOF_KEY) value.length < MEM_LIMIT then
    let st1 := writeWAL env st key value
    match st1.memTable.insert env key value with
    | none => none
    | some (r, m) => some (r, { st1 with memTable := m })
  else
    match flush env st with
    | none => none
    | some st1 =>
      let st2 := writeWAL env st1 key value
      match st2.memTable.insert env key value with
      | none => none
      | some (r, m) => some (r, { st2 with memTable := m })

/-- The loop of `get` over the levels,
`for (i = 0; i <= depthOfLayer; ++i) { result = diskTableCache[i].search(key); if (layer != LSM_MAX_LAYER + 1) break; }`,
with `n + 1` levels left from level `i`. -/
def searchLevels (env : Env) (caches : List Cache) (key : Key) : Nat → Nat → Option (Nat × Nat × Nat)
  | 0, i =>
    match caches[i]? with
    | none => none
    | some c => some (c.search env key)
  | n + 1, i =>
    match caches[i]? with
    | none => none
    | some c =>
      let r := c.search env key
      if r.1 ≠ LSM_MAX_LAYER + 1 then some r else searchLevels env caches key n (i + 1)

/-- `std::pair<bool, V> get(K key)`. -/
def get (env : Env) (st : KVStore) (key : Key) : Option (Bool × Value) :=
  match st.memTable.search key with
  | none => none
  | some (hasKey, value) =>
    if hasKey then
      if value = DELETED then some (false, []) else some (true, value)
    else
      match searchLevels env st.diskTableCache key st.depthOfLayer 0 with
      | none => none
      | some (layer, serialNum, offset) =>
        if layer = LSM_MAX_LAYER + 1 then some (false, [])
        else
          match st.disk.readFile layer serialNum with
          | none => none
          | some file =>
            match readSSTableFromFile file offset with
            | none => none
            | some v => if v ≠ DELETED then some (true, v) else some (false, [])

/-- `bool del(K key)`. -/
def del (env : Env) (st : KVStore) (key : Key) : Option (Bool × KVStore) :=
  match get env st key with
  | none => none
  | some (ret, value) =>
    if ret = false then some (false, st)
    else if value = DELETED then some (true, st)
    else
      match st.memTable.remove key with
      | none => none
      | some (_, m) =>
        match put env { st with memTable := m } key DELETED with
        | none => none
        | some (_, st1) => some (true, st1)

/-- `loadSSTToCache(layerTh, sstName)`: the new state and the time stamp
returned; the program aborts when the file cannot be opened. -/
def loadSSTToCache (st : KVStore) (layerTh serialNum : Nat) : Option (KVStore × Nat) :=
  match st.disk.readFile layerTh serialNum, st.diskTableCache[layerTh]? with
  | some file, some c =>
    match readSummaryOfSSTableFromFile layerTh serialNum file with
    | none => none
    | some summary =>
      match setAt st.diskTableCache layerTh (c.insert summary) with
      | none => none
      | some caches => some ({ st with diskTableCache := caches }, summary.timeStamp)
  | _, _ => none

/-- The loop `for (const auto& sstSerialNum : allSSTSerialNum)` of `readSSTDataToCache`. -/
def loadAll (layer : Nat) : List Nat → KVStore → Option KVStore
  | [], st => some st
  | serialNum :: rest, st =>
    match loadSSTToCache st layer serialNum with
    | none => none
    | some (st1, timeStamp) =>
      loadAll layer rest { st1 with
        curTimeStamp := if st1.curTimeStamp > timeStamp then st1.curTimeStamp else timeStamp }

/-- The loop `for (; i < LSM_MAX_LAYER; ++i)` of `readSSTDataToCache`, with `n`
levels left from level `i`. -/
def readLevels : Nat → Nat → KVStore → Option KVStore
  | 0, _, st => some st
  | n + 1, i, st =>
    if !st.disk.existsDir i then some st
    else
      let allSSTSerialNum := sortDesc (st.disk.serialsOf i)
      match loadAll i allSSTSerialNum { st with depthOfLayer := i } with
      | none => none
      | some st1 =>
        match allSSTSerialNum with
        | [] => readLevels n (i + 1) st1
        | front :: _ =>
          match setAt st1.availableNum i (front + 1) with
          | none => none
          | some avail => readLevels n (i + 1) { st1 with availableNum := avail }

/-- `void readSSTDataToCache()`. -/
def readSSTDataToCache (st : KVStore) : Option KVStore :=
  readLevels LSM_MAX_LAYER 0 st

/-- The loop of `readWAL`,
`while (!in.eof()) { read key; read valueLen; buf.resize(valueLen); read buf; put(key, buf); }`,
with `fuel` iterations left.  `key` and `valueLen` are declared before the
loop, uninitialised, and keep their bytes where a read stores none. -/
def replay (env : Env) : Nat → IStream → Option Nat → Option Nat → KVStore → Option KVStore
  | 0, _, _, _, _ => none
  | fuel + 1, s, key, valueLen, st =>
    if s.eofbit then some st
    else
      let r1 := s.read 8
      let r2 := r1.2.read 8
      match storeU64 key r1.1, storeU64 valueLen r2.1 with
      | some k, some n =>
        let r3 := r2.2.read n
        let buf := r3.1 ++ List.replicate (n - r3.1.length) 0
        match put env st k buf with
        | none => none
        | some (_, st1) => replay env fuel r3.2 (some k) (some n) st1
      | _, _ => none

/-- `void readWAL()`. -/
def readWAL (env : Env) (st : KVStore) : Option KVStore :=
  match st.disk.wal with
  | none => some st
  | some log =>
    match replay env (log.length + 2) { rest := log, failbit := false, eofbit := false }
        none none st with
    | none => none
    | some st1 => some (clearWAL st1)

/-- The members of a `KVStore` before the body of the constructor runs. -/
def fresh (disk : Disk) : KVStore :=
  { memTable := SkipList.empty, mergeTable := SkipList.empty,
    diskTableCache := List.replicate LSM_MAX_LAYER [],
    availableNum := List.replicate LSM_MAX_LAYER 0,
    depthOfLayer := 0, curTimeStamp := 0, disk := disk }

/-- `void init()`. -/
def init (env : Env) (st : KVStore) : Option KVStore :=
  match readSSTDataToCache st with
  | none => none
  | some st1 => readWAL env st1

/-- `KVStore(std::string dataDirectory)` on a data directory with contents `disk`. -/
def new (env : Env) (disk : Disk) : Option KVStore :=
  init env (fresh disk)

/-- `~KVStore()`: the state of the object, and of the disk, when the body of
the destructor returns. -/
def close (env : Env) (st : KVStore) : Option KVStore :=
  if st.memTable.nodeNum > 0 then flush env st else some st

end KVStore

/-! ## Definitions used to state the properties -/

/-- The offsets `o, o + |v₁|, o + |v₁| + |v₂|, ...` (64-bit sums) of the values of `kvs`. -/
def offsetsFrom : Nat → List (Key × Value) → List Nat
  | _, [] => []
  | o, (_, v) :: rest => o :: offsetsFrom (add64 o v.length) rest

/-- The 64-bit sum of `o` and the lengths of the values of `kvs`. -/
def totalFrom : Nat → List (Key × Value) → Nat
  | o, [] => o
  | o, (_, v) :: rest => totalFrom (add64 o v.length) rest

/-- The header fields as `readHeader` decodes them from the bytes `writeToFile` wrote. -/
def SSTable.headerOf (t : SSTable) (timeStamp : Nat) : Header :=
  { timeStamp_ := timeStamp % WORD, lenOfAllValues_ := t.lenOfAllValues % WORD,
    minKey_ := t.minKey % WORD, maxKey_ := t.maxKey % WORD, kvPairNum_ := t.kvPairNum % WORD,
    bloom_ := t.bloom % 256 ^ BLOOM_BYTES }

/-- What `filterSSTableFromFile` makes of the pairs of a table: the length of
the last value is reduced modulo `2 ^ 32`. -/
def truncLast : List (Key × Value) → List (Key × Value)
  | [] => []
  | [(k, v)] => [(k, v.take (v.length % 2 ^ 32))]
  | kv :: kv1 :: rest => kv :: truncLast (kv1 :: rest)

/-- The pairs linked on level 0, from the successor of the header to the tail:
the collecting loop of `scan` started at `header_->forward_[0]` with the bound
`KEY_MAX`. -/
def SkipList.pairs (li : SkipList) : Option (List (Key × Value)) :=
  match fwd li.heap li.header_ 0 with
  | none => none
  | some first => SkipList.collect li.heap li.tail_ KEY_MAX li.fuelOf first

/-- The key of the first pair (`KEY_MAX` for no pair, as `getMinKey` answers). -/
def firstKey : List (Key × Value) → Key
  | [] => KEY_MAX
  | kv :: _ => kv.1

/-- The key of the last pair (`KEY_MAX` for no pair, as `getMaxKey` answers). -/
def lastKey : List (Key × Value) → Key
  | [] => KEY_MAX
  | [kv] => kv.1
  | _ :: kv1 :: rest => lastKey (kv1 :: rest)

/-- On level `i` the header points to a live node whose key is not below `key`. -/
def headerAbove (li : SkipList) (key : Key) (i : Nat) : Bool :=
  match fwd li.heap li.header_ i with
  | none => false
  | some q =>
    match deref li.heap q with
    | none => false
    | some n => decide (key ≤ n.key_)

/-- `Represents li kvs`: `li` is a skip list of user keys that holds exactly the
pairs `kvs`.  Level 0 links the pairs in strictly ascending key order between
header and tail, `nodeCount_` counts them, the keys are user keys (neither
sentinel), address 0 holds no node, and on every level in use the header points
to a node that is not below the first key. -/
structure Represents (li : SkipList) (kvs : List (Key × Value)) : Prop where
  null_free : deref li.heap 0 = none
  pairs_eq : li.pairs = some kvs
  count_eq : li.nodeCount_ = kvs.length
  sorted : kvs.Pairwise (fun a b => a.1 < b.1)
  user_keys : ∀ kv ∈ kvs, KEY_MIN < kv.1 ∧ kv.1 < KEY_MAX
  header_levels : ∀ i, i ≤ li.curLevel_ → headerAbove li (firstKey kvs) i = true

/-- The table the constructor builds from a skip list that holds the pairs `kvs`. -/
def SSTable.ofPairs (env : Env) (kvs : List (Key × Value)) : SSTable :=
  { minKey := firstKey kvs, maxKey := lastKey kvs, kvPairNum := kvs.length,
    lenOfAllValues := totalFrom 0 kvs, kvdata := kvs, valueOffset := offsetsFrom 0 kvs,
    bloom := (SSTable.index env kvs 0 0 0).2.2 }

/-- A stand-in for the code outside the sources, used to run the model on
concrete inputs: two different hash functions, a linear congruential generator
and a 32-byte object representation. -/
def Env.sample : Env :=
  { hash_x64_128 := fun k i => (k * 31 + i * 7 + 3) % 2 ^ 32,
    hash_x86_128 := fun k i => (k * 17 + i * 5 + 1) % 2 ^ 32,
    randNext := fun s => (s * 16807) % 2147483647,
    sizeofV := 32,
    objectBytes := fun v => u64le 0 ++ u64le v.length ++ List.replicate 16 0,
    objectBytes_length := fun v => by simp [u64le, bytesLE] }

/-- `insert` of the pairs of a list, one after the other. -/
def SkipList.insertAll (env : Env) : List (Key × Value) → SkipList → Option SkipList
  | [], li => some li
  | (k, v) :: rest, li =>
    match li.insert env k v with
    | none => none
    | some (_, li1) => SkipList.insertAll env rest li1

/-- The skip list after `insert(2, "bc")`, `insert(1, "a")`, `insert(3, "def")`. -/
def sampleList : SkipList :=
  (SkipList.insertAll Env.sample [(2, [98, 99]), (1, [97]), (3, [100, 101, 102])]
    SkipList.empty).getD SkipList.empty

/-- The pairs of `sampleList`. -/
def samplePairs : List (Key × Value) := [(1, [97]), (2, [98, 99]), (3, [100, 101, 102])]

/-- A value of `2 ^ 32` bytes. -/
def bigValue : Value := List.replicate (2 ^ 32) 0

/-- The skip list after `insert(1, v)` on an empty list when the level drawn is 14. -/
def singleton (v : Value) : SkipList :=
  { heap := [none, some (Node.new KEY_MAX [] 0),
      some { key_ := KEY_MIN, value_ := [],
             forward_ := [3, 3, 3, 3, 3, 3, 3, 3, 3, 3, 3, 3, 3, 3, 3, 1, 1],
             nodeLevel_ := MAX_LEVEL },
      some { key_ := 1, value_ := v,
             forward_ := [1, 1, 1, 1, 1, 1, 1, 1, 1, 1, 1, 1, 1, 1, 1], nodeLevel_ := 14 }],
    curMemSize := 8, header_ := 2, tail_ := 1, nodeCount_ := 1, curLevel_ := 14,
    rand_ := 706275742 }

/-- A call of the public interface; `reopen` is the destructor followed by the
constructor on the same data directory. -/
inductive Call where
  | put (key : Key) (value : Value)
  | get (key : Key)
  | del (key : Key)
  | reopen
deriving DecidableEq, Repr

/-- What a call returns. -/
inductive Reply where
  | put (inserted : Bool)
  | get (found : Bool) (value : Value)
  | del (existed : Bool)
  | reopened
deriving DecidableEq, Repr

/-- One call on an engine: the reply and the engine afterwards. -/
def KVStore.call (env : Env) (st : KVStore) : Call → Option (Reply × KVStore)
  | .put key value =>
    match st.put env key value with
    | none => none
    | some (r, st1) => some (.put r, st1)
  | .get key =>
    match st.get env key with
    | none => none
    | some (found, value) => some (.get found value, st)
  | .del key =>
    match st.del env key with
    | none => none
    | some (r, st1) => some (.del r, st1)
  | .reopen =>
    match st.close env with
    | none => none
    | some st1 =>
      match KVStore.new env st1.disk with
      | none => none
      | some st2 => some (.reopened, st2)

/-- A sequence of calls, one after the other: the replies. -/
def KVStore.run (env : Env) : List Call → KVStore → Option (List Reply)
  | [], _ => some []
  | c :: cs, st =>
    match st.call env c with
    | none => none
    | some (r, st1) =>
      match KVStore.run env cs st1 with
      | none => none
      | some rs => some (r :: rs)

/-- A sequence of calls on an engine opened on an empty data directory. -/
def KVStore.session (env : Env) (calls : List Call) : Option (List Reply) :=
  match KVStore.new env Disk.empty with
  | none => none
  | some st => KVStore.run env calls st

/-- A value of `n` bytes `'x'`. -/
def pad (n : Nat) : Value := List.replicate n 120

/-- The level cache after a run holding key 2 (serial 0) and then a run holding
keys 1 and 3 (serial 1) were inserted, front first. -/
def twoRuns : Option Cache :=
  match Cache.insertTable [] (SSTable.ofPairs Env.sample [(2, [120])]) 0 0 0 with
  | none => none
  | some c => Cache.insertTable c (SSTable.ofPairs Env.sample [(1, [97]), (3, [99])]) 0 1 1

/-- A level cache filled by one `insert` per entry of `ways`, the first entry
last: `cache.insert(summary)` with the ready summary of `t` for `true`,
`cache.insert(t, layer, serialNum, timeStamp)` for `false`. -/
def Cache.fill (t : SSTable) (layer serialNum timeStamp : Nat) : List Bool → Option Cache
  | [] => some []
  | ready :: rest =>
    match Cache.fill t layer serialNum timeStamp rest with
    | none => none
    | some c =>
      if ready then
        match SummaryOfSSTable.ofSSTable t layer serialNum timeStamp with
        | some summary => some (Cache.insert c summary)
        | none => none
      else Cache.insertTable c t layer serialNum timeStamp

/-- The stand-in `Env.sample` with the hash values of the key 1 replaced by the
words MurmurHash3 computes for the eight little-endian bytes of 1 with seed 1:
`hash_x64_128` holds the four 32-bit words of the output of
`MurmurHash3_x64_128`, `hash_x86_128` those of `MurmurHash3_x86_128`. -/
def Env.murmurOfOne : Env :=
  { Env.sample with
    hash_x64_128 := fun k i =>
      if k = 1 then [4080786504, 1033735080, 580658153, 4247176725].getD i 0
      else Env.sample.hash_x64_128 k i,
    hash_x86_128 := fun k i =>
      if k = 1 then [1266333894, 3948239189, 3948239189, 3948239189].getD i 0
      else Env.sample.hash_x86_128 k i }

/-- One node between header and tail: its address, the pair it stores and its level. -/
structure Cell where
  addr : Nat
  key : Key
  value : Value
  level : Nat
deriving DecidableEq

/-- The address that level `i` links next among `cells`: the first cell of
level `i` or more, the tail if there is none. -/
def nextAt (tail i : Nat) : List Cell → Nat
  | [] => tail
  | c :: cs => if i ≤ c.level then c.addr else nextAt tail i cs

/-- The node of the cell `c` lives at `c.addr`, stores the pair of `c`, has
`c.level + 1` forward pointers, and on every level `i ≤ c.level` points to the
next address of that level among the cells `rest` that follow it. -/
def NodeAt (heap : Heap) (tail : Nat) (c : Cell) (rest : List Cell) : Prop :=
  ∃ f, deref heap c.addr
      = some { key_ := c.key, value_ := c.value, forward_ := f, nodeLevel_ := c.level } ∧
    f.length = c.level + 1 ∧ ∀ i, i ≤ c.level → f[i]? = some (nextAt tail i rest)

/-- Every cell of the list is a node linked, on each of its levels, to the
cells after it. -/
def Linked (heap : Heap) (tail : Nat) : List Cell → Prop
  | [] => True
  | c :: cs => NodeAt heap tail c cs ∧ Linked heap tail cs

/-- The header as a cell: key `KEY_MIN`, empty value, level `MAX_LEVEL`. -/
def headerCell (li : SkipList) : Cell :=
  { addr := li.header_, key := KEY_MIN, value := [], level := MAX_LEVEL }

/-- `WellFormed li cells`: `li` is a well-formed skip list whose nodes between
header and tail are `cells`, in this order.  The header and the cells are
linked on every level, the tail is the node the constructor made, the keys are
user keys in strictly ascending order, no cell is higher than `curLevel_`,
which is below `MAX_LEVEL`, `nodeCount_` counts the cells, address 0 holds no
node, and the heap has a cell for address 0, the tail, the header and every
node. -/
structure WellFormed (li : SkipList) (cells : List Cell) : Prop where
  null_free : deref li.heap 0 = none
  tail_node : deref li.heap li.tail_ = some (Node.new KEY_MAX [] 0)
  linked : Linked li.heap li.tail_ (headerCell li :: cells)
  sorted : cells.Pairwise (fun a b => a.key < b.key)
  user_keys : ∀ c ∈ cells, KEY_MIN < c.key ∧ c.key < KEY_MAX
  levels : ∀ c ∈ cells, c.level ≤ li.curLevel_
  level_lt : li.curLevel_ < MAX_LEVEL
  count_eq : li.nodeCount_ = cells.length
  room : cells.length + 3 ≤ li.heap.length

/-- The value stored under `key` in the cells. -/
def valueOf (key : Key) : List Cell → Option Value
  | [] => none
  | c :: cs => if c.key = key then some c.value else valueOf key cs

/-- The pairs of the cells. -/
def pairsOf (cells : List Cell) : List (Key × Value) := cells.map (fun c => (c.key, c.value))

/-- A call of `insert`, `remove` or `clear`. -/
inductive Op where
  | insert (key : Key) (value : Value)
  | remove (key : Key)
  | clear
deriving DecidableEq

/-- A user key: neither `KEY_MIN` nor `KEY_MAX`, the keys of the sentinels. -/
def UserKey (k : Key) : Prop := KEY_MIN < k ∧ k < KEY_MAX

/-- The call is made on a user key. -/
def Op.onUserKey : Op → Prop
  | Op.insert k _ => UserKey k
  | Op.remove k => UserKey k
  | Op.clear => True

/-- The list after one call. -/
def SkipList.step (env : Env) (li : SkipList) : Op → Option SkipList
  | Op.insert k v =>
    match li.insert env k v with
    | some (_, li1) => some li1
    | none => none
  | Op.remove k =>
    match li.remove k with
    | some (_, li1) => some li1
    | none => none
  | Op.clear => li.clear

/-- The list after a sequence of calls. -/
def SkipList.runOps (env : Env) : List Op → SkipList → Option SkipList
  | [], li => some li
  | op :: ops, li =>
    match li.step env op with
    | some li1 => SkipList.runOps env ops li1
    | none => none

/-- The skip lists of the program: what a sequence of `insert`, `remove` and
`clear` on user keys makes of the list the constructor builds. -/
def SkipList.Reachable (env : Env) (li : SkipList) : Prop :=
  ∃ ops : List Op, (∀ op ∈ ops, op.onUserKey) ∧ SkipList.runOps env ops SkipList.empty = some li

/-- The value the last call on `k` leaves under `k`: `insert(k, v)` leaves
`v`, `remove(k)` and `clear()` leave nothing, a call on another key leaves what
was there (`acc`). -/
def lastWrite (k : Key) : Option Value → List Op → Option Value
  | acc, [] => acc
  | acc, Op.insert k1 v :: ops => lastWrite k (if k1 = k then some v else acc) ops
  | acc, Op.remove k1 :: ops => lastWrite k (if k1 = k then none else acc) ops
  | _, Op.clear :: ops => lastWrite k none ops

/-- What `search` returns for a stored value or for none. -/
def found : Option Value → Bool × Value
  | some v => (true, v)
  | none => (false, [])

/-- The addresses linked on level `i` from `current` to the tail, the tail
included, following `forward_[i]` for at most `fuel` nodes. -/
def chain (heap : Heap) (tail i : Nat) : Nat → Nat → Option (List Nat)
  | 0, _ => none
  | fuel + 1, current =>
    if current = tail then some [tail]
    else
      match fwd heap current i with
      | none => none
      | some next =>
        match chain heap tail i fuel next with
        | none => none
        | some rest => some (current :: rest)

/-- The addresses linked on level `i`, from the header to the tail. -/
def SkipList.nodesOn (li : SkipList) (i : Nat) : Option (List Nat) :=
  chain li.heap li.tail_ i li.fuelOf li.header_

/-- The keys of the nodes at the addresses. -/
def keysAt (heap : Heap) : List Nat → Option (List Key)
  | [] => some []
  | a :: rest =>
    match deref heap a, keysAt heap rest with
    | some n, some ks => some (n.key_ :: ks)
    | _, _ => none

/-- The heap `h` during the splice loop of `insert`, after the levels below
`lo`: against the heap `heap0` the loop started on, the forward pointers of
level `j < lo` of the nodes `update[j]` point to the new node, the new node
has taken over their old targets, and nothing else has changed. -/
structure Spliced (heap0 : Heap) (update : List Nat) (newAddr : Nat) (nn : Node) (lo : Nat)
    (h : Heap) : Prop where
  length_eq : h.length = heap0.length
  others : ∀ q, q ≠ newAddr → ∀ node, deref heap0 q = some node →
    ∃ f, deref h q = some { node with forward_ := f } ∧ f.length = node.forward_.length ∧
      ∀ j, f[j]? = if j < lo ∧ update[j]? = some q then some newAddr else node.forward_[j]?
  free : ∀ q, deref heap0 q = none → deref h q = none
  fresh : ∃ f, deref h newAddr = some { nn with forward_ := f } ∧
    f.length = nn.forward_.length ∧
    ∀ j, j < lo → ∀ u, update[j]? = some u → f[j]? = fwd heap0 u j

/-- The heap `h` during the unlink loop of `remove`, after the levels below
`lo`: against the heap `heap0` the loop started on, the forward pointers of
level `j < lo` of the nodes `update[j]` have taken over the targets of the node
`cur`, and nothing else has changed. -/
structure Unlinked (heap0 : Heap) (update : List Nat) (cur : Nat) (lo : Nat) (h : Heap) :
    Prop where
  length_eq : h.length = heap0.length
  others : ∀ q node, deref heap0 q = some node →
    ∃ f, deref h q = some { node with forward_ := f } ∧ f.length = node.forward_.length ∧
      ∀ j, f[j]? = if j < lo ∧ update[j]? = some q then fwd heap0 cur j else node.forward_[j]?
  free : ∀ q, deref heap0 q = none → deref h q = none

/-- The calls `insert(2, "bc")`, `insert(1, "a")`, `insert(3, "def")` that build `sampleList`. -/
def sampleOps : List Op :=
  [Op.insert 2 [98, 99], Op.insert 1 [97], Op.insert 3 [100, 101, 102]]

/-- A sequence of calls with an overwrite, a removal and a `clear` in the middle. -/
def mixedOps : List Op :=
  [Op.insert 2 [98], Op.insert 1 [97], Op.clear, Op.insert 5 [101], Op.insert 1 [97],
   Op.remove 5, Op.insert 1 [122], Op.insert 7 [103]]

/-- The sum of the byte lengths of the values of the pairs. -/
def valueSizes (kvs : List (Key × Value)) : Nat := (kvs.map (fun kv => kv.2.length)).sum

/-- A record of `resultOfMerge`: the layer and serial of the run it was read
from, the key and the value. -/
abbrev Record := Nat × Nat × Key × Value

/-- The record `a` is not after the record `b` in the order `mergeAllFiles`
merges by: its key is smaller, or the keys are equal and its layer is smaller,
or keys and layers are equal and its serial is not smaller. -/
def notAfter (a b : Record) : Prop :=
  a.2.2.1 < b.2.2.1 ∨
    (a.2.2.1 = b.2.2.1 ∧ (a.1 < b.1 ∨ (a.1 = b.1 ∧ b.2.1 ≤ a.2.1)))

/-- The records of `resultOfMerge` on which the loop of `mergeLayer` finds
`key != prevKey`: the ones it goes on to insert into `mergeTable` unless it
drops them as tombstones. -/
def winners : Key → List Record → List Record
  | _, [] => []
  | prevKey, r :: rest =>
    if r.2.2.1 ≠ prevKey then r :: winners r.2.2.1 rest else winners prevKey rest

/-- A sequence of calls, one after the other: the engine afterwards. -/
def KVStore.runState (env : Env) : List Call → KVStore → Option KVStore
  | [], st => some st
  | c :: cs, st =>
    match st.call env c with
    | none => none
    | some (_, st1) => KVStore.runState env cs st1

/-- The engine after a sequence of calls on an engine opened on an empty data
directory. -/
def KVStore.after (env : Env) (calls : List Call) : Option KVStore :=
  match KVStore.new env Disk.empty with
  | none => none
  | some st => KVStore.runState env calls st

/-- The records of the run `(layer, serialNum)` on the disk of an engine. -/
def KVStore.recordsOf (st : KVStore) (layer serialNum : Nat) : Option (List Record) :=
  match st.disk.readFile layer serialNum with
  | none => none
  | some bytes => filterSSTableFromFile layer serialNum bytes

/-- The serial numbers of the summaries of every level, front first. -/
def KVStore.serials (st : KVStore) : List (List Nat) :=
  st.diskTableCache.map (fun c => c.map (fun s => s.serialNum))

/-- The key ranges `[minKey, maxKey]` of two summaries have no key in common. -/
def SummaryOfSSTable.apart (a b : SummaryOfSSTable) : Prop :=
  a.maxKey < b.minKey ∨ b.maxKey < a.minKey

/-- The bytes are a file that `writeToFile` writes for the table of the pairs
`kvs`, a non-empty list of user keys in strictly ascending order. -/
def IsRun (env : Env) (bytes : List UInt8) (kvs : List (Key × Value)) : Prop :=
  (∃ ts, bytes = (SSTable.ofPairs env kvs).writeToFile ts) ∧ kvs ≠ [] ∧
    kvs.Pairwise (fun a b => a.1 < b.1) ∧ ∀ kv ∈ kvs, UserKey kv.1

/-- The state of an engine between two steps of its work on the runs.  Both
skip lists are lists of the program, there are `LSM_MAX_LAYER` caches and
serial counters, the files have distinct names and lie in level directories
that exist without a gap, every summary of the cache of level `L` has layer
`L` and the key range of a run file of that level, every file has a serial
below the counter of its level and a summary in the cache of its level unless
it is one of the `pending` files, which a merge has taken out of the caches and
not removed from the disk yet, the summaries of a level have distinct serials, and on the
levels above 0 summaries with different serials have key ranges apart. -/
structure KVStore.Tidy (env : Env) (st : KVStore) (pending : List (Nat × Nat)) : Prop where
  mem : ∃ cells, WellFormed st.memTable cells
  merge : ∃ cells, WellFormed st.mergeTable cells
  caches_len : st.diskTableCache.length = LSM_MAX_LAYER
  avail_len : st.availableNum.length = LSM_MAX_LAYER
  names : (st.disk.files.map Prod.fst).Nodup
  dirs : ∀ L, st.disk.existsDir (L + 1) = true → st.disk.existsDir L = true
  entries : ∀ (L : Nat) (c : Cache) (s : SummaryOfSSTable), st.diskTableCache[L]? = some c → s ∈ c →
    s.layer = L ∧ (L, s.serialNum) ∉ pending ∧
      ∃ bytes kvs, st.disk.readFile L s.serialNum = some bytes ∧ IsRun env bytes kvs ∧
        s.minKey = firstKey kvs ∧ s.maxKey = lastKey kvs
  files : ∀ L n bytes, ((L, n), bytes) ∈ st.disk.files →
    st.disk.existsDir L = true ∧ (∃ a, st.availableNum[L]? = some a ∧ n < a) ∧
      ((L, n) ∈ pending ∨
        ∃ (c : Cache) (s : SummaryOfSSTable),
          st.diskTableCache[L]? = some c ∧ s ∈ c ∧ s.serialNum = n)
  waiting : ∀ p ∈ pending, ∃ bytes, (p, bytes) ∈ st.disk.files
  serials : ∀ (L : Nat) (c : Cache), st.diskTableCache[L]? = some c → (c.map (fun s => s.serialNum)).Nodup
  apart : ∀ (L : Nat) (c : Cache) (a b : SummaryOfSSTable), 0 < L → st.diskTableCache[L]? = some c → a ∈ c → b ∈ c →
    a.serialNum ≠ b.serialNum → a.apart b

/-- The state of an engine between two calls: tidy with no file pending, and
the log is absent when the memtable is empty. -/
def KVStore.Consistent (env : Env) (st : KVStore) : Prop :=
  KVStore.Tidy env st [] ∧ (st.memTable.nodeNum = 0 → st.disk.wal = none)

/-- The key of the call, if it has one, is a user key. -/
def Call.onUserKey : Call → Prop
  | .put key _ => UserKey key
  | .get key => UserKey key
  | .del key => UserKey key
  | .reopen => True

/-- The engine states reached from an empty data directory by calls of `put`,
`get` and `del` on user keys and by closing and opening the engine. -/
def KVStore.Reachable (env : Env) (st : KVStore) : Prop :=
  ∃ calls : List Call, (∀ c ∈ calls, c.onUserKey) ∧ KVStore.after env calls = some st

/-- Between `st` and `st1` the memtable, the log and the time stamp counter are
the same, the caches and serial counters of every level but `T` are the same,
and no file and no level directory has gone. -/
def KVStore.SameBut (T : Nat) (st st1 : KVStore) : Prop :=
  st1.memTable = st.memTable ∧ st1.disk.wal = st.disk.wal ∧
    st1.curTimeStamp = st.curTimeStamp ∧
    (∀ j, j ≠ T → st1.diskTableCache[j]? = st.diskTableCache[j]?) ∧
    (∀ j, j ≠ T → st1.availableNum[j]? = st.availableNum[j]?) ∧
    (∀ f, f ∈ st.disk.files → f ∈ st1.disk.files) ∧
    (∀ K, st.disk.existsDir K = true → st1.disk.existsDir K = true)

/-- The loop of `mergeLayer` drops the record: the level is the bottom level
and the value is the tombstone. -/
def dropped (bottom : Bool) (r : Record) : Bool := bottom && decide (r.2.2.2 = DELETED)

/-- The state of an engine inside the loop of `mergeLayer` for the level `L`.
The engine is tidy, the merge table holds `cells`, whose keys are below `B`
and whose pairs are among the pairs `P` of the merge, the cache of level
`L + 1` holds the summaries `news` that the loop has added in front of the
summaries `c0` it started from, every new summary ends below `B` and below the
keys of the merge table and belongs to a run file whose pairs are among `P`,
and every pair of `done` is held by the merge table or by the file of a new
summary. -/
structure KVStore.Merging (env : Env) (st : KVStore) (pending : List (Nat × Nat)) (L : Nat)
    (P : Key × Value → Prop) (B : Nat) (cells : List Cell) (news c0 : Cache)
    (done : List (Key × Value)) : Prop where
  tidy : KVStore.Tidy env st pending
  table : WellFormed st.mergeTable cells
  cache : st.diskTableCache[L + 1]? = some (news ++ c0)
  below : ∀ cell ∈ cells, cell.key < B ∧ P (cell.key, cell.value)
  runs : ∀ s ∈ news, s.maxKey < B ∧ (∀ cell ∈ cells, s.maxKey < cell.key) ∧
    ∃ bytes kvs, st.disk.readFile (L + 1) s.serialNum = some bytes ∧ IsRun env bytes kvs ∧
      ∀ kv ∈ kvs, P kv
  held : ∀ kv ∈ done, kv ∈ pairsOf cells ∨
    ∃ s ∈ news, ∃ bytes kvs, st.disk.readFile (L + 1) s.serialNum = some bytes ∧
      IsRun env bytes kvs ∧ kv ∈ kvs

/-- The offset `curLayerNeedScanStart` from which `mergeLayer` takes the runs
of the level. -/
def KVStore.scanStart (L : Nat) : Nat :=
  if L > 0 then KVStore.MaxSSTFileNumberInLayer L else 0

/-- The test of `SSTNeedMergedNextLayer` for a run of the next level that has
no key in `[mn, mx]`. -/
def outside (mn mx : Key) (s : SummaryOfSSTable) : Bool :=
  decide (mx < s.minKey ∨ s.maxKey < mn)

/-- The state of an engine while `readSSTDataToCache` loads the level
directories of the disk of the tidy engine `st0`, before it looks at level `i`:
the caches from level `i` on are empty, every summary loaded has the level,
the serial and the key range of a summary of `st0`, and every file below level
`i` has a summary and a serial below the counter of its level. -/
structure KVStore.Loaded (st0 : KVStore) (i : Nat) (st : KVStore) : Prop where
  disk : st.disk = st0.disk
  mem : WellFormed st.memTable []
  merge : ∃ cells, WellFormed st.mergeTable cells
  caches_len : st.diskTableCache.length = LSM_MAX_LAYER
  avail_len : st.availableNum.length = LSM_MAX_LAYER
  high : ∀ j, i ≤ j → j < LSM_MAX_LAYER → st.diskTableCache[j]? = some []
  entries : ∀ (L : Nat) (c : Cache) (s : SummaryOfSSTable), st.diskTableCache[L]? = some c →
    s ∈ c → s.layer = L ∧ ∃ (c0 : Cache) (s0 : SummaryOfSSTable),
      st0.diskTableCache[L]? = some c0 ∧ s0 ∈ c0 ∧ s0.serialNum = s.serialNum ∧
        s.minKey = s0.minKey ∧ s.maxKey = s0.maxKey
  files : ∀ L n bytes, ((L, n), bytes) ∈ st0.disk.files → L < i →
    (∃ a, st.availableNum[L]? = some a ∧ n < a) ∧
      ∃ (c : Cache) (s : SummaryOfSSTable),
        st.diskTableCache[L]? = some c ∧ s ∈ c ∧ s.serialNum = n
  serials : ∀ (L : Nat) (c : Cache), st.diskTableCache[L]? = some c →
    (c.map (fun s => s.serialNum)).Nodup

/-- Twelve calls that leave two runs on level 1: three closes fill level 0
with the keys 1, 2 and 3, the third compacts them into a run of level 1, and
three more closes do the same with the keys 7, 8 and 9. -/
def twoLevelCalls : List Call :=
  [.put 1 [97], .reopen, .put 2 [98], .reopen, .put 3 [99], .reopen, .put 7 [103], .reopen,
    .put 8 [104], .reopen, .put 9 [105], .reopen]

/-- Calls that leave two runs on level 0, the older one holding the tombstone
of key 9, and the pair of key 3 in the memtable. -/
def twoRunCalls : List Call :=
  [.put 9 [122], .del 9, .reopen, .put 2 [98], .reopen, .put 3 [99]]

/-- The engine after `twoRunCalls`. -/
def twoRunEngine : KVStore :=
  (KVStore.after Env.sample twoRunCalls).getD (KVStore.fresh Disk.empty)

/-- The engine `twoRunEngine` after `mergeLayer(0)`. -/
def mergedEngine : KVStore :=
  (KVStore.mergeLayer Env.sample twoRunEngine 0).getD twoRunEngine

/-- The calls of `twoRunCalls`, a close that compacts level 0 into level 1,
`del(3)` and two more runs on level 0, with the pair of key 5 in the memtable:
the next close compacts level 0 into level 1 again. -/
def tombstoneCalls : List Call :=
  [.put 9 [122], .del 9, .reopen, .put 2 [98], .reopen, .put 3 [99], .reopen, .del 3, .reopen,
    .put 4 [100], .reopen, .put 5 [101]]

/-- The summary `SummaryOfSSTable(st, 0, 1, 1)` of the table built from the
pairs `{1: "a", 3: "c"}`: the front entry of `twoRuns`. -/
def frontRun : SummaryOfSSTable :=
  let st := SSTable.ofPairs Env.sample [(1, [97]), (3, [99])]
  { layer := 0, serialNum := 1, timeStamp := 1, minKey := st.minKey, maxKey := st.maxKey,
    kvPairNum := st.kvPairNum, bloom := st.bloom,
    keyOffset := pairOffsets st.kvdata st.valueOffset }

/-- The summary `SummaryOfSSTable(st, 0, 0, 0)` of the table built from the
pair `{2: "x"}`: the back entry of `twoRuns`. -/
def backRun : SummaryOfSSTable :=
  let st := SSTable.ofPairs Env.sample [(2, [120])]
  { layer := 0, serialNum := 0, timeStamp := 0, minKey := st.minKey, maxKey := st.maxKey,
    kvPairNum := st.kvPairNum, bloom := st.bloom,
    keyOffset := pairOffsets st.kvdata st.valueOffset }

/-- The `(layer, serialNum)` pairs of the summaries of the level caches are the
names of the run files on the disk. -/
def KVStore.cachesMatchFiles (st : KVStore) : Prop :=
  ∀ (L n : Nat),
    (∃ (j : Nat) (c : Cache) (s : SummaryOfSSTable),
      st.diskTableCache[j]? = some c ∧ s ∈ c ∧ s.layer = L ∧ s.serialNum = n) ↔
    (∃ bytes, ((L, n), bytes) ∈ st.disk.files)

/-- The first part of the flush of the memtable, up to the call of
`compaction()`: the table is built, its summary inserted into the cache of
level 0, the file written, `availableNum[0]` and `curTimeStamp` advanced. -/
def KVStore.flushWrite (env : Env) (st : KVStore) : Option KVStore :=
  match SSTable.ofSkipList env st.memTable, st.diskTableCache[0]?, st.availableNum[0]? with
  | some sst, some c, some serial =>
    match Cache.insertTable c sst 0 serial st.curTimeStamp with
    | none => none
    | some c1 =>
      match setAt st.diskTableCache 0 c1, setAt st.availableNum 0 (serial + 1) with
      | some caches, some avail =>
        some { st with
          diskTableCache := caches,
          disk := (st.disk.ensureDir 0).writeFile 0 serial (sst.writeToFile st.curTimeStamp),
          availableNum := avail,
          curTimeStamp := st.curTimeStamp + 1 }
      | _, _ => none
  | _, _, _ => none

/-- The part of `mergeLayer(curLayer)` before the loop over `resultOfMerge`:
the state with the selected summaries taken out of the caches and `mergeTable`
cleared, the files selected, `curMaxTimestamp` and `resultOfMerge`. -/
def KVStore.mergeStart (st : KVStore) (curLayer : Nat) :
    Option (KVStore × List (Nat × Nat) × Nat × List Record) :=
  let curLayerNeedScanStart :=
    if curLayer > 0 then KVStore.MaxSSTFileNumberInLayer curLayer else 0
  match KVStore.scanLayerSSTByOffset st curLayer curLayerNeedScanStart,
      st.diskTableCache[curLayer]? with
  | some (files0, minKey, maxKey, ts0), some c =>
    match setAt st.diskTableCache curLayer (c.take curLayerNeedScanStart) with
    | none => none
    | some caches =>
      match KVStore.SSTNeedMergedNextLayer { st with diskTableCache := caches } curLayer
          minKey maxKey with
      | none => none
      | some (st1, files1, tmpMaxTimestamp) =>
        match KVStore.mergeAllFiles st1.disk (files0 ++ files1) [], st1.mergeTable.clear with
        | some resultOfMerge, some cleared =>
          some ({ st1 with mergeTable := cleared }, files0 ++ files1,
            if ts0 > tmpMaxTimestamp then ts0 else tmpMaxTimestamp, resultOfMerge)
        | _, _ => none
  | _, _ => none

/-- Calls that leave on level 0 the run `(0, 0)` with the pair `(5, "a")` and
the run `(0, 1)` with the key 1 under a value of 16376 bytes, and the pair
`(7, "c")` in the memtable. -/
def bigFirstCalls : List Call :=
  [.put 5 [97], .put 1 (pad 16376), .reopen, .put 7 [99]]

/-- The engine after `bigFirstCalls`. -/
def bigFirstEngine : KVStore :=
  (KVStore.after Env.sample bigFirstCalls).getD (KVStore.fresh Disk.empty)

/-- The engine `bigFirstEngine` in the flush of its close, when `compaction()` is called. -/
def bigFirstWritten : KVStore :=
  (KVStore.flushWrite Env.sample bigFirstEngine).getD bigFirstEngine

/-- The state and the merged records of `mergeLayer(0)` on `bigFirstWritten`
when the loop over the records starts. -/
def bigFirstStart : KVStore × List (Nat × Nat) × Nat × List Record :=
  (KVStore.mergeStart bigFirstWritten 0).getD (bigFirstWritten, [], 0, [])

/-! ## Bytes: encoding and decoding -/

theorem toNat_ofNat (x : Nat) : (UInt8.ofNat x).toNat = x % 256 := by
  simp [UInt8.ofNat, UInt8.toNat, Fin.ofNat]

@[simp] theorem bytesLE_length (n x : Nat) : (bytesLE n x).length = n := by
  induction n generalizing x with
  | zero => rfl
  | succ n ih => simp [bytesLE, ih]

@[simp] theorem u64le_length (x : Nat) : (u64le x).length = 8 := by
  simp [u64le]

theorem fromBytesLE_bytesLE (n x : Nat) : fromBytesLE (bytesLE n x) = x % 256 ^ n := by
  induction n generalizing x with
  | zero => simp [bytesLE, fromBytesLE, Nat.mod_one]
  | succ n ih =>
    simp only [bytesLE, fromBytesLE, ih, toNat_ofNat]
    rw [pow_succ, Nat.mul_comm (256 ^ n) 256, Nat.mod_mul]

theorem readN_append (a b : List UInt8) (n : Nat) (h : a.length = n) :
    readN n (a ++ b) = some (a, b) := by
  subst h
  simp [readN]

theorem readU64_u64le (x : Nat) (s : List UInt8) :
    readU64 (u64le x ++ s) = some (x % WORD, s) := by
  unfold readU64
  rw [readN_append _ _ 8 (by simp)]
  simp [u64le, fromBytesLE_bytesLE, WORD]

theorem readU64_u64le_lt (x : Nat) (s : List UInt8) (h : x < WORD) :
    readU64 (u64le x ++ s) = some (x, s) := by
  rw [readU64_u64le, Nat.mod_eq_of_lt h]

theorem sub64_add64 (o n : Nat) : sub64 (add64 o n) o = n % WORD := by
  simp only [sub64, add64, WORD]
  omega

theorem add64_lt (a b : Nat) : add64 a b < WORD := by
  unfold add64
  exact Nat.mod_lt _ (by simp [WORD])

theorem readString_append (v s : List UInt8) (m : Nat) (h : m ≤ v.length) :
    (readString m (v ++ s)).1 = v.take m := by
  simp [readString, List.take_append_of_le_length h, List.length_take, h]

theorem readString_exact (v s : List UInt8) : readString v.length (v ++ s) = (v, s) := by
  simp [readString]

/-! ## The table built by the constructor -/

theorem index_eq (env : Env) (kvs : List (Key × Value)) (o bloom : Nat) :
    (SSTable.index env kvs o o bloom).1 = offsetsFrom o kvs ∧
    (SSTable.index env kvs o o bloom).2.1 = totalFrom o kvs := by
  induction kvs generalizing o bloom with
  | nil => simp [SSTable.index, offsetsFrom, totalFrom]
  | cons kv rest ih =>
    obtain ⟨k, v⟩ := kv
    simp only [SSTable.index, offsetsFrom, totalFrom]
    exact ⟨by rw [(ih _ _).1], (ih _ _).2⟩

@[simp] theorem offsetsFrom_length (o : Nat) (kvs : List (Key × Value)) :
    (offsetsFrom o kvs).length = kvs.length := by
  induction kvs generalizing o with
  | nil => rfl
  | cons kv rest ih => obtain ⟨k, v⟩ := kv; simp [offsetsFrom, ih]

theorem offsetsFrom_lt (o : Nat) (kvs : List (Key × Value)) (ho : o < WORD) :
    ∀ x ∈ offsetsFrom o kvs, x < WORD := by
  induction kvs generalizing o with
  | nil => simp [offsetsFrom]
  | cons kv rest ih =>
    obtain ⟨k, v⟩ := kv
    intro x hx
    simp only [offsetsFrom, List.mem_cons] at hx
    rcases hx with rfl | hx
    · exact ho
    · exact ih _ (add64_lt _ _) x hx

/-! ## Reading back what `writeToFile` wrote -/

theorem readDirectory_dirBytes (kvs : List (Key × Value)) (offs : List Nat) (s : List UInt8)
    (hlen : kvs.length = offs.length) (hk : ∀ kv ∈ kvs, kv.1 < WORD)
    (ho : ∀ o ∈ offs, o < WORD) :
    readDirectory kvs.length (dirBytes kvs offs ++ s) = some (pairOffsets kvs offs, s) := by
  induction kvs generalizing offs with
  | nil =>
    cases offs with
    | nil => simp [readDirectory, dirBytes, pairOffsets]
    | cons o os => simp at hlen
  | cons kv rest ih =>
    obtain ⟨k, v⟩ := kv
    cases offs with
    | nil => simp at hlen
    | cons o os =>
      have hk0 : k < WORD := hk (k, v) (by simp)
      have ho0 : o < WORD := ho o (by simp)
      have hrest := ih os (by simpa using hlen)
        (fun kv h => hk kv (List.mem_cons_of_mem _ h))
        (fun x h => ho x (List.mem_cons_of_mem _ h))
      simp only [List.length_cons, readDirectory, dirBytes, pairOffsets, List.append_assoc]
      rw [readU64_u64le_lt _ _ hk0]
      simp only
      rw [readU64_u64le_lt _ _ ho0]
      simp only
      rw [hrest]

theorem readHeader_headerBytes (t : SSTable) (timeStamp : Nat) (s : List UInt8) :
    readHeader (t.headerBytes timeStamp ++ s) = some (t.headerOf timeStamp, s) := by
  simp only [SSTable.headerBytes, readHeader, List.append_assoc, readU64_u64le]
  rw [readN_append _ _ BLOOM_BYTES (by simp)]
  simp [SSTable.headerOf, fromBytesLE_bytesLE]

theorem truncLast_eq_self (kvs : List (Key × Value))
    (h : ∀ kv ∈ kvs.getLast?, kv.2.length < 2 ^ 32) : truncLast kvs = kvs := by
  induction kvs with
  | nil => rfl
  | cons kv rest ih =>
    cases rest with
    | nil =>
      obtain ⟨k, v⟩ := kv
      have hlt : v.length < 2 ^ 32 := h (k, v) (by simp)
      simp only [truncLast, Nat.mod_eq_of_lt hlt, List.take_length]
    | cons kv1 rest1 =>
      simp only [truncLast]
      rw [ih (by simpa [List.getLast?_cons_cons] using h)]

theorem readValues_valueBytes (layer serialNum : Nat) (kvs : List (Key × Value)) (o : Nat)
    (s : List UInt8) (hv : ∀ kv ∈ kvs, kv.2.length < WORD) :
    readValues layer serialNum (totalFrom o kvs) (pairOffsets kvs (offsetsFrom o kvs))
        (valueBytes kvs ++ s)
      = (truncLast kvs).map (fun kv => (layer, serialNum, kv.1, kv.2)) := by
  induction kvs generalizing o with
  | nil => simp [readValues, pairOffsets, offsetsFrom, truncLast]
  | cons kv rest ih =>
    obtain ⟨k, v⟩ := kv
    have hv0 : v.length < WORD := hv (k, v) (by simp)
    cases rest with
    | nil =>
      simp only [pairOffsets, offsetsFrom, totalFrom, readValues, truncLast, valueBytes,
        List.map_cons, List.map_nil, List.append_nil, sub64_add64, Nat.mod_eq_of_lt hv0]
      rw [readString_append _ _ _ (Nat.mod_le _ _)]
    | cons kv1 rest1 =>
      obtain ⟨k1, v1⟩ := kv1
      have hrest := ih (add64 o v.length) (fun kv h => hv kv (List.mem_cons_of_mem _ h))
      simp only [pairOffsets, offsetsFrom, totalFrom, readValues, truncLast, valueBytes,
        List.map_cons, List.append_assoc, sub64_add64, Nat.mod_eq_of_lt hv0,
        readString_exact] at hrest ⊢
      rw [hrest]

/-! ## Well-formed skip lists and the table built from them -/

theorem firstKey_le (kvs : List (Key × Value)) (hs : kvs.Pairwise (fun a b => a.1 < b.1)) :
    ∀ kv ∈ kvs, firstKey kvs ≤ kv.1 := by
  intro kv hkv
  cases kvs with
  | nil => simp at hkv
  | cons kv0 rest =>
    simp only [firstKey]
    rcases List.mem_cons.1 hkv with rfl | h
    · exact Nat.le_refl _
    · exact Nat.le_of_lt ((List.pairwise_cons.1 hs).1 kv h)

theorem lastKey_mem (kv0 : Key × Value) (rest : List (Key × Value)) :
    ∃ kv ∈ kv0 :: rest, lastKey (kv0 :: rest) = kv.1 := by
  induction rest generalizing kv0 with
  | nil => exact ⟨kv0, by simp, rfl⟩
  | cons kv1 rest1 ih =>
    obtain ⟨kv, hmem, heq⟩ := ih kv1
    exact ⟨kv, List.mem_cons_of_mem _ hmem, by simpa [lastKey] using heq⟩

theorem le_lastKey (kvs : List (Key × Value)) (hs : kvs.Pairwise (fun a b => a.1 < b.1)) :
    ∀ kv ∈ kvs, kv.1 ≤ lastKey kvs := by
  induction kvs with
  | nil => intro kv h; simp at h
  | cons kv0 rest ih =>
    intro kv hkv
    cases rest with
    | nil =>
      simp only [List.mem_singleton] at hkv
      subst hkv
      exact Nat.le_refl _
    | cons kv1 rest1 =>
      have hs1 := (List.pairwise_cons.1 hs)
      have ih1 := ih hs1.2
      simp only [lastKey]
      rcases List.mem_cons.1 hkv with rfl | h
      · exact Nat.le_trans (Nat.le_of_lt (hs1.1 kv1 (by simp))) (ih1 kv1 (by simp))
      · exact ih1 kv h

/-- The collecting loop gives the same pairs for every bound that is not below a key collected. -/
theorem collect_bound (heap : Heap) (tail endKey : Nat) (hE : endKey ≤ KEY_MAX) :
    ∀ (fuel p : Nat) (kvs : List (Key × Value)),
      SkipList.collect heap tail KEY_MAX fuel p = some kvs → (∀ kv ∈ kvs, kv.1 ≤ endKey) →
      SkipList.collect heap tail endKey fuel p = some kvs := by
  intro fuel
  induction fuel with
  | zero => intro p kvs h; simp [SkipList.collect] at h
  | succ fuel ih =>
    intro p kvs h hle
    simp only [SkipList.collect] at h ⊢
    cases hd : deref heap p with
    | none => simp [hd] at h
    | some c =>
      simp only [hd] at h ⊢
      by_cases hc : c.key_ ≤ KEY_MAX ∧ p ≠ tail
      · rw [if_pos hc] at h
        cases hf : c.forward_[0]? with
        | none => simp [hf] at h
        | some next =>
          simp only [hf] at h ⊢
          cases hr : SkipList.collect heap tail KEY_MAX fuel next with
          | none => simp [hr] at h
          | some rest =>
            simp only [hr, Option.some.injEq] at h
            subst h
            have hk : c.key_ ≤ endKey := hle (c.key_, c.value_) (by simp)
            have hrest := ih next rest hr (fun kv hkv => hle kv (List.mem_cons_of_mem _ hkv))
            rw [if_pos ⟨hk, hc.2⟩, hrest]
      · rw [if_neg hc] at h
        have hc2 : ¬ (c.key_ ≤ endKey ∧ p ≠ tail) := by
          intro hcon
          exact hc ⟨Nat.le_trans hcon.1 hE, hcon.2⟩
        rw [if_neg hc2]
        exact h

/-- Along the pairs collected from `p`, `walk` reaches the node of the last pair. -/
theorem walk_last (heap : Heap) (tail endKey : Nat) :
    ∀ (fuel p : Nat) (kv : Key × Value) (rest : List (Key × Value)),
      SkipList.collect heap tail endKey fuel p = some (kv :: rest) →
      ∃ last n, SkipList.walk heap rest.length p = some last ∧ deref heap last = some n ∧
        n.key_ = lastKey (kv :: rest) := by
  intro fuel
  induction fuel with
  | zero => intro p kv rest h; simp [SkipList.collect] at h
  | succ fuel ih =>
    intro p kv rest h
    simp only [SkipList.collect] at h
    cases hd : deref heap p with
    | none => simp [hd] at h
    | some c =>
      simp only [hd] at h
      by_cases hc : c.key_ ≤ endKey ∧ p ≠ tail
      · rw [if_pos hc] at h
        cases hf : c.forward_[0]? with
        | none => simp [hf] at h
        | some next =>
          simp only [hf] at h
          cases hr : SkipList.collect heap tail endKey fuel next with
          | none => simp [hr] at h
          | some rest1 =>
            simp only [hr, Option.some.injEq, List.cons.injEq] at h
            obtain ⟨hkv, hrest⟩ := h
            subst hkv hrest
            cases rest1 with
            | nil => exact ⟨p, c, by simp [SkipList.walk], hd, rfl⟩
            | cons kv1 rest2 =>
              obtain ⟨last, n, hw, hdl, hkey⟩ := ih next kv1 rest2 hr
              refine ⟨last, n, ?_, hdl, ?_⟩
              · simp [SkipList.walk, fwd, hd, hf, hw]
              · simpa [lastKey] using hkey
      · rw [if_neg hc] at h
        simp at h

/-- The node at which the collecting loop starts carries the first pair. -/
theorem collect_first (heap : Heap) (tail endKey fuel p : Nat) (kv : Key × Value)
    (rest : List (Key × Value))
    (h : SkipList.collect heap tail endKey fuel p = some (kv :: rest)) :
    ∃ n, deref heap p = some n ∧ n.key_ = kv.1 := by
  cases fuel with
  | zero => simp [SkipList.collect] at h
  | succ fuel =>
    simp only [SkipList.collect] at h
    cases hd : deref heap p with
    | none => simp [hd] at h
    | some c =>
      simp only [hd] at h
      by_cases hc : c.key_ ≤ endKey ∧ p ≠ tail
      · rw [if_pos hc] at h
        cases hf : c.forward_[0]? with
        | none => simp [hf] at h
        | some next =>
          simp only [hf] at h
          cases hr : SkipList.collect heap tail endKey fuel next with
          | none => simp [hr] at h
          | some rest1 =>
            simp only [hr, Option.some.injEq, List.cons.injEq] at h
            exact ⟨c, rfl, by rw [← h.1]⟩
      · rw [if_neg hc] at h
        simp at h

/-- A descent for a key that the header's successor on every level is not
below stays at the header. -/
theorem descendScan_header (li : SkipList) (key : Key)
    (hl : ∀ i, i ≤ li.curLevel_ → headerAbove li key i = true) :
    ∀ i, i ≤ li.curLevel_ →
      SkipList.descendScan li.heap key li.fuelOf i li.header_ = some li.header_ := by
  have hadv : ∀ i, i ≤ li.curLevel_ →
      SkipList.advance li.heap i key li.fuelOf li.header_ = some li.header_ := by
    intro i hi
    have h := hl i hi
    unfold headerAbove at h
    cases hq : fwd li.heap li.header_ i with
    | none => simp [hq] at h
    | some q =>
      simp only [hq] at h
      cases hn : deref li.heap q with
      | none => simp [hn] at h
      | some n =>
        simp only [hn, decide_eq_true_eq] at h
        simp [SkipList.fuelOf, SkipList.advance, hq, hn, Nat.not_lt.2 h]
  intro i
  induction i with
  | zero => intro hi; simpa [SkipList.descendScan] using hadv 0 hi
  | succ i ih =>
    intro hi
    simp only [SkipList.descendScan, hadv (i + 1) hi]
    exact ih (Nat.le_of_succ_le hi)

theorem SSTable.ofSkipList_eq (env : Env) (li : SkipList) (kvs : List (Key × Value))
    (hr : Represents li kvs) (hne : kvs ≠ []) :
    SSTable.ofSkipList env li = some (SSTable.ofPairs env kvs) := by
  obtain ⟨kv0, rest, rfl⟩ := List.exists_cons_of_ne_nil hne
  have hp := hr.pairs_eq
  unfold SkipList.pairs at hp
  cases hf : fwd li.heap li.header_ 0 with
  | none => simp [hf] at hp
  | some first =>
    simp only [hf] at hp
    obtain ⟨c, hdc, hck⟩ := collect_first _ _ _ _ _ _ _ hp
    obtain ⟨last, n, hw, hdl, hkey⟩ := walk_last _ _ _ _ _ _ _ hp
    have hcount : li.nodeCount_ = rest.length + 1 := by simpa using hr.count_eq
    have hmin : li.getMinKey = some (true, kv0.1) := by
      simp [SkipList.getMinKey, hcount, hf, hdc, hck]
    have hmax : li.getMaxKey = some (true, lastKey (kv0 :: rest)) := by
      simp [SkipList.getMaxKey, hcount, SkipList.walk, hf, hw, hdl, hkey]
    have hlast_le : lastKey (kv0 :: rest) ≤ KEY_MAX := by
      obtain ⟨kv, hmem, heq⟩ := lastKey_mem kv0 rest
      rw [heq]
      exact Nat.le_of_lt (hr.user_keys kv hmem).2
    have hfirst_le : kv0.1 ≤ lastKey (kv0 :: rest) := le_lastKey _ hr.sorted kv0 (by simp)
    have hdesc := descendScan_header li kv0.1 (by simpa [firstKey] using hr.header_levels)
      li.curLevel_ (Nat.le_refl _)
    have hfirst_ne : first ≠ 0 := by
      intro h0
      rw [h0, hr.null_free] at hdc
      exact Option.noConfusion hdc
    have hscan : li.scan kv0.1 (lastKey (kv0 :: rest)) = some (kv0 :: rest) := by
      simp only [SkipList.scan, hfirst_le, if_true, hdesc, hf, hfirst_ne, if_false]
      exact collect_bound _ _ _ hlast_le _ _ _ hp (le_lastKey _ hr.sorted)
    have hidx := index_eq env (kv0 :: rest) 0 0
    simp only [SSTable.ofSkipList, hmin, hmax, hscan, and_self, if_true, SSTable.ofPairs,
      SkipList.nodeNum, hcount, firstKey, List.length_cons, hidx.1, hidx.2]

/-! ## Sizes and positions in the file -/

theorem valueBytes_append (pre post : List (Key × Value)) :
    valueBytes (pre ++ post) = valueBytes pre ++ valueBytes post := by
  induction pre with
  | nil => rfl
  | cons kv rest ih => obtain ⟨k, v⟩ := kv; simp [valueBytes, ih]

theorem valueBytes_eq_flatten (kvs : List (Key × Value)) :
    valueBytes kvs = (kvs.map Prod.snd).flatten := by
  induction kvs with
  | nil => rfl
  | cons kv rest ih => obtain ⟨k, v⟩ := kv; simp [valueBytes, ih]

theorem dirBytes_eq_flatMap (kvs : List (Key × Value)) (offs : List Nat) :
    dirBytes kvs offs
      = ((kvs.map Prod.fst).zip offs).flatMap (fun e => u64le e.1 ++ u64le e.2) := by
  induction kvs generalizing offs with
  | nil => simp [dirBytes]
  | cons kv rest ih =>
    obtain ⟨k, v⟩ := kv
    cases offs with
    | nil => simp [dirBytes]
    | cons o os => simp [dirBytes, ih]

theorem dirBytes_length (kvs : List (Key × Value)) (offs : List Nat)
    (h : kvs.length = offs.length) : (dirBytes kvs offs).length = 16 * kvs.length := by
  induction kvs generalizing offs with
  | nil => simp [dirBytes]
  | cons kv rest ih =>
    obtain ⟨k, v⟩ := kv
    cases offs with
    | nil => simp at h
    | cons o os =>
      have := ih os (by simpa using h)
      simp only [dirBytes, List.length_append, u64le_length, this, List.length_cons]
      omega

theorem headerBytes_length (t : SSTable) (timeStamp : Nat) :
    (t.headerBytes timeStamp).length = 40 + 1024 := by
  simp [SSTable.headerBytes, BLOOM_BYTES, BLOOM_SIZE, KB]

theorem writeToFile_length (env : Env) (kvs : List (Key × Value)) (timeStamp : Nat) :
    ((SSTable.ofPairs env kvs).writeToFile timeStamp).length
      = 40 + 1024 + 16 * kvs.length + (valueBytes kvs).length := by
  simp only [SSTable.writeToFile, List.length_append, headerBytes_length]
  rw [dirBytes_length _ _ (by simp [SSTable.ofPairs])]
  simp [SSTable.ofPairs]

theorem totalFrom_eq (o : Nat) (kvs : List (Key × Value))
    (h : o + (valueBytes kvs).length < WORD) : totalFrom o kvs = o + (valueBytes kvs).length := by
  induction kvs generalizing o with
  | nil => simp [totalFrom, valueBytes]
  | cons kv rest ih =>
    obtain ⟨k, v⟩ := kv
    simp only [valueBytes, List.length_append] at h
    have h1 : add64 o v.length = o + v.length := by
      unfold add64
      exact Nat.mod_eq_of_lt (by omega)
    simp only [totalFrom, valueBytes, List.length_append, h1]
    rw [ih _ (by omega)]
    omega

theorem offsetsFrom_append (o : Nat) (pre post : List (Key × Value)) :
    offsetsFrom o (pre ++ post) = offsetsFrom o pre ++ offsetsFrom (totalFrom o pre) post := by
  induction pre generalizing o with
  | nil => rfl
  | cons kv rest ih => obtain ⟨k, v⟩ := kv; simp [offsetsFrom, totalFrom, ih]

/-- Without wrap-around, the offset recorded for a pair is the number of value
bytes before it. -/
theorem offsetsFrom_getElem? (kvs : List (Key × Value)) (i : Nat) (hi : i < kvs.length)
    (h : (valueBytes kvs).length < WORD) :
    (offsetsFrom 0 kvs)[i]? = some (valueBytes (kvs.take i)).length := by
  have hsplit : kvs = kvs.take i ++ kvs.drop i := (List.take_append_drop i kvs).symm
  have hlen : (kvs.take i).length = i := by simp [Nat.le_of_lt hi]
  have hpre : (valueBytes (kvs.take i)).length ≤ (valueBytes kvs).length := by
    conv_rhs => rw [hsplit, valueBytes_append]
    simp
  rw [List.drop_eq_getElem_cons hi] at hsplit
  conv_lhs => rw [hsplit, offsetsFrom_append]
  rw [List.getElem?_append_right (by simp [hlen])]
  simp only [offsetsFrom_length, hlen, Nat.sub_self]
  rw [totalFrom_eq 0 _ (by omega)]
  obtain ⟨k, v⟩ := kvs[i]
  simp [offsetsFrom]

theorem valueBytes_drop (kvs : List (Key × Value)) (i : Nat) (k : Key) (v : Value)
    (h : kvs[i]? = some (k, v)) :
    (valueBytes kvs).drop (valueBytes (kvs.take i)).length
      = v ++ valueBytes (kvs.drop (i + 1)) := by
  obtain ⟨hi, hkv⟩ := List.getElem?_eq_some.1 h
  have hsplit : kvs = kvs.take i ++ ((k, v) :: kvs.drop (i + 1)) := by
    rw [← hkv, List.getElem_cons_drop, List.take_append_drop]
  have hb : valueBytes kvs
      = valueBytes (kvs.take i) ++ (v ++ valueBytes (kvs.drop (i + 1))) := by
    conv_lhs => rw [hsplit, valueBytes_append]
    simp [valueBytes]
  rw [hb, List.drop_left]

/-! ## Concrete inputs -/

theorem sampleList_represents : Represents sampleList samplePairs :=
  ⟨by decide!, by decide!, by decide!, by decide!, by decide!, by decide!⟩

/-! ## The readers on a file written by `writeToFile` -/

theorem length_le_valueBytes (kvs : List (Key × Value)) :
    ∀ kv ∈ kvs, kv.2.length ≤ (valueBytes kvs).length := by
  induction kvs with
  | nil => intro kv h; simp at h
  | cons kv0 rest ih =>
    obtain ⟨k0, v0⟩ := kv0
    intro kv hkv
    simp only [valueBytes, List.length_append]
    rcases List.mem_cons.1 hkv with rfl | h
    · simp
    · exact Nat.le_trans (ih kv h) (Nat.le_add_left _ _)

/-- `filterSSTableFromFile` on the file of a table: every pair comes back, the
last value cut to its length modulo `2 ^ 32`. -/
theorem filterSSTableFromFile_writeToFile (env : Env) (kvs : List (Key × Value))
    (layer serialNum timeStamp : Nat) (hne : kvs ≠ []) (hk : ∀ kv ∈ kvs, kv.1 < WORD)
    (hsize : ((SSTable.ofPairs env kvs).writeToFile timeStamp).length < WORD) :
    filterSSTableFromFile layer serialNum ((SSTable.ofPairs env kvs).writeToFile timeStamp)
      = some ((truncLast kvs).map (fun kv => (layer, serialNum, kv.1, kv.2))) := by
  rw [writeToFile_length] at hsize
  have hn : kvs.length < WORD := by omega
  have hb : (valueBytes kvs).length < WORD := by omega
  have hpos : kvs.length ≠ 0 := fun h => hne (List.length_eq_zero.1 h)
  have hv : ∀ kv ∈ kvs, kv.2.length < WORD := fun kv h =>
    Nat.lt_of_le_of_lt (length_le_valueBytes kvs kv h) hb
  have htot : totalFrom 0 kvs = (valueBytes kvs).length := by
    rw [totalFrom_eq 0 kvs (by omega)]; omega
  have hdir := readDirectory_dirBytes kvs (offsetsFrom 0 kvs) (valueBytes kvs) (by simp) hk
    (offsetsFrom_lt 0 kvs (by simp [WORD]))
  have hvals := readValues_valueBytes layer serialNum kvs 0 [] hv
  rw [List.append_nil] at hvals
  simp only [filterSSTableFromFile, SSTable.writeToFile, List.append_assoc,
    readHeader_headerBytes, SSTable.headerOf, SSTable.ofPairs, Nat.mod_eq_of_lt hn, hpos,
    if_false, hdir, htot, Nat.mod_eq_of_lt hb]
  rw [← htot, hvals]

theorem user_key_lt_word (li : SkipList) (kvs : List (Key × Value)) (hr : Represents li kvs) :
    ∀ kv ∈ kvs, kv.1 < WORD := by
  intro kv h
  have h1 : kv.1 < KEY_MAX := (hr.user_keys kv h).2
  exact Nat.lt_of_lt_of_le h1 (by decide)

/-- C9. Layout of the file written by `writeToFile` for a table built from a
non-empty skip list of user keys: time stamp, `lenOfAllValues`, `minKey`,
`maxKey`, `kvPairNum` (eight little-endian bytes each), the `BLOOM_SIZE / 8 =
1024` bytes of the filter, one `(key, offset)` entry of sixteen bytes per pair
in ascending key order, then the values in the same order.  The file has
`40 + 1024 + 16 * n + lenOfAllValues` bytes, and the value of the `i`-th pair
starts at position `40 + 1024 + 16 * n + offset_i`. -/
theorem C9_writeToFile_layout (env : Env) (li : SkipList) (kvs : List (Key × Value))
    (t : SSTable) (timeStamp : Nat) (hr : Represents li kvs) (hne : kvs ≠ [])
    (ht : SSTable.ofSkipList env li = some t)
    (hsize : (t.writeToFile timeStamp).length < WORD) :
    t.writeToFile timeStamp
        = u64le timeStamp ++ u64le t.lenOfAllValues ++ u64le t.minKey ++ u64le t.maxKey
          ++ u64le t.kvPairNum ++ bytesLE (BLOOM_SIZE / 8) t.bloom
          ++ ((kvs.map Prod.fst).zip t.valueOffset).flatMap (fun e => u64le e.1 ++ u64le e.2)
          ++ (kvs.map Prod.snd).flatten
      ∧ BLOOM_SIZE / 8 = 1024
      ∧ t.kvPairNum = kvs.length
      ∧ t.valueOffset.length = kvs.length
      ∧ kvs.Pairwise (fun a b => a.1 < b.1)
      ∧ (t.writeToFile timeStamp).length = 40 + 1024 + 16 * kvs.length + t.lenOfAllValues
      ∧ ∀ (i : Nat) (k : Key) (v : Value) (off : Nat), kvs[i]? = some (k, v) → t.valueOffset[i]? = some off →
          ((t.writeToFile timeStamp).drop (40 + 1024 + 16 * kvs.length + off)).take v.length
            = v := by
  rw [SSTable.ofSkipList_eq env li kvs hr hne] at ht
  have ht' := Option.some.inj ht
  subst ht'
  have hlen := writeToFile_length env kvs timeStamp
  rw [hlen] at hsize
  have htot : totalFrom 0 kvs = (valueBytes kvs).length := by
    rw [totalFrom_eq 0 kvs (by omega)]; omega
  refine ⟨?_, by decide, rfl, by simp [SSTable.ofPairs], hr.sorted, ?_, ?_⟩
  · simp only [SSTable.writeToFile, SSTable.headerBytes, SSTable.ofPairs, BLOOM_BYTES,
      dirBytes_eq_flatMap, valueBytes_eq_flatten]
  · rw [hlen]
    simp only [SSTable.ofPairs, htot]
  · intro i k v off hkv hoff
    obtain ⟨hi, _⟩ := List.getElem?_eq_some.1 hkv
    have hoff' := offsetsFrom_getElem? kvs i hi (by omega)
    simp only [SSTable.ofPairs] at hoff
    rw [hoff'] at hoff
    have hoff'' := Option.some.inj hoff
    subst hoff''
    have hbase : 40 + 1024 + 16 * kvs.length + (valueBytes (kvs.take i)).length
        = ((SSTable.ofPairs env kvs).headerBytes timeStamp
            ++ dirBytes kvs (offsetsFrom 0 kvs)).length + (valueBytes (kvs.take i)).length := by
      rw [List.length_append, headerBytes_length, dirBytes_length _ _ (by simp)]
    rw [hbase]
    simp only [SSTable.writeToFile, SSTable.ofPairs]
    rw [List.drop_append, valueBytes_drop kvs i k v hkv]
    simp

/-- C9 at a concrete input: the table of the skip list holding
`(1, "a"), (2, "bc"), (3, "def")`, written with time stamp 7. -/
theorem C9_writeToFile_layout_witness :
    Represents sampleList samplePairs ∧ samplePairs ≠ [] ∧
    SSTable.ofSkipList Env.sample sampleList = some (SSTable.ofPairs Env.sample samplePairs) ∧
    ((SSTable.ofPairs Env.sample samplePairs).writeToFile 7).length < WORD ∧
    ((SSTable.ofPairs Env.sample samplePairs).writeToFile 7).length = 40 + 1024 + 16 * 3 + 6 :=
  have hr := sampleList_represents
  have hne : samplePairs ≠ [] := by decide
  have ht := SSTable.ofSkipList_eq Env.sample sampleList samplePairs hr hne
  have hsize : ((SSTable.ofPairs Env.sample samplePairs).writeToFile 7).length < WORD := by
    rw [writeToFile_length]; decide
  ⟨hr, hne, ht, hsize,
    (C9_writeToFile_layout Env.sample sampleList samplePairs _ 7 hr hne ht hsize).2.2.2.2.2.1⟩

/-- `filterSSTableFromFile` on the file of the table built from a skip list:
every pair comes back in key order, the last value cut to its length modulo
`2 ^ 32` (the `uint32_t valLen` of the "handle last value" block). -/
theorem filterSSTableFromFile_ofSkipList (env : Env) (li : SkipList)
    (kvs : List (Key × Value)) (t : SSTable) (layer serialNum timeStamp : Nat)
    (hr : Represents li kvs) (hne : kvs ≠ []) (ht : SSTable.ofSkipList env li = some t)
    (hsize : (t.writeToFile timeStamp).length < WORD) :
    filterSSTableFromFile layer serialNum (t.writeToFile timeStamp)
      = some ((truncLast kvs).map (fun kv => (layer, serialNum, kv.1, kv.2))) := by
  rw [SSTable.ofSkipList_eq env li kvs hr hne] at ht
  have ht' := Option.some.inj ht
  subst ht'
  exact filterSSTableFromFile_writeToFile env kvs layer serialNum timeStamp hne
    (user_key_lt_word li kvs hr) hsize

theorem bigValue_length : bigValue.length = 2 ^ 32 := by
  unfold bigValue
  exact List.length_replicate _ _

theorem insert_singleton (v : Value) :
    SkipList.insert Env.sample SkipList.empty 1 v = some (true, singleton v) := by
  simp [SkipList.insert, SkipList.empty, SkipList.descend, SkipList.advance, SkipList.fuelOf,
    SkipList.newUpdate, SkipList.setUpdate, fwd, deref, MAX_LEVEL, KEY_MAX, KEY_MIN, Node.new,
    SkipList.randomLevel, Random.Uniform, Env.sample, SkipList.raiseUpdate, SkipList.splice,
    setFwd, singleton, add64, WORD, SIZEOF_KEY, List.replicate]

theorem singleton_represents (v : Value) : Represents (singleton v) [(1, v)] := by
  refine ⟨?_, ?_, ?_, ?_, ?_, ?_⟩
  · simp [singleton, deref]
  · simp [SkipList.pairs, singleton, fwd, deref, SkipList.collect, SkipList.fuelOf, Node.new,
      KEY_MAX]
  · simp [singleton]
  · simp
  · simp [KEY_MIN, KEY_MAX]
  · intro i hi
    have hi' : i ≤ 14 := hi
    interval_cases i <;>
      simp [headerAbove, singleton, fwd, deref, firstKey, Node.new, KEY_MAX]

theorem bigFile_length :
    ((SSTable.ofPairs Env.sample [(1, bigValue)]).writeToFile 0).length
      = 40 + 1024 + 16 * 1 + 2 ^ 32 := by
  have h := writeToFile_length Env.sample [(1, bigValue)] 0
  have hv : (valueBytes [(1, bigValue)]).length = 2 ^ 32 := by
    simp only [valueBytes, List.append_nil, bigValue_length]
  rw [hv] at h
  exact h

theorem bigFile_size :
    ((SSTable.ofPairs Env.sample [(1, bigValue)]).writeToFile 0).length < WORD := by
  rw [bigFile_length]
  decide

theorem truncLast_bigValue : truncLast [((1 : Key), bigValue)] = [(1, [])] := by
  simp only [truncLast, bigValue_length, Nat.mod_self, List.take_zero]

theorem bigFile_filter :
    filterSSTableFromFile 0 0 ((SSTable.ofPairs Env.sample [(1, bigValue)]).writeToFile 0)
      = some [(0, 0, 1, [])] := by
  have hne : [((1 : Key), bigValue)] ≠ [] := List.cons_ne_nil _ _
  have hf := filterSSTableFromFile_writeToFile Env.sample [(1, bigValue)] 0 0 0 hne
    (by intro kv h; rw [List.mem_singleton.1 h]; decide) bigFile_size
  rw [hf, truncLast_bigValue]
  rfl

theorem singleton_table : SSTable.ofSkipList Env.sample (singleton bigValue)
    = some (SSTable.ofPairs Env.sample [(1, bigValue)]) :=
  SSTable.ofSkipList_eq Env.sample (singleton bigValue) [(1, bigValue)]
    (singleton_represents bigValue) (List.cons_ne_nil _ _)

/-- C7 fails on the code at a last value of `2 ^ 32` bytes. For the skip list
holding the single pair `(1, v)`, `v` being `2 ^ 32` zero bytes,
`filterSSTableFromFile(0, 0, f)` on the file `f` written by
`SSTable(list).writeToFile(f, 0)` returns `[(0, 0, 1, "")]`, not
`[(0, 0, 1, v)]`: the length of the last value is held in a `uint32_t`
(`uint32_t valLen = lenOfAllValues_ - keyOffset.back().second`) and wraps to 0,
while the loop over the values before the last one uses a `uint64_t`. -/
theorem C7_last_value_truncated :
    (SkipList.insert Env.sample SkipList.empty 1 bigValue).bind (fun r =>
        (SSTable.ofSkipList Env.sample r.2).bind (fun t =>
          filterSSTableFromFile 0 0 (t.writeToFile 0)))
      = some [(0, 0, 1, [])] := by
  rw [insert_singleton, Option.some_bind, singleton_table, Option.some_bind, bigFile_filter]

/-- SSTable round trip below the 32-bit bound. For every non-empty skip list of
user keys whose last value is shorter than `2 ^ 32` bytes (values may be
empty), every time stamp and every `(layer, serial)`,
`filterSSTableFromFile(layer, serial, f)` on the file `f` written by
`SSTable(list).writeToFile(f, ts)` returns exactly the pairs of the list, in
ascending key order, each tagged with `(layer, serial)`. -/
theorem X1_filter_round_trip (env : Env) (li : SkipList) (kvs : List (Key × Value))
    (t : SSTable) (layer serialNum timeStamp : Nat)
    (hr : Represents li kvs) (hne : kvs ≠ []) (ht : SSTable.ofSkipList env li = some t)
    (hsize : (t.writeToFile timeStamp).length < WORD)
    (hlast : ∀ kv ∈ kvs.getLast?, kv.2.length < 2 ^ 32) :
    filterSSTableFromFile layer serialNum (t.writeToFile timeStamp)
      = some (kvs.map (fun kv => (layer, serialNum, kv.1, kv.2))) := by
  rw [filterSSTableFromFile_ofSkipList env li kvs t layer serialNum timeStamp hr hne ht hsize,
    truncLast_eq_self kvs hlast]

/-- The round trip at a concrete input: the table of the skip list holding
`(1, "a"), (2, "bc"), (3, "def")`, written with time stamp 7 and read back as
run `(1, 2)`. -/
theorem X1_filter_round_trip_witness :
    Represents sampleList samplePairs ∧ samplePairs ≠ [] ∧
    SSTable.ofSkipList Env.sample sampleList = some (SSTable.ofPairs Env.sample samplePairs) ∧
    ((SSTable.ofPairs Env.sample samplePairs).writeToFile 7).length < WORD ∧
    (∀ kv ∈ samplePairs.getLast?, kv.2.length < 2 ^ 32) ∧
    filterSSTableFromFile 1 2 ((SSTable.ofPairs Env.sample samplePairs).writeToFile 7)
      = some [(1, 2, 1, [97]), (1, 2, 2, [98, 99]), (1, 2, 3, [100, 101, 102])] :=
  have hr := sampleList_represents
  have hne : samplePairs ≠ [] := by decide
  have ht := SSTable.ofSkipList_eq Env.sample sampleList samplePairs hr hne
  have hsize : ((SSTable.ofPairs Env.sample samplePairs).writeToFile 7).length < WORD := by
    rw [writeToFile_length]; decide
  have hlast : ∀ kv ∈ samplePairs.getLast?, kv.2.length < 2 ^ 32 := by decide
  ⟨hr, hne, ht, hsize, hlast,
    X1_filter_round_trip Env.sample sampleList samplePairs _ 1 2 7 hr hne ht hsize hlast⟩

/-- C1 fails on the code. First sequence, on one engine: `put(2, "")` and
`put(2, X)` with `|X| = 16360` leave the memtable counter at `8 + 16360`;
`put(1, 8 bytes)` reaches `MEM_LIMIT` and flushes `{2}` to level 0;
`put(3, "")` and `put(3, Y)` with `|Y| = 16340` fill the memtable again;
`put(4, 20 bytes)` flushes `{1, 3}` to level 0; `get(2)` then returns
`(false, _)` although no `put(2, _)` or `del(2)` followed `put(2, X)`.
`Cache::search` stops at the newer run: key 2 lies in its range `[1, 3]`, its
directory has no key 2, and the search returns the miss result instead of
going on to the older run that holds key 2.  Second sequence, across a
restart: `put(1, "a")`, `put(3, "c")`, close and open, `put(2, "x")`,
`get(2) = (true, "x")`, close and open, `get(2) = (false, _)`. -/
theorem C1_get_misses_flushed_key :
    KVStore.session Env.sample
        [.put 2 [], .put 2 (pad 16360), .put 1 (pad 8), .put 3 [], .put 3 (pad 16340),
         .put 4 (pad 20), .get 2]
      = some [.put true, .put false, .put true, .put true, .put false, .put true,
          .get false []]
    ∧ KVStore.session Env.sample
        [.put 1 [97], .put 3 [99], .reopen, .put 2 [120], .get 2, .reopen, .get 2]
      = some [.put true, .put true, .reopened, .put true, .get true [120], .reopened,
          .get false []] := by
  decide!

/-- C2 fails on the code. `put(1, "a")`, close and open, `get(1) = (true, "a")`,
`del(1) = true`, `get(1) = (false, _)`, close (the tombstone is flushed to
level 0) and open: `get(1)` returns `(true, "a")` again.  `readSSTDataToCache`
walks the serial numbers newest first and `Cache::insert` pushes each summary
to the front, so after the restart the oldest run is at the front of level 0
and its live value hides the tombstone of the newer run. -/
theorem C2_deleted_key_returns :
    KVStore.session Env.sample
        [.put 1 [97], .reopen, .get 1, .del 1, .get 1, .reopen, .get 1]
      = some [.put true, .reopened, .get true [97], .del true, .get false [], .reopened,
          .get true [97]] := by
  decide!

/-- C3 fails on the code. `put(1, "o")`, close and open, `put(1, "n")`: just
before the engine is closed `get(1) = (true, "n")`; after closing and
re-opening with no write in between `get(1) = (true, "o")`.  The two runs of
level 0 are loaded in the reverse of the order they had before the restart. -/
theorem C3_reopen_changes_get :
    KVStore.session Env.sample
        [.put 1 [111], .reopen, .put 1 [110], .get 1, .reopen, .get 1]
      = some [.put true, .reopened, .put true, .get true [110], .reopened, .get true [111]] := by
  decide!

/-- C4 fails on the code. For the live key 1, `del(1)` returns true the first
time and false the second time: `del` starts with `get`, `get` answers
`(false, _)` for a key whose newest version is the tombstone, and `del` returns
false on that answer before it reaches its test `value == "~DELETED~"`.
`get(1)` stays `(false, _)`. -/
theorem C4_second_del_returns_false :
    KVStore.session Env.sample [.put 1 [97], .get 1, .del 1, .get 1, .del 1, .get 1]
      = some [.put true, .get true [97], .del true, .get false [], .del false, .get false []] := by
  decide!

/-- C5 fails on the code. The record that `writeWAL` appends to the log is the
key (8 bytes), `|v|` (8 bytes) and then the `sizeof(V)` bytes of the string
object itself, not the `|v|` bytes it holds: every record has
`sizeof(K) + 8 + sizeof(V)` bytes, whatever the length of the value. -/
theorem C5_wal_record_holds_object_bytes (env : Env) (st : KVStore) (key : Key) (value : Value) :
    (KVStore.writeWAL env st key value).disk.wal
        = some (st.disk.wal.getD [] ++ (u64le key ++ u64le value.length ++ env.objectBytes value))
      ∧ (u64le key ++ u64le value.length ++ env.objectBytes value).length
        = SIZEOF_KEY + 8 + env.sizeofV := by
  constructor
  · cases h : st.disk.wal <;> simp [KVStore.writeWAL, KVStore.walRecord, h]
  · simp [env.objectBytes_length, SIZEOF_KEY]; omega

/-- C10 fails on the code. The cache holds, front first, the summary of run
`(0, 1)` with range `[1, 3]` and directory `[(1, 0), (3, 1)]` and the summary
of run `(0, 0)` with directory `[(2, 0)]`.  `search(2)` returns the miss result
`(LSM_MAX_LAYER + 1, 0, 0)`: the front summary passes the range and bloom
checks, its directory has no key 2, and the search returns there.  On the
cache without the front summary `search(2)` returns `(0, 0, 0)`. -/
theorem C10_search_stops_before_older_run :
    twoRuns.map (List.map (fun s => (s.layer, s.serialNum))) = some [(0, 1), (0, 0)]
      ∧ twoRuns.map (List.map (fun s => (s.minKey, s.maxKey))) = some [(1, 3), (2, 2)]
      ∧ twoRuns.map (List.map (fun s => s.keyOffset)) = some [[(1, 0), (3, 1)], [(2, 0)]]
      ∧ twoRuns.map (fun c => Cache.search Env.sample c 2) = some MISS
      ∧ twoRuns.map (fun c => Cache.search Env.sample (c.drop 1) 2) = some (0, 0, 0) := by
  decide!

/-! ## The level cache -/

theorem bloomBitIsChar0_false (bloom i : Nat) : bloomBitIsChar0 bloom i = false := by
  unfold bloomBitIsChar0
  split <;> decide

theorem lowerBound_mem (key : Key) (l : List (Key × Nat)) :
    ∀ e ∈ lowerBound key l, e ∈ l := by
  induction l with
  | nil => intro e he; simp [lowerBound] at he
  | cons a l ih =>
    intro e he
    unfold lowerBound at he
    split at he
    · exact List.mem_cons_of_mem _ (ih e he)
    · exact he

theorem lowerBound_hit (key : Key) (o : Nat) (l : List (Key × Nat))
    (hs : l.Pairwise (fun a b => a.1 < b.1)) (hm : (key, o) ∈ l) :
    ∃ rest, lowerBound key l = (key, o) :: rest := by
  induction l with
  | nil => simp at hm
  | cons a l ih =>
    rw [List.pairwise_cons] at hs
    unfold lowerBound
    rcases List.mem_cons.mp hm with h | h
    · subst h
      simp
    · have hlt : a.1 < key := hs.1 _ h
      rw [if_pos hlt]
      exact ih hs.2 h

theorem pairOffsets_fst (kvs : List (Key × Value)) (offs : List Nat) :
    ∀ e ∈ pairOffsets kvs offs, ∃ v, (e.1, v) ∈ kvs := by
  induction kvs generalizing offs with
  | nil => intro e he; simp [pairOffsets] at he
  | cons kv kvs ih =>
    obtain ⟨k, v⟩ := kv
    cases offs with
    | nil => intro e he; simp [pairOffsets] at he
    | cons off offs =>
      intro e he
      simp only [pairOffsets, List.mem_cons] at he
      rcases he with h | h
      · exact ⟨v, by simp [h]⟩
      · obtain ⟨w, hw⟩ := ih offs e h
        exact ⟨w, List.mem_cons_of_mem _ hw⟩

theorem pairOffsets_sorted (kvs : List (Key × Value)) (offs : List Nat)
    (hs : kvs.Pairwise (fun a b => a.1 < b.1)) :
    (pairOffsets kvs offs).Pairwise (fun a b => a.1 < b.1) := by
  induction kvs generalizing offs with
  | nil => simp [pairOffsets]
  | cons kv kvs ih =>
    obtain ⟨k, v⟩ := kv
    cases offs with
    | nil => simp [pairOffsets]
    | cons off offs =>
      rw [List.pairwise_cons] at hs
      simp only [pairOffsets, List.pairwise_cons]
      refine ⟨?_, ih offs hs.2⟩
      intro e he
      obtain ⟨w, hw⟩ := pairOffsets_fst kvs offs e he
      exact hs.1 _ hw

theorem pairOffsets_mem (kvs : List (Key × Value)) (offs : List Nat)
    (hl : kvs.length = offs.length) :
    ∀ kv ∈ kvs, ∃ o, (kv.1, o) ∈ pairOffsets kvs offs := by
  induction kvs generalizing offs with
  | nil => intro kv hkv; simp at hkv
  | cons kv0 kvs ih =>
    obtain ⟨k, v⟩ := kv0
    cases offs with
    | nil => simp at hl
    | cons off offs =>
      intro kv hkv
      simp only [List.length_cons, Nat.add_right_cancel_iff] at hl
      rcases List.mem_cons.mp hkv with h | h
      · exact ⟨off, by simp [pairOffsets, h]⟩
      · obtain ⟨o, ho⟩ := ih offs hl kv h
        exact ⟨o, by simp [pairOffsets, ho]⟩

theorem Cache.search_front (env : Env) (s : SummaryOfSSTable) (rest : Cache) (key : Key)
    (o : Nat) (hmin : s.minKey ≤ key) (hmax : key ≤ s.maxKey)
    (hs : s.keyOffset.Pairwise (fun a b => a.1 < b.1)) (hm : (key, o) ∈ s.keyOffset) :
    Cache.search env (s :: rest) key = (s.layer, s.serialNum, o) := by
  obtain ⟨tl, htl⟩ := lowerBound_hit key o s.keyOffset hs hm
  have hrange : ¬ (key > s.maxKey ∨ key < s.minKey) :=
    not_or.mpr ⟨Nat.not_lt.mpr hmax, Nat.not_lt.mpr hmin⟩
  simp [Cache.search, hrange, bloomBitIsChar0_false, htl]

theorem Cache.fill_spec (t : SSTable) (layer serialNum timeStamp : Nat) (s : SummaryOfSSTable)
    (hs : SummaryOfSSTable.ofSSTable t layer serialNum timeStamp = some s) (ways : List Bool) :
    Cache.fill t layer serialNum timeStamp ways = some (List.replicate ways.length s) := by
  induction ways with
  | nil => rfl
  | cons w ways ih =>
    simp only [Cache.fill, ih, hs, Cache.insert, Cache.insertTable, List.length_cons,
      List.replicate_succ]
    cases w <;> simp

/-- C11: for every non-empty skip list of user keys with the pairs `kvs`, and
every layer, serial and timestamp: the summary of the table of the list exists,
every cache filled with one or more copies of it (as a ready summary or from
the table) exists, and for every key of the list `Cache.search` answers with
the layer, the serial and the offset the summary's directory records for the
key. -/
theorem C11_cache_search_finds_every_key (env : Env) (li : SkipList)
    (kvs : List (Key × Value)) (hr : Represents li kvs) (hne : kvs ≠ [])
    (layer serialNum timeStamp : Nat) (ways : List Bool) (hw : ways ≠ []) :
    ∃ t s c, SSTable.ofSkipList env li = some t ∧
      SummaryOfSSTable.ofSSTable t layer serialNum timeStamp = some s ∧
      Cache.fill t layer serialNum timeStamp ways = some c ∧
      c.length = ways.length ∧
      ∀ kv ∈ kvs, ∃ o, (kv.1, o) ∈ s.keyOffset ∧
        Cache.search env c kv.1 = (layer, serialNum, o) := by
  have ht := SSTable.ofSkipList_eq env li kvs hr hne
  have hlen : (SSTable.ofPairs env kvs).kvdata.length
      = (SSTable.ofPairs env kvs).valueOffset.length := by
    simp [SSTable.ofPairs]
  obtain ⟨s, hs⟩ : ∃ s, SummaryOfSSTable.ofSSTable (SSTable.ofPairs env kvs) layer serialNum
      timeStamp = some s := by
    simp [SummaryOfSSTable.ofSSTable, hlen]
  have hfill := Cache.fill_spec (SSTable.ofPairs env kvs) layer serialNum timeStamp s hs ways
  refine ⟨_, s, _, ht, hs, hfill, by simp, ?_⟩
  have hs2 := hs
  simp only [SummaryOfSSTable.ofSSTable, hlen, if_true, Option.some.injEq] at hs2
  have hdir : s.keyOffset = pairOffsets kvs (offsetsFrom 0 kvs) := by
    rw [← hs2]; rfl
  have hmin : s.minKey = firstKey kvs := by rw [← hs2]; rfl
  have hmax : s.maxKey = lastKey kvs := by rw [← hs2]; rfl
  have hlayer : s.layer = layer := by rw [← hs2]
  have hserial : s.serialNum = serialNum := by rw [← hs2]
  intro kv hkv
  obtain ⟨o, ho⟩ := pairOffsets_mem kvs (offsetsFrom 0 kvs) (by simp) kv hkv
  refine ⟨o, by rw [hdir]; exact ho, ?_⟩
  cases ways with
  | nil => exact absurd rfl hw
  | cons w ways =>
    rw [List.length_cons, List.replicate_succ]
    have := Cache.search_front env s (List.replicate ways.length s) kv.1 o
      (by rw [hmin]; exact firstKey_le kvs hr.sorted kv hkv)
      (by rw [hmax]; exact le_lastKey kvs hr.sorted kv hkv)
      (by rw [hdir]; exact pairOffsets_sorted kvs _ hr.sorted)
      (by rw [hdir]; exact ho)
    rw [this, hlayer, hserial]

theorem C11_cache_search_finds_every_key_witness :
    Represents sampleList samplePairs ∧
    ∃ t s c, SSTable.ofSkipList Env.sample sampleList = some t ∧
      SummaryOfSSTable.ofSSTable t 1 2 5 = some s ∧
      Cache.fill t 1 2 5 [false, true] = some c ∧
      c.length = [false, true].length ∧
      ∀ kv ∈ samplePairs, ∃ o, (kv.1, o) ∈ s.keyOffset ∧
        Cache.search Env.sample c kv.1 = (1, 2, o) :=
  ⟨sampleList_represents,
   C11_cache_search_finds_every_key Env.sample sampleList samplePairs sampleList_represents
    (by decide) 1 2 5 [false, true] (by decide)⟩

/-- C12: for every level cache and key, `Cache.search` either returns the miss
result `(LSM_MAX_LAYER + 1, 0, 0)` or returns the layer and serial of a summary
of the cache together with an offset that this summary's directory records for
the key; so a key in no directory is always answered with the miss result. -/
theorem C12_cache_search_miss_or_directory_entry (env : Env) (c : Cache) (key : Key) :
    (Cache.search env c key = MISS ∨
      ∃ s ∈ c, (key, (Cache.search env c key).2.2) ∈ s.keyOffset ∧
        s.layer = (Cache.search env c key).1 ∧ s.serialNum = (Cache.search env c key).2.1) ∧
    ((∀ s ∈ c, ∀ o, (key, o) ∉ s.keyOffset) →
      Cache.search env c key = (LSM_MAX_LAYER + 1, 0, 0)) := by
  have main : Cache.search env c key = MISS ∨
      ∃ s ∈ c, (key, (Cache.search env c key).2.2) ∈ s.keyOffset ∧
        s.layer = (Cache.search env c key).1 ∧ s.serialNum = (Cache.search env c key).2.1 := by
    induction c with
    | nil => left; rfl
    | cons it rest ih =>
      have hrest : Cache.search env rest key = MISS ∨
          ∃ s ∈ it :: rest, (key, (Cache.search env rest key).2.2) ∈ s.keyOffset ∧
            s.layer = (Cache.search env rest key).1 ∧
            s.serialNum = (Cache.search env rest key).2.1 := by
        rcases ih with h | ⟨s, hs, h⟩
        · exact Or.inl h
        · exact Or.inr ⟨s, List.mem_cons_of_mem _ hs, h⟩
      unfold Cache.search
      simp only [bloomBitIsChar0_false, Bool.false_eq_true, if_false]
      split
      · exact hrest
      · split
        · rename_i result tl heq
          split
          · rename_i hk
            right
            refine ⟨it, List.mem_cons_self _ _, ?_, rfl, rfl⟩
            have hmem : result ∈ it.keyOffset :=
              lowerBound_mem key it.keyOffset result (by rw [heq]; exact List.mem_cons_self _ _)
            have : result = (key, result.2) := by rw [hk]
            rw [this] at hmem
            exact hmem
          · left; rfl
        · left; rfl
  refine ⟨main, ?_⟩
  intro hno
  rcases main with h | ⟨s, hs, hm, _⟩
  · exact h
  · exact absurd hm (hno s hs _)

/-! ## The bloom filter -/

theorem testBit_bloomSet (bloom i j : Nat) :
    (bloomSet bloom i).testBit j = (bloom.testBit j || decide (i = j)) := by
  simp [bloomSet, Nat.testBit_or, Nat.one_shiftLeft, Nat.testBit_two_pow]

theorem testBit_bloomAdd (env : Env) (bloom : Nat) (k : Key) (p : Nat) :
    (bloomAdd env bloom k).testBit p =
      (bloom.testBit p || decide (env.hash_x64_128 k 0 % BLOOM_SIZE = p)
        || decide (env.hash_x64_128 k 1 % BLOOM_SIZE = p)
        || decide (env.hash_x64_128 k 2 % BLOOM_SIZE = p)
        || decide (env.hash_x64_128 k 3 % BLOOM_SIZE = p)) := by
  simp only [bloomAdd, testBit_bloomSet]

theorem index_bloom_mono (env : Env) (kvs : List (Key × Value)) (o len bloom p : Nat)
    (h : bloom.testBit p = true) : (SSTable.index env kvs o len bloom).2.2.testBit p = true := by
  induction kvs generalizing o len bloom with
  | nil => simpa [SSTable.index] using h
  | cons kv rest ih =>
    obtain ⟨k, v⟩ := kv
    simp only [SSTable.index]
    apply ih
    rw [testBit_bloomAdd, h]
    simp

theorem index_bloom_mem (env : Env) (kvs : List (Key × Value)) (o len bloom : Nat)
    (kv : Key × Value) (hkv : kv ∈ kvs) (j : Nat) (hj : j < 4) :
    (SSTable.index env kvs o len bloom).2.2.testBit (env.hash_x64_128 kv.1 j % BLOOM_SIZE)
      = true := by
  induction kvs generalizing o len bloom with
  | nil => simp at hkv
  | cons kv0 rest ih =>
    obtain ⟨k, v⟩ := kv0
    simp only [SSTable.index]
    rcases List.mem_cons.mp hkv with h | h
    · apply index_bloom_mono
      rw [testBit_bloomAdd, h]
      interval_cases j <;> simp
    · exact ih _ _ _ h

/-- C13: for a skip list that holds the single pair `(k, v)`: when the first
position the check of `Cache.search` tests for `k` (a word of
`MurmurHash3_x86_128`) is none of the four positions the builder sets for `k`
(the words of `MurmurHash3_x64_128`), that bit of the filter the builder
computed is clear; the check passes nevertheless, because it compares the bit
with the character `'0'`. -/
theorem C13_tested_bit_is_clear (env : Env) (li : SkipList) (k : Key) (v : Value)
    (hr : Represents li [(k, v)])
    (h : ∀ j, j < 4 →
      env.hash_x64_128 k j % BLOOM_SIZE ≠ env.hash_x86_128 k 0 % BLOOM_SIZE) :
    ∃ t, SSTable.ofSkipList env li = some t ∧
      t.bloom.testBit (env.hash_x86_128 k 0 % BLOOM_SIZE) = false ∧
      bloomBitIsChar0 t.bloom (env.hash_x86_128 k 0 % BLOOM_SIZE) = false := by
  refine ⟨_, SSTable.ofSkipList_eq env li _ hr (by simp), ?_, bloomBitIsChar0_false _ _⟩
  simp only [SSTable.ofPairs, SSTable.index]
  rw [testBit_bloomAdd]
  simp [h 0 (by decide), h 1 (by decide), h 2 (by decide), h 3 (by decide)]

theorem C13_tested_bit_is_clear_witness :
    Represents (singleton [97]) [(1, [97])] ∧
    ∃ t, SSTable.ofSkipList Env.murmurOfOne (singleton [97]) = some t ∧
      t.bloom.testBit (Env.murmurOfOne.hash_x86_128 1 0 % BLOOM_SIZE) = false ∧
      bloomBitIsChar0 t.bloom (Env.murmurOfOne.hash_x86_128 1 0 % BLOOM_SIZE) = false :=
  ⟨singleton_represents [97],
   C13_tested_bit_is_clear Env.murmurOfOne (singleton [97]) 1 [97] (singleton_represents [97])
    (by intro j hj; interval_cases j <;> decide)⟩

/-- X2: the filter the builder computes has no false negative for the hash the
builder uses: for every key of the pairs, the four positions derived from
`MurmurHash3_x64_128` are set. -/
theorem X2_builder_sets_four_bits (env : Env) (li : SkipList) (kvs : List (Key × Value))
    (hr : Represents li kvs) (hne : kvs ≠ []) :
    ∃ t, SSTable.ofSkipList env li = some t ∧
      ∀ kv ∈ kvs, ∀ j, j < 4 →
        t.bloom.testBit (env.hash_x64_128 kv.1 j % BLOOM_SIZE) = true :=
  ⟨_, SSTable.ofSkipList_eq env li kvs hr hne,
   fun kv hkv j hj => index_bloom_mem env kvs 0 0 0 kv hkv j hj⟩

theorem X2_builder_sets_four_bits_witness :
    Represents sampleList samplePairs ∧
    ∃ t, SSTable.ofSkipList Env.sample sampleList = some t ∧
      ∀ kv ∈ samplePairs, ∀ j, j < 4 →
        t.bloom.testBit (Env.sample.hash_x64_128 kv.1 j % BLOOM_SIZE) = true :=
  ⟨sampleList_represents,
   X2_builder_sets_four_bits Env.sample sampleList samplePairs sampleList_represents
    (by decide)⟩

/-! ## The heap -/

theorem deref_some_lt (heap : Heap) (p : Nat) (n : Node) (h : deref heap p = some n) :
    p < heap.length := by
  unfold deref at h
  by_contra hlt
  rw [List.getElem?_eq_none (Nat.le_of_not_lt hlt)] at h
  simp at h

theorem deref_set_self (heap : Heap) (p : Nat) (x : Option Node) (h : p < heap.length) :
    deref (heap.set p x) p = x := by
  unfold deref
  rw [List.getElem?_set_self h]
  cases x <;> rfl

theorem deref_set_ne (heap : Heap) (p q : Nat) (x : Option Node) (h : q ≠ p) :
    deref (heap.set p x) q = deref heap q := by
  unfold deref
  rw [List.getElem?_set_ne (Ne.symm h)]

theorem deref_append_lt (heap ext : Heap) (q : Nat) (h : q < heap.length) :
    deref (heap ++ ext) q = deref heap q := by
  unfold deref
  rw [List.getElem?_append_left h]

theorem deref_append_new (heap : Heap) (x : Option Node) :
    deref (heap ++ [x]) heap.length = x := by
  unfold deref
  rw [List.getElem?_concat_length]
  cases x <;> rfl

theorem deref_append_none (heap : Heap) (x : Option Node) (q : Nat) (hq : q ≠ heap.length)
    (h : deref heap q = none) : deref (heap ++ [x]) q = none := by
  by_cases hlt : q < heap.length
  · rw [deref_append_lt heap [x] q hlt, h]
  · unfold deref
    rw [List.getElem?_eq_none (by simp; omega)]

theorem fwd_eq (heap : Heap) (p i : Nat) (n : Node) (h : deref heap p = some n) :
    fwd heap p i = n.forward_[i]? := by
  unfold fwd
  rw [h]

theorem setFwd_eq (heap : Heap) (p i q : Nat) (n : Node) (h : deref heap p = some n)
    (hi : i < n.forward_.length) :
    setFwd heap p i q
      = some (heap.set p (some { n with forward_ := n.forward_.set i q })) := by
  unfold setFwd
  rw [h]
  simp [hi]

/-! ## Cells and links -/

theorem nextAt_append_lt (tail i : Nat) (A B : List Cell) (h : ∀ c ∈ A, c.level < i) :
    nextAt tail i (A ++ B) = nextAt tail i B := by
  induction A with
  | nil => rfl
  | cons a A ih =>
    have ha : ¬ i ≤ a.level := Nat.not_le.mpr (h a (List.mem_cons_self _ _))
    simp only [List.cons_append, nextAt, if_neg ha]
    exact ih (fun c hc => h c (List.mem_cons_of_mem _ hc))

theorem nextAt_append_mem (tail i : Nat) (A B C : List Cell) (h : ∃ c ∈ A, i ≤ c.level) :
    nextAt tail i (A ++ B) = nextAt tail i (A ++ C) := by
  induction A with
  | nil => obtain ⟨c, hc, _⟩ := h; simp at hc
  | cons a A ih =>
    simp only [List.cons_append, nextAt]
    by_cases ha : i ≤ a.level
    · rw [if_pos ha, if_pos ha]
    · rw [if_neg ha, if_neg ha]
      apply ih
      obtain ⟨c, hc, hl⟩ := h
      rcases List.mem_cons.mp hc with rfl | hc
      · exact absurd hl ha
      · exact ⟨c, hc, hl⟩

theorem nextAt_cases (tail i : Nat) (l : List Cell) :
    (nextAt tail i l = tail ∧ ∀ c ∈ l, c.level < i) ∨
    ∃ c ∈ l, i ≤ c.level ∧ nextAt tail i l = c.addr := by
  induction l with
  | nil => left; exact ⟨rfl, by simp⟩
  | cons a l ih =>
    by_cases ha : i ≤ a.level
    · right
      exact ⟨a, List.mem_cons_self _ _, ha, by simp [nextAt, ha]⟩
    · simp only [nextAt, if_neg ha]
      rcases ih with ⟨h1, h2⟩ | ⟨c, hc, hl, he⟩
      · left
        refine ⟨h1, ?_⟩
        intro c hc
        rcases List.mem_cons.mp hc with rfl | hc
        · exact Nat.not_le.mp ha
        · exact h2 c hc
      · right
        exact ⟨c, List.mem_cons_of_mem _ hc, hl, he⟩

theorem nextAt_zero (tail : Nat) (l : List Cell) :
    nextAt tail 0 l = match l with
      | [] => tail
      | c :: _ => c.addr := by
  cases l with
  | nil => rfl
  | cons c l => simp [nextAt]

theorem nextAt_congr (tail i : Nat) (l l1 : List Cell)
    (h : l.map (fun c => (c.addr, c.level)) = l1.map (fun c => (c.addr, c.level))) :
    nextAt tail i l = nextAt tail i l1 := by
  induction l generalizing l1 with
  | nil =>
    cases l1 with
    | nil => rfl
    | cons b l1 => simp at h
  | cons a l ih =>
    cases l1 with
    | nil => simp at h
    | cons b l1 =>
      simp only [List.map_cons, List.cons.injEq, Prod.mk.injEq] at h
      simp only [nextAt, h.1.1, h.1.2, ih l1 h.2]

theorem Linked_append (heap : Heap) (tail : Nat) (P S : List Cell) :
    Linked heap tail (P ++ S) ↔
      (∀ A e B, P = A ++ e :: B → NodeAt heap tail e (B ++ S)) ∧ Linked heap tail S := by
  induction P with
  | nil =>
    simp only [List.nil_append]
    constructor
    · intro h
      refine ⟨?_, h⟩
      intro A e B hd
      simp at hd
    · intro h; exact h.2
  | cons p P ih =>
    have hc : Linked heap tail (p :: P ++ S)
        ↔ NodeAt heap tail p (P ++ S) ∧ Linked heap tail (P ++ S) := Iff.rfl
    rw [hc, ih]
    constructor
    · rintro ⟨hp, hP, hS⟩
      refine ⟨?_, hS⟩
      intro A e B hd
      rcases List.cons_eq_append_iff.mp hd with ⟨rfl, h2⟩ | ⟨A1, rfl, h2⟩
      · simp only [List.cons.injEq] at h2
        obtain ⟨rfl, rfl⟩ := h2
        exact hp
      · exact hP A1 e B h2
    · rintro ⟨hP, hS⟩
      refine ⟨hP [] p P rfl, ?_, hS⟩
      intro A e B hd
      exact hP (p :: A) e B (by rw [hd]; rfl)

theorem Linked.suffix {heap : Heap} {tail : Nat} {P S : List Cell}
    (h : Linked heap tail (P ++ S)) : Linked heap tail S :=
  ((Linked_append heap tail P S).mp h).2

theorem Linked.nodeAt {heap : Heap} {tail : Nat} {A B : List Cell} {e : Cell}
    (h : Linked heap tail (A ++ e :: B)) : NodeAt heap tail e B :=
  (Linked.suffix h).1

theorem Linked.frame {heap heap1 : Heap} {tail : Nat} {l : List Cell}
    (h : Linked heap tail l) (hf : ∀ c ∈ l, deref heap1 c.addr = deref heap c.addr) :
    Linked heap1 tail l := by
  induction l with
  | nil => trivial
  | cons c l ih =>
    obtain ⟨⟨f, hd, hlen, hfw⟩, hl⟩ := h
    refine ⟨⟨f, ?_, hlen, hfw⟩, ih hl (fun c1 hc1 => hf c1 (List.mem_cons_of_mem _ hc1))⟩
    rw [hf c (List.mem_cons_self _ _), hd]

theorem NodeAt.key_eq {heap : Heap} {tail : Nat} {c : Cell} {rest : List Cell}
    (h : NodeAt heap tail c rest) : ∃ n, deref heap c.addr = some n ∧ n.key_ = c.key ∧
      n.value_ = c.value ∧ n.nodeLevel_ = c.level ∧ n.forward_.length = c.level + 1 := by
  obtain ⟨f, hd, hlen, _⟩ := h
  exact ⟨_, hd, rfl, rfl, rfl, hlen⟩

theorem NodeAt.forward_at {heap : Heap} {tail : Nat} {c : Cell} {rest : List Cell}
    (h : NodeAt heap tail c rest) (i : Nat) (hi : i ≤ c.level) :
    fwd heap c.addr i = some (nextAt tail i rest) := by
  obtain ⟨f, hd, _, hfw⟩ := h
  rw [TinyKV.fwd_eq heap c.addr i _ hd]
  exact hfw i hi

theorem Linked.node_of_mem {heap : Heap} {tail : Nat} {l : List Cell}
    (h : Linked heap tail l) (c : Cell) (hc : c ∈ l) :
    ∃ n, deref heap c.addr = some n ∧ n.key_ = c.key ∧ n.value_ = c.value ∧
      n.nodeLevel_ = c.level ∧ n.forward_.length = c.level + 1 := by
  obtain ⟨A, B, rfl⟩ := List.append_of_mem hc
  exact (Linked.nodeAt h).key_eq

theorem Linked.addr_inj {heap : Heap} {tail : Nat} {l : List Cell}
    (h : Linked heap tail l) (a b : Cell) (ha : a ∈ l) (hb : b ∈ l)
    (hab : a.addr = b.addr) : a = b := by
  obtain ⟨n, hn, k1, v1, l1, _⟩ := h.node_of_mem a ha
  obtain ⟨m, hm, k2, v2, l2, _⟩ := h.node_of_mem b hb
  rw [hab, hm] at hn
  simp only [Option.some.injEq] at hn
  subst hn
  cases a; cases b
  simp only [Cell.mk.injEq]
  simp only at hab k1 v1 l1 k2 v2 l2
  exact ⟨hab, k1.symm.trans k2, v1.symm.trans v2, l1.symm.trans l2⟩

/-! ## The descent -/

theorem advance_stop (heap : Heap) (tail i : Nat) (key : Key) (post : List Cell)
    (htail : ∃ tn, deref heap tail = some tn ∧ key ≤ tn.key_)
    (hpost : ∀ c ∈ post, key ≤ c.key) (hl : Linked heap tail post)
    (x fuel : Nat) (hfwd : fwd heap x i = some (nextAt tail i post)) :
    SkipList.advance heap i key (fuel + 1) x = some x := by
  unfold SkipList.advance
  rw [hfwd]
  rcases nextAt_cases tail i post with ⟨h1, _⟩ | ⟨c, hc, _, he⟩
  · obtain ⟨tn, htn, hk⟩ := htail
    rw [h1]
    simp only [htn]
    rw [if_neg (Nat.not_lt.mpr hk)]
  · obtain ⟨n, hn, hk, _⟩ := hl.node_of_mem c hc
    rw [he]
    simp only [hn]
    rw [if_neg (by rw [hk]; exact Nat.not_lt.mpr (hpost c hc))]

theorem advance_spec (heap : Heap) (tail i : Nat) (key : Key) (post : List Cell)
    (htail : ∃ tn, deref heap tail = some tn ∧ key ≤ tn.key_)
    (hpost : ∀ c ∈ post, key ≤ c.key) (p2 : List Cell) :
    ∀ (x : Cell) (fuel : Nat), i ≤ x.level →
      fwd heap x.addr i = some (nextAt tail i (p2 ++ post)) →
      Linked heap tail (p2 ++ post) → (∀ c ∈ p2, c.key < key) → p2.length < fuel →
      ∃ A y R, x :: p2 = A ++ y :: R ∧
        SkipList.advance heap i key fuel x.addr = some y.addr ∧ i ≤ y.level ∧
        ∀ c ∈ R, c.level < i := by
  induction p2 with
  | nil =>
    intro x fuel hxl hfwd hl _ hfuel
    obtain ⟨f, rfl⟩ : ∃ f, fuel = f + 1 := ⟨fuel - 1, by omega⟩
    refine ⟨[], x, [], rfl, ?_, hxl, by simp⟩
    exact advance_stop heap tail i key post htail hpost hl x.addr f hfwd
  | cons c p2 ih =>
    intro x fuel hxl hfwd hl hlt hfuel
    obtain ⟨f, rfl⟩ : ∃ f, fuel = f + 1 := ⟨fuel - 1, by simp at hfuel; omega⟩
    have hlt2 : ∀ c1 ∈ p2, c1.key < key := fun c1 h1 => hlt c1 (List.mem_cons_of_mem _ h1)
    have hl2 : Linked heap tail (p2 ++ post) := hl.2
    by_cases hc : i ≤ c.level
    · have hnext : nextAt tail i (c :: p2 ++ post) = c.addr := by simp [nextAt, hc]
      obtain ⟨n, hn, hk, _⟩ := hl.1.key_eq
      have hstep : SkipList.advance heap i key (f + 1) x.addr
          = SkipList.advance heap i key f c.addr := by
        conv_lhs => unfold SkipList.advance
        rw [hfwd, hnext]
        simp only [hn]
        rw [if_pos (by rw [hk]; exact hlt c (List.mem_cons_self _ _))]
      obtain ⟨A, y, R, hd, hadv, hyl, hR⟩ :=
        ih c f hc (hl.1.forward_at i hc) hl2 hlt2 (by simp at hfuel; omega)
      exact ⟨x :: A, y, R, by rw [hd]; rfl, by rw [hstep, hadv], hyl, hR⟩
    · have hnext : nextAt tail i (c :: p2 ++ post) = nextAt tail i (p2 ++ post) := by
        simp [nextAt, hc]
      rw [hnext] at hfwd
      obtain ⟨A, y, R, hd, hadv, hyl, hR⟩ :=
        ih x (f + 1) hxl hfwd hl2 hlt2 (by simp at hfuel; omega)
      rcases List.cons_eq_append_iff.mp hd with ⟨rfl, h2⟩ | ⟨A1, rfl, h2⟩
      · simp only [List.cons.injEq] at h2
        obtain ⟨rfl, rfl⟩ := h2
        refine ⟨[], y, c :: R, rfl, hadv, hyl, ?_⟩
        intro c1 hc1
        rcases List.mem_cons.mp hc1 with rfl | hc1
        · exact Nat.not_le.mp hc
        · exact hR c1 hc1
      · exact ⟨x :: c :: A1, y, R, by rw [h2]; rfl, hadv, hyl, hR⟩

theorem suffix_mem_of_cons {x y : Cell} {p2 A R : List Cell} (h : x :: p2 = A ++ y :: R) :
    ∀ c ∈ R, c ∈ p2 := by
  intro c hc
  rcases List.cons_eq_append_iff.mp h with ⟨rfl, h2⟩ | ⟨A1, rfl, h2⟩
  · simp only [List.cons.injEq] at h2
    rw [← h2.2]; exact hc
  · rw [h2]; simp [hc]

theorem suffix_length_of_cons {x y : Cell} {p2 A R : List Cell} (h : x :: p2 = A ++ y :: R) :
    R.length ≤ p2.length := by
  have := congrArg List.length h
  simp at this
  omega

theorem descend_spec (heap : Heap) (tail : Nat) (key : Key) (post : List Cell)
    (htail : ∃ tn, deref heap tail = some tn ∧ key ≤ tn.key_)
    (hpost : ∀ c ∈ post, key ≤ c.key) (fuel : Nat) (i : Nat) :
    ∀ (x : Cell) (p2 : List Cell) (update : List Nat), i ≤ x.level →
      Linked heap tail (x :: p2 ++ post) → (∀ c ∈ p2, c.key < key) → p2.length < fuel →
      i < update.length →
      ∃ pred upd, SkipList.descend heap key fuel i x.addr update = some (pred.addr, upd) ∧
        upd.length = update.length ∧
        (∃ A, x :: p2 = A ++ [pred]) ∧
        (∀ j, j ≤ i → ∃ A u R, x :: p2 = A ++ u :: R ∧ upd[j]? = some u.addr ∧
          j ≤ u.level ∧ ∀ c ∈ R, c.level < j) ∧
        (∀ j, i < j → upd[j]? = update[j]?) := by
  induction i with
  | zero =>
    intro x p2 update hxl hl hlt hfuel hup
    obtain ⟨A, y, R, hd, hadv, hyl, hR⟩ :=
      advance_spec heap tail 0 key post htail hpost p2 x fuel hxl (hl.1.forward_at 0 hxl) hl.2 hlt
        hfuel
    have hRnil : R = [] := by
      cases R with
      | nil => rfl
      | cons r R => exact absurd (hR r (List.mem_cons_self _ _)) (Nat.not_lt_zero _)
    subst hRnil
    refine ⟨y, update.set 0 y.addr, ?_, by simp, ⟨A, hd⟩, ?_, ?_⟩
    · simp [SkipList.descend, hadv, SkipList.setUpdate, hup]
    · intro j hj
      have hj0 : j = 0 := by omega
      subst hj0
      exact ⟨A, y, [], hd, by rw [List.getElem?_set_self hup], hyl, by simp⟩
    · intro j hj
      rw [List.getElem?_set_ne (by omega)]
  | succ i ih =>
    intro x p2 update hxl hl hlt hfuel hup
    obtain ⟨A, y, R, hd, hadv, hyl, hR⟩ :=
      advance_spec heap tail (i + 1) key post htail hpost p2 x fuel hxl
        (hl.1.forward_at (i + 1) hxl) hl.2 hlt hfuel
    have hl1 : Linked heap tail (y :: R ++ post) := by
      have : x :: p2 ++ post = A ++ (y :: R ++ post) := by
        rw [show x :: p2 ++ post = (x :: p2) ++ post from rfl, hd]; simp
      rw [this] at hl
      exact hl.suffix
    obtain ⟨pred, upd, hdesc, hlen, ⟨A0, hA0⟩, hlev, hrest⟩ :=
      ih y R (update.set (i + 1) y.addr) (by omega) hl1
        (fun c hc => hlt c (suffix_mem_of_cons hd c hc))
        (Nat.lt_of_le_of_lt (suffix_length_of_cons hd) hfuel) (by simp; omega)
    refine ⟨pred, upd, ?_, by simpa using hlen, ⟨A ++ A0, ?_⟩, ?_, ?_⟩
    · simp [SkipList.descend, hadv, SkipList.setUpdate, hup, hdesc]
    · rw [hd, hA0]; simp
    · intro j hj
      by_cases hji : j ≤ i
      · obtain ⟨A1, u, R1, h1, h2, h3, h4⟩ := hlev j hji
        exact ⟨A ++ A1, u, R1, by rw [hd, h1]; simp, h2, h3, h4⟩
      · have hj1 : j = i + 1 := by omega
        subst hj1
        refine ⟨A, y, R, hd, ?_, hyl, hR⟩
        rw [hrest (i + 1) (by omega), List.getElem?_set_self hup]
    · intro j hj
      rw [hrest j (by omega), List.getElem?_set_ne (by omega)]

theorem descendScan_eq (heap : Heap) (key : Key) (fuel i : Nat) :
    ∀ (x : Nat) (update : List Nat), i < update.length →
      SkipList.descendScan heap key fuel i x
        = (SkipList.descend heap key fuel i x update).map Prod.fst := by
  induction i with
  | zero =>
    intro x update hup
    simp only [SkipList.descendScan, SkipList.descend, SkipList.setUpdate, hup, if_true]
    cases SkipList.advance heap 0 key fuel x <;> rfl
  | succ i ih =>
    intro x update hup
    simp only [SkipList.descendScan, SkipList.descend, SkipList.setUpdate, hup, if_true]
    cases h : SkipList.advance heap (i + 1) key fuel x with
    | none => rfl
    | some c =>
      simp only
      exact ih c _ (by simp; omega)

theorem split_sorted (key : Key) (cells : List Cell)
    (hs : cells.Pairwise (fun a b => a.key < b.key)) :
    ∃ pre post, cells = pre ++ post ∧ (∀ c ∈ pre, c.key < key) ∧ (∀ c ∈ post, key ≤ c.key) := by
  induction cells with
  | nil => exact ⟨[], [], rfl, by simp, by simp⟩
  | cons a cells ih =>
    rw [List.pairwise_cons] at hs
    by_cases ha : a.key < key
    · obtain ⟨pre, post, hd, h1, h2⟩ := ih hs.2
      refine ⟨a :: pre, post, by rw [hd]; rfl, ?_, h2⟩
      intro c hc
      rcases List.mem_cons.mp hc with rfl | hc
      · exact ha
      · exact h1 c hc
    · refine ⟨[], a :: cells, rfl, by simp, ?_⟩
      intro c hc
      rcases List.mem_cons.mp hc with rfl | hc
      · exact Nat.le_of_not_lt ha
      · exact Nat.le_of_lt (Nat.lt_of_le_of_lt (Nat.le_of_not_lt ha) (hs.1 c hc))

/-! ## Search and scan on a well-formed list -/

theorem WellFormed.tail_key {li : SkipList} {cells : List Cell} (h : WellFormed li cells)
    (key : Key) (hk : key ≤ KEY_MAX) : ∃ tn, deref li.heap li.tail_ = some tn ∧ key ≤ tn.key_ :=
  ⟨_, h.tail_node, hk⟩

theorem WellFormed.descend {li : SkipList} {cells : List Cell} (h : WellFormed li cells)
    (key : Key) (hk : key ≤ KEY_MAX) (pre post : List Cell) (hd : cells = pre ++ post)
    (hpre : ∀ c ∈ pre, c.key < key) (hpost : ∀ c ∈ post, key ≤ c.key) :
    ∃ pred upd,
      SkipList.descend li.heap key li.fuelOf li.curLevel_ li.header_ SkipList.newUpdate
        = some (pred.addr, upd) ∧
      upd.length = MAX_LEVEL ∧
      (∃ A, headerCell li :: pre = A ++ [pred]) ∧
      (∀ j, j ≤ li.curLevel_ → ∃ A u R, headerCell li :: pre = A ++ u :: R ∧
        upd[j]? = some u.addr ∧ j ≤ u.level ∧ ∀ c ∈ R, c.level < j) ∧
      (∀ j, li.curLevel_ < j → upd[j]? = SkipList.newUpdate[j]?) ∧
      fwd li.heap pred.addr 0 = some (nextAt li.tail_ 0 post) := by
  have hl : Linked li.heap li.tail_ (headerCell li :: pre ++ post) := by
    have := h.linked
    rw [hd] at this
    exact this
  have hroom := h.room
  have hlen : pre.length < li.fuelOf := by
    rw [hd] at hroom
    simp at hroom
    unfold SkipList.fuelOf
    omega
  obtain ⟨pred, upd, h1, h2, ⟨A, hA⟩, h4, h5⟩ :=
    descend_spec li.heap li.tail_ key post (h.tail_key key hk) hpost li.fuelOf li.curLevel_
      (headerCell li) pre SkipList.newUpdate (Nat.le_of_lt h.level_lt) hl hpre hlen
      (by simpa [SkipList.newUpdate] using h.level_lt)
  refine ⟨pred, upd, h1, by simpa [SkipList.newUpdate] using h2, ⟨A, hA⟩, h4, h5, ?_⟩
  have hl2 : Linked li.heap li.tail_ (A ++ pred :: post) := by
    have e : headerCell li :: pre ++ post = A ++ pred :: post := by
      rw [show headerCell li :: pre ++ post = (headerCell li :: pre) ++ post from rfl, hA]
      simp
    rw [e] at hl
    exact hl
  exact hl2.nodeAt.forward_at 0 (Nat.zero_le _)

theorem valueOf_none (key : Key) (l : List Cell) (h : ∀ c ∈ l, c.key ≠ key) :
    valueOf key l = none := by
  induction l with
  | nil => rfl
  | cons a l ih =>
    simp only [valueOf, if_neg (h a (List.mem_cons_self _ _))]
    exact ih (fun c hc => h c (List.mem_cons_of_mem _ hc))

theorem valueOf_append (key : Key) (pre l : List Cell) (h : ∀ c ∈ pre, c.key ≠ key) :
    valueOf key (pre ++ l) = valueOf key l := by
  induction pre with
  | nil => rfl
  | cons a pre ih =>
    simp only [List.cons_append, valueOf, if_neg (h a (List.mem_cons_self _ _))]
    exact ih (fun c hc => h c (List.mem_cons_of_mem _ hc))

theorem valueOf_some_mem (key : Key) (v : Value) (l : List Cell) (h : valueOf key l = some v) :
    ∃ c ∈ l, c.key = key ∧ c.value = v := by
  induction l with
  | nil => simp [valueOf] at h
  | cons a l ih =>
    unfold valueOf at h
    split at h
    · rename_i hk
      simp only [Option.some.injEq] at h
      exact ⟨a, List.mem_cons_self _ _, hk, h⟩
    · obtain ⟨c, hc, h1, h2⟩ := ih h
      exact ⟨c, List.mem_cons_of_mem _ hc, h1, h2⟩

theorem WellFormed.search {li : SkipList} {cells : List Cell} (h : WellFormed li cells)
    (key : Key) (hk : key ≤ KEY_MAX) :
    li.search key
      = some (if key = KEY_MAX then (true, []) else found (valueOf key cells)) := by
  obtain ⟨pre, post, hd, hpre, hpost⟩ := split_sorted key cells h.sorted
  obtain ⟨pred, upd, hdesc, _, _, _, _, hfwd⟩ := h.descend key hk pre post hd hpre hpost
  have hprene : ∀ c ∈ pre, c.key ≠ key := fun c hc => Nat.ne_of_lt (hpre c hc)
  unfold SkipList.search
  rw [hdesc]
  simp only [hfwd]
  cases post with
  | nil =>
    simp only [nextAt, h.tail_node, Node.new]
    have hv : valueOf key cells = none := by
      rw [hd, valueOf_append key pre [] hprene]; rfl
    rw [hv]
    by_cases hkm : KEY_MAX = key
    · rw [if_pos hkm, if_pos hkm.symm]
    · rw [if_neg hkm, if_neg (Ne.symm hkm)]; rfl
  | cons c post =>
    have hl : Linked li.heap li.tail_ ((headerCell li :: pre) ++ c :: post) := by
      have := h.linked
      rw [hd] at this
      exact this
    obtain ⟨n, hn, hnk, hnv, _⟩ := hl.nodeAt.key_eq
    have hcu := h.user_keys c (by rw [hd]; simp)
    have hsorted := h.sorted
    rw [hd, List.pairwise_append, List.pairwise_cons] at hsorted
    simp only [nextAt, Nat.zero_le, if_true, hn]
    rw [hnk, hnv]
    by_cases hck : c.key = key
    · have hne : key ≠ KEY_MAX := by rw [← hck]; exact Nat.ne_of_lt hcu.2
      have hv : valueOf key cells = some c.value := by
        rw [hd, valueOf_append key pre _ hprene]
        simp [valueOf, hck]
      rw [if_pos hck, if_neg hne, hv]; rfl
    · have hlt : key < c.key := Nat.lt_of_le_of_ne (hpost c (List.mem_cons_self _ _)) (Ne.symm hck)
      have hne : key ≠ KEY_MAX := Nat.ne_of_lt (Nat.lt_trans hlt hcu.2)
      have hv : valueOf key cells = none := by
        rw [hd, valueOf_append key pre _ hprene]
        apply valueOf_none
        intro c1 hc1
        rcases List.mem_cons.mp hc1 with rfl | hc1
        · exact hck
        · exact Ne.symm (Nat.ne_of_lt (Nat.lt_trans hlt (hsorted.2.1.1 c1 hc1)))
      rw [if_neg hck, if_neg hne, hv]; rfl

theorem collect_spec (heap : Heap) (tail : Nat) (endKey : Key)
    (htail : deref heap tail = some (Node.new KEY_MAX [] 0)) (S : List Cell) :
    ∀ fuel, Linked heap tail S → (∀ c ∈ S, c.key < KEY_MAX) → S.length < fuel →
      SkipList.collect heap tail endKey fuel (nextAt tail 0 S)
        = some (pairsOf (S.takeWhile (fun c => decide (c.key ≤ endKey)))) := by
  induction S with
  | nil =>
    intro fuel _ _ hfuel
    obtain ⟨f, rfl⟩ : ∃ f, fuel = f + 1 := ⟨fuel - 1, by simp at hfuel; omega⟩
    simp [SkipList.collect, nextAt, htail, pairsOf]
  | cons c S ih =>
    intro fuel hl hk hfuel
    obtain ⟨f, rfl⟩ : ∃ f, fuel = f + 1 := ⟨fuel - 1, by simp at hfuel; omega⟩
    obtain ⟨fw, hn, hlen, hfw⟩ := hl.1
    have hne : c.addr ≠ tail := by
      intro he
      rw [he, htail] at hn
      simp only [Node.new, Option.some.injEq, Node.mk.injEq] at hn
      exact absurd hn.1 (Ne.symm (Nat.ne_of_lt (hk c (List.mem_cons_self _ _))))
    have h0 := hfw 0 (Nat.zero_le _)
    simp only [nextAt, Nat.zero_le, if_true]
    unfold SkipList.collect
    simp only [hn, h0]
    by_cases hck : c.key ≤ endKey
    · rw [if_pos ⟨hck, hne⟩]
      rw [ih f hl.2 (fun c1 hc1 => hk c1 (List.mem_cons_of_mem _ hc1))
        (by simp at hfuel; omega)]
      simp [List.takeWhile, hck, pairsOf]
    · rw [if_neg (fun hh => hck hh.1)]
      simp [List.takeWhile, hck, pairsOf]

theorem takeWhile_eq_filter (hi : Key) (l : List Cell)
    (hs : l.Pairwise (fun a b => a.key < b.key)) :
    l.takeWhile (fun c => decide (c.key ≤ hi)) = l.filter (fun c => decide (c.key ≤ hi)) := by
  induction l with
  | nil => rfl
  | cons a l ih =>
    rw [List.pairwise_cons] at hs
    by_cases ha : a.key ≤ hi
    · simp only [List.takeWhile, List.filter, ha, decide_True]
      rw [ih hs.2]
    · simp only [List.takeWhile, List.filter, ha, decide_False]
      symm
      rw [List.filter_eq_nil_iff]
      intro c hc
      have := hs.1 c hc
      simp only [decide_eq_true_eq]
      exact Nat.not_le.mpr (Nat.lt_trans (Nat.lt_of_not_le ha) this)

theorem filter_range (lo hi : Key) (pre post : List Cell)
    (hpre : ∀ c ∈ pre, c.key < lo) (hpost : ∀ c ∈ post, lo ≤ c.key)
    (hs : post.Pairwise (fun a b => a.key < b.key)) :
    (pre ++ post).filter (fun c => decide (lo ≤ c.key ∧ c.key ≤ hi))
      = post.takeWhile (fun c => decide (c.key ≤ hi)) := by
  rw [List.filter_append, takeWhile_eq_filter hi post hs]
  have h1 : pre.filter (fun c => decide (lo ≤ c.key ∧ c.key ≤ hi)) = [] := by
    rw [List.filter_eq_nil_iff]
    intro c hc
    have := hpre c hc
    simp only [decide_eq_true_eq]
    exact fun hh => absurd hh.1 (Nat.not_le.mpr this)
  rw [h1, List.nil_append]
  apply List.filter_congr
  intro c hc
  have := hpost c hc
  simp [this]

theorem WellFormed.scan {li : SkipList} {cells : List Cell} (h : WellFormed li cells)
    (lo hi : Key) (hlh : lo ≤ hi) (hk : hi ≤ KEY_MAX) :
    li.scan lo hi
      = some (pairsOf (cells.filter (fun c => decide (lo ≤ c.key ∧ c.key ≤ hi)))) := by
  obtain ⟨pre, post, hd, hpre, hpost⟩ := split_sorted lo cells h.sorted
  obtain ⟨pred, upd, hdesc, hlen, _, _, _, hfwd⟩ :=
    h.descend lo (Nat.le_trans hlh hk) pre post hd hpre hpost
  have hscan := descendScan_eq li.heap lo li.fuelOf li.curLevel_ li.header_ SkipList.newUpdate
    (by simpa [SkipList.newUpdate] using h.level_lt)
  have hl : Linked li.heap li.tail_ ((headerCell li :: pre) ++ post) := by
    have := h.linked
    rw [hd] at this
    exact this
  have hsorted := h.sorted
  rw [hd, List.pairwise_append] at hsorted
  have hne0 : nextAt li.tail_ 0 post ≠ 0 := by
    intro h0
    rcases nextAt_cases li.tail_ 0 post with ⟨h1, _⟩ | ⟨c, hc, _, he⟩
    · have := h.tail_node
      rw [← h1, h0, h.null_free] at this
      simp at this
    · obtain ⟨n, hn, _⟩ := hl.suffix.node_of_mem c hc
      rw [← he, h0, h.null_free] at hn
      simp at hn
  have hroom := h.room
  unfold SkipList.scan
  rw [if_pos hlh, hscan, hdesc]
  simp only [Option.map_some', hfwd, if_neg hne0]
  rw [collect_spec li.heap li.tail_ hi h.tail_node post li.fuelOf hl.suffix
    (fun c hc => (h.user_keys c (by rw [hd]; simp [hc])).2)
    (by rw [hd] at hroom; simp at hroom; unfold SkipList.fuelOf; omega)]
  rw [hd, filter_range lo hi pre post hpre hpost hsorted.2.1]

theorem WellFormed.pairs {li : SkipList} {cells : List Cell} (h : WellFormed li cells) :
    li.pairs = some (pairsOf cells) := by
  have hl := h.linked
  have hroom := h.room
  unfold SkipList.pairs
  have hf : fwd li.heap li.header_ 0 = some (nextAt li.tail_ 0 cells) :=
    hl.1.forward_at 0 (Nat.zero_le _)
  rw [hf]
  simp only
  rw [collect_spec li.heap li.tail_ KEY_MAX h.tail_node cells li.fuelOf hl.2
    (fun c hc => (h.user_keys c hc).2) (by unfold SkipList.fuelOf; omega)]
  congr 2
  rw [List.takeWhile_eq_self_iff]
  intro c hc
  simpa using Nat.le_of_lt (h.user_keys c hc).2

/-! ## Positions in a sorted list of cells -/

theorem decomp_unique {l A B A1 B1 : List Cell} {e : Cell}
    (hs : l.Pairwise (fun a b => a.key < b.key)) (h1 : l = A ++ e :: B)
    (h2 : l = A1 ++ e :: B1) : A = A1 ∧ B = B1 := by
  have hmem : ∀ X Y : List Cell, l = X ++ e :: Y → e ∉ Y := by
    intro X Y hX hY
    rw [hX, List.pairwise_append, List.pairwise_cons] at hs
    exact absurd (hs.2.1.1 e hY) (Nat.lt_irrefl _)
  have heq : A ++ e :: B = A1 ++ e :: B1 := by rw [← h1, ← h2]
  rcases List.append_eq_append_iff.mp heq with ⟨a, ha, hb⟩ | ⟨a, ha, hb⟩
  · cases a with
    | nil =>
      simp only [List.nil_append, List.cons.injEq, true_and] at hb
      exact ⟨by simpa using ha.symm, hb⟩
    | cons x a =>
      simp only [List.cons_append, List.cons.injEq] at hb
      exact absurd (by rw [hb.2]; simp) (hmem A B h1)
  · cases a with
    | nil =>
      simp only [List.nil_append, List.cons.injEq, true_and] at hb
      exact ⟨by simpa using ha, hb.symm⟩
    | cons x a =>
      simp only [List.cons_append, List.cons.injEq] at hb
      exact absurd (by rw [hb.2]; simp) (hmem A1 B1 h2)

theorem last_level_unique {A B A1 B1 : List Cell} {e u : Cell} (j : Nat)
    (heq : A ++ e :: B = A1 ++ u :: B1) (he : j ≤ e.level) (hu : j ≤ u.level)
    (hB : ∀ c ∈ B, c.level < j) (hB1 : ∀ c ∈ B1, c.level < j) : e = u := by
  rcases List.append_eq_append_iff.mp heq with ⟨a, _, hb⟩ | ⟨a, _, hb⟩
  · cases a with
    | nil =>
      simp only [List.nil_append, List.cons.injEq] at hb
      exact hb.1
    | cons x a =>
      simp only [List.cons_append, List.cons.injEq] at hb
      exact absurd hu (Nat.not_le.mpr (hB u (by rw [hb.2]; simp)))
  · cases a with
    | nil =>
      simp only [List.nil_append, List.cons.injEq] at hb
      exact hb.1.symm
    | cons x a =>
      simp only [List.cons_append, List.cons.injEq] at hb
      exact absurd he (Nat.not_le.mpr (hB1 e (by rw [hb.2]; simp)))

theorem WellFormed.sorted_all {li : SkipList} {cells : List Cell} (h : WellFormed li cells) :
    (headerCell li :: cells).Pairwise (fun a b => a.key < b.key) := by
  rw [List.pairwise_cons]
  exact ⟨fun c hc => (h.user_keys c hc).1, h.sorted⟩

/-! ## The loops of `insert` -/

theorem raiseUpdate_spec (header : Nat) (n : Nat) :
    ∀ (lo : Nat) (update : List Nat), lo + n ≤ update.length →
      ∃ upd, SkipList.raiseUpdate header n lo update = some upd ∧
        upd.length = update.length ∧
        ∀ j, upd[j]? = if lo ≤ j ∧ j < lo + n then some header else update[j]? := by
  induction n with
  | zero =>
    intro lo update _
    refine ⟨update, rfl, rfl, ?_⟩
    intro j
    rw [if_neg (by omega)]
  | succ n ih =>
    intro lo update hlen
    obtain ⟨upd, h1, h2, h3⟩ := ih (lo + 1) (update.set lo header) (by simp; omega)
    refine ⟨upd, ?_, by simpa using h2, ?_⟩
    · simp [SkipList.raiseUpdate, SkipList.setUpdate, show lo < update.length by omega, h1]
    · intro j
      rw [h3 j]
      by_cases hj : j = lo
      · subst hj
        rw [if_neg (by omega), if_pos (by omega), List.getElem?_set_self (by omega)]
      · rw [List.getElem?_set_ne (Ne.symm hj)]
        by_cases hc : lo + 1 ≤ j ∧ j < lo + 1 + n
        · rw [if_pos hc, if_pos (by omega)]
        · rw [if_neg hc, if_neg (by omega)]

theorem Spliced.initial (heap0 : Heap) (update : List Nat) (newAddr : Nat) (nn : Node)
    (hnew : deref heap0 newAddr = some nn) : Spliced heap0 update newAddr nn 0 heap0 := by
  refine ⟨rfl, ?_, fun q hq => hq, ⟨nn.forward_, hnew, rfl, ?_⟩⟩
  · intro q _ node hnode
    refine ⟨node.forward_, hnode, rfl, ?_⟩
    intro j
    rw [if_neg (by omega)]
  · intro j hj
    exact absurd hj (Nat.not_lt_zero _)

theorem splice_spec (heap0 : Heap) (update : List Nat) (newAddr top : Nat) (nn : Node)
    (hnn : nn.forward_.length = top)
    (hup : ∀ j, j < top → ∃ u node, update[j]? = some u ∧ u ≠ newAddr ∧
      deref heap0 u = some node ∧ j < node.forward_.length) (n : Nat) :
    ∀ (lo : Nat) (h : Heap), lo + n = top → Spliced heap0 update newAddr nn lo h →
      ∃ h2, SkipList.splice update newAddr n lo h = some h2 ∧
        Spliced heap0 update newAddr nn top h2 := by
  induction n with
  | zero =>
    intro lo h hlo hs
    have : lo = top := by omega
    subst this
    exact ⟨h, rfl, hs⟩
  | succ n ih =>
    intro lo h hlo hs
    obtain ⟨u, node, hu, hune, hnode, hj⟩ := hup lo (by omega)
    obtain ⟨f, hf, hflen, hfj⟩ := hs.others u hune node hnode
    obtain ⟨fn, hfn, hfnlen, hfnj⟩ := hs.fresh
    obtain ⟨g, hg⟩ : ∃ g, node.forward_[lo]? = some g :=
      ⟨node.forward_[lo], List.getElem?_eq_getElem hj⟩
    have hfwd : fwd h u lo = some g := by
      rw [fwd_eq h u lo _ hf]
      show f[lo]? = some g
      rw [hfj lo, if_neg (by omega), hg]
    have hset1 := setFwd_eq h newAddr lo g _ hfn
      (show lo < fn.length by rw [hfnlen, hnn]; omega)
    have hnewlt : newAddr < h.length := deref_some_lt h newAddr _ hfn
    have hult : u < h.length := deref_some_lt h u _ hf
    have hf1 : deref (h.set newAddr (some { nn with forward_ := fn.set lo g })) u
        = some { node with forward_ := f } := by
      rw [deref_set_ne _ _ _ _ hune, hf]
    have hset2 := setFwd_eq _ u lo newAddr _ hf1 (show lo < f.length by rw [hflen]; exact hj)
    have hstep : SkipList.splice update newAddr (n + 1) lo h
        = SkipList.splice update newAddr n (lo + 1)
            ((h.set newAddr (some { nn with forward_ := fn.set lo g })).set u
              (some { node with forward_ := f.set lo newAddr })) := by
      conv_lhs => unfold SkipList.splice
      simp only [hu, hfwd, hset1, hset2]
    rw [hstep]
    apply ih (lo + 1) _ (by omega)
    refine ⟨by simp [hs.length_eq], ?_, ?_, ?_⟩
    · intro q hq nodeq hnodeq
      by_cases hqu : q = u
      · subst hqu
        rw [hnode] at hnodeq
        simp only [Option.some.injEq] at hnodeq
        subst hnodeq
        refine ⟨f.set lo newAddr, ?_, by simp [hflen], ?_⟩
        · rw [deref_set_self _ _ _ (by simpa using hult)]
        · intro j
          by_cases hjl : j = lo
          · subst hjl
            rw [List.getElem?_set_self (by rw [hflen]; exact hj), if_pos ⟨by omega, hu⟩]
          · rw [List.getElem?_set_ne (Ne.symm hjl), hfj j]
            by_cases hc : j < lo ∧ update[j]? = some q
            · rw [if_pos hc, if_pos ⟨by omega, hc.2⟩]
            · rw [if_neg hc, if_neg (fun hh => hc ⟨by omega, hh.2⟩)]
      · obtain ⟨fq, hfq, hfqlen, hfqj⟩ := hs.others q hq nodeq hnodeq
        refine ⟨fq, ?_, hfqlen, ?_⟩
        · rw [deref_set_ne _ _ _ _ hqu, deref_set_ne _ _ _ _ hq, hfq]
        · intro j
          rw [hfqj j]
          by_cases hc : j < lo ∧ update[j]? = some q
          · rw [if_pos hc, if_pos ⟨by omega, hc.2⟩]
          · rw [if_neg hc, if_neg]
            rintro ⟨h1, h2⟩
            by_cases hjl : j = lo
            · subst hjl
              rw [hu] at h2
              simp only [Option.some.injEq] at h2
              exact hqu h2.symm
            · exact hc ⟨by omega, h2⟩
    · intro q hq
      have hqu : q ≠ u := by
        intro he; rw [he, hnode] at hq; simp at hq
      have hqn : q ≠ newAddr := by
        intro he
        have := hs.free q hq
        rw [he, hfn] at this
        simp at this
      rw [deref_set_ne _ _ _ _ hqu, deref_set_ne _ _ _ _ hqn]
      exact hs.free q hq
    · refine ⟨fn.set lo g, ?_, by simp [hfnlen], ?_⟩
      · rw [deref_set_ne _ _ _ _ (Ne.symm hune), deref_set_self _ _ _ hnewlt]
      · intro j hjlt u1 hu1
        by_cases hjl : j = lo
        · subst hjl
          rw [hu] at hu1
          simp only [Option.some.injEq] at hu1
          subst hu1
          rw [List.getElem?_set_self (by rw [hfnlen, hnn]; omega), fwd_eq heap0 u j _ hnode, hg]
        · rw [List.getElem?_set_ne (Ne.symm hjl)]
          exact hfnj j (by omega) u1 hu1

theorem Spliced.untouched {heap0 h : Heap} {update : List Nat} {newAddr top : Nat} {nn : Node}
    (hs : Spliced heap0 update newAddr nn top h) (q : Nat) (hq : q ≠ newAddr)
    (hno : ∀ j, j < top → update[j]? ≠ some q) : deref h q = deref heap0 q := by
  cases hd : deref heap0 q with
  | none => exact hs.free q hd
  | some node =>
    obtain ⟨f, hf, hflen, hfj⟩ := hs.others q hq node hd
    rw [hf]
    have : f = node.forward_ := by
      apply List.ext_getElem?
      intro j
      rw [hfj j, if_neg (fun hh => hno j hh.1 hh.2)]
    rw [this]

/-! ## `insert` on a well-formed list -/

theorem randomLevel_spec (env : Env) (li : SkipList) :
    ∃ rl, SkipList.randomLevel env li = (rl, { li with rand_ := env.randNext li.rand_ }) ∧
      1 ≤ rl ∧ rl < MAX_LEVEL := by
  refine ⟨if env.randNext li.rand_ % MAX_LEVEL = 0 then 1 else env.randNext li.rand_ % MAX_LEVEL,
    rfl, ?_, ?_⟩
  · split <;> omega
  · split
    · decide
    · exact Nat.mod_lt _ (by decide)

theorem WellFormed.insert_fresh {li : SkipList} {cells : List Cell} (h : WellFormed li cells)
    (env : Env) (key : Key) (value : Value) (hk : UserKey key) (pre post : List Cell)
    (hd : cells = pre ++ post) (hpre : ∀ c ∈ pre, c.key < key)
    (hpost : ∀ c ∈ post, key < c.key) :
    ∃ li1 newc, li.insert env key value = some (true, li1) ∧
      newc.key = key ∧ newc.value = value ∧ WellFormed li1 (pre ++ newc :: post) ∧
      li1.curMemSize = add64 li.curMemSize SIZEOF_KEY ∧
      li1.nodeCount_ = li.nodeCount_ + 1 := by
  have hkmax : key ≤ KEY_MAX := Nat.le_of_lt hk.2
  have hpost1 : ∀ c ∈ post, key ≤ c.key := fun c hc => Nat.le_of_lt (hpost c hc)
  obtain ⟨pred, upd, hdesc, hulen, _, hlev, _, hfwd⟩ :=
    h.descend key hkmax pre post hd hpre hpost1
  have hlinked : Linked li.heap li.tail_ ((headerCell li :: pre) ++ post) := by
    have := h.linked
    rw [hd] at this
    exact this
  have hsorted := h.sorted
  rw [hd, List.pairwise_append] at hsorted
  have hroom := h.room
  have hprekey : ∀ c ∈ headerCell li :: pre, c.key < key := by
    intro c hc
    rcases List.mem_cons.mp hc with rfl | hc
    · exact hk.1
    · exact hpre c hc
  obtain ⟨cn, hcn, hcnk⟩ :
      ∃ cn, deref li.heap (nextAt li.tail_ 0 post) = some cn ∧ cn.key_ ≠ key := by
    rcases nextAt_cases li.tail_ 0 post with ⟨h1, _⟩ | ⟨c, hc, _, he⟩
    · rw [h1]
      exact ⟨_, h.tail_node, Ne.symm (Nat.ne_of_lt hk.2)⟩
    · obtain ⟨n, hn, hnk, _⟩ := hlinked.suffix.node_of_mem c hc
      rw [he]
      exact ⟨n, hn, by rw [hnk]; exact Ne.symm (Nat.ne_of_lt (hpost c hc))⟩
  obtain ⟨rl, hrl, hrl1, hrl2⟩ := randomLevel_spec env li
  have hrl16 : rl < 16 := hrl2
  obtain ⟨upd1, hraise, hup1⟩ : ∃ upd1,
      (if rl > li.curLevel_ then
        SkipList.raiseUpdate li.header_ (rl - li.curLevel_) (li.curLevel_ + 1) upd
       else some upd) = some upd1 ∧
      ∀ j, j ≤ rl → ∃ A u R, headerCell li :: pre = A ++ u :: R ∧
        upd1[j]? = some u.addr ∧ j ≤ u.level ∧ ∀ c ∈ R, c.level < j := by
    by_cases hgt : rl > li.curLevel_
    · obtain ⟨upd1, h1, _, h3⟩ :=
        raiseUpdate_spec li.header_ (rl - li.curLevel_) (li.curLevel_ + 1) upd
          (by rw [hulen]; show _ ≤ 16; omega)
      refine ⟨upd1, by rw [if_pos hgt, h1], ?_⟩
      intro j hj
      by_cases hjl : j ≤ li.curLevel_
      · obtain ⟨A, u, R, e1, e2, e3, e4⟩ := hlev j hjl
        refine ⟨A, u, R, e1, ?_, e3, e4⟩
        rw [h3 j, if_neg (by omega), e2]
      · refine ⟨[], headerCell li, pre, rfl, ?_, ?_, ?_⟩
        · rw [h3 j, if_pos (by omega)]; rfl
        · show j ≤ 16
          omega
        · intro c hc
          have := h.levels c (by rw [hd]; simp [hc])
          omega
    · refine ⟨upd, by rw [if_neg hgt], ?_⟩
      intro j hj
      exact hlev j (by omega)
  have hold : ∀ q n, deref li.heap q = some n →
      deref (li.heap ++ [some (Node.new key value rl)]) q = some n ∧ q ≠ li.heap.length := by
    intro q n hq
    have hlt := deref_some_lt li.heap q n hq
    exact ⟨by rw [deref_append_lt _ _ _ hlt, hq], Nat.ne_of_lt hlt⟩
  have hupd : ∀ j, j < rl + 1 → ∃ u node, upd1[j]? = some u ∧ u ≠ li.heap.length ∧
      deref (li.heap ++ [some (Node.new key value rl)]) u = some node ∧
      j < node.forward_.length := by
    intro j hj
    obtain ⟨A, u, R, e1, e2, e3, _⟩ := hup1 j (by omega)
    obtain ⟨n, hn, _, _, _, hnl⟩ := hlinked.node_of_mem u (by rw [e1]; simp)
    exact ⟨u.addr, n, e2, (hold _ _ hn).2, (hold _ _ hn).1, by rw [hnl]; omega⟩
  obtain ⟨heap2, hsplice, hsp⟩ :=
    splice_spec (li.heap ++ [some (Node.new key value rl)]) upd1 li.heap.length (rl + 1)
      (Node.new key value rl) (by simp [Node.new]) hupd (rl + 1) 0 _ (by omega)
      (Spliced.initial _ upd1 _ _ (deref_append_new li.heap _))
  have hins : li.insert env key value = some (true,
      { li with
        rand_ := env.randNext li.rand_,
        heap := heap2,
        curLevel_ := if rl > li.curLevel_ then rl else li.curLevel_,
        curMemSize := add64 li.curMemSize SIZEOF_KEY,
        nodeCount_ := li.nodeCount_ + 1 }) := by
    unfold SkipList.insert
    rw [hdesc]
    simp only [hfwd, hcn, if_neg hcnk, hrl, hraise, hsplice, Nat.add_zero]
  refine ⟨_, ⟨li.heap.length, key, value, rl⟩, hins, rfl, rfl, ?_, rfl, rfl⟩
  have hnoupd : ∀ q, (∀ c ∈ headerCell li :: pre, c.addr ≠ q) →
      ∀ j, j < rl + 1 → upd1[j]? ≠ some q := by
    intro q hq j hj hc
    obtain ⟨A, u, R, e1, e2, _, _⟩ := hup1 j (by omega)
    rw [e2] at hc
    simp only [Option.some.injEq] at hc
    exact hq u (by rw [e1]; simp) hc
  have hframe : ∀ q n, deref li.heap q = some n → (∀ c ∈ headerCell li :: pre, c.addr ≠ q) →
      deref heap2 q = some n := by
    intro q n hq hne
    rw [hsp.untouched q (hold q n hq).2 (hnoupd q hne), (hold q n hq).1]
  have hpostne : ∀ c ∈ post, ∀ c1 ∈ headerCell li :: pre, c1.addr ≠ c.addr := by
    intro c hc c1 hc1 he
    have := hlinked.addr_inj c1 c (by simp at hc1 ⊢; tauto) (by simp [hc]) he
    subst this
    exact absurd (hprekey c1 hc1) (Nat.lt_asymm (hpost c1 hc))
  refine ⟨?_, ?_, ?_, ?_, ?_, ?_, ?_, ?_, ?_⟩
  · exact hsp.free 0 (deref_append_none _ _ 0 (by omega) h.null_free)
  · apply hframe _ _ h.tail_node
    intro c hc he
    obtain ⟨n, hn, hnk, _⟩ := hlinked.node_of_mem c (by simp at hc ⊢; tauto)
    rw [he, h.tail_node] at hn
    simp only [Option.some.injEq] at hn
    rw [← hn] at hnk
    have := hprekey c hc
    rw [← hnk] at this
    exact absurd hk.2 (Nat.lt_asymm this)
  · show Linked heap2 li.tail_ ((headerCell li :: pre) ++ (⟨li.heap.length, key, value, rl⟩ :: post))
    rw [Linked_append]
    refine ⟨?_, ⟨?_, ?_⟩⟩
    · intro A e B hdec
      have hle : Linked li.heap li.tail_ (A ++ e :: (B ++ post)) := by
        have := hlinked
        rw [hdec] at this
        simpa using this
      obtain ⟨fE, hdE, hlenE, hfwE⟩ := hle.nodeAt
      obtain ⟨f, hf, hflen, hfj⟩ := hsp.others e.addr (hold _ _ hdE).2 _ (hold _ _ hdE).1
      refine ⟨f, hf, by rw [hflen]; exact hlenE, ?_⟩
      intro j hj
      rw [hfj j]
      by_cases hB : ∃ c ∈ B, j ≤ c.level
      · rw [nextAt_append_mem li.tail_ j B _ post hB, ← hfwE j hj]
        rw [if_neg]
        rintro ⟨hj1, hj2⟩
        obtain ⟨A1, u, R, e1, e2, _, e4⟩ := hup1 j (by omega)
        rw [e2] at hj2
        simp only [Option.some.injEq] at hj2
        have hue : u = e := hlinked.addr_inj u e (by rw [e1]; simp) (by rw [hdec]; simp) hj2
        subst hue
        have hsa : (headerCell li :: pre).Pairwise (fun a b => a.key < b.key) := by
          rw [List.pairwise_cons]
          exact ⟨fun c hc => (h.user_keys c (by rw [hd]; simp [hc])).1, hsorted.1⟩
        obtain ⟨_, hBR⟩ := decomp_unique hsa hdec e1
        obtain ⟨c, hc, hcl⟩ := hB
        rw [hBR] at hc
        exact absurd hcl (Nat.not_le.mpr (e4 c hc))
      · have hB1 : ∀ c ∈ B, c.level < j := by
          intro c hc
          by_contra hcl
          exact hB ⟨c, hc, Nat.le_of_not_lt hcl⟩
        rw [nextAt_append_lt li.tail_ j B _ hB1]
        by_cases hjr : j ≤ rl
        · obtain ⟨A1, u, R, e1, e2, e3, e4⟩ := hup1 j hjr
          have hue : e = u := last_level_unique j (by rw [← hdec, ← e1]) hj e3 hB1 e4
          rw [if_pos ⟨by omega, by rw [e2, hue]⟩]
          simp [nextAt, hjr]
        · rw [if_neg (fun hh => hjr (by omega))]
          have := hfwE j hj
          rw [nextAt_append_lt li.tail_ j B _ hB1] at this
          rw [this]
          simp [nextAt, hjr]
    · obtain ⟨f, hf, hflen, hfj⟩ := hsp.fresh
      refine ⟨f, hf, by rw [hflen]; simp [Node.new], ?_⟩
      intro j hj0
      have hj : j ≤ rl := hj0
      obtain ⟨A1, u, R, e1, e2, e3, e4⟩ := hup1 j hj
      rw [hfj j (by show j < rl + 1; omega) u.addr e2]
      have hlu : Linked li.heap li.tail_ (A1 ++ u :: (R ++ post)) := by
        have := hlinked
        rw [e1] at this
        simpa using this
      obtain ⟨n, hn, _⟩ := hlu.nodeAt.key_eq
      have h1 := hlu.nodeAt.forward_at j e3
      rw [nextAt_append_lt li.tail_ j R _ e4] at h1
      rw [← h1]
      unfold fwd
      rw [(hold _ _ hn).1, hn]
    · apply hlinked.suffix.frame
      intro c hc
      obtain ⟨n, hn, _⟩ := hlinked.suffix.node_of_mem c hc
      rw [hframe _ _ hn (hpostne c hc), hn]
  · rw [List.pairwise_append, List.pairwise_cons]
    refine ⟨hsorted.1, ⟨fun c hc => hpost c hc, hsorted.2.1⟩, ?_⟩
    intro a ha b hb
    rcases List.mem_cons.mp hb with rfl | hb
    · exact hpre a ha
    · exact hsorted.2.2 a ha b hb
  · intro c hc
    simp only [List.mem_append, List.mem_cons] at hc
    rcases hc with hc | rfl | hc
    · exact h.user_keys c (by rw [hd]; simp [hc])
    · exact hk
    · exact h.user_keys c (by rw [hd]; simp [hc])
  · intro c hc
    show c.level ≤ if rl > li.curLevel_ then rl else li.curLevel_
    simp only [List.mem_append, List.mem_cons] at hc
    have hcl : ∀ c1 ∈ cells, c1.level ≤ if rl > li.curLevel_ then rl else li.curLevel_ := by
      intro c1 hc1
      have := h.levels c1 hc1
      split <;> omega
    rcases hc with hc | rfl | hc
    · exact hcl c (by rw [hd]; simp [hc])
    · show rl ≤ _
      split <;> omega
    · exact hcl c (by rw [hd]; simp [hc])
  · show (if rl > li.curLevel_ then rl else li.curLevel_) < MAX_LEVEL
    have := h.level_lt
    split
    · exact hrl2
    · exact this
  · show li.nodeCount_ + 1 = _
    rw [h.count_eq, hd]
    simp
    omega
  · show _ ≤ heap2.length
    rw [hsp.length_eq]
    rw [hd] at hroom
    simp at hroom ⊢
    omega

theorem WellFormed.insert_present {li : SkipList} {cells : List Cell} (h : WellFormed li cells)
    (env : Env) (key : Key) (value : Value) (pre post : List Cell) (c : Cell)
    (hd : cells = pre ++ c :: post) (hc : c.key = key) :
    ∃ li1, li.insert env key value = some (false, li1) ∧
      WellFormed li1 (pre ++ { c with value := value } :: post) ∧
      li1.curMemSize = add64 (sub64 li.curMemSize c.value.length) value.length ∧
      li1.nodeCount_ = li.nodeCount_ := by
  have hcu := h.user_keys c (by rw [hd]; simp)
  have hsorted := h.sorted
  rw [hd, List.pairwise_append, List.pairwise_cons] at hsorted
  have hpre : ∀ c1 ∈ pre, c1.key < key := by
    intro c1 hc1
    rw [← hc]
    exact hsorted.2.2 c1 hc1 c (List.mem_cons_self _ _)
  have hpost : ∀ c1 ∈ c :: post, key ≤ c1.key := by
    intro c1 hc1
    rw [← hc]
    rcases List.mem_cons.mp hc1 with rfl | hc1
    · exact Nat.le_refl _
    · exact Nat.le_of_lt (hsorted.2.1.1 c1 hc1)
  obtain ⟨pred, upd, hdesc, _, _, _, _, hfwd⟩ :=
    h.descend key (by rw [← hc]; exact Nat.le_of_lt hcu.2) pre (c :: post) hd hpre hpost
  have hlinked : Linked li.heap li.tail_ ((headerCell li :: pre) ++ c :: post) := by
    have := h.linked
    rw [hd] at this
    exact this
  obtain ⟨f, hn, hflen, hfw⟩ := hlinked.nodeAt
  have hnext : nextAt li.tail_ 0 (c :: post) = c.addr := by simp [nextAt]
  rw [hnext] at hfwd
  have hins : li.insert env key value = some (false,
      { li with
        heap := li.heap.set c.addr
          (some { key_ := c.key, value_ := value, forward_ := f, nodeLevel_ := c.level }),
        curMemSize := add64 (sub64 li.curMemSize c.value.length) value.length }) := by
    unfold SkipList.insert
    rw [hdesc]
    simp only [hfwd, hn, hc, if_true]
  refine ⟨_, hins, ?_, rfl, rfl⟩
  have haddr : ∀ c1 ∈ (headerCell li :: pre) ++ c :: post, c1.addr = c.addr → c1 = c :=
    fun c1 hc1 he => hlinked.addr_inj c1 c hc1 (by simp) he
  have hprene : ∀ c1 ∈ headerCell li :: pre, c1.addr ≠ c.addr := by
    intro c1 hc1 he
    have := haddr c1 (by simp at hc1 ⊢; tauto) he
    subst this
    rcases List.mem_cons.mp hc1 with h1 | h1
    · rw [h1] at hcu
      exact absurd hcu.1 (Nat.lt_irrefl _)
    · exact absurd (hpre c1 h1) (by rw [hc]; exact Nat.lt_irrefl _)
  have hpostne : ∀ c1 ∈ post, c1.addr ≠ c.addr := by
    intro c1 hc1 he
    have := haddr c1 (by simp [hc1]) he
    subst this
    exact absurd (hsorted.2.1.1 c1 hc1) (Nat.lt_irrefl _)
  have hclt : c.addr < li.heap.length := deref_some_lt _ _ _ hn
  refine ⟨?_, ?_, ?_, ?_, ?_, ?_, ?_, ?_, ?_⟩
  · show deref (li.heap.set c.addr _) 0 = none
    rw [deref_set_ne _ _ _ _ (by intro he; rw [← he, h.null_free] at hn; simp at hn)]
    exact h.null_free
  · show deref (li.heap.set c.addr _) li.tail_ = _
    rw [deref_set_ne _ _ _ _ (by
      intro he
      rw [← he, h.tail_node] at hn
      simp only [Node.new, Option.some.injEq, Node.mk.injEq] at hn
      exact absurd hn.1.symm (Nat.ne_of_lt hcu.2))]
    exact h.tail_node
  · show Linked (li.heap.set c.addr _) li.tail_
      ((headerCell li :: pre) ++ ({ c with value := value } :: post))
    rw [Linked_append]
    refine ⟨?_, ⟨?_, ?_⟩⟩
    · intro A e B hdec
      have hle : Linked li.heap li.tail_ (A ++ e :: (B ++ c :: post)) := by
        have := hlinked
        rw [hdec] at this
        simpa using this
      obtain ⟨fE, hdE, hlenE, hfwE⟩ := hle.nodeAt
      refine ⟨fE, ?_, hlenE, ?_⟩
      · rw [deref_set_ne _ _ _ _ (hprene e (by rw [hdec]; simp)), hdE]
      · intro j hj
        rw [hfwE j hj]
        congr 1
        apply nextAt_congr
        simp
    · exact ⟨f, by rw [deref_set_self _ _ _ hclt], hflen, hfw⟩
    · apply hlinked.suffix.2.frame
      intro c1 hc1
      rw [deref_set_ne _ _ _ _ (hpostne c1 hc1)]
  · rw [List.pairwise_append, List.pairwise_cons]
    refine ⟨hsorted.1, ⟨fun c1 hc1 => hsorted.2.1.1 c1 hc1, hsorted.2.1.2⟩, ?_⟩
    intro a ha b hb
    rcases List.mem_cons.mp hb with rfl | hb
    · exact hsorted.2.2 a ha c (List.mem_cons_self _ _)
    · exact hsorted.2.2 a ha b (List.mem_cons_of_mem _ hb)
  · intro c1 hc1
    simp only [List.mem_append, List.mem_cons] at hc1
    rcases hc1 with hc1 | rfl | hc1
    · exact h.user_keys c1 (by rw [hd]; simp [hc1])
    · exact hcu
    · exact h.user_keys c1 (by rw [hd]; simp [hc1])
  · intro c1 hc1
    simp only [List.mem_append, List.mem_cons] at hc1
    rcases hc1 with hc1 | rfl | hc1
    · exact h.levels c1 (by rw [hd]; simp [hc1])
    · exact h.levels c (by rw [hd]; simp)
    · exact h.levels c1 (by rw [hd]; simp [hc1])
  · exact h.level_lt
  · show li.nodeCount_ = _
    rw [h.count_eq, hd]
    simp
  · show _ ≤ (li.heap.set c.addr _).length
    have := h.room
    rw [hd] at this
    simpa using this

/-! ## The loops of `remove` -/

theorem Unlinked.at_start (heap0 : Heap) (update : List Nat) (cur : Nat) :
    Unlinked heap0 update cur 0 heap0 := by
  refine ⟨rfl, ?_, fun q hq => hq⟩
  intro q node hnode
  refine ⟨node.forward_, hnode, rfl, ?_⟩
  intro j
  rw [if_neg (by omega)]

theorem Unlinked.unchanged {heap0 h : Heap} {update : List Nat} {cur lo : Nat}
    (hs : Unlinked heap0 update cur lo h) (q : Nat)
    (hno : ∀ j, j < lo → update[j]? ≠ some q) : deref h q = deref heap0 q := by
  cases hd : deref heap0 q with
  | none => exact hs.free q hd
  | some node =>
    obtain ⟨f, hf, _, hfj⟩ := hs.others q node hd
    rw [hf]
    have : f = node.forward_ := by
      apply List.ext_getElem?
      intro j
      rw [hfj j, if_neg (fun hh => hno j hh.1 hh.2)]
    rw [this]

theorem unlink_spec (heap0 : Heap) (update : List Nat) (cur cl top : Nat) (cnode : Node)
    (hcur : deref heap0 cur = some cnode) (hclen : cnode.forward_.length = cl + 1)
    (hcl : cl < top)
    (hup : ∀ j, j < top → ∃ u node, update[j]? = some u ∧ u ≠ 0 ∧ u ≠ cur ∧
      deref heap0 u = some node ∧ j < node.forward_.length ∧
      (j ≤ cl → node.forward_[j]? = some cur) ∧ (cl < j → node.forward_[j]? ≠ some cur))
    (n : Nat) :
    ∀ (lo : Nat) (h : Heap), lo + n = top → lo ≤ cl + 1 → Unlinked heap0 update cur lo h →
      ∃ h2, SkipList.unlink update cur n lo h = some h2 ∧
        Unlinked heap0 update cur (cl + 1) h2 := by
  induction n with
  | zero =>
    intro lo h hlo hle hs
    have : lo = cl + 1 := by omega
    subst this
    exact ⟨h, rfl, hs⟩
  | succ n ih =>
    intro lo h hlo hle hs
    obtain ⟨u, node, hu, hu0, hucur, hnode, hj, hin, hout⟩ := hup lo (by omega)
    obtain ⟨f, hf, hflen, hfj⟩ := hs.others u node hnode
    have hfwdu : fwd h u lo = node.forward_[lo]? := by
      rw [fwd_eq h u lo _ hf]
      show f[lo]? = _
      rw [hfj lo, if_neg (by omega)]
    by_cases hlc : lo ≤ cl
    · have hlo2 : lo < cnode.forward_.length := by omega
      obtain ⟨g, hg⟩ : ∃ g, cnode.forward_[lo]? = some g :=
        ⟨cnode.forward_[lo], List.getElem?_eq_getElem hlo2⟩
      have hcurh : deref h cur = some cnode := by
        rw [hs.unchanged cur (fun j hjl hc => by
          obtain ⟨u1, _, hu1, _, hne, _⟩ := hup j (by omega)
          rw [hu1] at hc
          simp only [Option.some.injEq] at hc
          exact hne hc), hcur]
      have hfwdc : fwd h cur lo = some g := by rw [fwd_eq h cur lo _ hcurh, hg]
      have hset := setFwd_eq h u lo g _ hf (show lo < f.length by rw [hflen]; exact hj)
      have hult : u < h.length := deref_some_lt h u _ hf
      have hstep : SkipList.unlink update cur (n + 1) lo h
          = SkipList.unlink update cur n (lo + 1)
              (h.set u (some { node with forward_ := f.set lo g })) := by
        conv_lhs => unfold SkipList.unlink
        simp only [hu, if_neg hu0, hfwdu, hin hlc, ne_eq, not_true_eq_false, if_false, hfwdc,
          hset]
      rw [hstep]
      apply ih (lo + 1) _ (by omega) (by omega)
      refine ⟨by simp [hs.length_eq], ?_, ?_⟩
      · intro q nodeq hnodeq
        by_cases hqu : q = u
        · subst hqu
          rw [hnode] at hnodeq
          simp only [Option.some.injEq] at hnodeq
          subst hnodeq
          refine ⟨f.set lo g, by rw [deref_set_self _ _ _ hult], by simp [hflen], ?_⟩
          intro j
          by_cases hjl : j = lo
          · subst hjl
            rw [List.getElem?_set_self (by rw [hflen]; exact hj), if_pos ⟨by omega, hu⟩,
              fwd_eq heap0 cur j _ hcur, hg]
          · rw [List.getElem?_set_ne (Ne.symm hjl), hfj j]
            by_cases hc : j < lo ∧ update[j]? = some q
            · rw [if_pos hc, if_pos ⟨by omega, hc.2⟩]
            · rw [if_neg hc, if_neg (fun hh => hc ⟨by omega, hh.2⟩)]
        · obtain ⟨fq, hfq, hfqlen, hfqj⟩ := hs.others q nodeq hnodeq
          refine ⟨fq, by rw [deref_set_ne _ _ _ _ hqu, hfq], hfqlen, ?_⟩
          intro j
          rw [hfqj j]
          by_cases hc : j < lo ∧ update[j]? = some q
          · rw [if_pos hc, if_pos ⟨by omega, hc.2⟩]
          · rw [if_neg hc, if_neg]
            rintro ⟨h1, h2⟩
            by_cases hjl : j = lo
            · subst hjl
              rw [hu] at h2
              simp only [Option.some.injEq] at h2
              exact hqu h2.symm
            · exact hc ⟨by omega, h2⟩
      · intro q hq
        have hqu : q ≠ u := by
          intro he; rw [he, hnode] at hq; simp at hq
        rw [deref_set_ne _ _ _ _ hqu]
        exact hs.free q hq
    · have hlo : lo = cl + 1 := by omega
      obtain ⟨x, hx⟩ : ∃ x, node.forward_[lo]? = some x :=
        ⟨node.forward_[lo], List.getElem?_eq_getElem hj⟩
      have hxne : x ≠ cur := by
        intro he
        rw [he] at hx
        exact hout (by omega) hx
      refine ⟨h, ?_, by rw [← hlo]; exact hs⟩
      unfold SkipList.unlink
      simp only [hu, if_neg hu0, hfwdu, hx, ne_eq, hxne, not_false_eq_true, if_true]

theorem shrinkLevel_spec (heap : Heap) (header tail : Nat) (l : Nat)
    (hf : ∀ j, j ≤ l → ∃ x, fwd heap header j = some x) :
    ∃ lvl, SkipList.shrinkLevel heap header tail l = some lvl ∧ lvl ≤ l ∧
      ∀ j, lvl < j → j ≤ l → fwd heap header j = some tail := by
  induction l with
  | zero => exact ⟨0, rfl, Nat.le_refl _, fun j h1 h2 => by omega⟩
  | succ l ih =>
    obtain ⟨x, hx⟩ := hf (l + 1) (Nat.le_refl _)
    by_cases hxt : x = tail
    · obtain ⟨lvl, h1, h2, h3⟩ := ih (fun j hj => hf j (by omega))
      refine ⟨lvl, by simp [SkipList.shrinkLevel, hx, hxt, h1], by omega, ?_⟩
      intro j hj1 hj2
      by_cases hjl : j = l + 1
      · rw [hjl, hx, hxt]
      · exact h3 j hj1 (by omega)
    · exact ⟨l + 1, by simp [SkipList.shrinkLevel, hx, hxt], Nat.le_refl _,
        fun j h1 h2 => by omega⟩

/-! ## `remove` on a well-formed list -/

theorem WellFormed.remove_absent {li : SkipList} {cells : List Cell} (h : WellFormed li cells)
    (key : Key) (hk : UserKey key) (habs : ∀ c ∈ cells, c.key ≠ key) :
    li.remove key = some (false, li) := by
  obtain ⟨pre, post, hd, hpre, hpost⟩ := split_sorted key cells h.sorted
  obtain ⟨pred, upd, hdesc, _, _, _, _, hfwd⟩ :=
    h.descend key (Nat.le_of_lt hk.2) pre post hd hpre hpost
  have hlinked : Linked li.heap li.tail_ ((headerCell li :: pre) ++ post) := by
    have := h.linked
    rw [hd] at this
    exact this
  obtain ⟨cn, hcn, hcnk⟩ :
      ∃ cn, deref li.heap (nextAt li.tail_ 0 post) = some cn ∧ cn.key_ ≠ key := by
    rcases nextAt_cases li.tail_ 0 post with ⟨h1, _⟩ | ⟨c, hc, _, he⟩
    · rw [h1]
      exact ⟨_, h.tail_node, Ne.symm (Nat.ne_of_lt hk.2)⟩
    · obtain ⟨n, hn, hnk, _⟩ := hlinked.suffix.node_of_mem c hc
      rw [he]
      exact ⟨n, hn, by rw [hnk]; exact habs c (by rw [hd]; simp [hc])⟩
  unfold SkipList.remove
  rw [hdesc]
  simp only [hfwd, hcn, if_neg hcnk]

theorem WellFormed.remove_present {li : SkipList} {cells : List Cell} (h : WellFormed li cells)
    (key : Key) (pre post : List Cell) (c : Cell)
    (hd : cells = pre ++ c :: post) (hc : c.key = key) :
    ∃ li1, li.remove key = some (true, li1) ∧ WellFormed li1 (pre ++ post) ∧
      li1.curMemSize = sub64 li.curMemSize (SIZEOF_KEY + c.value.length) ∧
      li1.nodeCount_ + 1 = li.nodeCount_ := by
  have hcu := h.user_keys c (by rw [hd]; simp)
  have hsorted := h.sorted
  rw [hd, List.pairwise_append, List.pairwise_cons] at hsorted
  have hpre : ∀ c1 ∈ pre, c1.key < key := by
    intro c1 hc1
    rw [← hc]
    exact hsorted.2.2 c1 hc1 c (List.mem_cons_self _ _)
  have hpost : ∀ c1 ∈ c :: post, key ≤ c1.key := by
    intro c1 hc1
    rw [← hc]
    rcases List.mem_cons.mp hc1 with rfl | hc1
    · exact Nat.le_refl _
    · exact Nat.le_of_lt (hsorted.2.1.1 c1 hc1)
  obtain ⟨pred, upd, hdesc, _, _, hlev, _, hfwd⟩ :=
    h.descend key (by rw [← hc]; exact Nat.le_of_lt hcu.2) pre (c :: post) hd hpre hpost
  have hlinked : Linked li.heap li.tail_ ((headerCell li :: pre) ++ c :: post) := by
    have := h.linked
    rw [hd] at this
    exact this
  obtain ⟨fc, hn, hfclen, hfcw⟩ := hlinked.nodeAt
  have hnext : nextAt li.tail_ 0 (c :: post) = c.addr := by simp [nextAt]
  rw [hnext] at hfwd
  have hcl : c.level ≤ li.curLevel_ := h.levels c (by rw [hd]; simp)
  have haddr : ∀ c1 ∈ (headerCell li :: pre) ++ c :: post, c1.addr = c.addr → c1 = c :=
    fun c1 hc1 he => hlinked.addr_inj c1 c hc1 (by simp) he
  have hprene : ∀ c1 ∈ headerCell li :: pre, c1.addr ≠ c.addr := by
    intro c1 hc1 he
    have := haddr c1 (by simp at hc1 ⊢; tauto) he
    subst this
    rcases List.mem_cons.mp hc1 with h1 | h1
    · rw [h1] at hcu
      exact absurd hcu.1 (Nat.lt_irrefl _)
    · exact absurd (hpre c1 h1) (by rw [hc]; exact Nat.lt_irrefl _)
  have hpostne : ∀ c1 ∈ post, c1.addr ≠ c.addr := by
    intro c1 hc1 he
    have := haddr c1 (by simp [hc1]) he
    subst this
    exact absurd (hsorted.2.1.1 c1 hc1) (Nat.lt_irrefl _)
  have htailne : li.tail_ ≠ c.addr := by
    intro he
    rw [← he, h.tail_node] at hn
    simp only [Node.new, Option.some.injEq, Node.mk.injEq] at hn
    exact absurd hn.1.symm (Nat.ne_of_lt hcu.2)
  have hnextne : ∀ j, nextAt li.tail_ j post ≠ c.addr := by
    intro j
    rcases nextAt_cases li.tail_ j post with ⟨h1, _⟩ | ⟨c1, hc1, _, he⟩
    · rw [h1]; exact htailne
    · rw [he]; exact hpostne c1 hc1
  have hup : ∀ j, j < li.curLevel_ + 1 → ∃ u node, upd[j]? = some u ∧ u ≠ 0 ∧ u ≠ c.addr ∧
      deref li.heap u = some node ∧ j < node.forward_.length ∧
      (j ≤ c.level → node.forward_[j]? = some c.addr) ∧
      (c.level < j → node.forward_[j]? ≠ some c.addr) := by
    intro j hj
    obtain ⟨A, u, R, e1, e2, e3, e4⟩ := hlev j (by omega)
    have hlu : Linked li.heap li.tail_ (A ++ u :: (R ++ c :: post)) := by
      have := hlinked
      rw [e1] at this
      simpa using this
    obtain ⟨fu, hdu, hlenu, hfwu⟩ := hlu.nodeAt
    have hfj := hfwu j e3
    rw [nextAt_append_lt li.tail_ j R _ e4] at hfj
    refine ⟨u.addr, _, e2, ?_, hprene u (by rw [e1]; simp), hdu, ?_, ?_, ?_⟩
    · intro he
      rw [he, h.null_free] at hdu
      simp at hdu
    · show j < fu.length
      rw [hlenu]; omega
    · intro hjc
      show fu[j]? = _
      rw [hfj]
      simp [nextAt, hjc]
    · intro hjc
      show fu[j]? ≠ _
      rw [hfj]
      simp only [nextAt, if_neg (Nat.not_le.mpr hjc), ne_eq, Option.some.injEq]
      exact hnextne j
  obtain ⟨heap1, hunlink, hun⟩ :=
    unlink_spec li.heap upd c.addr c.level (li.curLevel_ + 1) _ hn hfclen (by omega) hup
      (li.curLevel_ + 1) 0 li.heap (by omega) (by omega) (Unlinked.at_start _ _ _)
  have hframe : ∀ q, (∀ c1 ∈ headerCell li :: pre, c1.addr ≠ q) →
      deref heap1 q = deref li.heap q := by
    intro q hq
    apply hun.unchanged
    intro j hj hcj
    obtain ⟨A, u, R, e1, e2, _, _⟩ := hlev j (by omega)
    rw [e2] at hcj
    simp only [Option.some.injEq] at hcj
    exact hq u (by rw [e1]; simp) hcj
  have hsa : (headerCell li :: pre).Pairwise (fun a b => a.key < b.key) := by
    rw [List.pairwise_cons]
    exact ⟨fun c1 hc1 => (h.user_keys c1 (by rw [hd]; simp [hc1])).1, hsorted.1⟩
  have hfront : ∀ A e B, headerCell li :: pre = A ++ e :: B →
      NodeAt heap1 li.tail_ e (B ++ post) := by
    intro A e B hdec
    have hle : Linked li.heap li.tail_ (A ++ e :: (B ++ c :: post)) := by
      have := hlinked
      rw [hdec] at this
      simpa using this
    obtain ⟨fE, hdE, hlenE, hfwE⟩ := hle.nodeAt
    obtain ⟨f, hf, hflen, hfj⟩ := hun.others e.addr _ hdE
    refine ⟨f, hf, by rw [hflen]; exact hlenE, ?_⟩
    intro j hj
    rw [hfj j]
    by_cases hB : ∃ c1 ∈ B, j ≤ c1.level
    · rw [nextAt_append_mem li.tail_ j B post (c :: post) hB, ← hfwE j hj]
      rw [if_neg]
      rintro ⟨hj1, hj2⟩
      obtain ⟨A1, u, R, e1, e2, _, e4⟩ := hlev j (by omega)
      rw [e2] at hj2
      simp only [Option.some.injEq] at hj2
      have hue : u = e := hlinked.addr_inj u e (by rw [e1]; simp) (by rw [hdec]; simp) hj2
      subst hue
      obtain ⟨_, hBR⟩ := decomp_unique hsa hdec e1
      obtain ⟨c1, hc1, hcl1⟩ := hB
      rw [hBR] at hc1
      exact absurd hcl1 (Nat.not_le.mpr (e4 c1 hc1))
    · have hB1 : ∀ c1 ∈ B, c1.level < j := by
        intro c1 hc1
        by_contra hcl1
        exact hB ⟨c1, hc1, Nat.le_of_not_lt hcl1⟩
      rw [nextAt_append_lt li.tail_ j B _ hB1]
      by_cases hjr : j ≤ c.level
      · obtain ⟨A1, u, R, e1, e2, e3, e4⟩ := hlev j (by omega)
        have hue : e = u := last_level_unique j (by rw [← hdec, ← e1]) hj e3 hB1 e4
        rw [if_pos ⟨by omega, by rw [e2, hue]⟩]
        rw [fwd_eq li.heap c.addr j _ hn]
        exact hfcw j hjr
      · rw [if_neg (fun hh => hjr (by omega))]
        have := hfwE j hj
        rw [nextAt_append_lt li.tail_ j B _ hB1] at this
        rw [this]
        simp [nextAt, hjr]
  have hhdr : ∀ j, j ≤ MAX_LEVEL → fwd heap1 li.header_ j = some (nextAt li.tail_ j (pre ++ post)) :=
    fun j hj => (hfront [] (headerCell li) pre rfl).forward_at j hj
  obtain ⟨lvl, hshrink, hlvl, hlvl2⟩ :=
    shrinkLevel_spec heap1 li.header_ li.tail_ li.curLevel_
      (fun j hj => ⟨_, hhdr j (Nat.le_trans hj (Nat.le_of_lt h.level_lt))⟩)
  have hrem : li.remove key = some (true,
      { li with
        heap := heap1.set c.addr none,
        curLevel_ := lvl,
        curMemSize := sub64 li.curMemSize (SIZEOF_KEY + c.value.length),
        nodeCount_ := li.nodeCount_ - 1 }) := by
    unfold SkipList.remove
    rw [hdesc]
    simp only [hfwd, hn, hc, if_true, hunlink, hshrink]
  have hcount : li.nodeCount_ = pre.length + 1 + post.length := by
    rw [h.count_eq, hd]; simp; omega
  refine ⟨_, hrem, ?_, rfl, by show li.nodeCount_ - 1 + 1 = li.nodeCount_; omega⟩
  have hdel : ∀ q, q ≠ c.addr → deref (heap1.set c.addr none) q = deref heap1 q :=
    fun q hq => deref_set_ne _ _ _ _ hq
  have hlinked2 : Linked (heap1.set c.addr none) li.tail_ ((headerCell li :: pre) ++ post) := by
    rw [Linked_append]
    refine ⟨?_, ?_⟩
    · intro A e B hdec
      obtain ⟨f, hf, hflen, hfw⟩ := hfront A e B hdec
      exact ⟨f, by rw [hdel _ (hprene e (by rw [hdec]; simp)), hf], hflen, hfw⟩
    · apply hlinked.suffix.2.frame
      intro c1 hc1
      rw [hdel _ (hpostne c1 hc1)]
      apply hframe
      intro c2 hc2 he
      have := hlinked.addr_inj c2 c1 (by simp at hc2 ⊢; tauto) (by simp [hc1]) he
      subst this
      have h1 : c2.key < key := by
        rcases List.mem_cons.mp hc2 with h1 | h1
        · rw [h1, ← hc]; exact hcu.1
        · exact hpre c2 h1
      have h2 : key < c2.key := by rw [← hc]; exact hsorted.2.1.1 c2 hc1
      exact absurd h1 (Nat.lt_asymm h2)
  refine ⟨?_, ?_, hlinked2, ?_, ?_, ?_, ?_, ?_, ?_⟩
  · show deref (heap1.set c.addr none) 0 = none
    rw [hdel 0 (by intro he; rw [← he, h.null_free] at hn; simp at hn)]
    exact hun.free 0 h.null_free
  · show deref (heap1.set c.addr none) li.tail_ = _
    rw [hdel _ htailne, hframe, h.tail_node]
    intro c1 hc1 he
    obtain ⟨n1, hn1, hnk, _⟩ := hlinked.node_of_mem c1 (by simp at hc1 ⊢; tauto)
    rw [he, h.tail_node] at hn1
    simp only [Option.some.injEq] at hn1
    rw [← hn1] at hnk
    have h1 : c1.key < key := by
      rcases List.mem_cons.mp hc1 with h1 | h1
      · rw [h1, ← hc]; exact hcu.1
      · exact hpre c1 h1
    rw [← hnk, ← hc] at h1
    exact absurd hcu.2 (Nat.lt_asymm h1)
  · rw [List.pairwise_append]
    exact ⟨hsorted.1, hsorted.2.1.2,
      fun a ha b hb => hsorted.2.2 a ha b (List.mem_cons_of_mem _ hb)⟩
  · intro c1 hc1
    simp only [List.mem_append] at hc1
    rcases hc1 with hc1 | hc1
    · exact h.user_keys c1 (by rw [hd]; simp [hc1])
    · exact h.user_keys c1 (by rw [hd]; simp [hc1])
  · intro c1 hc1
    show c1.level ≤ lvl
    by_contra hgt
    have hold : c1.level ≤ li.curLevel_ := by
      simp only [List.mem_append] at hc1
      rcases hc1 with hc1 | hc1
      · exact h.levels c1 (by rw [hd]; simp [hc1])
      · exact h.levels c1 (by rw [hd]; simp [hc1])
    have h1 := hlvl2 c1.level (by omega) hold
    rw [hhdr c1.level (Nat.le_trans hold (Nat.le_of_lt h.level_lt))] at h1
    simp only [Option.some.injEq] at h1
    rcases nextAt_cases li.tail_ c1.level (pre ++ post) with ⟨_, h3⟩ | ⟨c2, hc2, _, he⟩
    · exact absurd (h3 c1 hc1) (Nat.lt_irrefl _)
    · rw [he] at h1
      obtain ⟨n2, hn2, hnk, _⟩ := hlinked2.node_of_mem c2 (by simp at hc2 ⊢; tauto)
      have htl : deref (heap1.set c.addr none) li.tail_ = some (Node.new KEY_MAX [] 0) := by
        rw [hdel _ htailne, hframe, h.tail_node]
        intro c3 hc3 he3
        obtain ⟨n3, hn3, hnk3, _⟩ := hlinked.node_of_mem c3 (by simp at hc3 ⊢; tauto)
        rw [he3, h.tail_node] at hn3
        simp only [Option.some.injEq] at hn3
        rw [← hn3] at hnk3
        have h4 : c3.key < key := by
          rcases List.mem_cons.mp hc3 with h4 | h4
          · rw [h4, ← hc]; exact hcu.1
          · exact hpre c3 h4
        rw [← hnk3, ← hc] at h4
        exact absurd hcu.2 (Nat.lt_asymm h4)
      rw [h1, htl] at hn2
      simp only [Option.some.injEq] at hn2
      rw [← hn2] at hnk
      have hu2 : c2.key < KEY_MAX := by
        simp only [List.mem_append] at hc2
        rcases hc2 with hc2 | hc2
        · exact (h.user_keys c2 (by rw [hd]; simp [hc2])).2
        · exact (h.user_keys c2 (by rw [hd]; simp [hc2])).2
      rw [← hnk] at hu2
      exact absurd hu2 (Nat.lt_irrefl _)
  · show lvl < MAX_LEVEL
    exact Nat.lt_of_le_of_lt hlvl h.level_lt
  · show li.nodeCount_ - 1 = _
    rw [hcount]; simp
  · show _ ≤ (heap1.set c.addr none).length
    have := h.room
    rw [hd] at this
    simp at this
    simp [hun.length_eq]
    omega

/-! ## `clear` on a well-formed list -/

theorem freeAll_spec (tail : Nat) (S : List Cell) :
    ∀ (h : Heap) (fuel : Nat), Linked h tail S →
      S.Pairwise (fun a b => a.addr ≠ b.addr) → (∀ c ∈ S, c.addr ≠ tail) → S.length < fuel →
      ∃ h2, SkipList.freeAll tail fuel (nextAt tail 0 S) h = some h2 ∧
        h2.length = h.length ∧ ∀ q, (∀ c ∈ S, c.addr ≠ q) → deref h2 q = deref h q := by
  induction S with
  | nil =>
    intro h fuel _ _ _ hfuel
    obtain ⟨f, rfl⟩ : ∃ f, fuel = f + 1 := ⟨fuel - 1, by simp at hfuel; omega⟩
    exact ⟨h, by simp [SkipList.freeAll, nextAt], rfl, fun q _ => rfl⟩
  | cons c S ih =>
    intro h fuel hl hp ht hfuel
    obtain ⟨f, rfl⟩ : ∃ f, fuel = f + 1 := ⟨fuel - 1, by simp at hfuel; omega⟩
    rw [List.pairwise_cons] at hp
    have hl2 : Linked (h.set c.addr none) tail S := by
      apply hl.2.frame
      intro c1 hc1
      rw [deref_set_ne _ _ _ _ (Ne.symm (hp.1 c1 hc1))]
    obtain ⟨h2, e1, e2, e3⟩ := ih (h.set c.addr none) f hl2 hp.2
      (fun c1 hc1 => ht c1 (List.mem_cons_of_mem _ hc1)) (by simp at hfuel; omega)
    refine ⟨h2, ?_, by simpa using e2, ?_⟩
    · have hnext : nextAt tail 0 (c :: S) = c.addr := by simp [nextAt]
      rw [hnext]
      unfold SkipList.freeAll
      rw [if_neg (ht c (List.mem_cons_self _ _)), hl.1.forward_at 0 (Nat.zero_le _)]
      exact e1
    · intro q hq
      rw [e3 q (fun c1 hc1 => hq c1 (List.mem_cons_of_mem _ hc1)),
        deref_set_ne _ _ _ _ (Ne.symm (hq c (List.mem_cons_self _ _)))]

theorem linkHeader_spec (header tail : Nat) (hn : Node) (n : Nat) :
    ∀ (lo : Nat) (h : Heap) (f : List Nat), deref h header = some { hn with forward_ := f } →
      lo + n ≤ f.length →
      ∃ h2 f2, SkipList.linkHeader header tail n lo h = some h2 ∧ h2.length = h.length ∧
        deref h2 header = some { hn with forward_ := f2 } ∧ f2.length = f.length ∧
        (∀ j, f2[j]? = if lo ≤ j ∧ j < lo + n then some tail else f[j]?) ∧
        ∀ q, q ≠ header → deref h2 q = deref h q := by
  induction n with
  | zero =>
    intro lo h f hd _
    refine ⟨h, f, rfl, rfl, hd, rfl, ?_, fun q _ => rfl⟩
    intro j
    rw [if_neg (by omega)]
  | succ n ih =>
    intro lo h f hd hlen
    have hset := setFwd_eq h header lo tail _ hd (show lo < f.length by omega)
    have hlt := deref_some_lt h header _ hd
    obtain ⟨h2, f2, e1, e2, e3, e4, e5, e6⟩ :=
      ih (lo + 1) (h.set header (some { hn with forward_ := f.set lo tail })) (f.set lo tail)
        (by rw [deref_set_self _ _ _ hlt]) (by simp; omega)
    refine ⟨h2, f2, ?_, by simpa using e2, e3, by simpa using e4, ?_, ?_⟩
    · unfold SkipList.linkHeader
      rw [hset]
      exact e1
    · intro j
      rw [e5 j]
      by_cases hj : j = lo
      · subst hj
        rw [if_neg (by omega), if_pos (by omega), List.getElem?_set_self (by omega)]
      · rw [List.getElem?_set_ne (Ne.symm hj)]
        by_cases hc : lo + 1 ≤ j ∧ j < lo + 1 + n
        · rw [if_pos hc, if_pos (by omega)]
        · rw [if_neg hc, if_neg (by omega)]
    · intro q hq
      rw [e6 q hq, deref_set_ne _ _ _ _ hq]

theorem WellFormed.addr_ne_tail {li : SkipList} {cells : List Cell} (h : WellFormed li cells) :
    ∀ c ∈ headerCell li :: cells, c.addr ≠ li.tail_ := by
  intro c hc he
  obtain ⟨n, hn, hnk, _⟩ := h.linked.node_of_mem c hc
  rw [he, h.tail_node] at hn
  simp only [Option.some.injEq] at hn
  rw [← hn] at hnk
  rcases List.mem_cons.mp hc with h1 | h1
  · rw [h1] at hnk
    simp [Node.new, headerCell, KEY_MAX, KEY_MIN] at hnk
  · have := (h.user_keys c h1).2
    rw [← hnk] at this
    exact absurd this (Nat.lt_irrefl _)

theorem WellFormed.addr_distinct {li : SkipList} {cells : List Cell} (h : WellFormed li cells) :
    (headerCell li :: cells).Pairwise (fun a b => a.addr ≠ b.addr) := by
  apply List.Pairwise.imp_of_mem _ h.sorted_all
  intro a b ha hb hlt he
  have := h.linked.addr_inj a b ha hb he
  rw [this] at hlt
  exact absurd hlt (Nat.lt_irrefl _)

theorem WellFormed.clear {li : SkipList} {cells : List Cell} (h : WellFormed li cells) :
    ∃ li1, li.clear = some li1 ∧ WellFormed li1 [] ∧ li1.curMemSize = 0 ∧
      li1.nodeCount_ = 0 ∧ li1.curLevel_ = 0 := by
  have hl := h.linked
  have hdist := h.addr_distinct
  rw [List.pairwise_cons] at hdist
  have hroom := h.room
  obtain ⟨heap1, e1, e2, e3⟩ := freeAll_spec li.tail_ cells li.heap li.fuelOf hl.2 hdist.2
    (fun c hc => h.addr_ne_tail c (List.mem_cons_of_mem _ hc))
    (by unfold SkipList.fuelOf; omega)
  obtain ⟨fh, hdh, hlenh, _⟩ := hl.1
  have hdh1 : deref heap1 li.header_ = some
      { key_ := KEY_MIN, value_ := [], forward_ := fh, nodeLevel_ := MAX_LEVEL } := by
    rw [e3 li.header_ (fun c hc => Ne.symm (hdist.1 c hc))]
    exact hdh
  obtain ⟨heap2, f2, g1, g2, g3, g4, g5, g6⟩ :=
    linkHeader_spec li.header_ li.tail_
      { key_ := KEY_MIN, value_ := [], forward_ := fh, nodeLevel_ := MAX_LEVEL }
      (MAX_LEVEL + 1) 0 heap1 fh hdh1
      (by rw [hlenh]; exact Nat.le_of_eq (Nat.zero_add _))
  have hclear : li.clear = some
      { li with heap := heap2, curMemSize := 0, nodeCount_ := 0, curLevel_ := 0 } := by
    unfold SkipList.clear
    have hf : fwd li.heap li.header_ 0 = some (nextAt li.tail_ 0 cells) :=
      hl.1.forward_at 0 (Nat.zero_le _)
    rw [hf]
    simp only [e1, g1]
  refine ⟨_, hclear, ?_, rfl, rfl, rfl⟩
  have hhdr0 : li.header_ ≠ 0 := by
    intro he
    have hdh2 : deref li.heap li.header_ = _ := hdh
    rw [he, h.null_free] at hdh2
    simp at hdh2
  have hhdrt : li.tail_ ≠ li.header_ :=
    Ne.symm (h.addr_ne_tail (headerCell li) (List.mem_cons_self _ _))
  refine ⟨?_, ?_, ?_, List.Pairwise.nil, by simp, by simp,
    show 0 < MAX_LEVEL by decide, rfl, ?_⟩
  · show deref heap2 0 = none
    rw [g6 0 (Ne.symm hhdr0), e3 0, h.null_free]
    intro c hc he
    obtain ⟨n, hn, _⟩ := hl.2.node_of_mem c hc
    rw [he, h.null_free] at hn
    simp at hn
  · show deref heap2 li.tail_ = _
    rw [g6 _ hhdrt, e3 _ (fun c hc => h.addr_ne_tail c (List.mem_cons_of_mem _ hc))]
    exact h.tail_node
  · refine ⟨⟨f2, g3, by rw [g4]; exact hlenh, ?_⟩, trivial⟩
    intro j hj
    have hj1 : j < 0 + (MAX_LEVEL + 1) := by
      have : j ≤ MAX_LEVEL := hj
      omega
    rw [g5 j, if_pos ⟨Nat.zero_le _, hj1⟩]
    rfl
  · show 0 + 3 ≤ heap2.length
    rw [g2, e2]
    omega

/-! ## The levels of a well-formed list -/

theorem chain_spec (heap : Heap) (tail i : Nat) (S : List Cell) :
    ∀ (x fuel : Nat), x ≠ tail → fwd heap x i = some (nextAt tail i S) →
      Linked heap tail S → (∀ c ∈ S, c.addr ≠ tail) → S.length + 1 < fuel →
      chain heap tail i fuel x
        = some (x :: (S.filter (fun c => decide (i ≤ c.level))).map Cell.addr ++ [tail]) := by
  induction S with
  | nil =>
    intro x fuel hx hf _ _ hfuel
    obtain ⟨f, rfl⟩ : ∃ f, fuel = f + 2 := ⟨fuel - 2, by simp at hfuel; omega⟩
    simp [chain, hx, hf, nextAt]
  | cons c S ih =>
    intro x fuel hx hf hl ht hfuel
    obtain ⟨f, rfl⟩ : ∃ f, fuel = f + 1 := ⟨fuel - 1, by simp at hfuel; omega⟩
    by_cases hc : i ≤ c.level
    · have hnext : nextAt tail i (c :: S) = c.addr := by simp [nextAt, hc]
      rw [hnext] at hf
      have := ih c.addr f (ht c (List.mem_cons_self _ _)) (hl.1.forward_at i hc) hl.2
        (fun c1 hc1 => ht c1 (List.mem_cons_of_mem _ hc1)) (by simp at hfuel; omega)
      unfold chain
      rw [if_neg hx, hf]
      simp only [this]
      simp [List.filter, hc]
    · have hnext : nextAt tail i (c :: S) = nextAt tail i S := by simp [nextAt, hc]
      rw [hnext] at hf
      have := ih x (f + 1) hx hf hl.2
        (fun c1 hc1 => ht c1 (List.mem_cons_of_mem _ hc1)) (by simp at hfuel; omega)
      rw [this]
      simp [List.filter, hc]

theorem WellFormed.nodesOn {li : SkipList} {cells : List Cell} (h : WellFormed li cells)
    (i : Nat) (hi : i ≤ MAX_LEVEL) :
    li.nodesOn i = some (li.header_ ::
      (cells.filter (fun c => decide (i ≤ c.level))).map Cell.addr ++ [li.tail_]) := by
  have hroom := h.room
  unfold SkipList.nodesOn
  exact chain_spec li.heap li.tail_ i cells li.header_ li.fuelOf
    (h.addr_ne_tail (headerCell li) (List.mem_cons_self _ _))
    (h.linked.1.forward_at i hi) h.linked.2
    (fun c hc => h.addr_ne_tail c (List.mem_cons_of_mem _ hc))
    (by unfold SkipList.fuelOf; omega)

theorem keysAt_cells (heap : Heap) (tail : Nat) (S : List Cell) (hl : Linked heap tail S)
    (rest : List Nat) (ks : List Key) (hr : keysAt heap rest = some ks) :
    keysAt heap (S.map Cell.addr ++ rest) = some (S.map Cell.key ++ ks) := by
  induction S with
  | nil => simpa using hr
  | cons c S ih =>
    obtain ⟨n, hn, hnk, _⟩ := hl.1.key_eq
    have e := ih hl.2
    show keysAt heap (c.addr :: (S.map Cell.addr ++ rest)) = _
    unfold keysAt
    rw [hn, e]
    simp only [hnk, List.map_cons, List.cons_append]

theorem WellFormed.keys_level0 {li : SkipList} {cells : List Cell} (h : WellFormed li cells) :
    keysAt li.heap (li.header_ :: cells.map Cell.addr ++ [li.tail_])
      = some (KEY_MIN :: cells.map Cell.key ++ [KEY_MAX]) := by
  have ht : keysAt li.heap [li.tail_] = some [KEY_MAX] := by
    simp [keysAt, h.tail_node, Node.new]
  have := keysAt_cells li.heap li.tail_ (headerCell li :: cells) h.linked [li.tail_] [KEY_MAX] ht
  simpa [headerCell] using this

/-! ## Every list of the program is well formed -/

theorem empty_wellFormed : WellFormed SkipList.empty [] := by
  refine ⟨by simp [SkipList.empty, deref], by simp [SkipList.empty, deref], ?_,
    List.Pairwise.nil, by simp, by simp, by decide, rfl, by simp [SkipList.empty]⟩
  refine ⟨⟨List.replicate (MAX_LEVEL + 1) 1, by simp [SkipList.empty, deref, headerCell],
    by simp [headerCell], ?_⟩, trivial⟩
  intro i hi
  have hi1 : i < MAX_LEVEL + 1 := Nat.lt_succ_of_le hi
  rw [List.getElem?_replicate, if_pos hi1]
  rfl

theorem find_cell (key : Key) (cells : List Cell) :
    (∃ pre c post, cells = pre ++ c :: post ∧ c.key = key) ∨ (∀ c ∈ cells, c.key ≠ key) := by
  by_cases h : ∃ c ∈ cells, c.key = key
  · obtain ⟨c, hc, hk⟩ := h
    obtain ⟨pre, post, hd⟩ := List.append_of_mem hc
    exact Or.inl ⟨pre, c, post, hd, hk⟩
  · right
    intro c hc hk
    exact h ⟨c, hc, hk⟩

theorem valueOf_skip (k : Key) (A B : List Cell) (c : Cell) (hc : c.key ≠ k) :
    valueOf k (A ++ c :: B) = valueOf k (A ++ B) := by
  induction A with
  | nil => simp [valueOf, hc]
  | cons a A ih =>
    show valueOf k (a :: (A ++ c :: B)) = valueOf k (a :: (A ++ B))
    unfold valueOf
    rw [ih]

theorem valueOf_hit (k : Key) (A B : List Cell) (c : Cell) (hA : ∀ a ∈ A, a.key ≠ k)
    (hc : c.key = k) : valueOf k (A ++ c :: B) = some c.value := by
  rw [valueOf_append k A _ hA]
  simp [valueOf, hc]

theorem sorted_mid {pre post : List Cell} {c : Cell}
    (hs : (pre ++ c :: post).Pairwise (fun a b => a.key < b.key)) :
    (∀ a ∈ pre, a.key ≠ c.key) ∧ (∀ a ∈ pre, a.key < c.key) ∧ (∀ b ∈ post, c.key < b.key) ∧
      ∀ a ∈ pre ++ post, a.key ≠ c.key := by
  rw [List.pairwise_append, List.pairwise_cons] at hs
  have h1 : ∀ a ∈ pre, a.key < c.key := fun a ha => hs.2.2 a ha c (List.mem_cons_self _ _)
  refine ⟨fun a ha => Nat.ne_of_lt (h1 a ha), h1, hs.2.1.1, ?_⟩
  intro a ha
  rcases List.mem_append.mp ha with h | h
  · exact Nat.ne_of_lt (h1 a h)
  · exact Ne.symm (Nat.ne_of_lt (hs.2.1.1 a h))

theorem WellFormed.insert {li : SkipList} {cells : List Cell} (h : WellFormed li cells)
    (env : Env) (key : Key) (value : Value) (hk : UserKey key) :
    ∃ li1 cells1, li.insert env key value = some ((valueOf key cells).isNone, li1) ∧
      WellFormed li1 cells1 ∧
      (∀ k, valueOf k cells1 = if key = k then some value else valueOf k cells) ∧
      li1.nodeCount_ = (if (valueOf key cells).isNone then li.nodeCount_ + 1 else li.nodeCount_) ∧
      li1.curMemSize = (match valueOf key cells with
        | none => add64 li.curMemSize SIZEOF_KEY
        | some old => add64 (sub64 li.curMemSize old.length) value.length) := by
  rcases find_cell key cells with ⟨pre, c, post, hd, hc⟩ | habs
  · obtain ⟨li1, h1, h2, h3, h4⟩ := h.insert_present env key value pre post c hd hc
    have hs := h.sorted
    rw [hd] at hs
    obtain ⟨hne, _, _, _⟩ := sorted_mid hs
    have hv : valueOf key cells = some c.value := by
      rw [hd]
      exact valueOf_hit key pre post c (by rw [← hc]; exact hne) hc
    refine ⟨li1, _, by rw [hv]; exact h1, h2, ?_, by rw [hv]; exact h4, by rw [hv]; exact h3⟩
    intro k
    by_cases hkk : key = k
    · rw [if_pos hkk]
      subst hkk
      exact valueOf_hit key pre post { c with value := value } (by rw [← hc]; exact hne) hc
    · rw [if_neg hkk, hd, valueOf_skip k pre post _ (by rw [hc]; exact hkk),
        valueOf_skip k pre post c (by rw [hc]; exact hkk)]
  · obtain ⟨pre, post, hd, hpre, hpost⟩ := split_sorted key cells h.sorted
    have hpost1 : ∀ c ∈ post, key < c.key := fun c hc =>
      Nat.lt_of_le_of_ne (hpost c hc) (Ne.symm (habs c (by rw [hd]; simp [hc])))
    obtain ⟨li1, newc, h1, h2, h3, h4, h5, h6⟩ :=
      h.insert_fresh env key value hk pre post hd hpre hpost1
    have hv : valueOf key cells = none := valueOf_none key cells habs
    refine ⟨li1, _, by rw [hv]; exact h1, h4, ?_, by rw [hv]; exact h6, by rw [hv]; exact h5⟩
    intro k
    by_cases hkk : key = k
    · rw [if_pos hkk]
      subst hkk
      rw [valueOf_hit key pre post newc (fun a ha => Nat.ne_of_lt (hpre a ha)) h2, h3]
    · rw [if_neg hkk, hd, valueOf_skip k pre post newc (by rw [h2]; exact hkk)]

theorem WellFormed.remove {li : SkipList} {cells : List Cell} (h : WellFormed li cells)
    (key : Key) (hk : UserKey key) :
    ∃ li1 cells1, li.remove key = some ((valueOf key cells).isSome, li1) ∧
      WellFormed li1 cells1 ∧
      (∀ k, valueOf k cells1 = if key = k then none else valueOf k cells) ∧
      (if (valueOf key cells).isSome then li1.nodeCount_ + 1 else li1.nodeCount_)
        = li.nodeCount_ ∧
      li1.curMemSize = (match valueOf key cells with
        | none => li.curMemSize
        | some old => sub64 li.curMemSize (SIZEOF_KEY + old.length)) := by
  rcases find_cell key cells with ⟨pre, c, post, hd, hc⟩ | habs
  · obtain ⟨li1, h1, h2, h3, h4⟩ := h.remove_present key pre post c hd hc
    have hs := h.sorted
    rw [hd] at hs
    obtain ⟨hne, _, _, hall⟩ := sorted_mid hs
    have hv : valueOf key cells = some c.value := by
      rw [hd]
      exact valueOf_hit key pre post c (by rw [← hc]; exact hne) hc
    refine ⟨li1, _, by rw [hv]; exact h1, h2, ?_, by rw [hv]; exact h4, by rw [hv]; exact h3⟩
    intro k
    by_cases hkk : key = k
    · rw [if_pos hkk]
      subst hkk
      exact valueOf_none key _ (by rw [← hc]; exact hall)
    · rw [if_neg hkk, hd, valueOf_skip k pre post c (by rw [hc]; exact hkk)]
  · have hv : valueOf key cells = none := valueOf_none key cells habs
    refine ⟨li, cells, by rw [hv]; exact h.remove_absent key hk habs, h, ?_, by rw [hv]; rfl,
      by rw [hv]⟩
    intro k
    by_cases hkk : key = k
    · rw [if_pos hkk, ← hkk, hv]
    · rw [if_neg hkk]

theorem WellFormed.step {li : SkipList} {cells : List Cell} (h : WellFormed li cells)
    (env : Env) (op : Op) (hop : op.onUserKey) :
    ∃ li1 cells1, li.step env op = some li1 ∧ WellFormed li1 cells1 ∧
      ∀ k, valueOf k cells1 = lastWrite k (valueOf k cells) [op] := by
  cases op with
  | insert key value =>
    obtain ⟨li1, cells1, h1, h2, h3, _⟩ := h.insert env key value hop
    exact ⟨li1, cells1, by simp [SkipList.step, h1], h2, fun k => by rw [h3 k]; rfl⟩
  | remove key =>
    obtain ⟨li1, cells1, h1, h2, h3, _⟩ := h.remove key hop
    exact ⟨li1, cells1, by simp [SkipList.step, h1], h2, fun k => by rw [h3 k]; rfl⟩
  | clear =>
    obtain ⟨li1, h1, h2, _⟩ := h.clear
    exact ⟨li1, [], by simp [SkipList.step, h1], h2, fun k => rfl⟩

theorem lastWrite_cons (k : Key) (acc : Option Value) (op : Op) (ops : List Op) :
    lastWrite k acc (op :: ops) = lastWrite k (lastWrite k acc [op]) ops := by
  cases op <;> rfl

theorem WellFormed.runOps {li : SkipList} {cells : List Cell} (h : WellFormed li cells)
    (env : Env) (ops : List Op) (hops : ∀ op ∈ ops, op.onUserKey) :
    ∃ li1 cells1, SkipList.runOps env ops li = some li1 ∧ WellFormed li1 cells1 ∧
      ∀ k, valueOf k cells1 = lastWrite k (valueOf k cells) ops := by
  induction ops generalizing li cells with
  | nil => exact ⟨li, cells, rfl, h, fun k => rfl⟩
  | cons op ops ih =>
    obtain ⟨li1, cells1, h1, h2, h3⟩ := h.step env op (hops op (List.mem_cons_self _ _))
    obtain ⟨li2, cells2, g1, g2, g3⟩ :=
      ih h2 (fun op1 hop1 => hops op1 (List.mem_cons_of_mem _ hop1))
    refine ⟨li2, cells2, by simp [SkipList.runOps, h1, g1], g2, ?_⟩
    intro k
    rw [g3 k, h3 k, ← lastWrite_cons]

theorem SkipList.Reachable.wellFormed {env : Env} {li : SkipList} (h : li.Reachable env) :
    ∃ cells, WellFormed li cells := by
  obtain ⟨ops, hops, hrun⟩ := h
  obtain ⟨li1, cells1, h1, h2, _⟩ := empty_wellFormed.runOps env ops hops
  rw [hrun] at h1
  simp only [Option.some.injEq] at h1
  subst h1
  exact ⟨cells1, h2⟩

theorem WellFormed.search_user {li : SkipList} {cells : List Cell} (h : WellFormed li cells)
    (key : Key) (hk : UserKey key) : li.search key = some (found (valueOf key cells)) := by
  rw [h.search key (Nat.le_of_lt hk.2), if_neg (Nat.ne_of_lt hk.2)]

theorem found_eq_false (o : Option Value) (h : found o = (false, [])) : o = none := by
  cases o with
  | none => rfl
  | some v => simp [found] at h

theorem found_eq_true (o : Option Value) (v : Value) (h : found o = (true, v)) : o = some v := by
  cases o with
  | none => simp [found] at h
  | some w =>
    simp only [found, Prod.mk.injEq, true_and] at h
    rw [h]

/-! ## Concrete lists -/

theorem userKey_of_lt (k : Key) (h0 : 0 < k) (h1 : k < 2 ^ 64 - 1) : UserKey k := ⟨h0, h1⟩

theorem sampleOps_user : ∀ op ∈ sampleOps, op.onUserKey := by
  intro op hop
  simp only [sampleOps, List.mem_cons, List.mem_singleton, List.not_mem_nil, or_false] at hop
  rcases hop with rfl | rfl | rfl <;> exact userKey_of_lt _ (by decide) (by decide)

theorem mixedOps_user : ∀ op ∈ mixedOps, op.onUserKey := by
  intro op hop
  simp only [mixedOps, List.mem_cons, List.mem_singleton, List.not_mem_nil, or_false] at hop
  rcases hop with rfl | rfl | rfl | rfl | rfl | rfl | rfl | rfl <;>
    first
      | exact userKey_of_lt _ (by decide) (by decide)
      | trivial

theorem sampleList_reachable : sampleList.Reachable Env.sample :=
  ⟨sampleOps, sampleOps_user, by decide!⟩

theorem empty_reachable (env : Env) : SkipList.empty.Reachable env :=
  ⟨[], by simp, rfl⟩

/-! ## The skip list as a finite map -/

/-- C14: for every random generator, every sequence of `insert`, `remove` (and
`clear`) on user keys run on the empty list returns, and afterwards
`search(k)` on a user key `k` answers with what the last call on `k` left:
`(true, v)` after `insert(k, v)`, `(false, {})` when `k` was never inserted or
was last removed or cleared. -/
theorem C14_search_returns_last_write (env : Env) (ops : List Op)
    (hops : ∀ op ∈ ops, op.onUserKey) (k : Key) (hk : UserKey k) :
    ∃ li, SkipList.runOps env ops SkipList.empty = some li ∧
      li.search k = some (found (lastWrite k none ops)) := by
  obtain ⟨li, cells, h1, h2, h3⟩ := empty_wellFormed.runOps env ops hops
  refine ⟨li, h1, ?_⟩
  rw [h2.search_user k hk, h3 k]
  rfl

theorem C14_search_returns_last_write_witness :
    (∀ op ∈ mixedOps, op.onUserKey) ∧ UserKey 1 ∧
    ∃ li, SkipList.runOps Env.sample mixedOps SkipList.empty = some li ∧
      li.search 1 = some (found (lastWrite 1 none mixedOps)) :=
  ⟨mixedOps_user, userKey_of_lt 1 (by decide) (by decide),
   C14_search_returns_last_write Env.sample mixedOps mixedOps_user 1
    (userKey_of_lt 1 (by decide) (by decide))⟩

theorem WellFormed.insert_again {li : SkipList} {cells : List Cell} (h : WellFormed li cells)
    (env : Env) (k : Key) (hk : UserKey k) (v0 : Value) (hv : valueOf k cells = some v0)
    (vs : List Value) :
    ∃ li1, SkipList.runOps env (vs.map (Op.insert k)) li = some li1 ∧
      li1.nodeCount_ = li.nodeCount_ := by
  induction vs generalizing li cells v0 with
  | nil => exact ⟨li, rfl, rfl⟩
  | cons v vs ih =>
    obtain ⟨li1, cells1, h1, h2, h3, h4, _⟩ := h.insert env k v hk
    rw [hv] at h4
    obtain ⟨li2, g1, g2⟩ := ih h2 v (by rw [h3 k, if_pos rfl])
    refine ⟨li2, ?_, by rw [g2, h4]; rfl⟩
    simp only [List.map_cons, SkipList.runOps, SkipList.step, h1]
    exact g1

/-- C15: for every skip list of the program, user key `k` and value `v`:
`search(k)` either misses or finds a value; on a miss `insert(k, v)` returns
true and `nodeNum()` grows by one; on a hit it returns false and `nodeNum()`
stays; in both cases `search(k)` finds `v` afterwards; and one or more inserts
of the same key into the empty list leave `nodeNum() = 1`. -/
theorem C15_insert_adds_or_overwrites (env : Env) (li : SkipList) (hli : li.Reachable env)
    (k : Key) (hk : UserKey k) (v : Value) :
    (li.search k = some (false, []) ∨ ∃ v0, li.search k = some (true, v0)) ∧
    (li.search k = some (false, []) →
      ∃ li1, li.insert env k v = some (true, li1) ∧ li1.nodeNum = li.nodeNum + 1 ∧
        li1.search k = some (true, v)) ∧
    (∀ v0, li.search k = some (true, v0) →
      ∃ li1, li.insert env k v = some (false, li1) ∧ li1.nodeNum = li.nodeNum ∧
        li1.search k = some (true, v)) ∧
    (∀ vs : List Value, ∃ li1,
      SkipList.runOps env ((v :: vs).map (Op.insert k)) SkipList.empty = some li1 ∧
        li1.nodeNum = 1) := by
  obtain ⟨cells, h⟩ := hli.wellFormed
  have hs := h.search_user k hk
  obtain ⟨li1, cells1, h1, h2, h3, h4, _⟩ := h.insert env k v hk
  have hs1 : li1.search k = some (true, v) := by
    rw [h2.search_user k hk, h3 k, if_pos rfl]
    rfl
  refine ⟨?_, ?_, ?_, ?_⟩
  · rw [hs]
    cases valueOf k cells with
    | none => exact Or.inl rfl
    | some v0 => exact Or.inr ⟨v0, rfl⟩
  · intro hmiss
    rw [hs] at hmiss
    simp only [Option.some.injEq] at hmiss
    have hv := found_eq_false _ hmiss
    rw [hv] at h1 h4
    exact ⟨li1, h1, h4, hs1⟩
  · intro v0 hhit
    rw [hs] at hhit
    simp only [Option.some.injEq] at hhit
    have hv := found_eq_true _ _ hhit
    rw [hv] at h1 h4
    exact ⟨li1, h1, h4, hs1⟩
  · intro vs
    obtain ⟨e1, ecells, g1, g2, g3, g4, _⟩ := empty_wellFormed.insert env k v hk
    obtain ⟨e2, f1, f2⟩ := g2.insert_again env k hk v (by rw [g3 k, if_pos rfl]) vs
    refine ⟨e2, ?_, ?_⟩
    · simp only [List.map_cons, SkipList.runOps, SkipList.step, g1]
      exact f1
    · show e2.nodeCount_ = 1
      rw [f2, g4]
      rfl

theorem C15_insert_adds_or_overwrites_witness :
    sampleList.Reachable Env.sample ∧ UserKey 2 ∧
    (sampleList.search 2 = some (false, []) ∨ ∃ v0, sampleList.search 2 = some (true, v0)) ∧
    (sampleList.search 2 = some (false, []) →
      ∃ li1, sampleList.insert Env.sample 2 [122] = some (true, li1) ∧
        li1.nodeNum = sampleList.nodeNum + 1 ∧ li1.search 2 = some (true, [122])) ∧
    (∀ v0, sampleList.search 2 = some (true, v0) →
      ∃ li1, sampleList.insert Env.sample 2 [122] = some (false, li1) ∧
        li1.nodeNum = sampleList.nodeNum ∧ li1.search 2 = some (true, [122])) ∧
    (∀ vs : List Value, ∃ li1,
      SkipList.runOps Env.sample (([122] :: vs).map (Op.insert 2)) SkipList.empty = some li1 ∧
        li1.nodeNum = 1) :=
  ⟨sampleList_reachable, userKey_of_lt 2 (by decide) (by decide),
   C15_insert_adds_or_overwrites Env.sample sampleList sampleList_reachable 2
    (userKey_of_lt 2 (by decide) (by decide)) [122]⟩

/-- C16: for every skip list of the program and user key `k`: `remove(k)`
returns, and it returns true exactly when `search(k)` found a value before;
afterwards `search(k)` misses, `nodeNum()` is one less after true and unchanged
after false, and `search(j)` is unchanged for every other key `j`. -/
theorem C16_remove_deletes_one_key (env : Env) (li : SkipList) (hli : li.Reachable env)
    (k : Key) (hk : UserKey k) :
    ∃ b li1, li.remove k = some (b, li1) ∧
      (b = true ↔ ∃ v0, li.search k = some (true, v0)) ∧
      li1.search k = some (false, []) ∧
      (b = true → li1.nodeNum + 1 = li.nodeNum) ∧
      (b = false → li1.nodeNum = li.nodeNum) ∧
      ∀ j, j ≤ KEY_MAX → j ≠ k → li1.search j = li.search j := by
  obtain ⟨cells, h⟩ := hli.wellFormed
  have hs := h.search_user k hk
  obtain ⟨li1, cells1, h1, h2, h3, h4, _⟩ := h.remove k hk
  refine ⟨_, li1, h1, ?_, ?_, ?_, ?_, ?_⟩
  · rw [hs]
    cases valueOf k cells with
    | none => simp [found]
    | some v0 => simp [found]
  · rw [h2.search_user k hk, h3 k, if_pos rfl]
    rfl
  · intro hb
    rw [hb] at h4
    exact h4
  · intro hb
    rw [hb] at h4
    exact h4
  · intro j hj hjk
    rw [h2.search j hj, h.search j hj, h3 j, if_neg (Ne.symm hjk)]

theorem C16_remove_deletes_one_key_witness :
    sampleList.Reachable Env.sample ∧ UserKey 2 ∧
    ∃ b li1, sampleList.remove 2 = some (b, li1) ∧
      (b = true ↔ ∃ v0, sampleList.search 2 = some (true, v0)) ∧
      li1.search 2 = some (false, []) ∧
      (b = true → li1.nodeNum + 1 = sampleList.nodeNum) ∧
      (b = false → li1.nodeNum = sampleList.nodeNum) ∧
      ∀ j, j ≤ KEY_MAX → j ≠ 2 → li1.search j = sampleList.search j :=
  ⟨sampleList_reachable, userKey_of_lt 2 (by decide) (by decide),
   C16_remove_deletes_one_key Env.sample sampleList sampleList_reachable 2
    (userKey_of_lt 2 (by decide) (by decide))⟩

theorem WellFormed.valueOf_iff {li : SkipList} {cells : List Cell} (h : WellFormed li cells)
    (k : Key) (v : Value) :
    valueOf k cells = some v ↔ ∃ c ∈ cells, c.key = k ∧ c.value = v := by
  constructor
  · exact valueOf_some_mem k v cells
  · rintro ⟨c, hc, hck, hcv⟩
    obtain ⟨pre, post, hd⟩ := List.append_of_mem hc
    have hs := h.sorted
    rw [hd] at hs
    obtain ⟨hne, _⟩ := sorted_mid hs
    rw [hd, valueOf_hit k pre post c (by rw [← hck]; exact hne) hck, hcv]

/-- C17: for every skip list of the program and all keys `lo ≤ hi`:
`scan(lo, hi, out)` returns with `out` in strictly ascending key order, `out`
holds the pair `(k, v)` exactly when `lo ≤ k ≤ hi` and `search(k)` finds `v`
under the user key `k`, and `scan(k, k, out)` on a user key yields the single
pair of `k` when `search(k)` finds a value and nothing when it misses. -/
theorem C17_scan_returns_the_range (env : Env) (li : SkipList) (hli : li.Reachable env)
    (lo hi : Key) (hlh : lo ≤ hi) (hhi : hi ≤ KEY_MAX) :
    ∃ out, li.scan lo hi = some out ∧ out.Pairwise (fun a b => a.1 < b.1) ∧
      (∀ k v, (k, v) ∈ out ↔ (lo ≤ k ∧ k ≤ hi ∧ UserKey k ∧ li.search k = some (true, v))) ∧
      (lo = hi → UserKey lo →
        (∀ v, li.search lo = some (true, v) → out = [(lo, v)]) ∧
        (li.search lo = some (false, []) → out = [])) := by
  obtain ⟨cells, h⟩ := hli.wellFormed
  have hmem : ∀ k v, (k, v) ∈ pairsOf (cells.filter (fun c => decide (lo ≤ c.key ∧ c.key ≤ hi)))
      ↔ (lo ≤ k ∧ k ≤ hi ∧ UserKey k ∧ li.search k = some (true, v)) := by
    intro k v
    simp only [pairsOf, List.mem_map, List.mem_filter, decide_eq_true_eq, Prod.mk.injEq]
    constructor
    · rintro ⟨c, ⟨hc, h1, h2⟩, hck, hcv⟩
      have hu : UserKey k := by rw [← hck]; exact h.user_keys c hc
      refine ⟨by rw [← hck]; exact h1, by rw [← hck]; exact h2, hu, ?_⟩
      rw [h.search_user k hu, (h.valueOf_iff k v).mpr ⟨c, hc, hck, hcv⟩]
      rfl
    · rintro ⟨h1, h2, hu, hs⟩
      rw [h.search_user k hu] at hs
      simp only [Option.some.injEq] at hs
      obtain ⟨c, hc, hck, hcv⟩ := (h.valueOf_iff k v).mp (found_eq_true _ _ hs)
      exact ⟨c, ⟨hc, by rw [hck]; exact h1, by rw [hck]; exact h2⟩, hck, hcv⟩
  have hsorted : (pairsOf (cells.filter (fun c => decide (lo ≤ c.key ∧ c.key ≤ hi)))).Pairwise
      (fun a b => a.1 < b.1) := by
    unfold pairsOf
    rw [List.pairwise_map]
    exact h.sorted.sublist (List.filter_sublist _)
  refine ⟨_, h.scan lo hi hlh hhi, hsorted, hmem, ?_⟩
  intro hlohi hu
  subst hlohi
  generalize pairsOf (cells.filter (fun c => decide (lo ≤ c.key ∧ c.key ≤ lo))) = out
    at hmem hsorted
  have hkey : ∀ kv ∈ out, kv.1 = lo := by
    intro kv hkv
    have := (hmem kv.1 kv.2).mp hkv
    exact Nat.le_antisymm this.2.1 this.1
  have hval : ∀ kv ∈ out, li.search lo = some (true, kv.2) := by
    intro kv hkv
    have := (hmem kv.1 kv.2).mp hkv
    rw [← hkey kv hkv]
    exact this.2.2.2
  have hshape : out = [] ∨ ∃ kv, out = [kv] := by
    cases out with
    | nil => exact Or.inl rfl
    | cons a rest =>
      cases rest with
      | nil => exact Or.inr ⟨a, rfl⟩
      | cons b rest =>
        rw [List.pairwise_cons] at hsorted
        have := hsorted.1 b (List.mem_cons_self _ _)
        rw [hkey a (by simp), hkey b (by simp)] at this
        exact absurd this (Nat.lt_irrefl _)
  constructor
  · intro v hv
    rcases hshape with rfl | ⟨kv, rfl⟩
    · have := (hmem lo v).mpr ⟨Nat.le_refl _, Nat.le_refl _, hu, hv⟩
      simp at this
    · have h1 := hkey kv (List.mem_singleton_self _)
      have h2 := hval kv (List.mem_singleton_self _)
      rw [hv] at h2
      simp only [Option.some.injEq, Prod.mk.injEq, true_and] at h2
      rw [h2, ← h1]
  · intro hmiss
    rcases hshape with rfl | ⟨kv, rfl⟩
    · rfl
    · have h2 := hval kv (List.mem_singleton_self _)
      rw [hmiss] at h2
      simp at h2

theorem C17_scan_returns_the_range_witness :
    sampleList.Reachable Env.sample ∧ (2 : Key) ≤ 3 ∧ (3 : Key) ≤ KEY_MAX ∧
    ∃ out, sampleList.scan 2 3 = some out ∧ out.Pairwise (fun a b => a.1 < b.1) ∧
      (∀ k v, (k, v) ∈ out ↔
        (2 ≤ k ∧ k ≤ 3 ∧ UserKey k ∧ sampleList.search k = some (true, v))) ∧
      ((2 : Key) = 3 → UserKey 2 →
        (∀ v, sampleList.search 2 = some (true, v) → out = [(2, v)]) ∧
        (sampleList.search 2 = some (false, []) → out = [])) :=
  ⟨sampleList_reachable, by decide, by decide,
   C17_scan_returns_the_range Env.sample sampleList sampleList_reachable 2 3 (by decide)
    (by decide)⟩

/-- C18: for every random generator, every sequence of `insert`, `remove` and
`clear` on user keys run on the empty list returns a list in which every level
`0 .. MAX_LEVEL` links a chain of nodes from the header to the tail, the keys
along level 0 (header and tail included) are strictly ascending, and the chain
of each level above 0 is a subsequence, in the same order, of the chain of the
level below. -/
theorem C18_levels_are_nested_sorted_chains (env : Env) (ops : List Op)
    (hops : ∀ op ∈ ops, op.onUserKey) :
    ∃ (li : SkipList) (levels : Nat → List Nat) (keys : List Key),
      SkipList.runOps env ops SkipList.empty = some li ∧
      (∀ i, i ≤ MAX_LEVEL → li.nodesOn i = some (levels i) ∧
        (levels i).head? = some li.header_ ∧ (levels i).getLast? = some li.tail_) ∧
      keysAt li.heap (levels 0) = some keys ∧ keys.Pairwise (fun a b => a < b) ∧
      ∀ i, i < MAX_LEVEL → (levels (i + 1)).Sublist (levels i) := by
  obtain ⟨li, cells, h1, h, _⟩ := empty_wellFormed.runOps env ops hops
  have h0 : cells.filter (fun c => decide (0 ≤ c.level)) = cells := by
    rw [List.filter_eq_self]
    intro c _
    simp
  refine ⟨li,
    fun i => li.header_ :: (cells.filter (fun c => decide (i ≤ c.level))).map Cell.addr
      ++ [li.tail_],
    KEY_MIN :: cells.map Cell.key ++ [KEY_MAX], h1, ?_, ?_, ?_, ?_⟩
  · intro i hi
    refine ⟨h.nodesOn i hi, rfl, ?_⟩
    show ((li.header_ :: (cells.filter _).map Cell.addr) ++ [li.tail_]).getLast? = _
    rw [List.getLast?_append]
    rfl
  · show keysAt li.heap (li.header_ :: (cells.filter _).map Cell.addr ++ [li.tail_]) = _
    rw [h0]
    exact h.keys_level0
  · show (KEY_MIN :: (cells.map Cell.key ++ [KEY_MAX])).Pairwise _
    rw [List.pairwise_cons, List.pairwise_append, List.pairwise_map]
    refine ⟨?_, h.sorted, by simp, ?_⟩
    · intro a ha
      simp only [List.mem_append, List.mem_map, List.mem_singleton] at ha
      rcases ha with ⟨c, hc, rfl⟩ | rfl
      · exact (h.user_keys c hc).1
      · decide
    · intro a ha b hb
      simp only [List.mem_map] at ha
      obtain ⟨c, hc, rfl⟩ := ha
      simp only [List.mem_singleton] at hb
      rw [hb]
      exact (h.user_keys c hc).2
  · intro i _
    show (li.header_ :: ((cells.filter _).map Cell.addr ++ [li.tail_])).Sublist
      (li.header_ :: ((cells.filter _).map Cell.addr ++ [li.tail_]))
    apply List.Sublist.cons₂
    apply List.Sublist.append _ (List.Sublist.refl _)
    apply List.Sublist.map
    apply List.monotone_filter_right
    intro c hc
    simp only [decide_eq_true_eq] at hc ⊢
    omega

theorem C18_levels_are_nested_sorted_chains_witness :
    (∀ op ∈ mixedOps, op.onUserKey) ∧
    ∃ (li : SkipList) (levels : Nat → List Nat) (keys : List Key),
      SkipList.runOps Env.sample mixedOps SkipList.empty = some li ∧
      (∀ i, i ≤ MAX_LEVEL → li.nodesOn i = some (levels i) ∧
        (levels i).head? = some li.header_ ∧ (levels i).getLast? = some li.tail_) ∧
      keysAt li.heap (levels 0) = some keys ∧ keys.Pairwise (fun a b => a < b) ∧
      ∀ i, i < MAX_LEVEL → (levels (i + 1)).Sublist (levels i) :=
  ⟨mixedOps_user, C18_levels_are_nested_sorted_chains Env.sample mixedOps mixedOps_user⟩

/-- C19: for every skip list of the program, user key `k` that `search` misses
and value `v`: `insert(k, v)` returns true and `getMemSize()` grows by
`sizeof(Key)` alone (modulo `2 ^ 64`), whatever the length of `v`. -/
theorem C19_fresh_insert_counts_only_the_key (env : Env) (li : SkipList)
    (hli : li.Reachable env) (k : Key) (hk : UserKey k) (v : Value)
    (hmiss : li.search k = some (false, [])) :
    ∃ li1, li.insert env k v = some (true, li1) ∧
      li1.getMemSize = add64 li.getMemSize SIZEOF_KEY := by
  obtain ⟨cells, h⟩ := hli.wellFormed
  obtain ⟨li1, cells1, h1, _, _, _, h5⟩ := h.insert env k v hk
  rw [h.search_user k hk] at hmiss
  simp only [Option.some.injEq] at hmiss
  have hv := found_eq_false _ hmiss
  rw [hv] at h1 h5
  exact ⟨li1, h1, h5⟩

theorem C19_fresh_insert_counts_only_the_key_witness :
    SkipList.empty.Reachable Env.sample ∧ UserKey 1 ∧
    SkipList.empty.search 1 = some (false, []) ∧
    ∃ li1, SkipList.empty.insert Env.sample 1 [97, 98, 99] = some (true, li1) ∧
      li1.getMemSize = add64 SkipList.empty.getMemSize SIZEOF_KEY :=
  ⟨empty_reachable Env.sample, userKey_of_lt 1 (by decide) (by decide), by decide!,
   C19_fresh_insert_counts_only_the_key Env.sample SkipList.empty (empty_reachable Env.sample) 1
    (userKey_of_lt 1 (by decide) (by decide)) [97, 98, 99] (by decide!)⟩

/-- C20: for every skip list of the program `clear()` returns, and afterwards
`nodeNum()`, `getMemSize()` and `getLevel()` are 0, the header points to the
tail on every level `0 .. MAX_LEVEL`, `search` misses every user key, and
`scan` over every range `lo ≤ hi` yields nothing. -/
theorem C20_clear_empties_the_list (env : Env) (li : SkipList) (hli : li.Reachable env) :
    ∃ li1, li.clear = some li1 ∧ li1.nodeNum = 0 ∧ li1.getMemSize = 0 ∧ li1.getLevel = 0 ∧
      (∀ i, i ≤ MAX_LEVEL → fwd li1.heap li1.header_ i = some li1.tail_) ∧
      (∀ k, UserKey k → li1.search k = some (false, [])) ∧
      (∀ lo hi, lo ≤ hi → hi ≤ KEY_MAX → li1.scan lo hi = some []) := by
  obtain ⟨cells, h⟩ := hli.wellFormed
  obtain ⟨li1, h1, h2, h3, h4, h5⟩ := h.clear
  refine ⟨li1, h1, h4, h3, h5, ?_, ?_, ?_⟩
  · intro i hi
    exact h2.linked.1.forward_at i hi
  · intro k hk
    rw [h2.search_user k hk]
    rfl
  · intro lo hi hlh hhi
    rw [h2.scan lo hi hlh hhi]
    rfl

theorem C20_clear_empties_the_list_witness :
    sampleList.Reachable Env.sample ∧
    ∃ li1, sampleList.clear = some li1 ∧ li1.nodeNum = 0 ∧ li1.getMemSize = 0 ∧
      li1.getLevel = 0 ∧
      (∀ i, i ≤ MAX_LEVEL → fwd li1.heap li1.header_ i = some li1.tail_) ∧
      (∀ k, UserKey k → li1.search k = some (false, [])) ∧
      (∀ lo hi, lo ≤ hi → hi ≤ KEY_MAX → li1.scan lo hi = some []) :=
  ⟨sampleList_reachable,
   C20_clear_empties_the_list Env.sample sampleList sampleList_reachable⟩

/-! ## Well-formed lists hold their pairs -/

theorem WellFormed.to_represents {li : SkipList} {cells : List Cell} (h : WellFormed li cells) :
    Represents li (pairsOf cells) := by
  have hsorted : (pairsOf cells).Pairwise (fun a b => a.1 < b.1) := by
    unfold pairsOf
    rw [List.pairwise_map]
    exact h.sorted
  refine ⟨h.null_free, h.pairs, by rw [h.count_eq]; simp [pairsOf], hsorted, ?_, ?_⟩
  · intro kv hkv
    simp only [pairsOf, List.mem_map] at hkv
    obtain ⟨c, hc, rfl⟩ := hkv
    exact h.user_keys c hc
  · intro i hi
    have hf : fwd li.heap li.header_ i = some (nextAt li.tail_ i cells) :=
      h.linked.1.forward_at i (Nat.le_trans hi (Nat.le_of_lt h.level_lt))
    unfold headerAbove
    rw [hf]
    rcases nextAt_cases li.tail_ i cells with ⟨h1, _⟩ | ⟨c, hc, _, he⟩
    · rw [h1]
      simp only [h.tail_node, decide_eq_true_eq]
      show firstKey (pairsOf cells) ≤ KEY_MAX
      cases cells with
      | nil => exact Nat.le_refl _
      | cons c cells => exact Nat.le_of_lt (h.user_keys c (List.mem_cons_self _ _)).2
    · obtain ⟨n, hn, hnk, _⟩ := h.linked.2.node_of_mem c hc
      rw [he]
      simp only [hn, decide_eq_true_eq]
      rw [hnk]
      exact firstKey_le (pairsOf cells) hsorted (c.key, c.value)
        (by simp only [pairsOf, List.mem_map]; exact ⟨c, hc, rfl⟩)

theorem SkipList.Reachable.holds_pairs {env : Env} {li : SkipList} (h : li.Reachable env) :
    ∃ kvs, Represents li kvs := by
  obtain ⟨cells, hw⟩ := h.wellFormed
  exact ⟨pairsOf cells, hw.to_represents⟩

/-! ## The table and its summary -/

theorem valueBytes_length (kvs : List (Key × Value)) :
    (valueBytes kvs).length = valueSizes kvs := by
  induction kvs with
  | nil => rfl
  | cons kv kvs ih =>
    obtain ⟨k, v⟩ := kv
    simp only [valueBytes, List.length_append, ih, valueSizes, List.map_cons, List.sum_cons]

theorem pairOffsets_getElem? (kvs : List (Key × Value)) (offs : List Nat) (i : Nat) (k : Key)
    (v : Value) (off : Nat) (hk : kvs[i]? = some (k, v)) (ho : offs[i]? = some off) :
    (pairOffsets kvs offs)[i]? = some (k, off) := by
  induction kvs generalizing offs i with
  | nil => simp at hk
  | cons kv kvs ih =>
    obtain ⟨k0, v0⟩ := kv
    cases offs with
    | nil => simp at ho
    | cons o offs =>
      cases i with
      | zero =>
        simp only [List.getElem?_cons_zero, Option.some.injEq, Prod.mk.injEq] at hk ho
        simp [pairOffsets, hk.1, ho]
      | succ i =>
        simp only [List.getElem?_cons_succ] at hk ho
        simp only [pairOffsets, List.getElem?_cons_succ]
        exact ih offs i hk ho

theorem pairOffsets_length (kvs : List (Key × Value)) (offs : List Nat)
    (h : kvs.length = offs.length) : (pairOffsets kvs offs).length = kvs.length := by
  induction kvs generalizing offs with
  | nil => simp [pairOffsets]
  | cons kv kvs ih =>
    obtain ⟨k0, v0⟩ := kv
    cases offs with
    | nil => simp at h
    | cons o offs =>
      simp only [List.length_cons, Nat.add_right_cancel_iff] at h
      simp [pairOffsets, ih offs h]

theorem pairOffsets_eq_zip (kvs : List (Key × Value)) (offs : List Nat) :
    pairOffsets kvs offs = (kvs.map Prod.fst).zip offs := by
  induction kvs generalizing offs with
  | nil => simp [pairOffsets]
  | cons kv kvs ih =>
    obtain ⟨k0, v0⟩ := kv
    cases offs with
    | nil => simp [pairOffsets]
    | cons o offs => simp [pairOffsets, ih offs]

theorem pairOffsets_keys (kvs : List (Key × Value)) (offs : List Nat)
    (h : kvs.length = offs.length) :
    (pairOffsets kvs offs).map Prod.fst = kvs.map Prod.fst := by
  induction kvs generalizing offs with
  | nil => simp [pairOffsets]
  | cons kv kvs ih =>
    obtain ⟨k0, v0⟩ := kv
    cases offs with
    | nil => simp at h
    | cons o offs =>
      simp only [List.length_cons, Nat.add_right_cancel_iff] at h
      simp [pairOffsets, ih offs h]

theorem sorted_length_le (kvs : List (Key × Value)) (n : Nat) :
    ∀ b, kvs.Pairwise (fun x y => x.1 < y.1) → (∀ kv ∈ kvs, b ≤ kv.1 ∧ kv.1 < n) →
      kvs.length ≤ n - b := by
  induction kvs with
  | nil => intro b _ _; exact Nat.zero_le _
  | cons kv kvs ih =>
    intro b hs hb
    rw [List.pairwise_cons] at hs
    have h0 := hb kv (List.mem_cons_self _ _)
    have h1 := ih (kv.1 + 1) hs.2 (fun x hx =>
      ⟨hs.1 x hx, (hb x (List.mem_cons_of_mem _ hx)).2⟩)
    have hpos : 1 ≤ n - kv.1 := Nat.sub_pos_of_lt h0.2
    have h4 : kvs.length ≤ n - kv.1 - 1 := h1
    simp only [List.length_cons]
    exact Nat.le_trans (Nat.add_le_of_le_sub hpos h4) (Nat.sub_le_sub_left h0.1 n)

theorem Represents.length_lt {li : SkipList} {kvs : List (Key × Value)}
    (hr : Represents li kvs) : kvs.length < WORD := by
  have := sorted_length_le kvs KEY_MAX 0 hr.sorted
    (fun kv hkv => ⟨Nat.zero_le _, (hr.user_keys kv hkv).2⟩)
  have h2 : KEY_MAX - 0 < WORD := by decide
  omega

theorem Represents.minmax {li : SkipList} {kvs : List (Key × Value)} (env : Env)
    (hr : Represents li kvs) (hne : kvs ≠ []) :
    li.getMinKey = some (true, firstKey kvs) ∧ li.getMaxKey = some (true, lastKey kvs) ∧
      li.nodeNum = kvs.length := by
  have ht := SSTable.ofSkipList_eq env li kvs hr hne
  unfold SSTable.ofSkipList at ht
  cases hmin : li.getMinKey with
  | none => simp [hmin] at ht
  | some p =>
    cases hmax : li.getMaxKey with
    | none => simp [hmin, hmax] at ht
    | some q =>
      obtain ⟨a, mn⟩ := p
      obtain ⟨b, mx⟩ := q
      simp only [hmin, hmax] at ht
      by_cases hab : a = true ∧ b = true
      · rw [if_pos hab] at ht
        cases hscan : li.scan mn mx with
        | none => simp [hscan] at ht
        | some kvdata =>
          simp only [hscan, Option.some.injEq] at ht
          have e1 := congrArg SSTable.minKey ht
          have e2 := congrArg SSTable.maxKey ht
          have e3 := congrArg SSTable.kvPairNum ht
          simp only [SSTable.ofPairs] at e1 e2 e3
          exact ⟨by rw [hab.1, e1], by rw [hab.2, e2], e3⟩
      · rw [if_neg hab] at ht
        simp at ht

theorem bloomSet_lt (bloom i n : Nat) (hb : bloom < 2 ^ n) (hi : i < n) :
    bloomSet bloom i < 2 ^ n := by
  unfold bloomSet
  apply Nat.or_lt_two_pow hb
  rw [Nat.one_shiftLeft]
  exact Nat.pow_lt_pow_right (by decide) hi

theorem bloomAdd_lt (env : Env) (bloom : Nat) (k : Key) (hb : bloom < 2 ^ BLOOM_SIZE) :
    bloomAdd env bloom k < 2 ^ BLOOM_SIZE := by
  unfold bloomAdd
  have hm : ∀ x, x % BLOOM_SIZE < BLOOM_SIZE := fun x => Nat.mod_lt _ (by decide)
  exact bloomSet_lt _ _ _ (bloomSet_lt _ _ _ (bloomSet_lt _ _ _ (bloomSet_lt _ _ _ hb (hm _))
    (hm _)) (hm _)) (hm _)

theorem index_bloom_lt (env : Env) (kvs : List (Key × Value)) (o len bloom : Nat)
    (hb : bloom < 2 ^ BLOOM_SIZE) : (SSTable.index env kvs o len bloom).2.2 < 2 ^ BLOOM_SIZE := by
  induction kvs generalizing o len bloom with
  | nil => simpa [SSTable.index] using hb
  | cons kv rest ih =>
    obtain ⟨k, v⟩ := kv
    simp only [SSTable.index]
    exact ih _ _ _ (bloomAdd_lt env bloom k hb)

theorem readSummary_writeToFile (env : Env) (kvs : List (Key × Value))
    (layer serialNum timeStamp : Nat) (hlen : kvs.length < WORD)
    (hk : ∀ kv ∈ kvs, kv.1 < WORD) (hmin : firstKey kvs < WORD) (hmax : lastKey kvs < WORD)
    (hts : timeStamp < WORD) :
    readSummaryOfSSTableFromFile layer serialNum ((SSTable.ofPairs env kvs).writeToFile timeStamp)
      = some { layer := layer, serialNum := serialNum, timeStamp := timeStamp,
               minKey := firstKey kvs, maxKey := lastKey kvs, kvPairNum := kvs.length,
               bloom := (SSTable.ofPairs env kvs).bloom,
               keyOffset := pairOffsets kvs (offsetsFrom 0 kvs) } := by
  have hb : (SSTable.ofPairs env kvs).bloom < 256 ^ BLOOM_BYTES := by
    have := index_bloom_lt env kvs 0 0 0 (Nat.pos_pow_of_pos _ (by decide))
    have e : (256 : Nat) ^ BLOOM_BYTES = 2 ^ BLOOM_SIZE := by
      have e8 : 8 * BLOOM_BYTES = BLOOM_SIZE := by decide
      rw [show (256 : Nat) = 2 ^ 8 from rfl, ← Nat.pow_mul, e8]
    rw [e]
    exact this
  unfold readSummaryOfSSTableFromFile SSTable.writeToFile
  rw [List.append_assoc, readHeader_headerBytes]
  simp only [SSTable.headerOf]
  have hcount : (SSTable.ofPairs env kvs).kvPairNum % WORD = kvs.length := by
    simp only [SSTable.ofPairs]
    exact Nat.mod_eq_of_lt hlen
  rw [hcount]
  have hdir := readDirectory_dirBytes kvs (offsetsFrom 0 kvs) (valueBytes kvs) (by simp) hk
    (offsetsFrom_lt 0 kvs (by decide))
  simp only [SSTable.ofPairs] at hdir ⊢
  rw [hdir]
  simp only [Nat.mod_eq_of_lt hts, Nat.mod_eq_of_lt hmin, Nat.mod_eq_of_lt hmax]
  congr 2
  exact Nat.mod_eq_of_lt hb

/-- C21: for every non-empty skip list of user keys whose values have fewer
than `2 ^ 64` bytes in total: the table built from it holds the pairs of the
list, `lenOfAllValues` is the sum of the lengths of all values, the offset
recorded for the `i`-th pair is the sum of the lengths of the values of the
pairs before it (0 for the first), and the summary built from the table pairs
the `i`-th key with that same offset. -/
theorem C21_offsets_are_prefix_sums (env : Env) (li : SkipList) (kvs : List (Key × Value))
    (hr : Represents li kvs) (hne : kvs ≠ []) (hsize : valueSizes kvs < WORD)
    (layer serialNum timeStamp : Nat) :
    ∃ t s, SSTable.ofSkipList env li = some t ∧
      SummaryOfSSTable.ofSSTable t layer serialNum timeStamp = some s ∧
      t.kvdata = kvs ∧ t.lenOfAllValues = valueSizes kvs ∧
      ∀ (i : Nat) (k : Key) (v : Value), kvs[i]? = some (k, v) →
        t.valueOffset[i]? = some (valueSizes (kvs.take i)) ∧
        s.keyOffset[i]? = some (k, valueSizes (kvs.take i)) := by
  have hvb : (valueBytes kvs).length < WORD := by rw [valueBytes_length]; exact hsize
  have hoff : ∀ (i : Nat) (k : Key) (v : Value), kvs[i]? = some (k, v) →
      (offsetsFrom 0 kvs)[i]? = some (valueSizes (kvs.take i)) := by
    intro i k v hi
    obtain ⟨hlt, _⟩ := List.getElem?_eq_some.mp hi
    rw [offsetsFrom_getElem? kvs i hlt hvb, valueBytes_length]
  refine ⟨SSTable.ofPairs env kvs,
    { layer := layer, serialNum := serialNum, timeStamp := timeStamp,
      minKey := firstKey kvs, maxKey := lastKey kvs, kvPairNum := kvs.length,
      bloom := (SSTable.ofPairs env kvs).bloom,
      keyOffset := pairOffsets kvs (offsetsFrom 0 kvs) },
    SSTable.ofSkipList_eq env li kvs hr hne, ?_, rfl, ?_, ?_⟩
  · simp [SummaryOfSSTable.ofSSTable, SSTable.ofPairs]
  · show totalFrom 0 kvs = _
    rw [totalFrom_eq 0 kvs (by rw [Nat.zero_add]; exact hvb), Nat.zero_add, valueBytes_length]
  · intro i k v hi
    exact ⟨hoff i k v hi, pairOffsets_getElem? kvs _ i k v _ hi (hoff i k v hi)⟩

theorem C21_offsets_are_prefix_sums_witness :
    Represents sampleList samplePairs ∧ valueSizes samplePairs < WORD ∧
    ∃ t s, SSTable.ofSkipList Env.sample sampleList = some t ∧
      SummaryOfSSTable.ofSSTable t 1 2 5 = some s ∧
      t.kvdata = samplePairs ∧ t.lenOfAllValues = valueSizes samplePairs ∧
      ∀ (i : Nat) (k : Key) (v : Value), samplePairs[i]? = some (k, v) →
        t.valueOffset[i]? = some (valueSizes (samplePairs.take i)) ∧
        s.keyOffset[i]? = some (k, valueSizes (samplePairs.take i)) :=
  ⟨sampleList_represents, by decide,
   C21_offsets_are_prefix_sums Env.sample sampleList samplePairs sampleList_represents
    (by decide) (by decide) 1 2 5⟩

/-- C22: for every non-empty skip list of user keys: the table built from it
holds the pairs linked on level 0 of the list, in strictly ascending key order;
`kvPairNum` is their number and equals `nodeNum()`; `minKey` and `maxKey` are
what `getMinKey` and `getMaxKey` return, are keys of the table and bound every
key of it; and the directory read back from the file written by `writeToFile`
lists the same keys in the same order. -/
theorem C22_table_holds_the_sorted_pairs (env : Env) (li : SkipList)
    (kvs : List (Key × Value)) (hr : Represents li kvs) (hne : kvs ≠ []) (timeStamp : Nat) :
    ∃ t h rest dir rest2, SSTable.ofSkipList env li = some t ∧
      li.pairs = some t.kvdata ∧ t.kvdata.Pairwise (fun a b => a.1 < b.1) ∧
      t.kvPairNum = t.kvdata.length ∧ t.kvPairNum = li.nodeNum ∧
      li.getMinKey = some (true, t.minKey) ∧ li.getMaxKey = some (true, t.maxKey) ∧
      (∃ kv ∈ t.kvdata, kv.1 = t.minKey) ∧ (∃ kv ∈ t.kvdata, kv.1 = t.maxKey) ∧
      (∀ kv ∈ t.kvdata, t.minKey ≤ kv.1 ∧ kv.1 ≤ t.maxKey) ∧
      readHeader (t.writeToFile timeStamp) = some (h, rest) ∧
      readDirectory h.kvPairNum_ rest = some (dir, rest2) ∧
      dir.map Prod.fst = t.kvdata.map Prod.fst := by
  obtain ⟨hmin, hmax, hnum⟩ := hr.minmax env hne
  obtain ⟨kv0, tl, rfl⟩ := List.exists_cons_of_ne_nil hne
  have hk : ∀ kv ∈ kv0 :: tl, kv.1 < WORD := user_key_lt_word li _ hr
  have hdir := readDirectory_dirBytes (kv0 :: tl) (offsetsFrom 0 (kv0 :: tl))
    (valueBytes (kv0 :: tl)) (by simp) hk (offsetsFrom_lt 0 _ (by decide))
  refine ⟨SSTable.ofPairs env (kv0 :: tl), (SSTable.ofPairs env (kv0 :: tl)).headerOf timeStamp,
    dirBytes (kv0 :: tl) (offsetsFrom 0 (kv0 :: tl)) ++ valueBytes (kv0 :: tl),
    pairOffsets (kv0 :: tl) (offsetsFrom 0 (kv0 :: tl)), valueBytes (kv0 :: tl),
    SSTable.ofSkipList_eq env li _ hr hne, hr.pairs_eq, hr.sorted, rfl, hnum.symm, hmin, hmax,
    ⟨kv0, List.mem_cons_self _ _, rfl⟩, ?_, ?_, ?_, ?_, ?_⟩
  · obtain ⟨kv, hkv, he⟩ := lastKey_mem kv0 tl
    exact ⟨kv, hkv, he.symm⟩
  · intro kv hkv
    exact ⟨firstKey_le _ hr.sorted kv hkv, le_lastKey _ hr.sorted kv hkv⟩
  · unfold SSTable.writeToFile
    rw [List.append_assoc]
    exact readHeader_headerBytes _ timeStamp _
  · simp only [SSTable.headerOf, SSTable.ofPairs]
    rw [Nat.mod_eq_of_lt hr.length_lt]
    exact hdir
  · exact pairOffsets_keys _ _ (by simp)

theorem C22_table_holds_the_sorted_pairs_witness :
    Represents sampleList samplePairs ∧
    ∃ t h rest dir rest2, SSTable.ofSkipList Env.sample sampleList = some t ∧
      sampleList.pairs = some t.kvdata ∧ t.kvdata.Pairwise (fun a b => a.1 < b.1) ∧
      t.kvPairNum = t.kvdata.length ∧ t.kvPairNum = sampleList.nodeNum ∧
      sampleList.getMinKey = some (true, t.minKey) ∧
      sampleList.getMaxKey = some (true, t.maxKey) ∧
      (∃ kv ∈ t.kvdata, kv.1 = t.minKey) ∧ (∃ kv ∈ t.kvdata, kv.1 = t.maxKey) ∧
      (∀ kv ∈ t.kvdata, t.minKey ≤ kv.1 ∧ kv.1 ≤ t.maxKey) ∧
      readHeader (t.writeToFile 5) = some (h, rest) ∧
      readDirectory h.kvPairNum_ rest = some (dir, rest2) ∧
      dir.map Prod.fst = t.kvdata.map Prod.fst :=
  ⟨sampleList_represents,
   C22_table_holds_the_sorted_pairs Env.sample sampleList samplePairs sampleList_represents
    (by decide) 5⟩

/-- C23: for every non-empty skip list of user keys, the table `t` built from
it, and every layer, serial and 64-bit time stamp: the summary constructed from
`t` copies layer, serial, time stamp, `minKey`, `maxKey`, `kvPairNum` and the
filter, and its `keyOffset` is the keys of `t` zipped with the offsets of `t`;
the summary read by `readSummaryOfSSTableFromFile` from the file that
`writeToFile` wrote has the same time stamp, `minKey`, `maxKey`, `kvPairNum`,
filter and `keyOffset`. -/
theorem C23_summary_copies_and_reads_back (env : Env) (li : SkipList)
    (kvs : List (Key × Value)) (hr : Represents li kvs) (hne : kvs ≠ [])
    (layer serialNum timeStamp : Nat) (hts : timeStamp < WORD) :
    ∃ t s s2, SSTable.ofSkipList env li = some t ∧
      SummaryOfSSTable.ofSSTable t layer serialNum timeStamp = some s ∧
      s.layer = layer ∧ s.serialNum = serialNum ∧ s.timeStamp = timeStamp ∧
      s.minKey = t.minKey ∧ s.maxKey = t.maxKey ∧ s.kvPairNum = t.kvPairNum ∧
      s.bloom = t.bloom ∧ s.keyOffset = (t.kvdata.map Prod.fst).zip t.valueOffset ∧
      readSummaryOfSSTableFromFile layer serialNum (t.writeToFile timeStamp) = some s2 ∧
      s2.timeStamp = s.timeStamp ∧ s2.minKey = s.minKey ∧ s2.maxKey = s.maxKey ∧
      s2.kvPairNum = s.kvPairNum ∧ s2.bloom = s.bloom ∧ s2.keyOffset = s.keyOffset := by
  obtain ⟨kv0, tl, rfl⟩ := List.exists_cons_of_ne_nil hne
  have hk : ∀ kv ∈ kv0 :: tl, kv.1 < WORD := user_key_lt_word li _ hr
  obtain ⟨kvl, hkvl, hel⟩ := lastKey_mem kv0 tl
  have hread := readSummary_writeToFile env (kv0 :: tl) layer serialNum timeStamp hr.length_lt
    hk (hk kv0 (List.mem_cons_self _ _)) (by rw [hel]; exact hk kvl hkvl) hts
  refine ⟨SSTable.ofPairs env (kv0 :: tl), _, _, SSTable.ofSkipList_eq env li _ hr hne, ?_,
    rfl, rfl, rfl, rfl, rfl, rfl, rfl, ?_, hread, rfl, rfl, rfl, rfl, rfl, rfl⟩
  · simp [SummaryOfSSTable.ofSSTable, SSTable.ofPairs]
  · exact pairOffsets_eq_zip _ _

theorem C23_summary_copies_and_reads_back_witness :
    Represents sampleList samplePairs ∧ 5 < WORD ∧
    ∃ t s s2, SSTable.ofSkipList Env.sample sampleList = some t ∧
      SummaryOfSSTable.ofSSTable t 1 2 5 = some s ∧
      s.layer = 1 ∧ s.serialNum = 2 ∧ s.timeStamp = 5 ∧
      s.minKey = t.minKey ∧ s.maxKey = t.maxKey ∧ s.kvPairNum = t.kvPairNum ∧
      s.bloom = t.bloom ∧ s.keyOffset = (t.kvdata.map Prod.fst).zip t.valueOffset ∧
      readSummaryOfSSTableFromFile 1 2 (t.writeToFile 5) = some s2 ∧
      s2.timeStamp = s.timeStamp ∧ s2.minKey = s.minKey ∧ s2.maxKey = s.maxKey ∧
      s2.kvPairNum = s.kvPairNum ∧ s2.bloom = s.bloom ∧ s2.keyOffset = s.keyOffset :=
  ⟨sampleList_represents, by decide,
   C23_summary_copies_and_reads_back Env.sample sampleList samplePairs sampleList_represents
    (by decide) 1 2 5 (by decide)⟩

/-! ## Merging runs -/

theorem mergeFuel_eq_merge {α : Type} (comp : α → α → Bool) (n : Nat) :
    ∀ xs ys : List α, xs.length + ys.length ≤ n →
      mergeFuel comp n xs ys = xs.merge ys (fun a b => !comp b a) := by
  induction n with
  | zero =>
    intro xs ys h
    have hx : xs = [] := List.eq_nil_of_length_eq_zero (by omega)
    have hy : ys = [] := List.eq_nil_of_length_eq_zero (by omega)
    subst hx hy
    simp [mergeFuel]
  | succ n ih =>
    intro xs ys h
    cases xs with
    | nil => simp [mergeFuel, List.nil_merge]
    | cons x xs =>
      cases ys with
      | nil => simp [mergeFuel, List.merge_right]
      | cons y ys =>
        simp only [List.length_cons] at h
        rw [mergeFuel, List.cons_merge_cons]
        by_cases hc : comp y x = true
        · rw [if_pos hc, if_neg (by simp [hc])]
          rw [ih (x :: xs) ys (by simp only [List.length_cons]; omega)]
        · rw [if_neg hc, if_pos (by simpa using hc)]
          rw [ih xs (y :: ys) (by simp only [List.length_cons]; omega)]

theorem listMerge_eq_merge {α : Type} (comp : α → α → Bool) (xs ys : List α) :
    listMerge comp xs ys = xs.merge ys (fun a b => !comp b a) :=
  mergeFuel_eq_merge comp _ xs ys (Nat.le_refl _)

theorem mergeComp_false_iff (a b : Record) : (!mergeComp b a) = true ↔ notAfter a b := by
  obtain ⟨la, sa, ka, va⟩ := a
  obtain ⟨lb, sb, kb, vb⟩ := b
  have hka : ∀ x : Key, x = (x : Nat) := fun _ => rfl
  simp only [mergeComp, notAfter, Bool.not_eq_true', gt_iff_lt]
  by_cases hk : kb = ka
  · rw [if_pos hk]
    by_cases h1 : lb < la
    · rw [if_pos h1]
      have hk2 : ¬ (ka : Nat) < kb := by rw [hk]; exact Nat.lt_irrefl _
      constructor
      · intro h; exact absurd h (by simp)
      · rintro (h | ⟨_, h | ⟨h, _⟩⟩)
        · exact absurd h hk2
        · omega
        · omega
    · rw [if_neg h1]
      by_cases h2 : la < lb
      · rw [if_pos h2]
        exact ⟨fun _ => Or.inr ⟨hk.symm, Or.inl h2⟩, fun _ => rfl⟩
      · rw [if_neg h2]
        have hl : la = lb := by omega
        simp only [decide_eq_false_iff_not, Nat.not_lt]
        constructor
        · intro h; exact Or.inr ⟨hk.symm, Or.inr ⟨hl, h⟩⟩
        · rintro (h | ⟨_, h | ⟨_, h⟩⟩)
          · rw [hk] at h; exact absurd h (Nat.lt_irrefl _)
          · omega
          · exact h
  · rw [if_neg hk]
    simp only [decide_eq_false_iff_not, Nat.not_lt]
    constructor
    · intro h
      exact Or.inl (Nat.lt_of_le_of_ne h (fun he => hk he.symm))
    · rintro (h | ⟨h, _⟩)
      · exact Nat.le_of_lt h
      · exact absurd h.symm hk

theorem lex_trans (ka kb kc la lb lc sa sb sc : Nat)
    (h1 : ka < kb ∨ (ka = kb ∧ (la < lb ∨ (la = lb ∧ sb ≤ sa))))
    (h2 : kb < kc ∨ (kb = kc ∧ (lb < lc ∨ (lb = lc ∧ sc ≤ sb)))) :
    ka < kc ∨ (ka = kc ∧ (la < lc ∨ (la = lc ∧ sc ≤ sa))) := by
  omega

theorem lex_total (ka kb la lb sa sb : Nat) :
    (ka < kb ∨ (ka = kb ∧ (la < lb ∨ (la = lb ∧ sb ≤ sa)))) ∨
      (kb < ka ∨ (kb = ka ∧ (lb < la ∨ (lb = la ∧ sa ≤ sb)))) := by
  omega

theorem notAfter_trans (a b c : Record) (h1 : notAfter a b) (h2 : notAfter b c) :
    notAfter a c :=
  lex_trans a.2.2.1 b.2.2.1 c.2.2.1 a.1 b.1 c.1 a.2.1 b.2.1 c.2.1 h1 h2

theorem notAfter_total (a b : Record) : notAfter a b ∨ notAfter b a :=
  lex_total a.2.2.1 b.2.2.1 a.1 b.1 a.2.1 b.2.1

theorem listMerge_sorted (xs ys : List Record) (hx : xs.Pairwise notAfter)
    (hy : ys.Pairwise notAfter) : (listMerge mergeComp xs ys).Pairwise notAfter := by
  rw [listMerge_eq_merge]
  have key := @List.sorted_merge Record (fun a b : Record => !mergeComp b a)
    (fun a b c h1 h2 => (mergeComp_false_iff a c).mpr
      (notAfter_trans a b c ((mergeComp_false_iff a b).mp h1) ((mergeComp_false_iff b c).mp h2)))
    (fun a b => by
      rcases notAfter_total a b with h | h
      · simp [(mergeComp_false_iff a b).mpr h]
      · have := (mergeComp_false_iff b a).mpr h
        simp only [Bool.or_eq_true]
        exact Or.inr this)
    xs ys
    (hx.imp (fun {a b} h => (mergeComp_false_iff a b).mpr h))
    (hy.imp (fun {a b} h => (mergeComp_false_iff a b).mpr h))
  exact key.imp (fun {a b} h => (mergeComp_false_iff a b).mp h)

theorem mem_listMerge (xs ys : List Record) (r : Record) :
    r ∈ listMerge mergeComp xs ys ↔ r ∈ xs ∨ r ∈ ys := by
  rw [listMerge_eq_merge]
  exact List.mem_merge

theorem sorted_keys_notAfter (run : List Record)
    (h : run.Pairwise (fun a b => a.2.2.1 < b.2.2.1)) : run.Pairwise notAfter :=
  h.imp (fun hab => Or.inl hab)

/-! ## The records the merge loop keeps -/

theorem mergeLoop_winners (env : Env) (curLayer ts : Nat) (bottom : Bool)
    (records : List Record) :
    ∀ (prevKey : Key) (st : KVStore),
      KVStore.mergeLoop env curLayer ts bottom records prevKey st
        = KVStore.mergeLoop env curLayer ts bottom (winners prevKey records) prevKey st := by
  induction records with
  | nil => intro prevKey st; rfl
  | cons r rest ih =>
    intro prevKey st
    obtain ⟨l, s, key, val⟩ := r
    by_cases hk : key = prevKey
    · have hw : winners prevKey ((l, s, key, val) :: rest) = winners prevKey rest := by
        simp [winners, hk]
      rw [hw, ← ih prevKey st]
      conv_lhs => unfold KVStore.mergeLoop
      simp [hk]
    · have hw : winners prevKey ((l, s, key, val) :: rest)
          = (l, s, key, val) :: winners key rest := by
        simp [winners, hk]
      rw [hw]
      conv_lhs => unfold KVStore.mergeLoop
      conv_rhs => unfold KVStore.mergeLoop
      simp only [ne_eq, hk, not_false_eq_true, if_true]
      split
      · exact ih key st
      · split
        · split
          · rfl
          · exact ih key _
        · split
          · rfl
          · split
            · rfl
            · exact ih key _

theorem winners_spec (records : List Record) :
    ∀ prevKey : Key, records.Pairwise notAfter → (∀ r ∈ records, prevKey ≤ r.2.2.1) →
      (winners prevKey records).Pairwise (fun a b => a.2.2.1 < b.2.2.1) ∧
      (∀ w ∈ winners prevKey records, w ∈ records ∧ prevKey < w.2.2.1) ∧
      (∀ r ∈ records, prevKey < r.2.2.1 →
        ∃ w ∈ winners prevKey records, w.2.2.1 = r.2.2.1 ∧
          (w.1 < r.1 ∨ (w.1 = r.1 ∧ r.2.1 ≤ w.2.1))) := by
  induction records with
  | nil => intro prevKey _ _; simp [winners]
  | cons r rest ih =>
    intro prevKey hs hp
    rw [List.pairwise_cons] at hs
    have hr := hp r (List.mem_cons_self _ _)
    have hrest : ∀ x ∈ rest, r.2.2.1 ≤ x.2.2.1 := by
      intro x hx
      rcases hs.1 x hx with h | ⟨h, _⟩
      · exact Nat.le_of_lt h
      · exact Nat.le_of_eq h
    by_cases hk : r.2.2.1 = prevKey
    · have hw : winners prevKey (r :: rest) = winners prevKey rest := by simp [winners, hk]
      obtain ⟨h1, h2, h3⟩ := ih prevKey hs.2 (fun x hx => hp x (List.mem_cons_of_mem _ hx))
      rw [hw]
      refine ⟨h1, fun w hw1 => ⟨List.mem_cons_of_mem _ (h2 w hw1).1, (h2 w hw1).2⟩, ?_⟩
      intro x hx hlt
      rcases List.mem_cons.mp hx with rfl | hx
      · rw [hk] at hlt
        exact absurd hlt (Nat.lt_irrefl _)
      · exact h3 x hx hlt
    · have hw : winners prevKey (r :: rest) = r :: winners r.2.2.1 rest := by
        simp [winners, hk]
      obtain ⟨h1, h2, h3⟩ := ih r.2.2.1 hs.2 hrest
      have hlt : prevKey < r.2.2.1 := Nat.lt_of_le_of_ne hr (Ne.symm hk)
      rw [hw]
      refine ⟨?_, ?_, ?_⟩
      · rw [List.pairwise_cons]
        exact ⟨fun w hw1 => (h2 w hw1).2, h1⟩
      · intro w hw1
        rcases List.mem_cons.mp hw1 with rfl | hw1
        · exact ⟨List.mem_cons_self _ _, hlt⟩
        · exact ⟨List.mem_cons_of_mem _ (h2 w hw1).1, Nat.lt_trans hlt (h2 w hw1).2⟩
      · intro x hx _
        rcases List.mem_cons.mp hx with rfl | hx
        · exact ⟨x, List.mem_cons_self _ _, rfl, Or.inr ⟨rfl, Nat.le_refl _⟩⟩
        · by_cases hxk : r.2.2.1 = x.2.2.1
          · refine ⟨r, List.mem_cons_self _ _, hxk, ?_⟩
            rcases hs.1 x hx with h | ⟨_, h⟩
            · rw [hxk] at h
              exact absurd h (Nat.lt_irrefl _)
            · exact h
          · obtain ⟨w, hw1, hw2, hw3⟩ :=
              h3 x hx (Nat.lt_of_le_of_ne (hrest x hx) hxk)
            exact ⟨w, List.mem_cons_of_mem _ hw1, hw2, hw3⟩

theorem winners_top (records : List Record) (hs : records.Pairwise notAfter)
    (hk : ∀ r ∈ records, r.2.2.1 ≠ KEY_MAX) :
    (winners KEY_MAX records).Pairwise (fun a b => a.2.2.1 < b.2.2.1) ∧
    (∀ w ∈ winners KEY_MAX records, w ∈ records) ∧
    (∀ r ∈ records, ∃ w ∈ winners KEY_MAX records, w.2.2.1 = r.2.2.1 ∧
      (w.1 < r.1 ∨ (w.1 = r.1 ∧ r.2.1 ≤ w.2.1))) := by
  cases records with
  | nil => simp [winners]
  | cons r rest =>
    have hr := hk r (List.mem_cons_self _ _)
    have hw : winners KEY_MAX (r :: rest) = r :: winners r.2.2.1 rest := by
      simp [winners, hr]
    rw [List.pairwise_cons] at hs
    have hrest : ∀ x ∈ rest, r.2.2.1 ≤ x.2.2.1 := by
      intro x hx
      rcases hs.1 x hx with h | ⟨h, _⟩
      · exact Nat.le_of_lt h
      · exact Nat.le_of_eq h
    obtain ⟨h1, h2, h3⟩ := winners_spec rest r.2.2.1 hs.2 hrest
    rw [hw]
    refine ⟨?_, ?_, ?_⟩
    · rw [List.pairwise_cons]
      exact ⟨fun w hw1 => (h2 w hw1).2, h1⟩
    · intro w hw1
      rcases List.mem_cons.mp hw1 with rfl | hw1
      · exact List.mem_cons_self _ _
      · exact List.mem_cons_of_mem _ (h2 w hw1).1
    · intro x hx
      rcases List.mem_cons.mp hx with rfl | hx
      · exact ⟨x, List.mem_cons_self _ _, rfl, Or.inr ⟨rfl, Nat.le_refl _⟩⟩
      · by_cases hxk : r.2.2.1 = x.2.2.1
        · refine ⟨r, List.mem_cons_self _ _, hxk, ?_⟩
          rcases hs.1 x hx with h | ⟨_, h⟩
          · rw [hxk] at h
            exact absurd h (Nat.lt_irrefl _)
          · exact h
        · obtain ⟨w, hw1, hw2, hw3⟩ := h3 x hx (Nat.lt_of_le_of_ne (hrest x hx) hxk)
          exact ⟨w, List.mem_cons_of_mem _ hw1, hw2, hw3⟩

/-! ## Claim C29 -/

/-- C28 fails on the code. After `put(1, "a")`, close and open, `put(2, "b")`,
close and open, level 0 holds the runs with serials 0 and 1, and the cache of
level 0 lists them front to back as 0, 1: the oldest run, the one that holds
key 1, is at the front. -/
theorem C28_open_loads_oldest_run_first :
    (KVStore.after Env.sample [.put 1 [97], .reopen, .put 2 [98], .reopen]).map
        (fun st => st.serials.take 1) = some [[0, 1]] ∧
    (KVStore.after Env.sample [.put 1 [97], .reopen, .put 2 [98], .reopen]).map
        (fun st => st.diskTableCache.map (fun c => c.map (fun s => s.maxKey)) |>.take 1)
      = some [[1, 2]] := by
  refine ⟨by decide!, by decide!⟩

/-! ## Files and arrays -/

theorem setAt_spec {α : Type} (a : List α) (i : Nat) (x : α) (b : List α)
    (h : setAt a i x = some b) :
    i < a.length ∧ b.length = a.length ∧ b[i]? = some x ∧ ∀ j, j ≠ i → b[j]? = a[j]? := by
  unfold setAt at h
  split at h
  · rename_i hi
    simp only [Option.some.injEq] at h
    subst h
    refine ⟨hi, by simp, by simp [hi], ?_⟩
    intro j hj
    rw [List.getElem?_set_ne (Ne.symm hj)]
  · exact absurd h (by simp)

theorem setAt_some {α : Type} (a : List α) (i : Nat) (x : α) (h : i < a.length) :
    setAt a i x = some (a.set i x) := by
  unfold setAt
  rw [if_pos h]

theorem Disk.mem_of_readFile (d : Disk) (L n : Nat) (b : List UInt8)
    (h : d.readFile L n = some b) : ((L, n), b) ∈ d.files := by
  unfold Disk.readFile at h
  split at h
  · rename_i f hf
    simp only [Option.some.injEq] at h
    have h1 := List.find?_some hf
    have h2 := List.mem_of_find?_eq_some hf
    simp only [decide_eq_true_eq] at h1
    have : f = ((L, n), b) := by
      cases f
      simp only at h1 h
      rw [h1, h]
    rw [← this]
    exact h2
  · exact absurd h (by simp)

theorem Disk.readFile_of_mem (d : Disk) (hn : (d.files.map Prod.fst).Nodup) (L n : Nat)
    (b : List UInt8) (h : ((L, n), b) ∈ d.files) : d.readFile L n = some b := by
  unfold Disk.readFile
  cases hf : d.files.find? (fun f => f.1 = (L, n)) with
  | none =>
    have := List.find?_eq_none.mp hf _ h
    simp at this
  | some f =>
    have h1 := List.find?_some hf
    have h2 := List.mem_of_find?_eq_some hf
    simp only [decide_eq_true_eq] at h1
    have hinj := List.inj_on_of_nodup_map hn h2 h (by rw [h1])
    rw [hinj]

theorem Disk.readFile_none (d : Disk) (L n : Nat)
    (h : ∀ b, ((L, n), b) ∉ d.files) : d.readFile L n = none := by
  cases hr : d.readFile L n with
  | none => rfl
  | some b => exact absurd (d.mem_of_readFile L n b hr) (h b)

theorem Disk.writeFile_files (d : Disk) (L n : Nat) (bytes : List UInt8)
    (h : ∀ b, ((L, n), b) ∉ d.files) :
    (d.writeFile L n bytes).files = ((L, n), bytes) :: d.files := by
  unfold Disk.writeFile
  simp only [List.cons.injEq, true_and]
  rw [List.filter_eq_self]
  intro f hf
  simp only [ne_eq, decide_eq_true_eq]
  intro he
  apply h f.2
  rw [← he]
  exact hf

theorem Disk.existsDir_ensureDir (d : Disk) (L K : Nat) :
    (d.ensureDir L).existsDir K = true ↔ K = L ∨ d.existsDir K = true := by
  unfold Disk.ensureDir
  by_cases h : d.existsDir L = true
  · rw [if_pos h]
    constructor
    · exact Or.inr
    · rintro (rfl | h1)
      · exact h
      · exact h1
  · rw [if_neg h]
    simp only [Disk.existsDir, List.contains_cons, Bool.or_eq_true, beq_iff_eq]

theorem Disk.ensureDir_files (d : Disk) (L : Nat) : (d.ensureDir L).files = d.files := by
  unfold Disk.ensureDir
  split <;> rfl

theorem Disk.ensureDir_wal (d : Disk) (L : Nat) : (d.ensureDir L).wal = d.wal := by
  unfold Disk.ensureDir
  split <;> rfl

theorem removeFiles_spec (names : List (Nat × Nat)) :
    ∀ d : Disk, (KVStore.removeFiles names d).files
        = d.files.filter (fun f => decide (f.1 ∉ names)) ∧
      (KVStore.removeFiles names d).levelDirs = d.levelDirs ∧
      (KVStore.removeFiles names d).wal = d.wal := by
  induction names with
  | nil =>
    intro d
    simp [KVStore.removeFiles]
  | cons x names ih =>
    intro d
    obtain ⟨h1, h2, h3⟩ := ih (d.removeFile x.1 x.2)
    refine ⟨?_, by rw [KVStore.removeFiles, h2]; rfl, by rw [KVStore.removeFiles, h3]; rfl⟩
    rw [KVStore.removeFiles, h1]
    simp only [Disk.removeFile, List.filter_filter]
    apply List.filter_congr
    intro f _
    simp only [List.mem_cons, not_or, ne_eq, Bool.and_eq_true, decide_eq_true_eq,
      Bool.decide_and, decide_not]
    cases f with
    | mk nm b =>
      simp only
      by_cases hx : nm = x
      · simp [hx]
      · have : ¬ nm = (x.1, x.2) := hx
        simp [hx, this]

theorem apart_symm (a b : SummaryOfSSTable) (h : a.apart b) : b.apart a :=
  Or.symm h

theorem pairwise_of_nodup {α : Type} (R : α → α → Prop) (f : α → Nat) (l : List α)
    (hn : (l.map f).Nodup) (h : ∀ a ∈ l, ∀ b ∈ l, f a ≠ f b → R a b) : l.Pairwise R := by
  induction l with
  | nil => exact List.Pairwise.nil
  | cons x l ih =>
    rw [List.map_cons, List.nodup_cons] at hn
    rw [List.pairwise_cons]
    refine ⟨?_, ih hn.2 (fun a ha b hb => h a (List.mem_cons_of_mem _ ha) b
      (List.mem_cons_of_mem _ hb))⟩
    intro b hb
    apply h x (List.mem_cons_self _ _) b (List.mem_cons_of_mem _ hb)
    intro he
    exact hn.1 (by rw [he]; exact List.mem_map_of_mem f hb)

/-! ## Reading a run file -/

theorem firstKey_mem (kvs : List (Key × Value)) (hne : kvs ≠ []) :
    ∃ kv ∈ kvs, firstKey kvs = kv.1 := by
  cases kvs with
  | nil => exact absurd rfl hne
  | cons kv rest => exact ⟨kv, List.mem_cons_self _ _, rfl⟩

theorem lastKey_mem_of_ne (kvs : List (Key × Value)) (hne : kvs ≠ []) :
    ∃ kv ∈ kvs, lastKey kvs = kv.1 := by
  cases kvs with
  | nil => exact absurd rfl hne
  | cons kv rest => exact lastKey_mem kv rest

theorem IsRun.bounds {env : Env} {bytes : List UInt8} {kvs : List (Key × Value)}
    (h : IsRun env bytes kvs) :
    kvs.length < WORD ∧ (∀ kv ∈ kvs, kv.1 < WORD) ∧ UserKey (firstKey kvs) ∧
      UserKey (lastKey kvs) ∧ firstKey kvs ≤ lastKey kvs ∧
      ∀ kv ∈ kvs, firstKey kvs ≤ kv.1 ∧ kv.1 ≤ lastKey kvs := by
  obtain ⟨_, hne, hs, hu⟩ := h
  have hlen : kvs.length < WORD := by
    have := sorted_length_le kvs KEY_MAX 0 hs (fun kv hkv => ⟨Nat.zero_le _, (hu kv hkv).2⟩)
    have h2 : KEY_MAX - 0 < WORD := by decide
    exact Nat.lt_of_le_of_lt this h2
  obtain ⟨f, hf, hfe⟩ := firstKey_mem kvs hne
  obtain ⟨l, hl, hle⟩ := lastKey_mem_of_ne kvs hne
  refine ⟨hlen, fun kv hkv => Nat.lt_of_lt_of_le (hu kv hkv).2 (by decide), ?_, ?_, ?_, ?_⟩
  · rw [hfe]; exact hu f hf
  · rw [hle]; exact hu l hl
  · rw [hfe]; exact le_lastKey kvs hs f hf
  · intro kv hkv
    exact ⟨firstKey_le kvs hs kv hkv, le_lastKey kvs hs kv hkv⟩

theorem readValues_keys (L n len : Nat) :
    ∀ (dir : List (Key × Nat)) (s : List UInt8),
      (readValues L n len dir s).map (fun r => r.2.2.1) = dir.map Prod.fst ∧
      ∀ r ∈ readValues L n len dir s, r.1 = L ∧ r.2.1 = n := by
  intro dir
  induction dir with
  | nil => intro s; simp [readValues]
  | cons e rest ih =>
    intro s
    obtain ⟨k, off⟩ := e
    cases rest with
    | nil => simp [readValues]
    | cons e1 rest1 =>
      obtain ⟨k1, off1⟩ := e1
      obtain ⟨h1, h2⟩ := ih (readString (sub64 off1 off) s).2
      simp only [readValues, List.map_cons, List.mem_cons]
      refine ⟨by rw [h1]; rfl, ?_⟩
      rintro r (rfl | hr)
      · exact ⟨rfl, rfl⟩
      · exact h2 r hr

theorem filter_run (env : Env) (kvs : List (Key × Value)) (L n ts : Nat)
    (hlen : kvs.length < WORD) (hk : ∀ kv ∈ kvs, kv.1 < WORD) :
    ∃ run, filterSSTableFromFile L n ((SSTable.ofPairs env kvs).writeToFile ts) = some run ∧
      run.map (fun r => r.2.2.1) = kvs.map Prod.fst ∧ ∀ r ∈ run, r.1 = L ∧ r.2.1 = n := by
  unfold filterSSTableFromFile SSTable.writeToFile
  rw [List.append_assoc, readHeader_headerBytes]
  simp only [SSTable.headerOf]
  have hcount : (SSTable.ofPairs env kvs).kvPairNum % WORD = kvs.length := by
    simp only [SSTable.ofPairs]
    exact Nat.mod_eq_of_lt hlen
  rw [hcount]
  by_cases h0 : kvs.length = 0
  · rw [if_pos h0]
    have : kvs = [] := List.eq_nil_of_length_eq_zero h0
    subst this
    exact ⟨[], rfl, rfl, by simp⟩
  · rw [if_neg h0]
    have hdir := readDirectory_dirBytes kvs (offsetsFrom 0 kvs) (valueBytes kvs) (by simp) hk
      (offsetsFrom_lt 0 kvs (by decide))
    simp only [SSTable.ofPairs] at hdir ⊢
    rw [hdir]
    obtain ⟨h1, h2⟩ := readValues_keys L n (totalFrom 0 kvs % WORD)
      (pairOffsets kvs (offsetsFrom 0 kvs)) (valueBytes kvs)
    exact ⟨_, rfl, by rw [h1, pairOffsets_keys kvs _ (by simp)], h2⟩

theorem readSummary_run (env : Env) (kvs : List (Key × Value)) (L n ts : Nat)
    (hlen : kvs.length < WORD) (hk : ∀ kv ∈ kvs, kv.1 < WORD) (hmin : firstKey kvs < WORD)
    (hmax : lastKey kvs < WORD) :
    ∃ s, readSummaryOfSSTableFromFile L n ((SSTable.ofPairs env kvs).writeToFile ts) = some s ∧
      s.layer = L ∧ s.serialNum = n ∧ s.timeStamp = ts % WORD ∧ s.minKey = firstKey kvs ∧
      s.maxKey = lastKey kvs := by
  unfold readSummaryOfSSTableFromFile SSTable.writeToFile
  rw [List.append_assoc, readHeader_headerBytes]
  simp only [SSTable.headerOf]
  have hcount : (SSTable.ofPairs env kvs).kvPairNum % WORD = kvs.length := by
    simp only [SSTable.ofPairs]
    exact Nat.mod_eq_of_lt hlen
  rw [hcount]
  have hdir := readDirectory_dirBytes kvs (offsetsFrom 0 kvs) (valueBytes kvs) (by simp) hk
    (offsetsFrom_lt 0 kvs (by decide))
  simp only [SSTable.ofPairs] at hdir ⊢
  rw [hdir]
  exact ⟨_, rfl, rfl, rfl, rfl, Nat.mod_eq_of_lt hmin, Nat.mod_eq_of_lt hmax⟩

theorem IsRun.filter {env : Env} {bytes : List UInt8} {kvs : List (Key × Value)}
    (h : IsRun env bytes kvs) (L n : Nat) :
    ∃ run, filterSSTableFromFile L n bytes = some run ∧
      run.map (fun r => r.2.2.1) = kvs.map Prod.fst ∧ ∀ r ∈ run, r.1 = L ∧ r.2.1 = n := by
  obtain ⟨hlen, hk, _⟩ := h.bounds
  obtain ⟨⟨ts, rfl⟩, _⟩ := h
  exact filter_run env kvs L n ts hlen hk

theorem IsRun.summary {env : Env} {bytes : List UInt8} {kvs : List (Key × Value)}
    (h : IsRun env bytes kvs) (L n : Nat) :
    ∃ s, readSummaryOfSSTableFromFile L n bytes = some s ∧ s.layer = L ∧ s.serialNum = n ∧
      s.minKey = firstKey kvs ∧ s.maxKey = lastKey kvs := by
  obtain ⟨hlen, hk, hf, hl, _⟩ := h.bounds
  obtain ⟨⟨ts, rfl⟩, _⟩ := h
  obtain ⟨s, h1, h2, h3, _, h5, h6⟩ := readSummary_run env kvs L n ts hlen hk
    (Nat.lt_of_lt_of_le hf.2 (by decide)) (Nat.lt_of_lt_of_le hl.2 (by decide))
  exact ⟨s, h1, h2, h3, h5, h6⟩

/-! ## The table of a skip list of the program -/

theorem ofSkipList_empty (env : Env) (li : SkipList) (h : li.nodeCount_ = 0) :
    SSTable.ofSkipList env li = none := by
  unfold SSTable.ofSkipList SkipList.getMinKey SkipList.getMaxKey
  simp [h]

theorem WellFormed.table {li : SkipList} {cells : List Cell} (h : WellFormed li cells)
    (env : Env) (t : SSTable) (ht : SSTable.ofSkipList env li = some t) :
    cells ≠ [] ∧ t = SSTable.ofPairs env (pairsOf cells) ∧
      ∀ ts, IsRun env (t.writeToFile ts) (pairsOf cells) := by
  have hne : cells ≠ [] := by
    intro he
    have hc : li.nodeCount_ = 0 := by rw [h.count_eq, he]; rfl
    rw [ofSkipList_empty env li hc] at ht
    exact absurd ht (by simp)
  have hr := h.to_represents
  have hp : pairsOf cells ≠ [] := by
    simpa [pairsOf] using hne
  have e := SSTable.ofSkipList_eq env li (pairsOf cells) hr hp
  rw [ht] at e
  simp only [Option.some.injEq] at e
  refine ⟨hne, e, fun ts => ⟨⟨ts, by rw [e]⟩, hp, hr.sorted, hr.user_keys⟩⟩

/-! ## Adding a run to a level -/

theorem KVStore.Tidy.serial_lt {env : Env} {st : KVStore} {pending : List (Nat × Nat)}
    (h : KVStore.Tidy env st pending) (L : Nat) (c : Cache) (s : SummaryOfSSTable)
    (hc : st.diskTableCache[L]? = some c) (hs : s ∈ c) :
    ∃ a, st.availableNum[L]? = some a ∧ s.serialNum < a := by
  obtain ⟨_, _, bytes, kvs, hr, _⟩ := h.entries L c s hc hs
  exact (h.files L s.serialNum bytes (st.disk.mem_of_readFile L s.serialNum bytes hr)).2.1

theorem KVStore.Tidy.no_file {env : Env} {st : KVStore} {pending : List (Nat × Nat)}
    (h : KVStore.Tidy env st pending) (L a : Nat) (ha : st.availableNum[L]? = some a)
    (n : Nat) (hn : a ≤ n) (b : List UInt8) : ((L, n), b) ∉ st.disk.files := by
  intro hm
  obtain ⟨_, ⟨a1, h1, h2⟩, _⟩ := h.files L n b hm
  rw [ha] at h1
  simp only [Option.some.injEq] at h1
  omega

theorem KVStore.Tidy.add_run {env : Env} {st : KVStore} {pending : List (Nat × Nat)}
    (h : KVStore.Tidy env st pending) (st1 : KVStore) (T a : Nat) (c : Cache)
    (s : SummaryOfSSTable) (bytes : List UInt8) (kvs : List (Key × Value))
    (hmem : ∃ cells, WellFormed st1.memTable cells)
    (hmerge : ∃ cells, WellFormed st1.mergeTable cells)
    (hc : st.diskTableCache[T]? = some c) (ha : st.availableNum[T]? = some a)
    (hc1 : st1.diskTableCache.length = st.diskTableCache.length ∧
      st1.diskTableCache[T]? = some (s :: c) ∧
      ∀ j, j ≠ T → st1.diskTableCache[j]? = st.diskTableCache[j]?)
    (ha1 : st1.availableNum.length = st.availableNum.length ∧
      st1.availableNum[T]? = some (a + 1) ∧
      ∀ j, j ≠ T → st1.availableNum[j]? = st.availableNum[j]?)
    (hd : st1.disk = (st.disk.ensureDir T).writeFile T a bytes)
    (hrun : IsRun env bytes kvs) (hl : s.layer = T) (hn : s.serialNum = a)
    (hmin : s.minKey = firstKey kvs) (hmax : s.maxKey = lastKey kvs)
    (hdir : T = 0 ∨ st.disk.existsDir (T - 1) = true)
    (hapart : 0 < T → ∀ x ∈ c, s.apart x) :
    KVStore.Tidy env st1 pending := by
  have hfresh : ∀ b, ((T, a), b) ∉ (st.disk.ensureDir T).files := by
    intro b
    rw [Disk.ensureDir_files]
    exact h.no_file T a ha a (Nat.le_refl _) b
  have hfiles : st1.disk.files = ((T, a), bytes) :: st.disk.files := by
    rw [hd, Disk.writeFile_files _ _ _ _ hfresh, Disk.ensureDir_files]
  have hex : ∀ K, st1.disk.existsDir K = true ↔ K = T ∨ st.disk.existsDir K = true := by
    intro K
    rw [hd]
    exact Disk.existsDir_ensureDir st.disk T K
  have hnames : (st1.disk.files.map Prod.fst).Nodup := by
    rw [hfiles, List.map_cons, List.nodup_cons]
    refine ⟨?_, h.names⟩
    intro hm
    obtain ⟨f, hf, he⟩ := List.mem_map.mp hm
    have : f = ((T, a), f.2) := by
      cases f
      simp only at he
      rw [he]
    rw [this] at hf
    exact h.no_file T a ha a (Nat.le_refl _) f.2 hf
  have hread : ∀ L n b, st.disk.readFile L n = some b → st1.disk.readFile L n = some b := by
    intro L n b hr
    apply Disk.readFile_of_mem _ hnames
    rw [hfiles]
    exact List.mem_cons_of_mem _ (st.disk.mem_of_readFile L n b hr)
  have hreadnew : st1.disk.readFile T a = some bytes := by
    apply Disk.readFile_of_mem _ hnames
    rw [hfiles]
    exact List.mem_cons_self _ _
  have hcache : ∀ L c1, st1.diskTableCache[L]? = some c1 →
      (L = T ∧ c1 = s :: c) ∨ (L ≠ T ∧ st.diskTableCache[L]? = some c1) := by
    intro L c1 h1
    by_cases hL : L = T
    · subst hL
      rw [hc1.2.1] at h1
      simp only [Option.some.injEq] at h1
      exact Or.inl ⟨rfl, h1.symm⟩
    · rw [hc1.2.2 L hL] at h1
      exact Or.inr ⟨hL, h1⟩
  have hp : (T, a) ∉ pending := by
    intro hm
    obtain ⟨b, hb⟩ := h.waiting _ hm
    exact h.no_file T a ha a (Nat.le_refl _) b hb
  refine ⟨hmem, hmerge, by rw [hc1.1, h.caches_len], by rw [ha1.1, h.avail_len], hnames,
    ?_, ?_, ?_, ?_, ?_, ?_⟩
  · intro L hL
    rw [hex] at hL ⊢
    rcases hL with hL | hL
    · rcases hdir with h0 | h0
      · omega
      · right
        have : T - 1 = L := by omega
        rw [← this]
        exact h0
    · exact Or.inr (h.dirs L hL)
  · intro L c1 x h1 hx
    rcases hcache L c1 h1 with ⟨rfl, rfl⟩ | ⟨_, h2⟩
    · rcases List.mem_cons.mp hx with rfl | hx
      · exact ⟨hl, by rw [hn]; exact hp, bytes, kvs, by rw [hn]; exact hreadnew, hrun,
          hmin, hmax⟩
      · obtain ⟨e1, e2, b, k, e3, e4⟩ := h.entries _ c x hc hx
        exact ⟨e1, e2, b, k, hread _ _ _ e3, e4⟩
    · obtain ⟨e1, e2, b, k, e3, e4⟩ := h.entries L c1 x h2 hx
      exact ⟨e1, e2, b, k, hread _ _ _ e3, e4⟩
  · intro L n b hm
    rw [hfiles] at hm
    rcases List.mem_cons.mp hm with he | hm
    · simp only [Prod.mk.injEq] at he
      obtain ⟨⟨rfl, rfl⟩, rfl⟩ := he
      exact ⟨(hex _).mpr (Or.inl rfl), ⟨_, ha1.2.1, Nat.lt_succ_self _⟩,
        Or.inr ⟨s :: c, s, hc1.2.1, List.mem_cons_self _ _, hn⟩⟩
    · obtain ⟨e1, ⟨a1, e2, e3⟩, e4⟩ := h.files L n b hm
      refine ⟨(hex _).mpr (Or.inr e1), ?_, ?_⟩
      · by_cases hL : L = T
        · subst hL
          rw [ha] at e2
          simp only [Option.some.injEq] at e2
          exact ⟨_, ha1.2.1, by omega⟩
        · exact ⟨a1, by rw [ha1.2.2 L hL]; exact e2, e3⟩
      · rcases e4 with e4 | ⟨c1, x, e5, e6, e7⟩
        · exact Or.inl e4
        · right
          by_cases hL : L = T
          · subst hL
            rw [hc] at e5
            simp only [Option.some.injEq] at e5
            subst e5
            exact ⟨s :: c, x, hc1.2.1, List.mem_cons_of_mem _ e6, e7⟩
          · exact ⟨c1, x, by rw [hc1.2.2 L hL]; exact e5, e6, e7⟩
  · intro p hm
    obtain ⟨b, hb⟩ := h.waiting p hm
    exact ⟨b, by rw [hfiles]; exact List.mem_cons_of_mem _ hb⟩
  · intro L c1 h1
    rcases hcache L c1 h1 with ⟨rfl, rfl⟩ | ⟨_, h2⟩
    · rw [List.map_cons, List.nodup_cons]
      refine ⟨?_, h.serials _ c hc⟩
      intro hm
      obtain ⟨x, hx, he⟩ := List.mem_map.mp hm
      obtain ⟨a1, e1, e2⟩ := h.serial_lt _ c x hc hx
      rw [ha] at e1
      simp only [Option.some.injEq] at e1
      rw [hn] at he
      omega
    · exact h.serials L c1 h2
  · intro L c1 x y hL h1 hx hy hne
    rcases hcache L c1 h1 with ⟨rfl, rfl⟩ | ⟨_, h2⟩
    · rcases List.mem_cons.mp hx with rfl | hx1
      · rcases List.mem_cons.mp hy with rfl | hy
        · exact absurd rfl hne
        · exact hapart hL y hy
      · rcases List.mem_cons.mp hy with rfl | hy1
        · exact apart_symm _ _ (hapart hL x hx1)
        · exact h.apart _ c x y hL hc hx1 hy1 hne
    · exact h.apart L c1 x y hL h2 hx hy hne

/-! ## Writing the merge table to the next level -/

theorem KVStore.SameBut.refl (T : Nat) (st : KVStore) : KVStore.SameBut T st st :=
  ⟨rfl, rfl, rfl, fun _ _ => rfl, fun _ _ => rfl, fun _ h => h, fun _ h => h⟩

theorem KVStore.SameBut.trans {T : Nat} {st st1 st2 : KVStore}
    (h1 : KVStore.SameBut T st st1) (h2 : KVStore.SameBut T st1 st2) :
    KVStore.SameBut T st st2 := by
  obtain ⟨a1, a2, a3, a4, a5, a6, a7⟩ := h1
  obtain ⟨b1, b2, b3, b4, b5, b6, b7⟩ := h2
  exact ⟨by rw [b1, a1], by rw [b2, a2], by rw [b3, a3],
    fun j hj => by rw [b4 j hj, a4 j hj], fun j hj => by rw [b5 j hj, a5 j hj],
    fun f hf => b6 f (a6 f hf), fun K hK => b7 K (a7 K hK)⟩

theorem firstKey_pairsOf (cells : List Cell) (hne : cells ≠ []) :
    ∃ c ∈ cells, firstKey (pairsOf cells) = c.key := by
  cases cells with
  | nil => exact absurd rfl hne
  | cons c rest => exact ⟨c, List.mem_cons_self _ _, rfl⟩

theorem lastKey_pairsOf (cells : List Cell) (hne : cells ≠ []) :
    ∃ c ∈ cells, lastKey (pairsOf cells) = c.key := by
  have hp : pairsOf cells ≠ [] := by simpa [pairsOf] using hne
  obtain ⟨kv, hkv, he⟩ := lastKey_mem_of_ne (pairsOf cells) hp
  simp only [pairsOf, List.mem_map] at hkv
  obtain ⟨c, hc, rfl⟩ := hkv
  exact ⟨c, hc, he⟩

theorem writeSST_spec {env : Env} {st : KVStore} {pending : List (Nat × Nat)}
    (h : KVStore.Tidy env st pending) (L ts : Nat) (cells : List Cell)
    (hw : WellFormed st.mergeTable cells) (c : Cache)
    (hc : st.diskTableCache[L + 1]? = some c) (hdir : st.disk.existsDir L = true)
    (hapart : ∀ x ∈ c, (∀ cell ∈ cells, x.maxKey < cell.key) ∨
      (∀ cell ∈ cells, cell.key < x.minKey))
    (st1 : KVStore) (e : KVStore.writeSSTToNextLayer env st L ts = some st1) :
    cells ≠ [] ∧ KVStore.Tidy env st1 pending ∧ WellFormed st1.mergeTable [] ∧
      KVStore.SameBut (L + 1) st st1 ∧ st1.disk.existsDir L = true ∧
      ∃ s, st1.diskTableCache[L + 1]? = some (s :: c) ∧
        s.minKey = firstKey (pairsOf cells) ∧ s.maxKey = lastKey (pairsOf cells) ∧
        s.timeStamp = ts ∧
        (∃ bytes, st1.disk.readFile (L + 1) s.serialNum = some bytes ∧
          IsRun env bytes (pairsOf cells)) ∧
        ∃ a, st.availableNum[L + 1]? = some a ∧ s.serialNum = a ∧
          st1.availableNum[L + 1]? = some (a + 1) := by
  have hlt : L + 1 < LSM_MAX_LAYER := by
    have := (List.getElem?_eq_some.mp hc).1
    rw [h.caches_len] at this
    exact this
  have hLne : ¬ L = LSM_MAX_LAYER := by omega
  have hlta : L + 1 < st.availableNum.length := by rw [h.avail_len]; exact hlt
  have hltc : L + 1 < st.diskTableCache.length := by rw [h.caches_len]; exact hlt
  obtain ⟨a, ha⟩ : ∃ a, st.availableNum[L + 1]? = some a :=
    ⟨_, List.getElem?_eq_getElem hlta⟩
  obtain ⟨cleared, hcl, hclw, _⟩ := hw.clear
  unfold KVStore.writeSSTToNextLayer at e
  simp only [if_neg hLne, hc, ha] at e
  cases ht : SSTable.ofSkipList env st.mergeTable with
  | none => simp [ht] at e
  | some t =>
    obtain ⟨hne, hte, hrun⟩ := hw.table env t ht
    simp only [ht] at e
    cases hi : Cache.insertTable c t (L + 1) a ts with
    | none => simp [hi] at e
    | some c1 =>
      simp only [hi, setAt_some _ _ _ hltc, setAt_some _ _ _ hlta, hcl,
        Option.some.injEq] at e
      unfold Cache.insertTable at hi
      cases hs : SummaryOfSSTable.ofSSTable t (L + 1) a ts with
      | none => simp [hs] at hi
      | some s =>
        simp only [hs, Option.some.injEq] at hi
        unfold SummaryOfSSTable.ofSSTable at hs
        split at hs
        · simp only [Option.some.injEq] at hs
          have hsl : s.layer = L + 1 := by rw [← hs]
          have hsn : s.serialNum = a := by rw [← hs]
          have hst : s.timeStamp = ts := by rw [← hs]
          have hmin : s.minKey = firstKey (pairsOf cells) := by rw [← hs, hte]; rfl
          have hmax : s.maxKey = lastKey (pairsOf cells) := by rw [← hs, hte]; rfl
          obtain ⟨cf, hcf, hfe⟩ := firstKey_pairsOf cells hne
          obtain ⟨cl, hcl1, hle⟩ := lastKey_pairsOf cells hne
          have hc1 : st1.diskTableCache.length = st.diskTableCache.length ∧
              st1.diskTableCache[L + 1]? = some (s :: c) ∧
              ∀ j, j ≠ L + 1 → st1.diskTableCache[j]? = st.diskTableCache[j]? := by
            rw [← e, ← hi]
            refine ⟨by simp, by simp [hltc], ?_⟩
            intro j hj
            simp only
            rw [List.getElem?_set_ne (Ne.symm hj)]
          have ha1 : st1.availableNum.length = st.availableNum.length ∧
              st1.availableNum[L + 1]? = some (a + 1) ∧
              ∀ j, j ≠ L + 1 → st1.availableNum[j]? = st.availableNum[j]? := by
            rw [← e]
            refine ⟨by simp, by simp [hlta], ?_⟩
            intro j hj
            simp only
            rw [List.getElem?_set_ne (Ne.symm hj)]
          have hd : st1.disk = (st.disk.ensureDir (L + 1)).writeFile (L + 1) a
              (t.writeToFile st.curTimeStamp) := by
            rw [← e]
          have hm1 : st1.mergeTable = cleared := by rw [← e]
          have hm2 : st1.memTable = st.memTable := by rw [← e]
          have htidy : KVStore.Tidy env st1 pending := by
            refine h.add_run st1 (L + 1) a c s (t.writeToFile st.curTimeStamp)
              (pairsOf cells) (by rw [hm2]; exact h.mem) ⟨[], by rw [hm1]; exact hclw⟩ hc ha
              hc1 ha1 hd (hrun _) hsl hsn hmin hmax (Or.inr (by simpa using hdir)) ?_
            intro _ x hx
            rcases hapart x hx with hx1 | hx1
            · right
              rw [hmin, hfe]
              exact hx1 cf hcf
            · left
              rw [hmax, hle]
              exact hx1 cl hcl1
          have hfresh : ∀ b, ((L + 1, a), b) ∉ (st.disk.ensureDir (L + 1)).files := by
            intro b
            rw [Disk.ensureDir_files]
            exact h.no_file (L + 1) a ha a (Nat.le_refl _) b
          have hfiles : st1.disk.files
              = ((L + 1, a), t.writeToFile st.curTimeStamp) :: st.disk.files := by
            rw [hd, Disk.writeFile_files _ _ _ _ hfresh, Disk.ensureDir_files]
          have hex : ∀ K, st.disk.existsDir K = true → st1.disk.existsDir K = true := by
            intro K hK
            rw [hd]
            exact (Disk.existsDir_ensureDir st.disk (L + 1) K).mpr (Or.inr hK)
          refine ⟨hne, htidy, by rw [hm1]; exact hclw, ?_, hex L hdir, s, hc1.2.1, hmin, hmax,
            hst, ?_, a, ha, hsn, ha1.2.1⟩
          · refine ⟨hm2, ?_, by rw [← e], hc1.2.2, ha1.2.2, ?_, hex⟩
            · rw [hd]
              show ((st.disk.ensureDir (L + 1)).writeFile (L + 1) a _).wal = _
              exact Disk.ensureDir_wal st.disk (L + 1)
            · intro f hf
              rw [hfiles]
              exact List.mem_cons_of_mem _ hf
          · refine ⟨t.writeToFile st.curTimeStamp, ?_, hrun _⟩
            apply Disk.readFile_of_mem _ htidy.names
            rw [hfiles, hsn]
            exact List.mem_cons_self _ _
        · exact absurd hs (by simp)

/-! ## The loop of `mergeLayer` -/

theorem KVStore.Tidy.with_mergeTable {env : Env} {st : KVStore} {pending : List (Nat × Nat)}
    (h : KVStore.Tidy env st pending) (m : SkipList) (cells : List Cell)
    (hm : WellFormed m cells) : KVStore.Tidy env { st with mergeTable := m } pending :=
  ⟨h.mem, ⟨cells, hm⟩, h.caches_len, h.avail_len, h.names, h.dirs, h.entries, h.files,
    h.waiting, h.serials, h.apart⟩

theorem KVStore.Tidy.with_memTable {env : Env} {st : KVStore} {pending : List (Nat × Nat)}
    (h : KVStore.Tidy env st pending) (m : SkipList) (cells : List Cell)
    (hm : WellFormed m cells) : KVStore.Tidy env { st with memTable := m } pending :=
  ⟨⟨cells, hm⟩, h.merge, h.caches_len, h.avail_len, h.names, h.dirs, h.entries, h.files,
    h.waiting, h.serials, h.apart⟩

theorem WellFormed.mem_pairs {li : SkipList} {cells : List Cell} (h : WellFormed li cells)
    (k : Key) (v : Value) : (k, v) ∈ pairsOf cells ↔ valueOf k cells = some v := by
  rw [h.valueOf_iff]
  simp only [pairsOf, List.mem_map, Prod.mk.injEq]

theorem KVStore.Tidy.read_mono {env : Env} {st st1 : KVStore} {pending : List (Nat × Nat)}
    (h1 : KVStore.Tidy env st1 pending) (hf : ∀ f, f ∈ st.disk.files → f ∈ st1.disk.files)
    (L n : Nat) (b : List UInt8) (hr : st.disk.readFile L n = some b) :
    st1.disk.readFile L n = some b :=
  Disk.readFile_of_mem _ h1.names L n b (hf _ (st.disk.mem_of_readFile L n b hr))

theorem mergeLoop_spec (env : Env) (L ts : Nat) (bottom : Bool) (pending : List (Nat × Nat))
    (P : Key × Value → Prop) (c0 : Cache) (hP : ∀ kv, P kv → UserKey kv.1)
    (hold : ∀ s ∈ c0, (∀ kv, P kv → s.maxKey < kv.1) ∨ (∀ kv, P kv → kv.1 < s.minKey))
    (ws : List Record) :
    ∀ (prev : Key) (st : KVStore) (B : Nat) (cells : List Cell) (news : Cache)
      (done : List (Key × Value)) (st2 : KVStore),
      KVStore.Merging env st pending L P B cells news c0 done →
      ws.Pairwise (fun a b => a.2.2.1 < b.2.2.1) →
      (∀ w ∈ ws, B ≤ w.2.2.1 ∧ w.2.2.1 ≠ prev) →
      (∀ w ∈ ws, dropped bottom w = false → P (w.2.2.1, w.2.2.2)) →
      (ws ≠ [] → st.disk.existsDir L = true) →
      KVStore.mergeLoop env L ts bottom ws prev st = some st2 →
      ∃ B2 cells2 news2,
        KVStore.Merging env st2 pending L P B2 cells2 news2 c0
          (done ++ (ws.filter (fun w => !dropped bottom w)).map (fun w => (w.2.2.1, w.2.2.2))) ∧
        KVStore.SameBut (L + 1) st st2 := by
  induction ws with
  | nil =>
    intro prev st B cells news done st2 hm _ _ _ _ e
    simp only [KVStore.mergeLoop, Option.some.injEq] at e
    subst e
    exact ⟨B, cells, news, by simpa using hm, KVStore.SameBut.refl _ _⟩
  | cons w rest ih =>
    intro prev st B cells news done st2 hm hs hb hp hdir0 e
    have hdir : st.disk.existsDir L = true := hdir0 (by simp)
    obtain ⟨l, sn, key, val⟩ := w
    rw [List.pairwise_cons] at hs
    have hw := hb _ (List.mem_cons_self _ _)
    simp only at hw
    have hrest : ∀ x ∈ rest, key + 1 ≤ x.2.2.1 ∧ x.2.2.1 ≠ key := by
      intro x hx
      have := hs.1 x hx
      simp only at this
      exact ⟨this, Ne.symm (Nat.ne_of_lt this)⟩
    have hprest : ∀ x ∈ rest, dropped bottom x = false → P (x.2.2.1, x.2.2.2) :=
      fun x hx => hp x (List.mem_cons_of_mem _ hx)
    have up : ∀ x : Nat, x < B → x < key + 1 :=
      fun x hx => Nat.lt_succ_of_lt (Nat.lt_of_lt_of_le hx hw.1)
    have up2 : ∀ x : Nat, x < B → x < key := fun x hx => Nat.lt_of_lt_of_le hx hw.1
    unfold KVStore.mergeLoop at e
    rw [if_pos hw.2] at e
    by_cases hdrop : bottom = true ∧ val = DELETED
    · rw [if_pos hdrop] at e
      have hd : dropped bottom (l, sn, key, val) = true := by
        simp [dropped, hdrop.1, hdrop.2]
      have hm1 : KVStore.Merging env st pending L P (key + 1) cells news c0 done :=
        ⟨hm.tidy, hm.table, hm.cache,
          fun cell hc => ⟨up _ (hm.below cell hc).1, (hm.below cell hc).2⟩,
          fun s hsn => ⟨up _ (hm.runs s hsn).1, (hm.runs s hsn).2⟩, hm.held⟩
      obtain ⟨B2, cells2, news2, h1, h2⟩ :=
        ih key st (key + 1) cells news done st2 hm1 hs.2 hrest hprest (fun _ => hdir) e
      refine ⟨B2, cells2, news2, ?_, h2⟩
      simpa [List.filter_cons, hd] using h1
    · rw [if_neg hdrop] at e
      have hd : dropped bottom (l, sn, key, val) = false := by
        simp only [dropped, Bool.and_eq_false_imp, decide_eq_false_iff_not]
        intro hb1 hv
        exact hdrop ⟨hb1, hv⟩
      have hPk : P (key, val) := hp _ (List.mem_cons_self _ _) hd
      have hfilter : (((l, sn, key, val) :: rest).filter (fun w => !dropped bottom w)).map
            (fun w => (w.2.2.1, w.2.2.2))
          = (key, val) :: (rest.filter (fun w => !dropped bottom w)).map
            (fun w => (w.2.2.1, w.2.2.2)) := by
        simp [List.filter_cons, hd]
      rw [hfilter]
      have hdone : ∀ (d : List (Key × Value)) (t : List (Key × Value)),
          d ++ (key, val) :: t = (d ++ [(key, val)]) ++ t := by
        intro d t
        simp
      rw [hdone]
      by_cases hcond : add64 (add64 st.mergeTable.getMemSize SIZEOF_KEY) val.length < MEM_LIMIT
      · rw [if_pos hcond] at e
        obtain ⟨m, cells1, hi, hwf, hval, _, _⟩ := hm.table.insert env key val (hP _ hPk)
        simp only [hi] at e
        have hm1 : KVStore.Merging env { st with mergeTable := m } pending L P (key + 1) cells1
            news c0 (done ++ [(key, val)]) := by
          refine ⟨hm.tidy.with_mergeTable m cells1 hwf, hwf, hm.cache, ?_, ?_, ?_⟩
          · intro cell hc
            have hv : valueOf cell.key cells1 = some cell.value :=
              (hwf.valueOf_iff _ _).mpr ⟨cell, hc, rfl, rfl⟩
            rw [hval] at hv
            by_cases hk : key = cell.key
            · rw [if_pos hk] at hv
              simp only [Option.some.injEq] at hv
              rw [← hk, ← hv]
              exact ⟨Nat.lt_succ_self _, hPk⟩
            · rw [if_neg hk] at hv
              obtain ⟨c1, hc1, e1, e2⟩ := (hm.table.valueOf_iff _ _).mp hv
              have := hm.below c1 hc1
              rw [e1, e2] at this
              exact ⟨up _ this.1, this.2⟩
          · intro s hsn
            obtain ⟨r1, r2, r3⟩ := hm.runs s hsn
            refine ⟨up _ r1, ?_, r3⟩
            intro cell hc
            have hv : valueOf cell.key cells1 = some cell.value :=
              (hwf.valueOf_iff _ _).mpr ⟨cell, hc, rfl, rfl⟩
            rw [hval] at hv
            by_cases hk : key = cell.key
            · rw [← hk]
              exact up2 _ r1
            · rw [if_neg hk] at hv
              obtain ⟨c1, hc1, e1, _⟩ := (hm.table.valueOf_iff _ _).mp hv
              rw [← e1]
              exact r2 c1 hc1
          · intro kv hkv
            rcases List.mem_append.mp hkv with hkv | hkv
            · rcases hm.held kv hkv with h1 | h1
              · left
                obtain ⟨k, v⟩ := kv
                rw [hwf.mem_pairs, hval]
                have hv := (hm.table.mem_pairs k v).mp h1
                obtain ⟨c1, hc1, e1, _⟩ := (hm.table.valueOf_iff _ _).mp hv
                have hlt := (hm.below c1 hc1).1
                have hk : ¬ key = k := by
                  intro he
                  rw [← e1] at he
                  rw [← he] at hlt
                  exact Nat.lt_irrefl _ (up2 _ hlt)
                rw [if_neg hk]
                exact hv
              · exact Or.inr h1
            · simp only [List.mem_singleton] at hkv
              left
              rw [hkv, hwf.mem_pairs, hval, if_pos rfl]
        obtain ⟨B2, cells2, news2, h1, h2⟩ :=
          ih key _ (key + 1) cells1 news (done ++ [(key, val)]) st2 hm1 hs.2 hrest hprest
            (fun _ => hdir) e
        exact ⟨B2, cells2, news2, h1, h2⟩
      · rw [if_neg hcond] at e
        cases hwr : KVStore.writeSSTToNextLayer env st L ts with
        | none => simp [hwr] at e
        | some st1 =>
          simp only [hwr] at e
          have hapart : ∀ x ∈ news ++ c0, (∀ cell ∈ cells, x.maxKey < cell.key) ∨
              (∀ cell ∈ cells, cell.key < x.minKey) := by
            intro x hx
            rcases List.mem_append.mp hx with hx | hx
            · exact Or.inl (hm.runs x hx).2.1
            · rcases hold x hx with h1 | h1
              · exact Or.inl (fun cell hc => h1 _ (hm.below cell hc).2)
              · exact Or.inr (fun cell hc => h1 _ (hm.below cell hc).2)
          obtain ⟨hne, htidy, hempty, hsame, hdir1, s, hcache, hmin, hmax, _, ⟨bytes, hread, hrun⟩,
            _⟩ := writeSST_spec hm.tidy L ts cells hm.table (news ++ c0) hm.cache hdir hapart
              st1 hwr
          obtain ⟨m, cells1, hi, hwf, hval, _, _⟩ := hempty.insert env key val (hP _ hPk)
          simp only [hi] at e
          obtain ⟨cl, hcl, hle⟩ := lastKey_pairsOf cells hne
          have hcells1 : ∀ cell ∈ cells1, cell.key = key ∧ cell.value = val := by
            intro cell hc
            have hv : valueOf cell.key cells1 = some cell.value :=
              (hwf.valueOf_iff _ _).mpr ⟨cell, hc, rfl, rfl⟩
            rw [hval] at hv
            by_cases hk : key = cell.key
            · rw [if_pos hk] at hv
              simp only [Option.some.injEq] at hv
              exact ⟨hk.symm, hv.symm⟩
            · rw [if_neg hk] at hv
              simp [valueOf] at hv
          have hm1 : KVStore.Merging env { st1 with mergeTable := m } pending L P (key + 1)
              cells1 (s :: news) c0 (done ++ [(key, val)]) := by
            refine ⟨htidy.with_mergeTable m cells1 hwf, hwf, by simpa using hcache, ?_, ?_, ?_⟩
            · intro cell hc
              obtain ⟨e1, e2⟩ := hcells1 cell hc
              rw [e1, e2]
              exact ⟨Nat.lt_succ_self _, hPk⟩
            · intro x hx
              rcases List.mem_cons.mp hx with rfl | hx
              · have hlt : x.maxKey < B := by
                  rw [hmax, hle]
                  exact (hm.below cl hcl).1
                refine ⟨up _ hlt, ?_, bytes, pairsOf cells, hread, hrun, ?_⟩
                · intro cell hc
                  rw [(hcells1 cell hc).1]
                  exact up2 _ hlt
                · intro kv hkv
                  simp only [pairsOf, List.mem_map] at hkv
                  obtain ⟨c1, hc1, rfl⟩ := hkv
                  exact (hm.below c1 hc1).2
              · obtain ⟨r1, _, b1, k1, r3, r4⟩ := hm.runs x hx
                refine ⟨up _ r1, ?_, b1, k1, htidy.read_mono hsame.2.2.2.2.2.1 _ _ _ r3, r4⟩
                intro cell hc
                rw [(hcells1 cell hc).1]
                exact up2 _ r1
            · intro kv hkv
              rcases List.mem_append.mp hkv with hkv | hkv
              · right
                rcases hm.held kv hkv with h1 | ⟨x, hx, b1, k1, r3, r4⟩
                · exact ⟨s, List.mem_cons_self _ _, bytes, pairsOf cells, hread, hrun, h1⟩
                · exact ⟨x, List.mem_cons_of_mem _ hx, b1, k1,
                    htidy.read_mono hsame.2.2.2.2.2.1 _ _ _ r3, r4⟩
              · simp only [List.mem_singleton] at hkv
                left
                rw [hkv, hwf.mem_pairs, hval, if_pos rfl]
          obtain ⟨B2, cells2, news2, h1, h2⟩ :=
            ih key _ (key + 1) cells1 (s :: news) (done ++ [(key, val)]) st2 hm1 hs.2 hrest
              hprest (fun _ => hdir1) e
          refine ⟨B2, cells2, news2, h1, ?_⟩
          have hsame1 : KVStore.SameBut (L + 1) st { st1 with mergeTable := m } := hsame
          exact hsame1.trans h2

/-! ## The runs a merge selects -/

theorem scanFrom_spec (L : Nat) :
    ∀ (l : Cache) (mn mx ts : Nat) (files : List (Nat × Nat)) (mn2 mx2 ts2 : Nat),
      KVStore.scanFrom L l mn mx ts = some (files, mn2, mx2, ts2) →
      files = l.map (fun s => (L, s.serialNum)) ∧ mn2 ≤ mn ∧ mx ≤ mx2 ∧
        ∀ s ∈ l, s.layer = L ∧ mn2 ≤ s.minKey ∧ s.maxKey ≤ mx2 := by
  intro l
  induction l with
  | nil =>
    intro mn mx ts files mn2 mx2 ts2 e
    simp only [KVStore.scanFrom, Option.some.injEq, Prod.mk.injEq] at e
    obtain ⟨rfl, rfl, rfl, rfl⟩ := e
    exact ⟨rfl, Nat.le_refl _, Nat.le_refl _, by simp⟩
  | cons it rest ih =>
    intro mn mx ts files mn2 mx2 ts2 e
    unfold KVStore.scanFrom at e
    by_cases hl : it.layer = L
    · rw [if_pos hl] at e
      cases hr : KVStore.scanFrom L rest (if mn < it.minKey then mn else it.minKey)
          (if mx > it.maxKey then mx else it.maxKey)
          (if ts > it.timeStamp then ts else it.timeStamp) with
      | none => simp [hr] at e
      | some r =>
        obtain ⟨f1, a, b, c⟩ := r
        simp only [hr, Option.some.injEq, Prod.mk.injEq] at e
        obtain ⟨rfl, rfl, rfl, rfl⟩ := e
        obtain ⟨h1, h2, h3, h4⟩ := ih _ _ _ _ _ _ _ hr
        have hmn : (if mn < it.minKey then mn else it.minKey) ≤ mn ∧
            (if mn < it.minKey then mn else it.minKey) ≤ it.minKey := by
          split
          · rename_i h; exact ⟨Nat.le_refl _, Nat.le_of_lt h⟩
          · rename_i h; exact ⟨Nat.le_of_not_lt h, Nat.le_refl _⟩
        have hmx : mx ≤ (if mx > it.maxKey then mx else it.maxKey) ∧
            it.maxKey ≤ (if mx > it.maxKey then mx else it.maxKey) := by
          split
          · rename_i h; exact ⟨Nat.le_refl _, Nat.le_of_lt h⟩
          · rename_i h; exact ⟨Nat.le_of_not_lt h, Nat.le_refl _⟩
        refine ⟨by rw [h1, hl]; rfl, Nat.le_trans h2 hmn.1, Nat.le_trans hmx.1 h3, ?_⟩
        intro s hs
        rcases List.mem_cons.mp hs with rfl | hs
        · exact ⟨hl, Nat.le_trans h2 hmn.2, Nat.le_trans hmx.2 h3⟩
        · exact h4 s hs
    · rw [if_neg hl] at e
      exact absurd e (by simp)

theorem takeOverlapping_spec (T : Nat) (mn mx : Key) :
    ∀ (l : Cache) (ts : Nat) (kept : Cache) (files : List (Nat × Nat)) (ts2 : Nat),
      KVStore.takeOverlapping T mn mx l ts = some (kept, files, ts2) →
      kept = l.filter (fun s => decide (mx < s.minKey ∨ s.maxKey < mn)) ∧
      files = (l.filter (fun s => !decide (mx < s.minKey ∨ s.maxKey < mn))).map
        (fun s => (T, s.serialNum)) := by
  intro l
  induction l with
  | nil =>
    intro ts kept files ts2 e
    simp only [KVStore.takeOverlapping, Option.some.injEq, Prod.mk.injEq] at e
    obtain ⟨rfl, rfl, rfl⟩ := e
    exact ⟨rfl, rfl⟩
  | cons it rest ih =>
    intro ts kept files ts2 e
    unfold KVStore.takeOverlapping at e
    by_cases ha : mx < it.minKey ∨ it.maxKey < mn
    · rw [if_pos ha] at e
      cases hr : KVStore.takeOverlapping T mn mx rest ts with
      | none => simp [hr] at e
      | some r =>
        obtain ⟨k1, f1, t1⟩ := r
        simp only [hr, Option.some.injEq, Prod.mk.injEq] at e
        obtain ⟨rfl, rfl, rfl⟩ := e
        obtain ⟨h1, h2⟩ := ih _ _ _ _ hr
        constructor
        · rw [List.filter_cons, if_pos (decide_eq_true ha), h1]
        · rw [List.filter_cons, if_neg (by rw [decide_eq_true ha]; simp), h2]
    · rw [if_neg ha] at e
      by_cases hl : it.layer = T
      · rw [if_pos hl] at e
        cases hr : KVStore.takeOverlapping T mn mx rest
            (if ts > it.timeStamp then ts else it.timeStamp) with
        | none => simp [hr] at e
        | some r =>
          obtain ⟨k1, f1, t1⟩ := r
          simp only [hr, Option.some.injEq, Prod.mk.injEq] at e
          obtain ⟨rfl, rfl, rfl⟩ := e
          obtain ⟨h1, h2⟩ := ih _ _ _ _ hr
          constructor
          · rw [List.filter_cons, if_neg (fun h => ha (of_decide_eq_true h)), h1]
          · rw [List.filter_cons, if_pos (by rw [decide_eq_false ha]; rfl), List.map_cons, h2,
              hl]
      · rw [if_neg hl] at e
        exact absurd e (by simp)

theorem mergeAllFiles_inv (env : Env) (disk : Disk) (K : Key → Prop) :
    ∀ (files : List (Nat × Nat)) (out merged : List Record),
      (∀ f ∈ files, ∃ bytes kvs, disk.readFile f.1 f.2 = some bytes ∧ IsRun env bytes kvs ∧
        ∀ kv ∈ kvs, K kv.1) →
      out.Pairwise notAfter → (∀ r ∈ out, K r.2.2.1 ∧ UserKey r.2.2.1) →
      KVStore.mergeAllFiles disk files out = some merged →
      merged.Pairwise notAfter ∧ ∀ r ∈ merged, K r.2.2.1 ∧ UserKey r.2.2.1 := by
  intro files
  induction files with
  | nil =>
    intro out merged _ hs hk e
    simp only [KVStore.mergeAllFiles, Option.some.injEq] at e
    subst e
    exact ⟨hs, hk⟩
  | cons f files ih =>
    intro out merged hf hs hk e
    obtain ⟨bytes, kvs, h1, h2, h3⟩ := hf f (List.mem_cons_self _ _)
    obtain ⟨run, h4, h5, _⟩ := h2.filter f.1 f.2
    simp only [KVStore.mergeAllFiles, h1, h4] at e
    have hrs : run.Pairwise (fun a b => a.2.2.1 < b.2.2.1) := by
      have := h2.2.2.1
      rw [← List.pairwise_map (f := Prod.fst) (R := fun a b : Nat => a < b), ← h5,
        List.pairwise_map] at this
      exact this
    have hrk : ∀ r ∈ run, K r.2.2.1 ∧ UserKey r.2.2.1 := by
      intro r hr
      have : r.2.2.1 ∈ run.map (fun r => r.2.2.1) := List.mem_map_of_mem _ hr
      rw [h5] at this
      obtain ⟨kv, hkv, he⟩ := List.mem_map.mp this
      rw [← he]
      exact ⟨h3 kv hkv, h2.2.2.2 kv hkv⟩
    apply ih _ merged (fun g hg => hf g (List.mem_cons_of_mem _ hg))
      (listMerge_sorted out run hs (sorted_keys_notAfter run hrs)) ?_ e
    intro r hr
    rcases (mem_listMerge out run r).mp hr with h | h
    · exact hk r h
    · exact hrk r h

theorem KVStore.Tidy.remove_pending {env : Env} {st : KVStore} {pending : List (Nat × Nat)}
    (h : KVStore.Tidy env st pending) :
    KVStore.Tidy env { st with disk := KVStore.removeFiles pending st.disk } [] := by
  obtain ⟨hf, hd, _⟩ := removeFiles_spec pending st.disk
  have hex : ∀ K, (KVStore.removeFiles pending st.disk).existsDir K = st.disk.existsDir K := by
    intro K
    unfold Disk.existsDir
    rw [hd]
  have hnames : ((KVStore.removeFiles pending st.disk).files.map Prod.fst).Nodup := by
    rw [hf]
    exact h.names.sublist (List.Sublist.map _ (List.filter_sublist _))
  refine ⟨h.mem, h.merge, h.caches_len, h.avail_len, hnames, ?_, ?_, ?_, ?_, h.serials,
    h.apart⟩
  · intro L hL
    rw [hex] at hL ⊢
    exact h.dirs L hL
  · intro L c s hc hs
    obtain ⟨e1, e2, b, k, e3, e4⟩ := h.entries L c s hc hs
    refine ⟨e1, by simp, b, k, ?_, e4⟩
    apply Disk.readFile_of_mem _ hnames
    show ((L, s.serialNum), b) ∈ (KVStore.removeFiles pending st.disk).files
    rw [hf, List.mem_filter]
    exact ⟨st.disk.mem_of_readFile _ _ _ e3, by simpa using e2⟩
  · intro L n b hm
    have hm1 : ((L, n), b) ∈ (KVStore.removeFiles pending st.disk).files := hm
    rw [hf, List.mem_filter] at hm1
    obtain ⟨e1, e2, e3⟩ := h.files L n b hm1.1
    refine ⟨by rw [hex]; exact e1, e2, ?_⟩
    rcases e3 with e3 | e3
    · have := hm1.2
      simp only [decide_eq_true_eq] at this
      exact absurd e3 this
    · exact Or.inr e3
  · intro p hp
    simp at hp

/-! ## Taking the selected runs out of the caches -/

theorem take_drop_serials (c : Cache) (n : Nat)
    (hn : (c.map (fun s => s.serialNum)).Nodup) (x y : SummaryOfSSTable)
    (hx : x ∈ c.take n) (hy : y ∈ c.drop n) : x.serialNum ≠ y.serialNum := by
  have e : c.map (fun s => s.serialNum)
      = (c.take n).map (fun s => s.serialNum) ++ (c.drop n).map (fun s => s.serialNum) := by
    rw [← List.map_append, List.take_append_drop]
  rw [e] at hn
  have hd := (List.nodup_append.mp hn).2.2
  intro he
  exact hd (List.mem_map_of_mem _ hx) (by rw [he]; exact List.mem_map_of_mem _ hy)

theorem filter_serials (c : Cache) (p : SummaryOfSSTable → Bool)
    (hn : (c.map (fun s => s.serialNum)).Nodup) (x y : SummaryOfSSTable)
    (hx : x ∈ c.filter p) (hy : y ∈ c.filter (fun s => !p s)) :
    x.serialNum ≠ y.serialNum := by
  intro he
  rw [List.mem_filter] at hx hy
  have := List.inj_on_of_nodup_map hn hx.1 hy.1 he
  subst this
  have h1 := hx.2
  have h2 := hy.2
  rw [h1] at h2
  exact absurd h2 (by simp)

theorem KVStore.Tidy.select {env : Env} {st : KVStore} (h : KVStore.Tidy env st [])
    (L n : Nat) (c c1 : Cache) (p : SummaryOfSSTable → Bool) (st1 : KVStore)
    (hc : st.diskTableCache[L]? = some c) (hc1 : st.diskTableCache[L + 1]? = some c1)
    (hlen : st1.diskTableCache.length = st.diskTableCache.length)
    (hL : st1.diskTableCache[L]? = some (c.take n))
    (hL1 : st1.diskTableCache[L + 1]? = some (c1.filter p))
    (hrest : ∀ j, j ≠ L → j ≠ L + 1 → st1.diskTableCache[j]? = st.diskTableCache[j]?)
    (hdisk : st1.disk = st.disk) (havail : st1.availableNum = st.availableNum)
    (hmem : st1.memTable = st.memTable) (hmerge : ∃ cells, WellFormed st1.mergeTable cells) :
    KVStore.Tidy env st1
      ((c.drop n).map (fun s => (L, s.serialNum)) ++
        (c1.filter (fun s => !p s)).map (fun s => (L + 1, s.serialNum))) := by
  have hcache : ∀ K d, st1.diskTableCache[K]? = some d →
      ∃ d0, st.diskTableCache[K]? = some d0 ∧ (∀ x ∈ d, x ∈ d0) ∧ d.Sublist d0 ∧
        ∀ x ∈ d, (K, x.serialNum) ∉ (c.drop n).map (fun s => (L, s.serialNum)) ++
          (c1.filter (fun s => !p s)).map (fun s => (L + 1, s.serialNum)) := by
    intro K d hd
    by_cases hK : K = L
    · subst hK
      rw [hL] at hd
      simp only [Option.some.injEq] at hd
      subst hd
      refine ⟨c, hc, fun x hx => List.mem_of_mem_take hx, List.take_sublist _ _, ?_⟩
      intro x hx hm
      rcases List.mem_append.mp hm with hm | hm
      · obtain ⟨y, hy, he⟩ := List.mem_map.mp hm
        simp only [Prod.mk.injEq, true_and] at he
        exact take_drop_serials c n (h.serials _ c hc) x y hx hy he.symm
      · obtain ⟨y, _, he⟩ := List.mem_map.mp hm
        simp only [Prod.mk.injEq] at he
        omega
    · by_cases hK1 : K = L + 1
      · subst hK1
        rw [hL1] at hd
        simp only [Option.some.injEq] at hd
        subst hd
        refine ⟨c1, hc1, fun x hx => (List.mem_filter.mp hx).1, List.filter_sublist _, ?_⟩
        intro x hx hm
        rcases List.mem_append.mp hm with hm | hm
        · obtain ⟨y, _, he⟩ := List.mem_map.mp hm
          simp only [Prod.mk.injEq] at he
          omega
        · obtain ⟨y, hy, he⟩ := List.mem_map.mp hm
          simp only [Prod.mk.injEq, true_and] at he
          exact filter_serials c1 p (h.serials _ c1 hc1) x y hx hy he.symm
      · rw [hrest K hK hK1] at hd
        refine ⟨d, hd, fun x hx => hx, List.Sublist.refl _, ?_⟩
        intro x _ hm
        rcases List.mem_append.mp hm with hm | hm
        · obtain ⟨y, _, he⟩ := List.mem_map.mp hm
          simp only [Prod.mk.injEq] at he
          exact hK he.1.symm
        · obtain ⟨y, _, he⟩ := List.mem_map.mp hm
          simp only [Prod.mk.injEq] at he
          exact hK1 he.1.symm
  refine ⟨by rw [hmem]; exact h.mem, hmerge, by rw [hlen]; exact h.caches_len,
    by rw [havail]; exact h.avail_len, by rw [hdisk]; exact h.names,
    by rw [hdisk]; exact h.dirs, ?_, ?_, ?_, ?_, ?_⟩
  · intro K d x hd hx
    obtain ⟨d0, hd0, hsub, _, hnp⟩ := hcache K d hd
    obtain ⟨e1, _, e3⟩ := h.entries K d0 x hd0 (hsub x hx)
    exact ⟨e1, hnp x hx, by rw [hdisk]; exact e3⟩
  · intro K m b hm
    rw [hdisk] at hm ⊢
    obtain ⟨e1, e2, e3⟩ := h.files K m b hm
    refine ⟨e1, by rw [havail]; exact e2, ?_⟩
    rcases e3 with e3 | ⟨d0, x, hd0, hx, hxn⟩
    · simp at e3
    · by_cases hK : K = L
      · subst hK
        rw [hc] at hd0
        simp only [Option.some.injEq] at hd0
        subst hd0
        rw [← List.take_append_drop n c] at hx
        rcases List.mem_append.mp hx with hx | hx
        · exact Or.inr ⟨_, x, hL, hx, hxn⟩
        · left
          apply List.mem_append_left
          rw [← hxn]
          exact List.mem_map_of_mem (fun s => (K, s.serialNum)) hx
      · by_cases hK1 : K = L + 1
        · subst hK1
          rw [hc1] at hd0
          simp only [Option.some.injEq] at hd0
          subst hd0
          by_cases hpx : p x = true
          · exact Or.inr ⟨_, x, hL1, List.mem_filter.mpr ⟨hx, hpx⟩, hxn⟩
          · left
            apply List.mem_append_right
            rw [← hxn]
            have hnp : (!p x) = true := by
              rw [Bool.not_eq_true] at hpx
              rw [hpx]
              rfl
            have hxf : x ∈ c1.filter (fun s => !p s) := List.mem_filter.mpr ⟨hx, hnp⟩
            exact List.mem_map_of_mem (fun s => (L + 1, s.serialNum)) hxf
        · exact Or.inr ⟨d0, x, by rw [hrest K hK hK1]; exact hd0, hx, hxn⟩
  · intro q hq
    rw [hdisk]
    rcases List.mem_append.mp hq with hq | hq
    · obtain ⟨y, hy, rfl⟩ := List.mem_map.mp hq
      obtain ⟨_, _, b, _, e3, _⟩ := h.entries L c y hc (List.mem_of_mem_drop hy)
      exact ⟨b, st.disk.mem_of_readFile _ _ _ e3⟩
    · obtain ⟨y, hy, rfl⟩ := List.mem_map.mp hq
      obtain ⟨_, _, b, _, e3, _⟩ := h.entries (L + 1) c1 y hc1 (List.mem_filter.mp hy).1
      exact ⟨b, st.disk.mem_of_readFile _ _ _ e3⟩
  · intro K d hd
    obtain ⟨d0, hd0, _, hsl, _⟩ := hcache K d hd
    exact (h.serials K d0 hd0).sublist (List.Sublist.map _ hsl)
  · intro K d x y hK hd hx hy hne
    obtain ⟨d0, hd0, hsub, _, _⟩ := hcache K d hd
    exact h.apart K d0 x y hK hd0 (hsub x hx) (hsub y hy) hne

theorem KVStore.Tidy.read_kept {env : Env} {st : KVStore} {pending : List (Nat × Nat)}
    (h : KVStore.Tidy env st pending) (L : Nat) (c : Cache) (s : SummaryOfSSTable)
    (hc : st.diskTableCache[L]? = some c) (hs : s ∈ c) (b : List UInt8)
    (hr : st.disk.readFile L s.serialNum = some b) :
    (KVStore.removeFiles pending st.disk).readFile L s.serialNum = some b := by
  obtain ⟨hf, _, _⟩ := removeFiles_spec pending st.disk
  have hnames : ((KVStore.removeFiles pending st.disk).files.map Prod.fst).Nodup := by
    rw [hf]
    exact h.names.sublist (List.Sublist.map _ (List.filter_sublist _))
  apply Disk.readFile_of_mem _ hnames
  rw [hf, List.mem_filter]
  exact ⟨st.disk.mem_of_readFile _ _ _ hr, by simpa using (h.entries L c s hc hs).2.1⟩

/-! ## One step of the compaction -/

theorem mergeLayer_unfold {env : Env} {st : KVStore} (h : KVStore.Tidy env st []) (L : Nat)
    (st4 : KVStore) (e : KVStore.mergeLayer env st L = some st4) :
    ∃ (c c1 : Cache) (files0 : List (Nat × Nat)) (mn mx : Key) (ts0 ts1 : Nat)
      (merged : List Record) (cleared : SkipList) (st2 st3 : KVStore),
      st.diskTableCache[L]? = some c ∧ st.diskTableCache[L + 1]? = some c1 ∧
      KVStore.scanFrom L (c.drop (KVStore.scanStart L)) KEY_MAX KEY_MIN 0
        = some (files0, mn, mx, ts0) ∧
      KVStore.mergeAllFiles st.disk
        (files0 ++ (c1.filter (fun s => !outside mn mx s)).map (fun s => (L + 1, s.serialNum)))
        [] = some merged ∧
      st.mergeTable.clear = some cleared ∧
      KVStore.mergeLoop env L (if ts0 > ts1 then ts0 else ts1) (decide (L = st.depthOfLayer))
        merged KEY_MAX
        { st with
          diskTableCache := ((st.diskTableCache.set L (c.take (KVStore.scanStart L))).set
            (L + 1) (c1.filter (outside mn mx))),
          mergeTable := cleared } = some st2 ∧
      (if st2.mergeTable.nodeNum > 0 then
          KVStore.writeSSTToNextLayer env st2 L (if ts0 > ts1 then ts0 else ts1)
        else some st2) = some st3 ∧
      st4 = { st3 with disk := (KVStore.removeFiles
        (files0 ++ (c1.filter (fun s => !outside mn mx s)).map (fun s => (L + 1, s.serialNum)))
        st3.disk) } := by
  unfold KVStore.mergeLayer at e
  simp only [] at e
  cases hcL : st.diskTableCache[L]? with
  | none => simp [hcL, KVStore.scanLayerSSTByOffset] at e
  | some c =>
    have hLlt : L < st.diskTableCache.length := (List.getElem?_eq_some.mp hcL).1
    have hLlt1 : L < LSM_MAX_LAYER := by rw [← h.caches_len]; exact hLlt
    have hstart : (if L > 0 then KVStore.MaxSSTFileNumberInLayer L else 0)
        = KVStore.scanStart L := rfl
    simp only [KVStore.scanLayerSSTByOffset, hcL, hstart] at e
    cases hscan : KVStore.scanFrom L (c.drop (KVStore.scanStart L)) KEY_MAX KEY_MIN 0 with
    | none => simp [hscan] at e
    | some r =>
      obtain ⟨files0, mn, mx, ts0⟩ := r
      simp only [hscan, setAt_some _ _ _ hLlt] at e
      unfold KVStore.SSTNeedMergedNextLayer at e
      have hne : ¬ L = LSM_MAX_LAYER := by omega
      simp only [if_neg hne] at e
      have hget : (st.diskTableCache.set L (c.take (KVStore.scanStart L)))[L + 1]?
          = st.diskTableCache[L + 1]? := by
        rw [List.getElem?_set_ne (by omega)]
      simp only [hget] at e
      cases hc1 : st.diskTableCache[L + 1]? with
      | none => simp [hc1] at e
      | some c1 =>
        simp only [hc1] at e
        cases hto : KVStore.takeOverlapping (L + 1) mn mx c1 0 with
        | none => simp [hto] at e
        | some r =>
          obtain ⟨kept, files1, ts1⟩ := r
          obtain ⟨hk, hf⟩ := takeOverlapping_spec (L + 1) mn mx c1 0 kept files1 ts1 hto
          have hL1lt : L + 1 < (st.diskTableCache.set L (c.take (KVStore.scanStart L))).length := by
            rw [List.length_set]
            exact (List.getElem?_eq_some.mp hc1).1
          simp only [hto, setAt_some _ _ _ hL1lt] at e
          subst hk hf
          cases hmg : KVStore.mergeAllFiles st.disk (files0 ++
              (c1.filter (fun s => !decide (mx < s.minKey ∨ s.maxKey < mn))).map
                (fun s => (L + 1, s.serialNum))) [] with
          | none => simp only [hmg, reduceCtorEq] at e
          | some merged =>
            cases hcl : st.mergeTable.clear with
            | none => simp only [hmg, hcl, reduceCtorEq] at e
            | some cleared =>
              simp only [hmg, hcl] at e
              cases hlp : KVStore.mergeLoop env L (if ts0 > ts1 then ts0 else ts1)
                  (decide (L = st.depthOfLayer)) merged KEY_MAX
                  { st with
                    diskTableCache :=
                      ((st.diskTableCache.set L (c.take (KVStore.scanStart L))).set (L + 1)
                        (c1.filter (fun s => decide (mx < s.minKey ∨ s.maxKey < mn)))),
                    mergeTable := cleared } with
              | none => simp only [hlp, reduceCtorEq] at e
              | some st2 =>
                simp only [hlp] at e
                cases hwr : (if st2.mergeTable.nodeNum > 0 then
                    KVStore.writeSSTToNextLayer env st2 L (if ts0 > ts1 then ts0 else ts1)
                  else some st2) with
                | none => simp only [hwr, reduceCtorEq] at e
                | some st3 =>
                  simp only [hwr, Option.some.injEq] at e
                  exact ⟨c, c1, files0, mn, mx, ts0, ts1, merged, cleared, st2, st3, rfl, rfl,
                    hscan, hmg, rfl, hlp, hwr, e.symm⟩

theorem mergeAllFiles_nil_of_nil (disk : Disk) (merged : List Record)
    (h : KVStore.mergeAllFiles disk [] [] = some merged) : merged = [] := by
  simp only [KVStore.mergeAllFiles, Option.some.injEq] at h
  exact h.symm

theorem mergeLayer_spec {env : Env} {st : KVStore} (h : KVStore.Tidy env st []) (L : Nat)
    (st4 : KVStore) (e : KVStore.mergeLayer env st L = some st4) :
    ∃ (c c1 : Cache) (files0 : List (Nat × Nat)) (mn mx : Key) (ts0 : Nat)
      (merged : List Record) (news : Cache),
      st.diskTableCache[L]? = some c ∧ st.diskTableCache[L + 1]? = some c1 ∧
      KVStore.scanFrom L (c.drop (KVStore.scanStart L)) KEY_MAX KEY_MIN 0
        = some (files0, mn, mx, ts0) ∧
      KVStore.mergeAllFiles st.disk
        (files0 ++ (c1.filter (fun s => !outside mn mx s)).map (fun s => (L + 1, s.serialNum)))
        [] = some merged ∧
      KVStore.Tidy env st4 [] ∧
      st4.diskTableCache[L]? = some (c.take (KVStore.scanStart L)) ∧
      st4.diskTableCache[L + 1]? = some (news ++ c1.filter (outside mn mx)) ∧
      (∀ j, j ≠ L → j ≠ L + 1 → st4.diskTableCache[j]? = st.diskTableCache[j]?) ∧
      (∀ j, j ≠ L + 1 → st4.availableNum[j]? = st.availableNum[j]?) ∧
      st4.memTable = st.memTable ∧ st4.disk.wal = st.disk.wal ∧
      st4.curTimeStamp = st.curTimeStamp ∧
      (∀ s ∈ news, ∃ bytes kvs, st4.disk.readFile (L + 1) s.serialNum = some bytes ∧
        IsRun env bytes kvs ∧
        ∀ kv ∈ kvs, ∃ w ∈ winners KEY_MAX merged,
          dropped (decide (L = st.depthOfLayer)) w = false ∧ kv = (w.2.2.1, w.2.2.2)) ∧
      (∀ w ∈ winners KEY_MAX merged, dropped (decide (L = st.depthOfLayer)) w = false →
        ∃ s ∈ news, ∃ bytes kvs, st4.disk.readFile (L + 1) s.serialNum = some bytes ∧
          IsRun env bytes kvs ∧ (w.2.2.1, w.2.2.2) ∈ kvs) := by
  obtain ⟨c, c1, files0, mn, mx, ts0, ts1, merged, cleared, st2, st3, hcL, hc1, hscan, hmg, hcl,
    hlp, hwr, hst4⟩ := mergeLayer_unfold h L st4 e
  obtain ⟨hfiles0, _, _, hsel⟩ := scanFrom_spec L _ _ _ _ _ _ _ _ hscan
  have hLlt : L < st.diskTableCache.length := (List.getElem?_eq_some.mp hcL).1
  have hL1lt : L + 1 < st.diskTableCache.length := (List.getElem?_eq_some.mp hc1).1
  obtain ⟨cells0, hw0⟩ := h.merge
  obtain ⟨li1, e1, hclw, _⟩ := hw0.clear
  rw [hcl] at e1
  simp only [Option.some.injEq] at e1
  subst e1
  -- the state the loop starts from
  have htidy1 := h.select L (KVStore.scanStart L) c c1 (outside mn mx)
    { st with
      diskTableCache := ((st.diskTableCache.set L (c.take (KVStore.scanStart L))).set
        (L + 1) (c1.filter (outside mn mx))),
      mergeTable := cleared }
    hcL hc1 (by simp)
    (by
      show ((st.diskTableCache.set L (c.take (KVStore.scanStart L))).set
        (L + 1) (c1.filter (outside mn mx)))[L]? = _
      rw [List.getElem?_set_ne (by omega)]
      simp [hLlt])
    (by
      show ((st.diskTableCache.set L (c.take (KVStore.scanStart L))).set
        (L + 1) (c1.filter (outside mn mx)))[L + 1]? = _
      simp [hL1lt])
    (by
      intro j hj hj1
      show ((st.diskTableCache.set L (c.take (KVStore.scanStart L))).set
        (L + 1) (c1.filter (outside mn mx)))[j]? = _
      rw [List.getElem?_set_ne (Ne.symm hj1), List.getElem?_set_ne (Ne.symm hj)])
    rfl rfl rfl ⟨[], hclw⟩
  rw [← hfiles0] at htidy1
  -- the merged records
  have hrunfile : ∀ f ∈ files0 ++ (c1.filter (fun s => !outside mn mx s)).map
      (fun s => (L + 1, s.serialNum)),
      ∃ bytes kvs, st.disk.readFile f.1 f.2 = some bytes ∧ IsRun env bytes kvs ∧
        ∀ kv ∈ kvs, (mn ≤ kv.1 ∧ kv.1 ≤ mx) ∨
          ∃ t ∈ c1.filter (fun s => !outside mn mx s), t.minKey ≤ kv.1 ∧ kv.1 ≤ t.maxKey := by
    intro f hf
    rcases List.mem_append.mp hf with hf | hf
    · rw [hfiles0] at hf
      obtain ⟨y, hy, rfl⟩ := List.mem_map.mp hf
      obtain ⟨_, _, b, kvs, e3, e4, e5, e6⟩ := h.entries L c y hcL (List.mem_of_mem_drop hy)
      refine ⟨b, kvs, e3, e4, ?_⟩
      intro kv hkv
      left
      have hb := (e4.bounds.2.2.2.2.2 kv hkv)
      have hy2 := hsel y hy
      rw [e5, e6] at hy2
      exact ⟨Nat.le_trans hy2.2.1 hb.1, Nat.le_trans hb.2 hy2.2.2⟩
    · obtain ⟨y, hy, rfl⟩ := List.mem_map.mp hf
      obtain ⟨_, _, b, kvs, e3, e4, e5, e6⟩ :=
        h.entries (L + 1) c1 y hc1 (List.mem_filter.mp hy).1
      refine ⟨b, kvs, e3, e4, ?_⟩
      intro kv hkv
      right
      have hb := (e4.bounds.2.2.2.2.2 kv hkv)
      exact ⟨y, hy, by rw [e5]; exact hb.1, by rw [e6]; exact hb.2⟩
  obtain ⟨hsorted, hmk⟩ := mergeAllFiles_inv env st.disk
    (fun x => (mn ≤ x ∧ x ≤ mx) ∨
      ∃ t ∈ c1.filter (fun s => !outside mn mx s), t.minKey ≤ x ∧ x ≤ t.maxKey)
    _ [] merged hrunfile List.Pairwise.nil (by simp) hmg
  obtain ⟨hws, hwsub, hwcov⟩ := winners_top merged hsorted
    (fun r hr => Nat.ne_of_lt (hmk r hr).2.2)
  -- the summaries kept on the next level lie on one side of every merged key
  have hold : ∀ k ∈ c1.filter (outside mn mx),
      (∀ kv : Key × Value, (∃ w ∈ winners KEY_MAX merged,
          dropped (decide (L = st.depthOfLayer)) w = false ∧ kv = (w.2.2.1, w.2.2.2)) →
        k.maxKey < kv.1) ∨
      (∀ kv : Key × Value, (∃ w ∈ winners KEY_MAX merged,
          dropped (decide (L = st.depthOfLayer)) w = false ∧ kv = (w.2.2.1, w.2.2.2)) →
        kv.1 < k.minKey) := by
    intro k hk
    have hkc := (List.mem_filter.mp hk).1
    have hko := (List.mem_filter.mp hk).2
    simp only [outside, decide_eq_true_eq] at hko
    obtain ⟨_, _, b, kvs, _, e4, e5, e6⟩ := h.entries (L + 1) c1 k hc1 hkc
    have hkle : k.minKey ≤ k.maxKey := by rw [e5, e6]; exact e4.bounds.2.2.2.2.1
    have hside : ∀ t ∈ c1.filter (fun s => !outside mn mx s),
        (t.maxKey < k.minKey ∨ k.maxKey < t.minKey) ∧ ¬ (mx < t.minKey ∨ t.maxKey < mn) := by
      intro t ht
      have htc := (List.mem_filter.mp ht).1
      have hto := (List.mem_filter.mp ht).2
      simp only [outside, Bool.not_eq_true', decide_eq_false_iff_not] at hto
      exact ⟨h.apart (L + 1) c1 t k (Nat.succ_pos _) hc1 htc hkc
        (Ne.symm (filter_serials c1 (outside mn mx) (h.serials _ c1 hc1) k t hk ht)), hto⟩
    rcases hko with hko | hko
    · right
      rintro kv ⟨w, hw, _, rfl⟩
      rcases (hmk w (hwsub w hw)).1 with hin | ⟨t, ht, ht1, ht2⟩
      · exact Nat.lt_of_le_of_lt hin.2 hko
      · obtain ⟨hs1, hs2⟩ := hside t ht
        rcases hs1 with hs1 | hs1
        · exact Nat.lt_of_le_of_lt ht2 hs1
        · exfalso
          apply hs2
          left
          exact Nat.lt_trans hko (Nat.lt_of_le_of_lt hkle hs1)
    · left
      rintro kv ⟨w, hw, _, rfl⟩
      rcases (hmk w (hwsub w hw)).1 with hin | ⟨t, ht, ht1, ht2⟩
      · exact Nat.lt_of_lt_of_le hko hin.1
      · obtain ⟨hs1, hs2⟩ := hside t ht
        rcases hs1 with hs1 | hs1
        · exfalso
          apply hs2
          right
          exact Nat.lt_trans (Nat.lt_of_lt_of_le hs1 hkle) hko
        · exact Nat.lt_of_lt_of_le hs1 ht1
  -- the loop
  have hdir0 : winners KEY_MAX merged ≠ [] → st.disk.existsDir L = true := by
    intro hne
    obtain ⟨w, hw⟩ := List.exists_mem_of_ne_nil _ hne
    have hmne : files0 ++ (c1.filter (fun s => !outside mn mx s)).map
        (fun s => (L + 1, s.serialNum)) ≠ [] := by
      intro he
      rw [he] at hmg
      have := mergeAllFiles_nil_of_nil _ _ hmg
      rw [this] at hw
      simp [winners] at hw
    obtain ⟨f, hf⟩ := List.exists_mem_of_ne_nil _ hmne
    rcases List.mem_append.mp hf with hf | hf
    · rw [hfiles0] at hf
      obtain ⟨y, hy, rfl⟩ := List.mem_map.mp hf
      obtain ⟨_, _, b, _, e3, _⟩ := h.entries L c y hcL (List.mem_of_mem_drop hy)
      exact (h.files L _ b (st.disk.mem_of_readFile _ _ _ e3)).1
    · obtain ⟨y, hy, rfl⟩ := List.mem_map.mp hf
      obtain ⟨_, _, b, _, e3, _⟩ := h.entries (L + 1) c1 y hc1 (List.mem_filter.mp hy).1
      exact h.dirs L (h.files (L + 1) _ b (st.disk.mem_of_readFile _ _ _ e3)).1
  rw [mergeLoop_winners] at hlp
  have hm0 : KVStore.Merging env
      { st with
        diskTableCache := ((st.diskTableCache.set L (c.take (KVStore.scanStart L))).set
          (L + 1) (c1.filter (outside mn mx))),
        mergeTable := cleared }
      (files0 ++ (c1.filter (fun s => !outside mn mx s)).map (fun s => (L + 1, s.serialNum)))
      L (fun kv => ∃ w ∈ winners KEY_MAX merged,
          dropped (decide (L = st.depthOfLayer)) w = false ∧ kv = (w.2.2.1, w.2.2.2))
      0 [] [] (c1.filter (outside mn mx)) [] := by
    refine ⟨htidy1, hclw, ?_, by simp, by simp, by simp⟩
    show ((st.diskTableCache.set L (c.take (KVStore.scanStart L))).set
        (L + 1) (c1.filter (outside mn mx)))[L + 1]? = _
    simp [hL1lt]
  obtain ⟨B2, cells2, news2, hm2, hsame2⟩ := mergeLoop_spec env L (if ts0 > ts1 then ts0 else ts1)
    (decide (L = st.depthOfLayer)) _ _ (c1.filter (outside mn mx))
    (by
      rintro kv ⟨w, hw, _, rfl⟩
      exact (hmk w (hwsub w hw)).2)
    hold (winners KEY_MAX merged) KEY_MAX _ 0 [] [] [] st2 hm0 hws
    (fun w hw => ⟨Nat.zero_le _, Nat.ne_of_lt (hmk w (hwsub w hw)).2.2⟩)
    (fun w hw hd => ⟨w, hw, hd, rfl⟩) hdir0 hlp
  simp only [List.nil_append] at hm2
  -- the last write
  have hfin : ∃ news, KVStore.Tidy env st3
        (files0 ++ (c1.filter (fun s => !outside mn mx s)).map (fun s => (L + 1, s.serialNum))) ∧
      st3.diskTableCache[L + 1]? = some (news ++ c1.filter (outside mn mx)) ∧
      KVStore.SameBut (L + 1) st2 st3 ∧
      (∀ s ∈ news, ∃ bytes kvs, st3.disk.readFile (L + 1) s.serialNum = some bytes ∧
        IsRun env bytes kvs ∧
        ∀ kv ∈ kvs, ∃ w ∈ winners KEY_MAX merged,
          dropped (decide (L = st.depthOfLayer)) w = false ∧ kv = (w.2.2.1, w.2.2.2)) ∧
      (∀ kv ∈ ((winners KEY_MAX merged).filter
          (fun w => !dropped (decide (L = st.depthOfLayer)) w)).map
            (fun w => (w.2.2.1, w.2.2.2)),
        ∃ s ∈ news, ∃ bytes kvs, st3.disk.readFile (L + 1) s.serialNum = some bytes ∧
          IsRun env bytes kvs ∧ kv ∈ kvs) := by
    by_cases hn : st2.mergeTable.nodeNum > 0
    · rw [if_pos hn] at hwr
      have hne2 : cells2 ≠ [] := by
        intro he
        have : st2.mergeTable.nodeNum = 0 := by
          show st2.mergeTable.nodeCount_ = 0
          rw [hm2.table.count_eq, he]
          rfl
        omega
      have hwne : winners KEY_MAX merged ≠ [] := by
        intro he
        rw [he] at hlp
        simp only [KVStore.mergeLoop, Option.some.injEq] at hlp
        have hc2 : st2.mergeTable.nodeCount_ = 0 := by
          rw [← hlp]
          show cleared.nodeCount_ = 0
          rw [hclw.count_eq]
          rfl
        have : st2.mergeTable.nodeNum = 0 := hc2
        omega
      have hdir2 : st2.disk.existsDir L = true := hsame2.2.2.2.2.2.2 L (hdir0 hwne)
      have hapart : ∀ x ∈ news2 ++ c1.filter (outside mn mx),
          (∀ cell ∈ cells2, x.maxKey < cell.key) ∨ (∀ cell ∈ cells2, cell.key < x.minKey) := by
        intro x hx
        rcases List.mem_append.mp hx with hx | hx
        · exact Or.inl (hm2.runs x hx).2.1
        · rcases hold x hx with h1 | h1
          · exact Or.inl (fun cell hc => h1 _ (hm2.below cell hc).2)
          · exact Or.inr (fun cell hc => h1 _ (hm2.below cell hc).2)
      obtain ⟨_, htidy3, _, hsame3, _, s, hcache3, _, _, _, ⟨bytes, hread, hrun⟩, _⟩ :=
        writeSST_spec hm2.tidy L _ cells2 hm2.table _ hm2.cache hdir2 hapart st3 hwr
      refine ⟨s :: news2, htidy3, by simpa using hcache3, hsame3, ?_, ?_⟩
      · intro x hx
        rcases List.mem_cons.mp hx with rfl | hx
        · refine ⟨bytes, pairsOf cells2, hread, hrun, ?_⟩
          intro kv hkv
          simp only [pairsOf, List.mem_map] at hkv
          obtain ⟨c2, hc2, rfl⟩ := hkv
          exact (hm2.below c2 hc2).2
        · obtain ⟨_, _, b1, k1, r3, r4⟩ := hm2.runs x hx
          exact ⟨b1, k1, htidy3.read_mono hsame3.2.2.2.2.2.1 _ _ _ r3, r4⟩
      · intro kv hkv
        rcases hm2.held kv hkv with h1 | ⟨x, hx, b1, k1, r3, r4⟩
        · exact ⟨s, List.mem_cons_self _ _, bytes, pairsOf cells2, hread, hrun, h1⟩
        · exact ⟨x, List.mem_cons_of_mem _ hx, b1, k1,
            htidy3.read_mono hsame3.2.2.2.2.2.1 _ _ _ r3, r4⟩
    · rw [if_neg hn] at hwr
      simp only [Option.some.injEq] at hwr
      subst hwr
      have he2 : cells2 = [] := by
        have h0 : st2.mergeTable.nodeCount_ = 0 := by
          have : st2.mergeTable.nodeNum = st2.mergeTable.nodeCount_ := rfl
          omega
        rw [hm2.table.count_eq] at h0
        exact List.eq_nil_of_length_eq_zero h0
      refine ⟨news2, hm2.tidy, hm2.cache, KVStore.SameBut.refl _ _, ?_, ?_⟩
      · intro x hx
        obtain ⟨_, _, r3⟩ := hm2.runs x hx
        exact r3
      · intro kv hkv
        rcases hm2.held kv hkv with h1 | h1
        · rw [he2] at h1
          simp [pairsOf] at h1
        · exact h1
  obtain ⟨news, htidy3, hcache3, hsame3, hruns3, hheld3⟩ := hfin
  have hsame : KVStore.SameBut (L + 1)
      { st with
        diskTableCache := ((st.diskTableCache.set L (c.take (KVStore.scanStart L))).set
          (L + 1) (c1.filter (outside mn mx))),
        mergeTable := cleared } st3 := hsame2.trans hsame3
  obtain ⟨s1, s2, s3, s4, s5, _, _⟩ := hsame
  have hrm := removeFiles_spec
    (files0 ++ (c1.filter (fun s => !outside mn mx s)).map (fun s => (L + 1, s.serialNum)))
    st3.disk
  refine ⟨c, c1, files0, mn, mx, ts0, merged, news, hcL, hc1, hscan, hmg, ?_, ?_, ?_, ?_, ?_, ?_,
    ?_, ?_, ?_, ?_⟩
  · rw [hst4]
    exact htidy3.remove_pending
  · rw [hst4]
    show st3.diskTableCache[L]? = _
    rw [s4 L (by omega)]
    show ((st.diskTableCache.set L (c.take (KVStore.scanStart L))).set
        (L + 1) (c1.filter (outside mn mx)))[L]? = _
    rw [List.getElem?_set_ne (by omega)]
    simp [hLlt]
  · rw [hst4]
    exact hcache3
  · intro j hj hj1
    rw [hst4]
    show st3.diskTableCache[j]? = _
    rw [s4 j hj1]
    show ((st.diskTableCache.set L (c.take (KVStore.scanStart L))).set
        (L + 1) (c1.filter (outside mn mx)))[j]? = _
    rw [List.getElem?_set_ne (Ne.symm hj1), List.getElem?_set_ne (Ne.symm hj)]
  · intro j hj
    rw [hst4]
    exact s5 j hj
  · rw [hst4]
    exact s1
  · rw [hst4]
    show (KVStore.removeFiles _ st3.disk).wal = _
    rw [hrm.2.2]
    exact s2
  · rw [hst4]
    exact s3
  · intro s hs
    obtain ⟨b, kvs, r1, r2, r3⟩ := hruns3 s hs
    rw [hst4]
    exact ⟨b, kvs, htidy3.read_kept (L + 1) _ s hcache3 (List.mem_append_left _ hs) b r1, r2, r3⟩
  · intro w hw hd
    have hmem : (w.2.2.1, w.2.2.2) ∈ ((winners KEY_MAX merged).filter
        (fun w => !dropped (decide (L = st.depthOfLayer)) w)).map
          (fun w => (w.2.2.1, w.2.2.2)) := by
      apply List.mem_map.mpr
      exact ⟨w, List.mem_filter.mpr ⟨hw, by simp [hd]⟩, rfl⟩
    obtain ⟨s, hs, b, kvs, r1, r2, r3⟩ := hheld3 _ hmem
    rw [hst4]
    exact ⟨s, hs, b, kvs,
      htidy3.read_kept (L + 1) _ s hcache3 (List.mem_append_left _ hs) b r1, r2, r3⟩

/-! ## Compaction, flush and the calls -/

theorem KVStore.Tidy.with_wal {env : Env} {st : KVStore} {pending : List (Nat × Nat)}
    (h : KVStore.Tidy env st pending) (w : Option (List UInt8)) :
    KVStore.Tidy env { st with disk := { st.disk with wal := w } } pending :=
  ⟨h.mem, h.merge, h.caches_len, h.avail_len, h.names, h.dirs, h.entries, h.files,
    h.waiting, h.serials, h.apart⟩

theorem compactionLoop_spec (env : Env) (fuel : Nat) :
    ∀ (L : Nat) (st st1 : KVStore), KVStore.Tidy env st [] →
      KVStore.compactionLoop env fuel L st = some st1 →
      KVStore.Tidy env st1 [] ∧ st1.memTable = st.memTable ∧ st1.disk.wal = st.disk.wal ∧
        st1.curTimeStamp = st.curTimeStamp ∧ st1.availableNum[0]? = st.availableNum[0]? := by
  induction fuel with
  | zero =>
    intro L st st1 _ e
    simp [KVStore.compactionLoop] at e
  | succ fuel ih =>
    intro L st st1 h e
    unfold KVStore.compactionLoop at e
    cases hx : KVStore.layerSSTExceedLimit st L with
    | none => simp only [hx, reduceCtorEq] at e
    | some b =>
      cases b with
      | false =>
        simp only [hx, Option.some.injEq] at e
        subst e
        exact ⟨h, rfl, rfl, rfl, rfl⟩
      | true =>
        simp only [hx] at e
        cases hm : KVStore.mergeLayer env st L with
        | none => simp only [hm, reduceCtorEq] at e
        | some st2 =>
          simp only [hm] at e
          obtain ⟨_, _, _, _, _, _, _, _, _, _, _, _, h5, _, _, _, h9, h10, h11, h12, _⟩ :=
            mergeLayer_spec h L st2 hm
          obtain ⟨i1, i2, i3, i4, i5⟩ := ih (L + 1) st2 st1 h5 e
          exact ⟨i1, by rw [i2, h10], by rw [i3, h11], by rw [i4, h12],
            by rw [i5, h9 0 (by omega)]⟩

theorem flush_spec {env : Env} {st : KVStore} (h : KVStore.Tidy env st []) (cells : List Cell)
    (hw : WellFormed st.memTable cells) (st1 : KVStore)
    (e : KVStore.flush env st = some st1) :
    cells ≠ [] ∧ KVStore.Tidy env st1 [] ∧ WellFormed st1.memTable [] ∧
      st1.disk.wal = none ∧ st1.curTimeStamp = st.curTimeStamp + 1 ∧
      ∃ a, st.availableNum[0]? = some a ∧ st1.availableNum[0]? = some (a + 1) := by
  have h0c : 0 < st.diskTableCache.length := by rw [h.caches_len]; decide
  have h0a : 0 < st.availableNum.length := by rw [h.avail_len]; decide
  obtain ⟨c, hc⟩ : ∃ c, st.diskTableCache[0]? = some c := ⟨_, List.getElem?_eq_getElem h0c⟩
  obtain ⟨a, ha⟩ : ∃ a, st.availableNum[0]? = some a := ⟨_, List.getElem?_eq_getElem h0a⟩
  unfold KVStore.flush at e
  cases ht : SSTable.ofSkipList env st.memTable with
  | none => simp only [ht, reduceCtorEq] at e
  | some t =>
    obtain ⟨hne, hte, hrun⟩ := hw.table env t ht
    simp only [ht, hc, ha] at e
    cases hi : Cache.insertTable c t 0 a st.curTimeStamp with
    | none => simp only [hi, reduceCtorEq] at e
    | some c1 =>
      simp only [hi, setAt_some _ _ _ h0c, setAt_some _ _ _ h0a] at e
      unfold Cache.insertTable at hi
      cases hs : SummaryOfSSTable.ofSSTable t 0 a st.curTimeStamp with
      | none => simp only [hs, reduceCtorEq] at hi
      | some s =>
        simp only [hs, Option.some.injEq] at hi
        unfold SummaryOfSSTable.ofSSTable at hs
        split at hs
        · simp only [Option.some.injEq] at hs
          have hsl : s.layer = 0 := by rw [← hs]
          have hsn : s.serialNum = a := by rw [← hs]
          have hmin : s.minKey = firstKey (pairsOf cells) := by rw [← hs, hte]; rfl
          have hmax : s.maxKey = lastKey (pairsOf cells) := by rw [← hs, hte]; rfl
          have htidy : KVStore.Tidy env
              { st with
                diskTableCache := st.diskTableCache.set 0 c1,
                disk := (st.disk.ensureDir 0).writeFile 0 a (t.writeToFile st.curTimeStamp),
                availableNum := st.availableNum.set 0 (a + 1),
                curTimeStamp := st.curTimeStamp + 1 } [] := by
            refine h.add_run _ 0 a c s (t.writeToFile st.curTimeStamp) (pairsOf cells)
              h.mem h.merge hc ha ?_ ?_ rfl (hrun _) hsl hsn hmin hmax (Or.inl rfl) ?_
            · rw [← hi]
              refine ⟨by simp, by simp [h0c], ?_⟩
              intro j hj
              simp only
              rw [List.getElem?_set_ne (Ne.symm hj)]
            · refine ⟨by simp, by simp [h0a], ?_⟩
              intro j hj
              simp only
              rw [List.getElem?_set_ne (Ne.symm hj)]
            · intro h0
              exact absurd h0 (Nat.lt_irrefl _)
          cases hcp : KVStore.compaction env
              { st with
                diskTableCache := st.diskTableCache.set 0 c1,
                disk := (st.disk.ensureDir 0).writeFile 0 a (t.writeToFile st.curTimeStamp),
                availableNum := st.availableNum.set 0 (a + 1),
                curTimeStamp := st.curTimeStamp + 1 } with
          | none => simp only [hcp, reduceCtorEq] at e
          | some st2 =>
            simp only [hcp] at e
            obtain ⟨i1, i2, _, i4, i5⟩ := compactionLoop_spec env _ 0 _ st2 htidy hcp
            have hw2 : WellFormed st2.memTable cells := by rw [i2]; exact hw
            obtain ⟨cleared, hcl, hclw, _⟩ := hw2.clear
            simp only [hcl, Option.some.injEq] at e
            subst e
            refine ⟨hne, ?_, hclw, rfl, i4, a, ha, ?_⟩
            · exact (i1.with_memTable cleared [] hclw).with_wal none
            · show st2.availableNum[0]? = _
              rw [i5]
              simp [h0a]
        · exact absurd hs (by simp)

theorem put_spec {env : Env} {st : KVStore} (h : KVStore.Tidy env st []) (key : Key)
    (value : Value) (hk : UserKey key) (r : Bool) (st1 : KVStore)
    (e : KVStore.put env st key value = some (r, st1)) :
    KVStore.Tidy env st1 [] ∧ 0 < st1.memTable.nodeNum := by
  have hins : ∀ (s : KVStore) (m : SkipList) (cells : List Cell), KVStore.Tidy env s [] →
      WellFormed s.memTable cells → (∃ b, s.memTable.insert env key value = some (b, m)) →
      KVStore.Tidy env { KVStore.writeWAL env s key value with memTable := m } [] ∧
        0 < m.nodeNum := by
    intro s m cells hs hw ⟨b, hb⟩
    obtain ⟨m1, cells1, h1, h2, h3, _⟩ := hw.insert env key value hk
    rw [hb] at h1
    simp only [Option.some.injEq, Prod.mk.injEq] at h1
    obtain ⟨_, rfl⟩ := h1
    constructor
    · exact (hs.with_wal _).with_memTable m cells1 h2
    · show 0 < m.nodeCount_
      rw [h2.count_eq]
      have hv := h3 key
      rw [if_pos rfl] at hv
      cases cells1 with
      | nil => simp [valueOf] at hv
      | cons x xs => simp
  obtain ⟨cells, hw⟩ := h.mem
  unfold KVStore.put at e
  by_cases hc : add64 (add64 st.memTable.getMemSize SIZEOF_KEY) value.length < MEM_LIMIT
  · rw [if_pos hc] at e
    simp only at e
    cases hi : (KVStore.writeWAL env st key value).memTable.insert env key value with
    | none => simp only [hi, reduceCtorEq] at e
    | some p =>
      obtain ⟨b, m⟩ := p
      simp only [hi, Option.some.injEq, Prod.mk.injEq] at e
      obtain ⟨_, rfl⟩ := e
      exact hins st m cells h hw ⟨b, hi⟩
  · rw [if_neg hc] at e
    cases hf : KVStore.flush env st with
    | none => simp only [hf, reduceCtorEq] at e
    | some st2 =>
      simp only [hf] at e
      obtain ⟨_, f2, f3, _⟩ := flush_spec h cells hw st2 hf
      cases hi : (KVStore.writeWAL env st2 key value).memTable.insert env key value with
      | none => simp only [hi, reduceCtorEq] at e
      | some p =>
        obtain ⟨b, m⟩ := p
        simp only [hi, Option.some.injEq, Prod.mk.injEq] at e
        obtain ⟨_, rfl⟩ := e
        exact hins st2 m [] f2 f3 ⟨b, hi⟩

theorem del_spec {env : Env} {st : KVStore} (h : KVStore.Consistent env st) (key : Key)
    (hk : UserKey key) (r : Bool) (st1 : KVStore)
    (e : KVStore.del env st key = some (r, st1)) : KVStore.Consistent env st1 := by
  unfold KVStore.del at e
  cases hg : KVStore.get env st key with
  | none => simp only [hg, reduceCtorEq] at e
  | some p =>
    obtain ⟨ret, value⟩ := p
    simp only [hg] at e
    by_cases h1 : ret = false
    · rw [if_pos h1] at e
      simp only [Option.some.injEq, Prod.mk.injEq] at e
      rw [← e.2]
      exact h
    · rw [if_neg h1] at e
      by_cases h2 : value = DELETED
      · rw [if_pos h2] at e
        simp only [Option.some.injEq, Prod.mk.injEq] at e
        rw [← e.2]
        exact h
      · rw [if_neg h2] at e
        obtain ⟨cells, hw⟩ := h.1.mem
        obtain ⟨m, cells1, hr, hwm, _⟩ := hw.remove key hk
        simp only [hr] at e
        cases hp : KVStore.put env { st with memTable := m } key DELETED with
        | none => simp only [hp, reduceCtorEq] at e
        | some q =>
          obtain ⟨b, st2⟩ := q
          simp only [hp, Option.some.injEq, Prod.mk.injEq] at e
          obtain ⟨_, rfl⟩ := e
          obtain ⟨p1, p2⟩ := put_spec (h.1.with_memTable m cells1 hwm) key DELETED hk b st2 hp
          exact ⟨p1, fun h0 => absurd h0 (Nat.ne_of_gt p2)⟩

theorem close_spec {env : Env} {st : KVStore} (h : KVStore.Consistent env st) (st1 : KVStore)
    (e : KVStore.close env st = some st1) :
    KVStore.Tidy env st1 [] ∧ st1.disk.wal = none := by
  unfold KVStore.close at e
  by_cases hn : st.memTable.nodeNum > 0
  · rw [if_pos hn] at e
    obtain ⟨cells, hw⟩ := h.1.mem
    obtain ⟨_, f2, _, f4, _⟩ := flush_spec h.1 cells hw st1 e
    exact ⟨f2, f4⟩
  · rw [if_neg hn] at e
    simp only [Option.some.injEq] at e
    subst e
    exact ⟨h.1, h.2 (by omega)⟩

/-! ## Opening the engine -/

theorem insertDesc_perm (x : Nat) (l : List Nat) : (insertDesc x l).Perm (x :: l) := by
  induction l with
  | nil => exact List.Perm.refl _
  | cons y ys ih =>
    unfold insertDesc
    split
    · exact List.Perm.refl _
    · exact (List.Perm.cons y ih).trans (List.Perm.swap x y ys)

theorem sortDesc_perm (l : List Nat) : (sortDesc l).Perm l := by
  induction l with
  | nil => exact List.Perm.refl _
  | cons x xs ih =>
    unfold sortDesc
    exact (insertDesc_perm x _).trans (List.Perm.cons x ih)

theorem insertDesc_sorted (x : Nat) (l : List Nat) (h : l.Pairwise (fun a b => b ≤ a)) :
    (insertDesc x l).Pairwise (fun a b => b ≤ a) := by
  induction l with
  | nil => simp [insertDesc]
  | cons y ys ih =>
    rw [List.pairwise_cons] at h
    unfold insertDesc
    split
    · rename_i hxy
      rw [List.pairwise_cons]
      refine ⟨?_, List.pairwise_cons.mpr h⟩
      intro b hb
      rcases List.mem_cons.mp hb with rfl | hb
      · exact hxy
      · exact Nat.le_trans (h.1 b hb) hxy
    · rename_i hxy
      rw [List.pairwise_cons]
      refine ⟨?_, ih h.2⟩
      intro b hb
      rcases List.mem_cons.mp ((insertDesc_perm x ys).mem_iff.mp hb) with rfl | hb
      · omega
      · exact h.1 b hb

theorem sortDesc_sorted (l : List Nat) : (sortDesc l).Pairwise (fun a b => b ≤ a) := by
  induction l with
  | nil => simp [sortDesc]
  | cons x xs ih =>
    unfold sortDesc
    exact insertDesc_sorted x _ ih

theorem sortDesc_front (l : List Nat) (front : Nat) (rest : List Nat)
    (h : sortDesc l = front :: rest) : ∀ x ∈ l, x ≤ front := by
  intro x hx
  have hs := sortDesc_sorted l
  rw [h, List.pairwise_cons] at hs
  have hm : x ∈ front :: rest := by
    rw [← h]
    exact (sortDesc_perm l).mem_iff.mpr hx
  rcases List.mem_cons.mp hm with rfl | hm
  · exact Nat.le_refl _
  · exact hs.1 x hm

theorem Disk.mem_serialsOf (d : Disk) (i n : Nat) :
    n ∈ d.serialsOf i ↔ ∃ b, ((i, n), b) ∈ d.files := by
  unfold Disk.serialsOf
  simp only [List.mem_map, List.mem_filter, decide_eq_true_eq]
  constructor
  · rintro ⟨f, ⟨hf, h1⟩, h2⟩
    refine ⟨f.2, ?_⟩
    have : f = ((i, n), f.2) := by
      obtain ⟨⟨a, b⟩, c⟩ := f
      simp only at h1 h2
      rw [h1, h2]
    rw [← this]
    exact hf
  · rintro ⟨b, hb⟩
    exact ⟨((i, n), b), ⟨hb, rfl⟩, rfl⟩

theorem Disk.serialsOf_nodup (d : Disk) (hn : (d.files.map Prod.fst).Nodup) (i : Nat) :
    (d.serialsOf i).Nodup := by
  unfold Disk.serialsOf
  have h1 : (d.files.filter (fun f => decide (f.1.1 = i))).map Prod.fst
      |>.Nodup := hn.sublist (List.Sublist.map _ (List.filter_sublist _))
  have e : (d.files.filter (fun f => decide (f.1.1 = i))).map (fun f => f.1.2)
      = ((d.files.filter (fun f => decide (f.1.1 = i))).map Prod.fst).map Prod.snd := by
    rw [List.map_map]
    rfl
  rw [e]
  apply List.Nodup.map_on _ h1
  intro x hx y hy hxy
  obtain ⟨f, hf, rfl⟩ := List.mem_map.mp hx
  obtain ⟨g, hg, rfl⟩ := List.mem_map.mp hy
  have hf1 := (List.mem_filter.mp hf).2
  have hg1 := (List.mem_filter.mp hg).2
  simp only [decide_eq_true_eq] at hf1 hg1
  apply Prod.ext
  · rw [hf1, hg1]
  · exact hxy

theorem dirs_down (d : Disk) (hd : ∀ L, d.existsDir (L + 1) = true → d.existsDir L = true)
    (i : Nat) : ∀ k, d.existsDir (i + k) = true → d.existsDir i = true := by
  intro k
  induction k with
  | zero => exact fun h => h
  | succ k ih => exact fun h => ih (hd (i + k) h)

theorem loadAll_spec {env : Env} {st0 : KVStore} (h0 : KVStore.Tidy env st0 []) (i : Nat)
    (sns : List Nat) :
    ∀ (st st1 : KVStore) (acc : Cache), st.disk = st0.disk →
      st.diskTableCache[i]? = some acc →
      (∀ n ∈ sns, ∃ b, ((i, n), b) ∈ st0.disk.files) →
      KVStore.loadAll i sns st = some st1 →
      ∃ added : Cache, st1.diskTableCache[i]? = some (added ++ acc) ∧
        added.map (fun s => s.serialNum) = sns.reverse ∧
        (∀ s ∈ added, s.layer = i ∧ ∃ (c0 : Cache) (s0 : SummaryOfSSTable),
          st0.diskTableCache[i]? = some c0 ∧ s0 ∈ c0 ∧ s0.serialNum = s.serialNum ∧
            s.minKey = s0.minKey ∧ s.maxKey = s0.maxKey) ∧
        st1.disk = st.disk ∧ (∀ j, j ≠ i → st1.diskTableCache[j]? = st.diskTableCache[j]?) ∧
        st1.diskTableCache.length = st.diskTableCache.length ∧
        st1.availableNum = st.availableNum ∧ st1.memTable = st.memTable ∧
        st1.mergeTable = st.mergeTable := by
  induction sns with
  | nil =>
    intro st st1 acc _ hacc _ e
    simp only [KVStore.loadAll, Option.some.injEq] at e
    subst e
    exact ⟨[], by simpa using hacc, rfl, by simp, rfl, fun _ _ => rfl, rfl, rfl, rfl, rfl⟩
  | cons n rest ih =>
    intro st st1 acc hdisk hacc hfiles e
    obtain ⟨b, hb⟩ := hfiles n (List.mem_cons_self _ _)
    obtain ⟨_, _, hcached⟩ := h0.files i n b hb
    rcases hcached with hcached | ⟨c0, s0, hc0, hs0, hsn⟩
    · simp at hcached
    obtain ⟨_, _, b1, kvs, hr, hrun, hmin, hmax⟩ := h0.entries i c0 s0 hc0 hs0
    rw [hsn] at hr
    obtain ⟨s, hs1, hs2, hs3, hs4, hs5⟩ := hrun.summary i n
    have hilt : i < st.diskTableCache.length := (List.getElem?_eq_some.mp hacc).1
    unfold KVStore.loadAll at e
    unfold KVStore.loadSSTToCache at e
    simp only [hdisk, hr, hacc, hs1, setAt_some _ _ _ hilt] at e
    obtain ⟨added, a1, a2, a3, a4, a5, a6, a7, a8, a9⟩ := ih _ st1 (s :: acc) (by rfl)
      (by simp [hilt, Cache.insert]) (fun m hm => hfiles m (List.mem_cons_of_mem _ hm)) e
    refine ⟨added ++ [s], by simpa using a1, by simp [a2, hs3], ?_, by rw [a4, hdisk], ?_,
      by simpa using a6, a7, a8, a9⟩
    · intro x hx
      rcases List.mem_append.mp hx with hx | hx
      · exact a3 x hx
      · simp only [List.mem_singleton] at hx
        subst hx
        exact ⟨hs2, c0, s0, hc0, hs0, by rw [hsn, hs3], by rw [hs4, hmin], by rw [hs5, hmax]⟩
    · intro j hj
      rw [a5 j hj]
      simp only
      rw [List.getElem?_set_ne (Ne.symm hj)]

theorem KVStore.Loaded.tidy {env : Env} {st0 st : KVStore} {i : Nat}
    (h0 : KVStore.Tidy env st0 []) (h : KVStore.Loaded st0 i st)
    (hall : ∀ L n b, ((L, n), b) ∈ st0.disk.files → L < i) : KVStore.Tidy env st [] := by
  refine ⟨⟨[], h.mem⟩, h.merge, h.caches_len, h.avail_len, by rw [h.disk]; exact h0.names,
    by rw [h.disk]; exact h0.dirs, ?_, ?_, by simp, h.serials, ?_⟩
  · intro L c s hc hs
    obtain ⟨e1, c0, s0, hc0, hs0, e2, e3, e4⟩ := h.entries L c s hc hs
    obtain ⟨_, _, b, kvs, r1, r2, r3, r4⟩ := h0.entries L c0 s0 hc0 hs0
    exact ⟨e1, by simp, b, kvs, by rw [h.disk, ← e2]; exact r1, r2, by rw [e3, r3],
      by rw [e4, r4]⟩
  · intro L n b hm
    rw [h.disk] at hm ⊢
    obtain ⟨f1, f2⟩ := h.files L n b hm (hall L n b hm)
    exact ⟨(h0.files L n b hm).1, f1, Or.inr f2⟩
  · intro L c a b hL hc ha hb hne
    obtain ⟨_, c0, a0, hc0, ha0, a2, a3, a4⟩ := h.entries L c a hc ha
    obtain ⟨_, c0b, b0, hc0b, hb0, b2, b3, b4⟩ := h.entries L c b hc hb
    rw [hc0] at hc0b
    simp only [Option.some.injEq] at hc0b
    subst hc0b
    have := h0.apart L c0 a0 b0 hL hc0 ha0 hb0 (by rw [a2, b2]; exact hne)
    unfold SummaryOfSSTable.apart at this ⊢
    rw [a3, a4, b3, b4]
    exact this

theorem readLevels_spec {env : Env} {st0 : KVStore} (h0 : KVStore.Tidy env st0 []) (n : Nat) :
    ∀ (i : Nat) (st st1 : KVStore), KVStore.Loaded st0 i st → i + n = LSM_MAX_LAYER →
      KVStore.readLevels n i st = some st1 →
      KVStore.Tidy env st1 [] ∧ st1.memTable = st.memTable ∧ st1.disk = st0.disk := by
  induction n with
  | zero =>
    intro i st st1 h hi e
    simp only [KVStore.readLevels, Option.some.injEq] at e
    subst e
    refine ⟨h.tidy h0 ?_, rfl, h.disk⟩
    intro L m b hm
    obtain ⟨_, ⟨a, ha, _⟩, _⟩ := h0.files L m b hm
    have := (List.getElem?_eq_some.mp ha).1
    rw [h0.avail_len] at this
    omega
  | succ n ih =>
    intro i st st1 h hi e
    unfold KVStore.readLevels at e
    by_cases hex : st.disk.existsDir i = true
    · have hnot : (!st.disk.existsDir i) = false := by rw [hex]; rfl
      rw [hnot] at e
      simp only [Bool.false_eq_true, if_false] at e
      have hilt : i < LSM_MAX_LAYER := by omega
      cases hl : KVStore.loadAll i (sortDesc (st.disk.serialsOf i))
          { st with depthOfLayer := i } with
      | none => simp only [hl, reduceCtorEq] at e
      | some st2 =>
        simp only [hl] at e
        have hmemser : ∀ m ∈ sortDesc (st.disk.serialsOf i),
            ∃ b, ((i, m), b) ∈ st0.disk.files := by
          intro m hm
          have := (sortDesc_perm _).mem_iff.mp hm
          rw [h.disk] at this
          exact (st0.disk.mem_serialsOf i m).mp this
        obtain ⟨added, a1, a2, a3, a4, a5, a6, a7, a8, a9⟩ :=
          loadAll_spec h0 i (sortDesc (st.disk.serialsOf i)) { st with depthOfLayer := i } st2 []
            h.disk (h.high i (Nat.le_refl _) hilt) hmemser hl
        simp only [List.append_nil] at a1
        have hnodup : (added.map (fun s => s.serialNum)).Nodup := by
          rw [a2, List.nodup_reverse]
          exact ((sortDesc_perm _).nodup_iff).mpr
            (by rw [h.disk]; exact st0.disk.serialsOf_nodup h0.names i)
        -- the state once the serial counter of the level is set
        have hnext : ∀ (st3 : KVStore), st3.disk = st2.disk → st3.memTable = st2.memTable →
            st3.mergeTable = st2.mergeTable → st3.diskTableCache = st2.diskTableCache →
            st3.availableNum.length = st2.availableNum.length →
            (∀ j, j ≠ i → st3.availableNum[j]? = st2.availableNum[j]?) →
            (∀ m b, ((i, m), b) ∈ st0.disk.files → ∃ a, st3.availableNum[i]? = some a ∧ m < a) →
            KVStore.Loaded st0 (i + 1) st3 := by
          intro st3 e1 e2 e3 e4 e5 e6 e7
          refine ⟨by rw [e1, a4]; exact h.disk, by rw [e2, a8]; exact h.mem,
            by rw [e3, a9]; exact h.merge, by rw [e4, a6]; exact h.caches_len,
            by rw [e5, a7]; exact h.avail_len, ?_, ?_, ?_, ?_⟩
          · intro j hj hj1
            rw [e4, a5 j (by omega)]
            exact h.high j (by omega) hj1
          · intro L c s hc hs
            rw [e4] at hc
            by_cases hL : L = i
            · subst hL
              rw [a1] at hc
              simp only [Option.some.injEq] at hc
              subst hc
              exact a3 s hs
            · rw [a5 L hL] at hc
              exact h.entries L c s hc hs
          · intro L m b hm hL
            by_cases hLi : L = i
            · subst hLi
              refine ⟨e7 m b hm, added, ?_⟩
              have hmm : m ∈ added.map (fun s => s.serialNum) := by
                rw [a2, List.mem_reverse]
                apply (sortDesc_perm _).mem_iff.mpr
                rw [h.disk]
                exact (st0.disk.mem_serialsOf _ m).mpr ⟨b, hm⟩
              obtain ⟨s, hs, hse⟩ := List.mem_map.mp hmm
              exact ⟨s, by rw [e4]; exact a1, hs, hse⟩
            · obtain ⟨⟨a, f1, f2⟩, c, s, f3, f4, f5⟩ := h.files L m b hm (by omega)
              refine ⟨⟨a, by rw [e6 L hLi, a7]; exact f1, f2⟩, c, s, ?_, f4, f5⟩
              rw [e4, a5 L hLi]
              exact f3
          · intro L c hc
            rw [e4] at hc
            by_cases hL : L = i
            · subst hL
              rw [a1] at hc
              simp only [Option.some.injEq] at hc
              subst hc
              exact hnodup
            · rw [a5 L hL] at hc
              exact h.serials L c hc
        cases hsd : sortDesc (st.disk.serialsOf i) with
        | nil =>
          simp only [hsd] at e
          have hnone : ∀ m b, ((i, m), b) ∉ st0.disk.files := by
            intro m b hm
            have h1 : m ∈ st.disk.serialsOf i := by
              rw [h.disk]
              exact (st0.disk.mem_serialsOf i m).mpr ⟨b, hm⟩
            have h2 := (sortDesc_perm _).mem_iff.mpr h1
            rw [hsd] at h2
            simp at h2
          obtain ⟨r1, r2, r3⟩ := ih (i + 1) st2 st1
            (hnext st2 rfl rfl rfl rfl rfl (fun _ _ => rfl)
              (fun m b hm => absurd hm (hnone m b)))
            (by omega) e
          exact ⟨r1, by rw [r2, a8], r3⟩
        | cons front rest =>
          simp only [hsd] at e
          have hia : i < st2.availableNum.length := by
            rw [a7]
            show i < st.availableNum.length
            rw [h.avail_len]
            exact hilt
          simp only [setAt_some _ _ _ hia] at e
          obtain ⟨r1, r2, r3⟩ := ih (i + 1) _ st1
            (hnext { st2 with availableNum := st2.availableNum.set i (front + 1) } rfl rfl rfl
              rfl (by simp)
              (fun j hj => by
                show (st2.availableNum.set i (front + 1))[j]? = _
                rw [List.getElem?_set_ne (Ne.symm hj)])
              (fun m b hm => by
                refine ⟨front + 1, ?_, ?_⟩
                · show (st2.availableNum.set i (front + 1))[i]? = _
                  simp [hia]
                · have h1 : m ∈ st.disk.serialsOf i := by
                    rw [h.disk]
                    exact (st0.disk.mem_serialsOf i m).mpr ⟨b, hm⟩
                  exact Nat.lt_succ_of_le (sortDesc_front _ front rest hsd m h1)))
            (by omega) e
          exact ⟨r1, by rw [r2]; exact a8, r3⟩
    · have hnot : (!st.disk.existsDir i) = true := by
        simp only [Bool.not_eq_true] at hex
        rw [hex]
        rfl
      rw [hnot] at e
      simp only [if_true, Option.some.injEq] at e
      subst e
      refine ⟨h.tidy h0 ?_, rfl, h.disk⟩
      intro L m b hm
      by_contra hge
      have hLe : st0.disk.existsDir L = true := (h0.files L m b hm).1
      have : L = i + (L - i) := by omega
      rw [this] at hLe
      have := dirs_down st0.disk h0.dirs i (L - i) hLe
      rw [← h.disk] at this
      exact hex this

theorem fresh_loaded (st0 : KVStore) :
    KVStore.Loaded st0 0 (KVStore.fresh st0.disk) := by
  have hget : ∀ (j : Nat) (c : Cache),
      (KVStore.fresh st0.disk).diskTableCache[j]? = some c → c = [] := by
    intro j c hc
    have : (List.replicate LSM_MAX_LAYER ([] : Cache))[j]? = some c := hc
    rw [List.getElem?_replicate] at this
    split at this
    · simp only [Option.some.injEq] at this
      exact this.symm
    · exact absurd this (by simp)
  refine ⟨rfl, empty_wellFormed, ⟨[], empty_wellFormed⟩, by simp [KVStore.fresh],
    by simp [KVStore.fresh], ?_, ?_, ?_, ?_⟩
  · intro j _ hj
    show (List.replicate LSM_MAX_LAYER ([] : Cache))[j]? = _
    rw [List.getElem?_replicate, if_pos hj]
  · intro L c s hc hs
    rw [hget L c hc] at hs
    simp at hs
  · intro L n b _ hL
    omega
  · intro L c hc
    rw [hget L c hc]
    simp

theorem new_spec {env : Env} {st0 : KVStore} (h0 : KVStore.Tidy env st0 [])
    (hwal : st0.disk.wal = none) (st1 : KVStore) (e : KVStore.new env st0.disk = some st1) :
    KVStore.Consistent env st1 := by
  unfold KVStore.new KVStore.init KVStore.readSSTDataToCache at e
  cases hr : KVStore.readLevels LSM_MAX_LAYER 0 (KVStore.fresh st0.disk) with
  | none => simp only [hr, reduceCtorEq] at e
  | some st2 =>
    simp only [hr] at e
    obtain ⟨r1, _, r3⟩ := readLevels_spec h0 LSM_MAX_LAYER 0 _ st2 (fresh_loaded st0)
      (by omega) hr
    unfold KVStore.readWAL at e
    have hw : st2.disk.wal = none := by rw [r3]; exact hwal
    simp only [hw, Option.some.injEq] at e
    subst e
    exact ⟨r1, fun _ => hw⟩

theorem fresh_tidy (env : Env) : KVStore.Tidy env (KVStore.fresh Disk.empty) [] := by
  have h := fresh_loaded (KVStore.fresh Disk.empty)
  refine ⟨⟨[], empty_wellFormed⟩, ⟨[], empty_wellFormed⟩, by simp [KVStore.fresh],
    by simp [KVStore.fresh], by simp [KVStore.fresh, Disk.empty], ?_, ?_, ?_, by simp,
    h.serials, ?_⟩
  · intro L hL
    simp [KVStore.fresh, Disk.empty, Disk.existsDir] at hL
  · intro L c s hc hs
    obtain ⟨_, c0, s0, hc0, hs0, _⟩ := h.entries L c s hc hs
    have : (List.replicate LSM_MAX_LAYER ([] : Cache))[L]? = some c0 := hc0
    rw [List.getElem?_replicate] at this
    split at this
    · simp only [Option.some.injEq] at this
      rw [← this] at hs0
      simp at hs0
    · exact absurd this (by simp)
  · intro L n b hm
    simp [KVStore.fresh, Disk.empty] at hm
  · intro L c a b _ hc ha
    obtain ⟨_, c0, s0, hc0, hs0, _⟩ := h.entries L c a hc ha
    have : (List.replicate LSM_MAX_LAYER ([] : Cache))[L]? = some c0 := hc0
    rw [List.getElem?_replicate] at this
    split at this
    · simp only [Option.some.injEq] at this
      rw [← this] at hs0
      simp at hs0
    · exact absurd this (by simp)

theorem call_spec {env : Env} {st : KVStore} (h : KVStore.Consistent env st) (c : Call)
    (hc : c.onUserKey) (r : Reply) (st1 : KVStore)
    (e : KVStore.call env st c = some (r, st1)) : KVStore.Consistent env st1 := by
  cases c with
  | put key value =>
    unfold KVStore.call at e
    cases hp : KVStore.put env st key value with
    | none => simp only [hp, reduceCtorEq] at e
    | some p =>
      obtain ⟨b, st2⟩ := p
      simp only [hp, Option.some.injEq, Prod.mk.injEq] at e
      obtain ⟨_, rfl⟩ := e
      obtain ⟨p1, p2⟩ := put_spec h.1 key value hc b st2 hp
      exact ⟨p1, fun h0 => absurd h0 (Nat.ne_of_gt p2)⟩
  | get key =>
    unfold KVStore.call at e
    cases hg : KVStore.get env st key with
    | none => simp only [hg, reduceCtorEq] at e
    | some p =>
      simp only [hg, Option.some.injEq, Prod.mk.injEq] at e
      rw [← e.2]
      exact h
  | del key =>
    unfold KVStore.call at e
    cases hd : KVStore.del env st key with
    | none => simp only [hd, reduceCtorEq] at e
    | some p =>
      obtain ⟨b, st2⟩ := p
      simp only [hd, Option.some.injEq, Prod.mk.injEq] at e
      obtain ⟨_, rfl⟩ := e
      exact del_spec h key hc b st2 hd
  | reopen =>
    unfold KVStore.call at e
    cases hcl : KVStore.close env st with
    | none => simp only [hcl, reduceCtorEq] at e
    | some st2 =>
      simp only [hcl] at e
      obtain ⟨c1, c2⟩ := close_spec h st2 hcl
      cases hn : KVStore.new env st2.disk with
      | none => simp only [hn, reduceCtorEq] at e
      | some st3 =>
        simp only [hn, Option.some.injEq, Prod.mk.injEq] at e
        obtain ⟨_, rfl⟩ := e
        exact new_spec c1 c2 st3 hn

theorem runState_spec (env : Env) (calls : List Call) :
    ∀ (st st1 : KVStore), KVStore.Consistent env st → (∀ c ∈ calls, c.onUserKey) →
      KVStore.runState env calls st = some st1 → KVStore.Consistent env st1 := by
  induction calls with
  | nil =>
    intro st st1 h _ e
    simp only [KVStore.runState, Option.some.injEq] at e
    subst e
    exact h
  | cons c cs ih =>
    intro st st1 h hc e
    unfold KVStore.runState at e
    cases hcall : KVStore.call env st c with
    | none => simp only [hcall, reduceCtorEq] at e
    | some p =>
      obtain ⟨r, st2⟩ := p
      simp only [hcall] at e
      exact ih st2 st1 (call_spec h c (hc c (List.mem_cons_self _ _)) r st2 hcall)
        (fun d hd => hc d (List.mem_cons_of_mem _ hd)) e

theorem KVStore.Reachable.consistent {env : Env} {st : KVStore}
    (h : KVStore.Reachable env st) : KVStore.Consistent env st := by
  obtain ⟨calls, hc, e⟩ := h
  unfold KVStore.after at e
  cases hn : KVStore.new env Disk.empty with
  | none => simp only [hn, reduceCtorEq] at e
  | some st0 =>
    simp only [hn] at e
    have h0 : KVStore.Consistent env st0 :=
      new_spec (fresh_tidy env) rfl st0 hn
    exact runState_spec env calls st0 st h0 hc e

/-! ## Claims C26 and C27 -/

theorem getD_of_isSome {α : Type} (o : Option α) (d : α) (h : o.isSome = true) :
    o = some (o.getD d) := by
  cases o with
  | none => simp at h
  | some x => rfl

theorem KVStore.Tidy.pairwise_apart {env : Env} {st : KVStore}
    (h : KVStore.Tidy env st []) (L : Nat) (c : Cache) (hL : 0 < L)
    (hc : st.diskTableCache[L]? = some c) : c.Pairwise SummaryOfSSTable.apart :=
  pairwise_of_nodup SummaryOfSSTable.apart (fun s => s.serialNum) c (h.serials L c hc)
    (fun a ha b hb hne => h.apart L c a b hL hc ha hb hne)

theorem twoLevelCalls_user : ∀ c ∈ twoLevelCalls, c.onUserKey := by
  intro c hc
  simp only [twoLevelCalls, List.mem_cons, List.mem_singleton, List.not_mem_nil, or_false] at hc
  rcases hc with rfl | rfl | rfl | rfl | rfl | rfl | rfl | rfl | rfl | rfl | rfl | rfl <;>
    first
    | exact userKey_of_lt _ (by decide) (by decide)
    | trivial

theorem twoRunCalls_user : ∀ c ∈ twoRunCalls, c.onUserKey := by
  intro c hc
  simp only [twoRunCalls, List.mem_cons, List.mem_singleton, List.not_mem_nil, or_false] at hc
  rcases hc with rfl | rfl | rfl | rfl | rfl | rfl <;>
    first
    | exact userKey_of_lt _ (by decide) (by decide)
    | trivial

theorem twoRunEngine_reachable : KVStore.Reachable Env.sample twoRunEngine :=
  ⟨twoRunCalls, twoRunCalls_user, getD_of_isSome _ _ (by decide!)⟩

theorem mergedEngine_eq : KVStore.mergeLayer Env.sample twoRunEngine 0 = some mergedEngine :=
  getD_of_isSome _ _ (by decide!)

/-- C26: every engine state reached from an empty data directory by `put`,
`get`, `del`, close and open on user keys is consistent, and on every level
above 0 of such a state any two summaries of the cache have key ranges
`[minKey, maxKey]` without a common key; `mergeLayer`, run on a consistent
state, returns a consistent state of which the same holds. -/
theorem C26_ranges_above_level_zero_are_apart (env : Env) :
    (∀ st, KVStore.Reachable env st →
      KVStore.Consistent env st ∧
        ∀ (L : Nat) (c : Cache), 0 < L → st.diskTableCache[L]? = some c →
          c.Pairwise SummaryOfSSTable.apart) ∧
    (∀ st L st1, KVStore.Consistent env st → KVStore.mergeLayer env st L = some st1 →
      KVStore.Consistent env st1 ∧
        ∀ (K : Nat) (c : Cache), 0 < K → st1.diskTableCache[K]? = some c →
          c.Pairwise SummaryOfSSTable.apart) := by
  constructor
  · intro st hr
    have h := hr.consistent
    exact ⟨h, fun L c hL hc => h.1.pairwise_apart L c hL hc⟩
  · intro st L st1 h e
    obtain ⟨_, _, _, _, _, _, _, _, _, _, _, _, h5, _, _, _, _, h10, h11, _⟩ :=
      mergeLayer_spec h.1 L st1 e
    have h1 : KVStore.Consistent env st1 := by
      refine ⟨h5, ?_⟩
      intro h0
      rw [h11]
      apply h.2
      rw [← h10]
      exact h0
    exact ⟨h1, fun K c hK hc => h1.1.pairwise_apart K c hK hc⟩

/-- Witness for C26: after `twoLevelCalls` level 1 holds two runs with the key
ranges `[1, 3]` and `[7, 9]`; `mergeLayer(0)` on the consistent engine
`twoRunEngine` returns `mergedEngine`, which holds one run on level 1, with the key 2. -/
theorem C26_ranges_above_level_zero_are_apart_witness :
    (∃ st, KVStore.after Env.sample twoLevelCalls = some st ∧
      (st.diskTableCache.map (fun c => c.map (fun s => (s.minKey, s.maxKey)))).take 3
        = [[], [(1, 3), (7, 9)], []] ∧
      KVStore.Consistent Env.sample st ∧
      ∀ (L : Nat) (c : Cache), 0 < L → st.diskTableCache[L]? = some c →
        c.Pairwise SummaryOfSSTable.apart) ∧
    (KVStore.Consistent Env.sample twoRunEngine ∧
      KVStore.mergeLayer Env.sample twoRunEngine 0 = some mergedEngine ∧
      (mergedEngine.diskTableCache.map (fun c => c.map (fun s => (s.minKey, s.maxKey)))).take 3
        = [[], [(2, 2)], []] ∧
      KVStore.Consistent Env.sample mergedEngine ∧
      ∀ (K : Nat) (c : Cache), 0 < K → mergedEngine.diskTableCache[K]? = some c →
        c.Pairwise SummaryOfSSTable.apart) := by
  constructor
  · have hs := getD_of_isSome (KVStore.after Env.sample twoLevelCalls)
      (KVStore.fresh Disk.empty) (by decide!)
    have hv : (KVStore.after Env.sample twoLevelCalls).map
        (fun st => (st.diskTableCache.map (fun c => c.map (fun s => (s.minKey, s.maxKey)))).take 3)
        = some [[], [(1, 3), (7, 9)], []] := by decide!
    rw [hs] at hv
    simp only [Option.map_some', Option.some.injEq] at hv
    have hr : KVStore.Reachable Env.sample
        ((KVStore.after Env.sample twoLevelCalls).getD (KVStore.fresh Disk.empty)) :=
      ⟨twoLevelCalls, twoLevelCalls_user, hs⟩
    have h := (C26_ranges_above_level_zero_are_apart Env.sample).1 _ hr
    exact ⟨_, hs, hv, h.1, h.2⟩
  · have hc := twoRunEngine_reachable.consistent
    have h := (C26_ranges_above_level_zero_are_apart Env.sample).2 twoRunEngine 0 mergedEngine hc
      mergedEngine_eq
    have hv : (KVStore.mergeLayer Env.sample twoRunEngine 0).map
        (fun st => (st.diskTableCache.map (fun c => c.map (fun s => (s.minKey, s.maxKey)))).take 3)
        = some [[], [(2, 2)], []] := by decide!
    rw [mergedEngine_eq] at hv
    simp only [Option.map_some', Option.some.injEq] at hv
    exact ⟨hc, mergedEngine_eq, hv, h.1, h.2⟩

/-- C27: in every engine state reached from an empty data directory by `put`,
`get`, `del`, close and open on user keys, the summaries of the cache of a
level have that level as their layer and pairwise distinct serials, each below
the serial counter `availableNum` of the level, each summary has its file
`(layer, serial)` on the disk, and no file of the level has the serial the
counter stands at or a larger one. -/
theorem C27_serials_are_distinct_and_below_the_counter (env : Env) (st : KVStore)
    (h : KVStore.Reachable env st) (L : Nat) (c : Cache)
    (hc : st.diskTableCache[L]? = some c) :
    (c.map (fun s => s.serialNum)).Nodup ∧
      ∃ a, st.availableNum[L]? = some a ∧
        (∀ s ∈ c, s.layer = L ∧ s.serialNum < a ∧
          ∃ bytes, st.disk.readFile L s.serialNum = some bytes) ∧
        ∀ n, a ≤ n → st.disk.readFile L n = none := by
  have ht := h.consistent.1
  have hlt : L < st.availableNum.length := by
    rw [ht.avail_len, ← ht.caches_len]
    exact (List.getElem?_eq_some.mp hc).1
  refine ⟨ht.serials L c hc, st.availableNum[L], List.getElem?_eq_getElem hlt, ?_, ?_⟩
  · intro s hs
    obtain ⟨e1, _, b, _, e3, _⟩ := ht.entries L c s hc hs
    obtain ⟨a, ha, hsa⟩ := ht.serial_lt L c s hc hs
    rw [List.getElem?_eq_getElem hlt] at ha
    simp only [Option.some.injEq] at ha
    exact ⟨e1, by rw [ha]; exact hsa, b, e3⟩
  · intro n hn
    exact st.disk.readFile_none L n
      (fun b => ht.no_file L _ (List.getElem?_eq_getElem hlt) n hn b)

/-- Witness for C27: level 1 of the engine after `twoLevelCalls`, which holds
the runs with the serials 0 and 1 below the counter 2. -/
theorem C27_serials_are_distinct_and_below_the_counter_witness :
    ∃ (st : KVStore) (c : Cache), KVStore.after Env.sample twoLevelCalls = some st ∧
      st.diskTableCache[1]? = some c ∧ c.map (fun s => s.serialNum) = [0, 1] ∧
      st.availableNum[1]? = some 2 ∧
      (c.map (fun s => s.serialNum)).Nodup ∧
      ∃ a, st.availableNum[1]? = some a ∧
        (∀ s ∈ c, s.layer = 1 ∧ s.serialNum < a ∧
          ∃ bytes, st.disk.readFile 1 s.serialNum = some bytes) ∧
        ∀ n, a ≤ n → st.disk.readFile 1 n = none := by
  have hs := getD_of_isSome (KVStore.after Env.sample twoLevelCalls)
    (KVStore.fresh Disk.empty) (by decide!)
  have hv : (KVStore.after Env.sample twoLevelCalls).map
      (fun st => ((st.diskTableCache.map (fun c => c.map (fun s => s.serialNum)))[1]?,
        st.availableNum[1]?)) = some (some [0, 1], some 2) := by decide!
  rw [hs] at hv
  simp only [Option.map_some', Option.some.injEq, Prod.mk.injEq, List.getElem?_map] at hv
  obtain ⟨hv1, hv2⟩ := hv
  cases hc : ((KVStore.after Env.sample twoLevelCalls).getD
      (KVStore.fresh Disk.empty)).diskTableCache[1]? with
  | none => simp [hc] at hv1
  | some c =>
    simp only [hc, Option.map_some', Option.some.injEq] at hv1
    exact ⟨_, c, hs, hc, hv1, hv2,
      C27_serials_are_distinct_and_below_the_counter Env.sample _
        ⟨twoLevelCalls, twoLevelCalls_user, hs⟩ 1 c hc⟩

/-! ## Claims C24 and C30 -/

/-- C30 fails on the code. After `tombstoneCalls` the deepest level is 1,
level 0 holds two runs and level 1 one; the close that follows compacts level
0 into level 1, the deepest level, and the run it writes there holds the
tombstone of key 3.  In the first compaction, after `twoRunCalls`, the deepest
level is 0, the runs of level 0 go to level 1, which is not the deepest level
when the merge starts, and the tombstone of key 9 is dropped. -/
theorem C30_tombstone_kept_when_target_is_deepest :
    (KVStore.after Env.sample tombstoneCalls).map
        (fun st => (st.depthOfLayer, st.serials.take 2)) = some (1, [[0, 1], [0]]) ∧
    (KVStore.after Env.sample (tombstoneCalls ++ [.reopen])).bind
        (fun st => st.recordsOf 1 1)
      = some [(1, 1, 2, [98]), (1, 1, 3, DELETED), (1, 1, 4, [100]), (1, 1, 5, [101])] ∧
    (KVStore.after Env.sample twoRunCalls).map
        (fun st => (st.depthOfLayer, st.serials.take 2)) = some (0, [[0, 1], []]) ∧
    (KVStore.after Env.sample (twoRunCalls ++ [.reopen])).bind
        (fun st => st.recordsOf 1 0)
      = some [(1, 0, 2, [98]), (1, 0, 3, [99])] := by
  refine ⟨by decide!, by decide!, by decide!, by decide!⟩

/-- C30, amended: `mergeLayer(L)` on a consistent engine drops the winning
records whose value is the tombstone exactly when `L` itself is
`depthOfLayer`, the deepest level when the merge starts.  With `merged` the
list `mergeAllFiles` makes of the runs selected on the levels `L` and `L + 1`,
the cache of level `L + 1` afterwards is the new summaries in front of the
summaries that were not selected; the file of every new summary holds only
pairs of winning records, and no tombstone when `L = depthOfLayer`; and every
winning record that is not a tombstone, or any winning record when
`L ≠ depthOfLayer`, is a pair of the file of a new summary. -/
theorem C30_tombstones_dropped_when_source_is_deepest (env : Env) (st : KVStore) (L : Nat)
    (st1 : KVStore) (h : KVStore.Consistent env st)
    (e : KVStore.mergeLayer env st L = some st1) :
    ∃ (c c1 : Cache) (files0 : List (Nat × Nat)) (mn mx : Key) (ts0 : Nat)
      (merged : List Record) (news : Cache),
      st.diskTableCache[L]? = some c ∧ st.diskTableCache[L + 1]? = some c1 ∧
      KVStore.scanFrom L (c.drop (KVStore.scanStart L)) KEY_MAX KEY_MIN 0
        = some (files0, mn, mx, ts0) ∧
      KVStore.mergeAllFiles st.disk
        (files0 ++ (c1.filter (fun s => !outside mn mx s)).map (fun s => (L + 1, s.serialNum)))
        [] = some merged ∧
      st1.diskTableCache[L + 1]? = some (news ++ c1.filter (outside mn mx)) ∧
      (∀ s ∈ news, ∃ bytes kvs, st1.disk.readFile (L + 1) s.serialNum = some bytes ∧
        IsRun env bytes kvs ∧
        ∀ kv ∈ kvs, (∃ w ∈ winners KEY_MAX merged, kv = (w.2.2.1, w.2.2.2)) ∧
          (L = st.depthOfLayer → kv.2 ≠ DELETED)) ∧
      (∀ w ∈ winners KEY_MAX merged, (L = st.depthOfLayer → w.2.2.2 ≠ DELETED) →
        ∃ s ∈ news, ∃ bytes kvs, st1.disk.readFile (L + 1) s.serialNum = some bytes ∧
          IsRun env bytes kvs ∧ (w.2.2.1, w.2.2.2) ∈ kvs) := by
  obtain ⟨c, c1, files0, mn, mx, ts0, merged, news, h1, h2, h3, h4, _, _, h7, _, _, _, _, _,
    h13, h14⟩ := mergeLayer_spec h.1 L st1 e
  have hdrop : ∀ w : Record, dropped (decide (L = st.depthOfLayer)) w = false ↔
      (L = st.depthOfLayer → w.2.2.2 ≠ DELETED) := by
    intro w
    simp only [dropped, Bool.and_eq_false_imp, decide_eq_true_eq, decide_eq_false_iff_not,
      ne_eq]
  refine ⟨c, c1, files0, mn, mx, ts0, merged, news, h1, h2, h3, h4, h7, ?_, ?_⟩
  · intro s hs
    obtain ⟨b, kvs, r1, r2, r3⟩ := h13 s hs
    refine ⟨b, kvs, r1, r2, ?_⟩
    intro kv hkv
    obtain ⟨w, hw, hd, rfl⟩ := r3 kv hkv
    exact ⟨⟨w, hw, rfl⟩, (hdrop w).mp hd⟩
  · intro w hw hk
    exact h14 w hw ((hdrop w).mpr hk)

/-- Witness for the amended C30: `mergeLayer(0)` on `twoRunEngine`, where
level 0 is the deepest level. -/
theorem C30_tombstones_dropped_when_source_is_deepest_witness :
    KVStore.Consistent Env.sample twoRunEngine ∧
    KVStore.mergeLayer Env.sample twoRunEngine 0 = some mergedEngine ∧
    ∃ (c c1 : Cache) (files0 : List (Nat × Nat)) (mn mx : Key) (ts0 : Nat)
      (merged : List Record) (news : Cache),
      twoRunEngine.diskTableCache[0]? = some c ∧ twoRunEngine.diskTableCache[0 + 1]? = some c1 ∧
      KVStore.scanFrom 0 (c.drop (KVStore.scanStart 0)) KEY_MAX KEY_MIN 0
        = some (files0, mn, mx, ts0) ∧
      KVStore.mergeAllFiles twoRunEngine.disk
        (files0 ++ (c1.filter (fun s => !outside mn mx s)).map (fun s => (0 + 1, s.serialNum)))
        [] = some merged ∧
      mergedEngine.diskTableCache[0 + 1]? = some (news ++ c1.filter (outside mn mx)) ∧
      (∀ s ∈ news, ∃ bytes kvs, mergedEngine.disk.readFile (0 + 1) s.serialNum = some bytes ∧
        IsRun Env.sample bytes kvs ∧
        ∀ kv ∈ kvs, (∃ w ∈ winners KEY_MAX merged, kv = (w.2.2.1, w.2.2.2)) ∧
          (0 = twoRunEngine.depthOfLayer → kv.2 ≠ DELETED)) ∧
      (∀ w ∈ winners KEY_MAX merged, (0 = twoRunEngine.depthOfLayer → w.2.2.2 ≠ DELETED) →
        ∃ s ∈ news, ∃ bytes kvs,
          mergedEngine.disk.readFile (0 + 1) s.serialNum = some bytes ∧
          IsRun Env.sample bytes kvs ∧ (w.2.2.1, w.2.2.2) ∈ kvs) :=
  ⟨twoRunEngine_reachable.consistent, mergedEngine_eq,
    C30_tombstones_dropped_when_source_is_deepest Env.sample twoRunEngine 0 mergedEngine
      twoRunEngine_reachable.consistent mergedEngine_eq⟩

/-! ## Claims C31, C32, C34 and C36 -/

/-- C31 fails on the code.  `twoRunEngine` holds two runs on level 0, both with
time stamp 0, and its counter `curTimeStamp` is 0.  Its close flushes the
memtable into a third run with time stamp 0, advances the counter to 1 and
compacts the three runs into the run `(1, 0)`.  The summary inserted into the
cache of level 1 carries the time stamp 0, the maximum of the runs selected;
the file `level-1/sst_0.sst` carries 1, the counter.  After the next open the
summary read from the file carries 1. -/
theorem C31_file_carries_the_counter_not_the_maximum :
    twoRunEngine.curTimeStamp = 0
      ∧ (twoRunEngine.diskTableCache.take 2).map
          (fun c => c.map (fun s => (s.serialNum, s.timeStamp))) = [[(0, 0), (1, 0)], []]
      ∧ (KVStore.close Env.sample twoRunEngine).map (fun st => st.curTimeStamp) = some 1
      ∧ (KVStore.close Env.sample twoRunEngine).map (fun st =>
          (st.diskTableCache.take 2).map (fun c => c.map (fun s => (s.serialNum, s.timeStamp))))
          = some [[], [(0, 0)]]
      ∧ (KVStore.close Env.sample twoRunEngine).map (fun st =>
          (st.disk.readFile 1 0).bind (fun file =>
            (readSummaryOfSSTableFromFile 1 0 file).map (fun s => s.timeStamp)))
          = some (some 1)
      ∧ (KVStore.after Env.sample (twoRunCalls ++ [Call.reopen])).map (fun st =>
          (st.diskTableCache.take 2).map (fun c => c.map (fun s => (s.serialNum, s.timeStamp))))
          = some [[], [(0, 1)]] := by
  decide!

theorem search_in_range (env : Env) (s : SummaryOfSSTable) (rest : Cache) (k : Key)
    (h1 : s.minKey ≤ k) (h2 : k ≤ s.maxKey) :
    Cache.search env (s :: rest) k =
      match lowerBound k s.keyOffset with
      | result :: _ => if k = result.1 then (s.layer, s.serialNum, result.2) else MISS
      | [] => MISS := by
  have hr : ¬ (k > s.maxKey ∨ k < s.minKey) := by
    unfold Key at *
    omega
  simp only [Cache.search, hr, if_false, bloomBitIsChar0_false, Bool.false_eq_true]

theorem search_out_of_range (env : Env) (s : SummaryOfSSTable) (rest : Cache) (k : Key)
    (h : k < s.minKey ∨ s.maxKey < k) :
    Cache.search env (s :: rest) k = Cache.search env rest k := by
  have hr : k > s.maxKey ∨ k < s.minKey := h.symm
  simp only [Cache.search, hr, if_true]

/-- C32: for every summary `s` at the front of a level cache and every key `k`
within `[s.minKey, s.maxKey]`, whatever the bits of the filter of `s` are,
`search` consults the directory of `s` and returns from there: the entry of `k`
if the directory has one, the miss result otherwise, without going on to the
next summary.  A key outside `[s.minKey, s.maxKey]` is passed on to the rest of
the cache. -/
theorem C32_clear_bloom_bit_does_not_skip (env : Env) (s : SummaryOfSSTable) (rest : Cache)
    (k : Key) :
    (s.minKey ≤ k → k ≤ s.maxKey →
      Cache.search env (s :: rest) k =
        match lowerBound k s.keyOffset with
        | result :: _ => if k = result.1 then (s.layer, s.serialNum, result.2) else MISS
        | [] => MISS) ∧
    (k < s.minKey ∨ s.maxKey < k →
      Cache.search env (s :: rest) k = Cache.search env rest k) :=
  ⟨search_in_range env s rest k, search_out_of_range env s rest k⟩

/-- Witness for C32: `twoRuns` is the cache `[frontRun, backRun]`.  The key 2
lies in the range `[1, 3]` of `frontRun`; the four bits of the filter of
`frontRun` that `search` tests for the key 2 are clear, and so are the four
bits the builder would have set for it; `search(2)` returns the miss result,
although `backRun` holds the key 2.  The key 4 lies outside the range and is
passed on. -/
theorem C32_clear_bloom_bit_does_not_skip_witness :
    twoRuns = some [frontRun, backRun]
      ∧ frontRun.minKey ≤ 2 ∧ (2 : Key) ≤ frontRun.maxKey
      ∧ (List.range 4).map (fun i =>
          frontRun.bloom.testBit (Env.sample.hash_x86_128 2 i % BLOOM_SIZE))
          = [false, false, false, false]
      ∧ (List.range 4).map (fun i =>
          frontRun.bloom.testBit (Env.sample.hash_x64_128 2 i % BLOOM_SIZE))
          = [false, false, false, false]
      ∧ Cache.search Env.sample [frontRun, backRun] 2 = MISS
      ∧ Cache.search Env.sample [backRun] 2 = (0, 0, 0)
      ∧ ((4 : Key) < frontRun.minKey ∨ frontRun.maxKey < 4)
      ∧ Cache.search Env.sample [frontRun, backRun] 4 = Cache.search Env.sample [backRun] 4 :=
  ⟨by decide!, by decide!, by decide!, by decide!, by decide!,
    ((C32_clear_bloom_bit_does_not_skip Env.sample frontRun [backRun] 2).1
      (by decide!) (by decide!)).trans (by decide!),
    by decide!, Or.inr (by decide!),
    (C32_clear_bloom_bit_does_not_skip Env.sample frontRun [backRun] 4).2
      (Or.inr (by decide!))⟩

theorem KVStore.Tidy.files_match {env : Env} {st : KVStore} (h : KVStore.Tidy env st []) :
    st.cachesMatchFiles := by
  intro L n
  constructor
  · rintro ⟨j, c, s, hc, hs, hl, hn⟩
    obtain ⟨hj, _, bytes, _, hb, _⟩ := h.entries j c s hc hs
    rw [hl] at hj
    subst hj
    subst hn
    exact ⟨bytes, Disk.mem_of_readFile _ _ _ _ hb⟩
  · rintro ⟨bytes, hb⟩
    obtain ⟨_, _, hp⟩ := h.files L n bytes hb
    rcases hp with hp | ⟨c, s, hc, hs, hn⟩
    · cases hp
    · exact ⟨L, c, s, hc, hs, (h.entries L c s hc hs).1, hn⟩

/-- C34: in every engine state reached from an empty data directory by `put`,
`get`, `del`, close and open on user keys, a pair `(L, n)` is the
`(layer, serialNum)` of a summary of some level cache exactly when the file
`level-L/sst_n.sst` is on the disk; the summaries of cache `L` have layer `L`
and pairwise different serials, and no file name occurs twice.  The flush of
the memtable and `mergeLayer`, run on a consistent state, return a state of
which the same holds. -/
theorem C34_caches_list_exactly_the_files (env : Env) :
    (∀ st, KVStore.Reachable env st →
      st.cachesMatchFiles ∧
      (∀ (L : Nat) (c : Cache), st.diskTableCache[L]? = some c →
        (∀ s ∈ c, s.layer = L) ∧ (c.map (fun s => s.serialNum)).Nodup) ∧
      (st.disk.files.map Prod.fst).Nodup) ∧
    (∀ st st1, KVStore.Consistent env st → KVStore.flush env st = some st1 →
      st1.cachesMatchFiles) ∧
    (∀ st L st1, KVStore.Consistent env st → KVStore.mergeLayer env st L = some st1 →
      st1.cachesMatchFiles) := by
  refine ⟨?_, ?_, ?_⟩
  · intro st hr
    have h := hr.consistent.1
    exact ⟨h.files_match,
      fun L c hc => ⟨fun s hs => (h.entries L c s hc hs).1, h.serials L c hc⟩, h.names⟩
  · intro st st1 h e
    obtain ⟨cells, hw⟩ := h.1.mem
    exact (flush_spec h.1 cells hw st1 e).2.1.files_match
  · intro st L st1 h e
    obtain ⟨_, _, _, _, _, _, _, _, _, _, _, _, h5, _⟩ := mergeLayer_spec h.1 L st1 e
    exact h5.files_match

/-- Witness for C34: `twoRunEngine` holds the summaries of the runs `(0, 0)`
and `(0, 1)` and the two files of these names; after the flush of its memtable,
which compacts level 0, the engine holds one summary and one file, `(1, 0)`;
`mergeLayer(0)` on `twoRunEngine` returns `mergedEngine`, which holds the
summary and the file of the run `(1, 0)`. -/
theorem C34_caches_list_exactly_the_files_witness :
    (KVStore.Reachable Env.sample twoRunEngine ∧
      twoRunEngine.serials.take 2 = [[0, 1], []] ∧
      twoRunEngine.disk.files.map Prod.fst = [(0, 1), (0, 0)] ∧
      twoRunEngine.cachesMatchFiles) ∧
    (∃ st1, KVStore.flush Env.sample twoRunEngine = some st1 ∧
      st1.serials.take 2 = [[], [0]] ∧ st1.disk.files.map Prod.fst = [(1, 0)] ∧
      st1.cachesMatchFiles) ∧
    (KVStore.mergeLayer Env.sample twoRunEngine 0 = some mergedEngine ∧
      mergedEngine.serials.take 2 = [[], [0]] ∧
      mergedEngine.disk.files.map Prod.fst = [(1, 0)] ∧
      mergedEngine.cachesMatchFiles) := by
  have h := C34_caches_list_exactly_the_files Env.sample
  have hc := twoRunEngine_reachable.consistent
  have hf := getD_of_isSome (KVStore.flush Env.sample twoRunEngine) twoRunEngine (by decide!)
  have hs : (KVStore.flush Env.sample twoRunEngine).map
      (fun st => (st.serials.take 2, st.disk.files.map Prod.fst))
      = some ([[], [0]], [(1, 0)]) := by decide!
  rw [hf] at hs
  simp only [Option.map_some', Option.some.injEq, Prod.mk.injEq] at hs
  exact ⟨⟨twoRunEngine_reachable, by decide!, by decide!, (h.1 _ twoRunEngine_reachable).1⟩,
    ⟨_, hf, hs.1, hs.2, h.2.1 _ _ hc hf⟩,
    ⟨mergedEngine_eq, by decide!, by decide!, h.2.2 _ 0 _ hc mergedEngine_eq⟩⟩

/-- C36: in every skip list reached from the empty list by `insert`, `remove`
and `clear` on user keys the level counter is at most 15 and the level
`randomLevel` draws lies in `[1, 15]`; `insert` and `remove` on a user key,
`search` on any key, `scan` on any range `lo ≤ hi` and `clear` return, which
they do only if every index into `update`, into the forward pointers of the
header and of the nodes is in bounds and every loop over the nodes ends; the
list they leave has a level counter of at most 15 again. -/
theorem C36_level_counter_and_indices_in_bounds (env : Env) (li : SkipList)
    (h : li.Reachable env) :
    li.curLevel_ ≤ 15 ∧
    (1 ≤ (li.randomLevel env).1 ∧ (li.randomLevel env).1 ≤ 15) ∧
    (∃ r, SkipList.descend li.heap KEY_MAX li.fuelOf li.curLevel_ li.header_ SkipList.newUpdate
      = some r) ∧
    (∀ key value, UserKey key →
      ∃ r li1, li.insert env key value = some (r, li1) ∧ li1.curLevel_ ≤ 15) ∧
    (∀ key, UserKey key → ∃ r li1, li.remove key = some (r, li1) ∧ li1.curLevel_ ≤ 15) ∧
    (∀ key, key ≤ KEY_MAX → ∃ r, li.search key = some r) ∧
    (∀ lo hi, lo ≤ hi → hi ≤ KEY_MAX → ∃ out, li.scan lo hi = some out) ∧
    (∃ li1, li.clear = some li1 ∧ li1.curLevel_ = 0) := by
  obtain ⟨cells, hw⟩ := h.wellFormed
  have lvl : ∀ {l : SkipList} {cs : List Cell}, WellFormed l cs → l.curLevel_ ≤ 15 := by
    intro l cs hl
    have := hl.level_lt
    unfold MAX_LEVEL at this
    omega
  refine ⟨lvl hw, ?_, ?_, ?_, ?_, ?_, ?_, ?_⟩
  · obtain ⟨rl, e, h1, h2⟩ := randomLevel_spec env li
    rw [e]
    unfold MAX_LEVEL at h2
    exact ⟨h1, by omega⟩
  · have hs := hw.search KEY_MAX (Nat.le_refl _)
    unfold SkipList.search at hs
    cases hd : SkipList.descend li.heap KEY_MAX li.fuelOf li.curLevel_ li.header_
        SkipList.newUpdate with
    | none => simp [hd] at hs
    | some r => exact ⟨r, rfl⟩
  · intro key value hk
    obtain ⟨li1, cells1, e, hw1, _⟩ := hw.insert env key value hk
    exact ⟨_, li1, e, lvl hw1⟩
  · intro key hk
    obtain ⟨li1, cells1, e, hw1, _⟩ := hw.remove key hk
    exact ⟨_, li1, e, lvl hw1⟩
  · intro key hk
    exact ⟨_, hw.search key hk⟩
  · intro lo hi h1 h2
    exact ⟨_, hw.scan lo hi h1 h2⟩
  · obtain ⟨li1, e, _, _, _, h0⟩ := hw.clear
    exact ⟨li1, e, h0⟩

/-- Witness for C36: the list `sampleList`, built by three calls of `insert`,
with `insert(5, "e")`, `remove(2)`, `search(2)` and `scan(1, 3)`. -/
theorem C36_level_counter_and_indices_in_bounds_witness :
    sampleList.Reachable Env.sample ∧ UserKey 5 ∧ UserKey 2 ∧
    sampleList.curLevel_ ≤ 15 ∧
    (1 ≤ (sampleList.randomLevel Env.sample).1 ∧ (sampleList.randomLevel Env.sample).1 ≤ 15) ∧
    (∃ r li1, sampleList.insert Env.sample 5 [101] = some (r, li1) ∧ li1.curLevel_ ≤ 15) ∧
    (∃ r li1, sampleList.remove 2 = some (r, li1) ∧ li1.curLevel_ ≤ 15) ∧
    (∃ r, sampleList.search 2 = some r) ∧
    (∃ out, sampleList.scan 1 3 = some out) :=
  have h := C36_level_counter_and_indices_in_bounds Env.sample sampleList sampleList_reachable
  ⟨sampleList_reachable, userKey_of_lt 5 (by decide) (by decide),
    userKey_of_lt 2 (by decide) (by decide), h.1, h.2.1,
    h.2.2.2.1 5 [101] (userKey_of_lt 5 (by decide) (by decide)),
    h.2.2.2.2.1 2 (userKey_of_lt 2 (by decide) (by decide)),
    h.2.2.2.2.2.1 2 (by decide),
    h.2.2.2.2.2.2.1 1 3 (by decide) (by decide)⟩

/-! ## Claim C35 -/

theorem flush_eq (env : Env) (st : KVStore) :
    KVStore.flush env st =
      match KVStore.flushWrite env st with
      | none => none
      | some st1 =>
        match KVStore.compaction env st1 with
        | none => none
        | some st2 =>
          match st2.memTable.clear with
          | none => none
          | some cleared => some (KVStore.clearWAL { st2 with memTable := cleared }) := by
  unfold KVStore.flush KVStore.flushWrite
  cases SSTable.ofSkipList env st.memTable with
  | none => rfl
  | some sst =>
    cases st.diskTableCache[0]? with
    | none => rfl
    | some c =>
      cases st.availableNum[0]? with
      | none => rfl
      | some serial =>
        simp only []
        cases Cache.insertTable c sst 0 serial st.curTimeStamp with
        | none => rfl
        | some c1 =>
          simp only []
          cases setAt st.diskTableCache 0 c1 with
          | none => rfl
          | some caches =>
            cases setAt st.availableNum 0 (serial + 1) with
            | none => rfl
            | some avail => rfl

theorem mergeLayer_eq (env : Env) (st : KVStore) (L : Nat) :
    KVStore.mergeLayer env st L =
      match KVStore.mergeStart st L with
      | none => none
      | some (st1, mergeFiles, curMaxTimestamp, resultOfMerge) =>
        match KVStore.mergeLoop env L curMaxTimestamp (decide (L = st1.depthOfLayer))
            resultOfMerge KEY_MAX st1 with
        | none => none
        | some st2 =>
          match (if st2.mergeTable.nodeNum > 0 then
              KVStore.writeSSTToNextLayer env st2 L curMaxTimestamp else some st2) with
          | none => none
          | some st3 => some { st3 with disk := KVStore.removeFiles mergeFiles st3.disk } := by
  unfold KVStore.mergeLayer KVStore.mergeStart
  simp only []
  cases KVStore.scanLayerSSTByOffset st L
      (if L > 0 then KVStore.MaxSSTFileNumberInLayer L else 0) with
  | none => rfl
  | some r =>
    obtain ⟨files0, minKey, maxKey, ts0⟩ := r
    cases st.diskTableCache[L]? with
    | none => rfl
    | some c =>
      simp only []
      cases setAt st.diskTableCache L
          (c.take (if L > 0 then KVStore.MaxSSTFileNumberInLayer L else 0)) with
      | none => rfl
      | some caches =>
        simp only []
        cases KVStore.SSTNeedMergedNextLayer { st with diskTableCache := caches } L
            minKey maxKey with
        | none => rfl
        | some r1 =>
          obtain ⟨st1, files1, tmp⟩ := r1
          simp only []
          cases KVStore.mergeAllFiles st1.disk (files0 ++ files1) [] with
          | none => rfl
          | some merged =>
            cases st1.mergeTable.clear with
            | none => rfl
            | some cleared => rfl

/-- When the loop of `mergeLayer` meets a record with a new key that is not
dropped and does not fit into `mergeTable`, and `mergeTable` is empty, the
table builder called by `writeSSTToNextLayer` fails its assertions. -/
theorem mergeLoop_empty_table (env : Env) (L ts : Nat) (bottom : Bool) (r : Record)
    (rest : List Record) (prev : Key) (st : KVStore) (hn : st.mergeTable.nodeCount_ = 0)
    (hk : r.2.2.1 ≠ prev) (hd : ¬ (bottom = true ∧ r.2.2.2 = DELETED))
    (hs : ¬ add64 (add64 st.mergeTable.getMemSize SIZEOF_KEY) r.2.2.2.length < MEM_LIMIT) :
    KVStore.writeSSTToNextLayer env st L ts = none ∧
      KVStore.mergeLoop env L ts bottom (r :: rest) prev st = none := by
  have hw : KVStore.writeSSTToNextLayer env st L ts = none := by
    unfold KVStore.writeSSTToNextLayer
    simp only [ofSkipList_empty env st.mergeTable hn]
  refine ⟨hw, ?_⟩
  obtain ⟨a, b, key, val⟩ := r
  simp only [] at hk hd hs
  simp only [KVStore.mergeLoop, hk, ne_eq, not_false_eq_true, if_true, hd, if_false, hs, hw]

theorem bigFirstCalls_user : ∀ c ∈ bigFirstCalls, c.onUserKey := by
  intro c hc
  simp only [bigFirstCalls, List.mem_cons, List.mem_singleton, List.not_mem_nil, or_false] at hc
  rcases hc with rfl | rfl | rfl | rfl
  · exact userKey_of_lt _ (by decide) (by decide)
  · exact userKey_of_lt _ (by decide) (by decide)
  · trivial
  · exact userKey_of_lt _ (by decide) (by decide)

theorem bigFirst_returns :
    (KVStore.after Env.sample bigFirstCalls).isSome = true ∧
      (KVStore.flushWrite Env.sample bigFirstEngine).isSome = true ∧
      (KVStore.mergeStart bigFirstWritten 0).isSome = true := by
  decide!

theorem bigFirstEngine_eq : KVStore.after Env.sample bigFirstCalls = some bigFirstEngine :=
  getD_of_isSome _ _ bigFirst_returns.1

theorem bigFirstWritten_eq :
    KVStore.flushWrite Env.sample bigFirstEngine = some bigFirstWritten :=
  getD_of_isSome _ _ bigFirst_returns.2.1

theorem bigFirstStart_eq : KVStore.mergeStart bigFirstWritten 0 = some bigFirstStart :=
  getD_of_isSome _ _ bigFirst_returns.2.2

theorem length_of_drop {α : Type} (v : List α) (k : Nat) (x : α) (h : v.drop k = [x]) :
    v.length = k + 1 := by
  have h1 : (v.drop k).length = 1 := by rw [h]; rfl
  rw [List.length_drop] at h1
  omega

theorem bigFirst_facts :
    bigFirstEngine.memTable.nodeNum > 0 ∧
      bigFirstEngine.serials.take 2 = [[0, 1], []] ∧
      bigFirstWritten.serials.take 2 = [[2, 0, 1], []] ∧
      KVStore.layerSSTExceedLimit bigFirstWritten 0 = some true ∧
      bigFirstStart.1.mergeTable.nodeCount_ = 0 ∧
      bigFirstStart.1.mergeTable.getMemSize = 0 ∧
      bigFirstStart.2.2.2.map (fun r => r.2.2.1) = [1, 5, 7] ∧
      bigFirstStart.2.2.2.map (fun r => (r.2.2.1, r.2.2.2.drop 16375))
        = [(1, [120]), (5, []), (7, [])] := by
  decide!

theorem bigFirstStart_head :
    ∃ (r : Record) (rest : List Record), bigFirstStart.2.2.2 = r :: rest ∧ r.2.2.1 = 1 ∧
      r.2.2.2.length = 16376 := by
  have h := bigFirst_facts.2.2.2.2.2.2.2
  cases hm : bigFirstStart.2.2.2 with
  | nil => rw [hm] at h; simp at h
  | cons r rest =>
    rw [hm] at h
    simp only [List.map_cons, List.cons.injEq, Prod.mk.injEq] at h
    exact ⟨r, rest, rfl, h.1.1, length_of_drop _ _ _ h.1.2⟩

theorem bigFirst_loop_fails :
    KVStore.writeSSTToNextLayer Env.sample bigFirstStart.1 0 bigFirstStart.2.2.1 = none ∧
      KVStore.mergeLoop Env.sample 0 bigFirstStart.2.2.1
        (decide (0 = bigFirstStart.1.depthOfLayer)) bigFirstStart.2.2.2 KEY_MAX
        bigFirstStart.1 = none := by
  obtain ⟨r, rest, hm, hk, hl⟩ := bigFirstStart_head
  rw [hm]
  refine mergeLoop_empty_table Env.sample 0 _ _ r rest KEY_MAX _ bigFirst_facts.2.2.2.2.1
    ?_ ?_ ?_
  · rw [hk]; decide
  · rintro ⟨_, hd⟩
    rw [hd] at hl
    exact absurd hl (by decide)
  · rw [bigFirst_facts.2.2.2.2.2.1, hl]
    decide

theorem mergeLayer_none (env : Env) (st : KVStore) (L : Nat)
    (x : KVStore × List (Nat × Nat) × Nat × List Record)
    (e : KVStore.mergeStart st L = some x)
    (h : KVStore.mergeLoop env L x.2.2.1 (decide (L = x.1.depthOfLayer)) x.2.2.2 KEY_MAX x.1
      = none) :
    KVStore.mergeLayer env st L = none := by
  obtain ⟨st1, files, ts, merged⟩ := x
  rw [mergeLayer_eq, e]
  simp only [] at h
  simp only [h]

theorem compaction_none (env : Env) (st : KVStore)
    (h1 : KVStore.layerSSTExceedLimit st 0 = some true)
    (h2 : KVStore.mergeLayer env st 0 = none) : KVStore.compaction env st = none := by
  simp only [KVStore.compaction, KVStore.compactionLoop, h1, h2]

theorem flush_none (env : Env) (st st1 : KVStore) (h1 : KVStore.flushWrite env st = some st1)
    (h2 : KVStore.compaction env st1 = none) : KVStore.flush env st = none := by
  rw [flush_eq, h1]
  simp only [h2]

theorem close_none (env : Env) (st : KVStore) (hn : st.memTable.nodeNum > 0)
    (h : KVStore.flush env st = none) : KVStore.close env st = none := by
  rw [KVStore.close, if_pos hn, h]

theorem reopen_none (env : Env) (st : KVStore) (h : KVStore.close env st = none) :
    KVStore.call env st Call.reopen = none := by
  simp only [KVStore.call, h]

theorem bigFirst_merge_fails : KVStore.mergeLayer Env.sample bigFirstWritten 0 = none :=
  mergeLayer_none Env.sample bigFirstWritten 0 bigFirstStart bigFirstStart_eq
    bigFirst_loop_fails.2

theorem bigFirst_close_fails : KVStore.close Env.sample bigFirstEngine = none :=
  close_none Env.sample bigFirstEngine bigFirst_facts.1
    (flush_none Env.sample bigFirstEngine bigFirstWritten bigFirstWritten_eq
      (compaction_none Env.sample bigFirstWritten bigFirst_facts.2.2.2.1 bigFirst_merge_fails))

/-- C35 fails on the code, in both parts.
On the engine opened on an empty data directory the memtable is empty and its
counter is 0; for a value of 16376 bytes the test
`getMemSize() + sizeof(K) + value.size() < MEM_LIMIT` of `put(1, value)` fails
(the sum is `MEM_LIMIT`), `put` takes its flush branch, `getMinKey` and
`getMaxKey` return `false`, and the table builder fails its assertions: `put`
does not return.
After `bigFirstCalls` level 0 holds the runs `(0, 0)` and `(0, 1)` and the
memtable the key 7.  The close writes the run `(0, 2)`, level 0 exceeds its
limit, and `mergeLayer(0)` merges the records of the keys 1, 5 and 7.  The
first record carries a value of 16376 bytes; `mergeTable` is empty, the record
does not fit, and `writeSSTToNextLayer` is called on the empty `mergeTable`:
the table builder fails its assertions and the close does not return. -/
theorem C35_flush_branch_meets_empty_table :
    ((KVStore.new Env.sample Disk.empty).map (fun st =>
        (st.memTable.nodeNum,
          decide (add64 (add64 st.memTable.getMemSize SIZEOF_KEY) (pad 16376).length
            < MEM_LIMIT))) = some (0, false)
      ∧ (KVStore.new Env.sample Disk.empty).map (fun st =>
          (st.memTable.getMinKey, st.memTable.getMaxKey))
          = some (some (false, KEY_MAX), some (false, KEY_MAX))
      ∧ (KVStore.new Env.sample Disk.empty).map (fun st =>
          ((SSTable.ofSkipList Env.sample st.memTable).isSome,
            (KVStore.put Env.sample st 1 (pad 16376)).isSome)) = some (false, false)
      ∧ KVStore.session Env.sample [Call.put 1 (pad 16376)] = none) ∧
    (KVStore.Reachable Env.sample bigFirstEngine ∧
      bigFirstEngine.serials.take 2 = [[0, 1], []] ∧
      KVStore.flushWrite Env.sample bigFirstEngine = some bigFirstWritten ∧
      bigFirstWritten.serials.take 2 = [[2, 0, 1], []] ∧
      KVStore.layerSSTExceedLimit bigFirstWritten 0 = some true ∧
      KVStore.mergeStart bigFirstWritten 0 = some bigFirstStart ∧
      bigFirstStart.2.2.2.map (fun r => r.2.2.1) = [1, 5, 7] ∧
      (∃ (r : Record) (rest : List Record), bigFirstStart.2.2.2 = r :: rest ∧ r.2.2.1 = 1 ∧
        r.2.2.2.length = 16376) ∧
      bigFirstStart.1.mergeTable.nodeNum = 0 ∧
      bigFirstStart.1.mergeTable.getMemSize = 0 ∧
      SSTable.ofSkipList Env.sample bigFirstStart.1.mergeTable = none ∧
      KVStore.writeSSTToNextLayer Env.sample bigFirstStart.1 0 bigFirstStart.2.2.1 = none ∧
      KVStore.mergeLayer Env.sample bigFirstWritten 0 = none ∧
      KVStore.close Env.sample bigFirstEngine = none ∧
      KVStore.call Env.sample bigFirstEngine Call.reopen = none) :=
  ⟨by decide!,
    ⟨bigFirstCalls, bigFirstCalls_user, bigFirstEngine_eq⟩, bigFirst_facts.2.1,
    bigFirstWritten_eq, bigFirst_facts.2.2.1, bigFirst_facts.2.2.2.1, bigFirstStart_eq,
    bigFirst_facts.2.2.2.2.2.2.1, bigFirstStart_head, bigFirst_facts.2.2.2.2.1,
    bigFirst_facts.2.2.2.2.2.1, ofSkipList_empty Env.sample _ bigFirst_facts.2.2.2.2.1,
    bigFirst_loop_fails.1, bigFirst_merge_fails, bigFirst_close_fails,
    reopen_none Env.sample bigFirstEngine bigFirst_close_fails⟩

/-! ## Claim C33 -/

theorem maxSST_eq (L : Nat) : KVStore.MaxSSTFileNumberInLayer L = 2 ^ (L + 1) := by
  unfold KVStore.MaxSSTFileNumberInLayer
  rw [Nat.pow_succ, Nat.mul_comm]

theorem flushWrite_spec {env : Env} {st : KVStore} (h : KVStore.Tidy env st [])
    (cells : List Cell) (hw : WellFormed st.memTable cells) (st1 : KVStore)
    (e : KVStore.flushWrite env st = some st1) :
    KVStore.Tidy env st1 [] ∧
      (∃ (c : Cache) (s : SummaryOfSSTable),
        st.diskTableCache[0]? = some c ∧ st1.diskTableCache[0]? = some (s :: c)) ∧
      (∀ j, j ≠ 0 → st1.diskTableCache[j]? = st.diskTableCache[j]?) ∧
      st1.memTable = st.memTable := by
  have h0c : 0 < st.diskTableCache.length := by rw [h.caches_len]; decide
  have h0a : 0 < st.availableNum.length := by rw [h.avail_len]; decide
  obtain ⟨c, hc⟩ : ∃ c, st.diskTableCache[0]? = some c := ⟨_, List.getElem?_eq_getElem h0c⟩
  obtain ⟨a, ha⟩ : ∃ a, st.availableNum[0]? = some a := ⟨_, List.getElem?_eq_getElem h0a⟩
  unfold KVStore.flushWrite at e
  cases ht : SSTable.ofSkipList env st.memTable with
  | none => simp only [ht, reduceCtorEq] at e
  | some t =>
    obtain ⟨hne, hte, hrun⟩ := hw.table env t ht
    simp only [ht, hc, ha] at e
    cases hi : Cache.insertTable c t 0 a st.curTimeStamp with
    | none => simp only [hi, reduceCtorEq] at e
    | some c1 =>
      simp only [hi, setAt_some _ _ _ h0c, setAt_some _ _ _ h0a, Option.some.injEq] at e
      unfold Cache.insertTable at hi
      cases hs : SummaryOfSSTable.ofSSTable t 0 a st.curTimeStamp with
      | none => simp only [hs, reduceCtorEq] at hi
      | some s =>
        simp only [hs, Option.some.injEq] at hi
        unfold SummaryOfSSTable.ofSSTable at hs
        split at hs
        · simp only [Option.some.injEq] at hs
          have hsl : s.layer = 0 := by rw [← hs]
          have hsn : s.serialNum = a := by rw [← hs]
          have hmin : s.minKey = firstKey (pairsOf cells) := by rw [← hs, hte]; rfl
          have hmax : s.maxKey = lastKey (pairsOf cells) := by rw [← hs, hte]; rfl
          have htidy : KVStore.Tidy env
              { st with
                diskTableCache := st.diskTableCache.set 0 c1,
                disk := (st.disk.ensureDir 0).writeFile 0 a (t.writeToFile st.curTimeStamp),
                availableNum := st.availableNum.set 0 (a + 1),
                curTimeStamp := st.curTimeStamp + 1 } [] := by
            refine h.add_run _ 0 a c s (t.writeToFile st.curTimeStamp) (pairsOf cells)
              h.mem h.merge hc ha ?_ ?_ rfl (hrun _) hsl hsn hmin hmax (Or.inl rfl) ?_
            · rw [← hi]
              refine ⟨by simp, by simp [h0c], ?_⟩
              intro j hj
              simp only
              rw [List.getElem?_set_ne (Ne.symm hj)]
            · refine ⟨by simp, by simp [h0a], ?_⟩
              intro j hj
              simp only
              rw [List.getElem?_set_ne (Ne.symm hj)]
            · intro h0
              exact absurd h0 (Nat.lt_irrefl _)
          subst e
          refine ⟨htidy, ⟨c, s, hc, ?_⟩, ?_, rfl⟩
          · show (st.diskTableCache.set 0 c1)[0]? = _
            rw [← hi]
            simp [h0c]
          · intro j hj
            show (st.diskTableCache.set 0 c1)[j]? = _
            rw [List.getElem?_set_ne (Ne.symm hj)]
        · exact absurd hs (by simp)

theorem scanStart_le (L : Nat) : KVStore.scanStart L ≤ KVStore.MaxSSTFileNumberInLayer L := by
  unfold KVStore.scanStart
  split
  · exact Nat.le_refl _
  · exact Nat.zero_le _

theorem compactionLoop_bound (env : Env) (fuel : Nat) :
    ∀ (L : Nat) (st st1 : KVStore), KVStore.Tidy env st [] →
      (∀ (j : Nat) (c : Cache), j ≠ L → st.diskTableCache[j]? = some c →
        c.length ≤ KVStore.MaxSSTFileNumberInLayer j) →
      KVStore.compactionLoop env fuel L st = some st1 →
      ∀ (j : Nat) (c : Cache), st1.diskTableCache[j]? = some c →
        c.length ≤ KVStore.MaxSSTFileNumberInLayer j := by
  induction fuel with
  | zero =>
    intro L st st1 _ _ e
    simp [KVStore.compactionLoop] at e
  | succ fuel ih =>
    intro L st st1 h hb e
    unfold KVStore.compactionLoop at e
    cases hx : KVStore.layerSSTExceedLimit st L with
    | none => simp only [hx, reduceCtorEq] at e
    | some b =>
      cases b with
      | false =>
        simp only [hx, Option.some.injEq] at e
        subst e
        intro j c hc
        by_cases hj : j = L
        · subst hj
          unfold KVStore.layerSSTExceedLimit at hx
          simp only [hc, Option.some.injEq, decide_eq_false_iff_not] at hx
          exact Nat.le_of_not_lt hx
        · exact hb j c hj hc
      | true =>
        simp only [hx] at e
        cases hm : KVStore.mergeLayer env st L with
        | none => simp only [hm, reduceCtorEq] at e
        | some st2 =>
          simp only [hm] at e
          obtain ⟨c0, _, _, _, _, _, _, _, _, _, _, _, h5, h6, _, h8, _⟩ :=
            mergeLayer_spec h L st2 hm
          refine ih (L + 1) st2 st1 h5 ?_ e
          intro j c hj hc
          by_cases hjL : j = L
          · subst hjL
            rw [h6] at hc
            simp only [Option.some.injEq] at hc
            subst hc
            rw [List.length_take]
            exact Nat.le_trans (Nat.min_le_left _ _) (scanStart_le j)
          · rw [h8 j hjL hj] at hc
            exact hb j c hjL hc

theorem compactionLoop_fuel (env : Env) :
    ∀ (d L : Nat) (st : KVStore) (fuel : Nat), L + d = LSM_MAX_LAYER →
      KVStore.Tidy env st [] → d + 1 ≤ fuel →
      KVStore.compactionLoop env fuel L st = KVStore.compactionLoop env (d + 1) L st := by
  intro d
  induction d with
  | zero =>
    intro L st fuel hL h hf
    obtain ⟨f, rfl⟩ : ∃ f, fuel = f + 1 := ⟨fuel - 1, by omega⟩
    have hx : KVStore.layerSSTExceedLimit st L = none := by
      unfold KVStore.layerSSTExceedLimit
      have : st.diskTableCache[L]? = none := by
        rw [List.getElem?_eq_none]
        rw [h.caches_len]
        omega
      rw [this]
    simp only [KVStore.compactionLoop, hx]
  | succ d ih =>
    intro L st fuel hL h hf
    obtain ⟨f, rfl⟩ : ∃ f, fuel = f + 1 := ⟨fuel - 1, by omega⟩
    unfold KVStore.compactionLoop
    cases hx : KVStore.layerSSTExceedLimit st L with
    | none => rfl
    | some b =>
      cases b with
      | false => rfl
      | true =>
        simp only []
        cases hm : KVStore.mergeLayer env st L with
        | none => rfl
        | some st2 =>
          simp only []
          obtain ⟨_, _, _, _, _, _, _, _, _, _, _, _, h5, _⟩ := mergeLayer_spec h L st2 hm
          exact ih (L + 1) st2 f (by omega) h5 (by omega)

/-- C33: `MaxSSTFileNumberInLayer(L)` is `2 ^ (L + 1)` for every level below
`LSM_MAX_LAYER`.  On a consistent engine whose levels from 1 up hold at most
that many runs each, whenever the flush of the memtable (the step shared by
the second branch of `put` and by the destructor) returns, every level, level
0 included, holds at most `2 ^ (L + 1)` runs.  The loop of `compaction()` ends
within `LSM_MAX_LAYER + 1` tests: on a consistent engine more iterations
change nothing. -/
theorem C33_levels_hold_at_most_their_capacity (env : Env) (st st1 : KVStore)
    (h : KVStore.Consistent env st)
    (hcap : ∀ (L : Nat) (c : Cache), 1 ≤ L → st.diskTableCache[L]? = some c →
      c.length ≤ KVStore.MaxSSTFileNumberInLayer L)
    (e : KVStore.flush env st = some st1) :
    (∀ L, L < LSM_MAX_LAYER → KVStore.MaxSSTFileNumberInLayer L = 2 ^ (L + 1)) ∧
    (∀ L, L < LSM_MAX_LAYER → ∃ c, st1.diskTableCache[L]? = some c ∧ c.length ≤ 2 ^ (L + 1)) ∧
    (∀ (st0 : KVStore) (fuel : Nat), KVStore.Tidy env st0 [] → LSM_MAX_LAYER + 1 ≤ fuel →
      KVStore.compactionLoop env fuel 0 st0 = KVStore.compaction env st0) := by
  refine ⟨fun L _ => maxSST_eq L, ?_, ?_⟩
  · rw [flush_eq] at e
    cases hfw : KVStore.flushWrite env st with
    | none => simp only [hfw, reduceCtorEq] at e
    | some stw =>
      simp only [hfw] at e
      cases hcp : KVStore.compaction env stw with
      | none => simp only [hcp, reduceCtorEq] at e
      | some st2 =>
        simp only [hcp] at e
        cases hcl : st2.memTable.clear with
        | none => simp only [hcl, reduceCtorEq] at e
        | some cleared =>
          simp only [hcl, Option.some.injEq] at e
          subst e
          obtain ⟨cells, hw⟩ := h.1.mem
          obtain ⟨htw, _, hsame, _⟩ := flushWrite_spec h.1 cells hw stw hfw
          have hb := compactionLoop_bound env _ 0 stw st2 htw
            (by
              intro j c hj hc
              rw [hsame j hj] at hc
              exact hcap j c (by omega) hc) hcp
          have hlen : st2.diskTableCache.length = LSM_MAX_LAYER :=
            (compactionLoop_spec env _ 0 stw st2 htw hcp).1.caches_len
          intro L hL
          have hLlt : L < st2.diskTableCache.length := by rw [hlen]; exact hL
          refine ⟨st2.diskTableCache[L], ?_, ?_⟩
          · show st2.diskTableCache[L]? = _
            exact List.getElem?_eq_getElem hLlt
          · rw [← maxSST_eq]
            exact hb L _ (List.getElem?_eq_getElem hLlt)
  · intro st0 fuel h0 hf
    exact compactionLoop_fuel env LSM_MAX_LAYER 0 st0 fuel (by omega) h0 hf

/-- Witness for C33: the flush of the memtable of `twoRunEngine`, whose level 0
holds two runs and whose other levels are empty, returns; the third run makes
level 0 exceed its limit of two runs, and afterwards level 0 is empty and level
1 holds one run. -/
theorem C33_levels_hold_at_most_their_capacity_witness :
    KVStore.Consistent Env.sample twoRunEngine ∧
    twoRunEngine.serials.take 3 = [[0, 1], [], []] ∧
    (∃ st1, KVStore.flush Env.sample twoRunEngine = some st1 ∧
      st1.serials.take 3 = [[], [0], []] ∧
      (∀ L, L < LSM_MAX_LAYER → KVStore.MaxSSTFileNumberInLayer L = 2 ^ (L + 1)) ∧
      (∀ L, L < LSM_MAX_LAYER →
        ∃ c, st1.diskTableCache[L]? = some c ∧ c.length ≤ 2 ^ (L + 1)) ∧
      (∀ (st0 : KVStore) (fuel : Nat), KVStore.Tidy Env.sample st0 [] →
        LSM_MAX_LAYER + 1 ≤ fuel →
        KVStore.compactionLoop Env.sample fuel 0 st0 = KVStore.compaction Env.sample st0)) := by
  have hf := getD_of_isSome (KVStore.flush Env.sample twoRunEngine) twoRunEngine (by decide!)
  have hs : (KVStore.flush Env.sample twoRunEngine).map (fun st => st.serials.take 3)
      = some [[], [0], []] := by decide!
  have hcap : ∀ (L : Nat) (c : Cache), 1 ≤ L → twoRunEngine.diskTableCache[L]? = some c →
      c.length ≤ KVStore.MaxSSTFileNumberInLayer L := by
    intro L c hL hc
    have hall : twoRunEngine.diskTableCache.drop 1 = List.replicate 15 [] := by decide!
    have hc1 : (twoRunEngine.diskTableCache.drop 1)[L - 1]? = some c := by
      rw [List.getElem?_drop]
      rw [show 1 + (L - 1) = L by omega]
      exact hc
    rw [hall] at hc1
    rw [List.getElem?_replicate] at hc1
    split at hc1
    · simp only [Option.some.injEq] at hc1
      subst hc1
      exact Nat.zero_le _
    · exact absurd hc1 (by simp)
  refine ⟨twoRunEngine_reachable.consistent, by decide!, _, hf, ?_,
    C33_levels_hold_at_most_their_capacity Env.sample twoRunEngine _
      twoRunEngine_reachable.consistent hcap hf⟩
  rw [hf] at hs
  simpa using hs

end TinyKV
